import Mathlib

/-!
# The hertz example client runtime (`hertz_client.go`, `client.go`)

A shallow embedding of the generic HTTP client runtime of the repository and of the
parts of the Go standard library it calls (`strings`, `net/url`, `net/netip`, `net/http`
headers),
followed by theorems about it.

Conventions of the embedding

* A Go `string` is a sequence of bytes.  It is written `Str = List Char`, every byte
  being the `Char` with that code (below 256); ASCII text is then written as it is
  in the source (`go "/life/client1"`).
* A Go `map` is an association list with one entry per key; the order of the list is
  the order in which a `range` loop visits the entries, so "any visiting order" is
  "any list with these entries".
* A pointer receiver that a function mutates (`*request`, `*response`) is passed in and
  returned.  `error` is `Option Error` (`none` is `nil`).
-/

set_option autoImplicit false

namespace hertz

/-- A Go string: its bytes, each written as the `Char` of that code. -/
abbrev Str := List Char

/-- A Go `error` value, identified by its message. -/
abbrev Error := String

/-- A string literal as a Go string. -/
def go (s : String) : Str := s.data

/-! ## `strings` -/

namespace strings

/-- `strings.HasPrefix(s, p)`. -/
def HasPrefix (s p : Str) : Bool := p.isPrefixOf s

/-- `strings.HasSuffix(s, p)`. -/
def HasSuffix (s p : Str) : Bool := p.isSuffixOf s

/-- `strings.Index(s, sub)`: the byte offset of the first occurrence of `sub`, or `none`
for `-1`. -/
def Index : Str → Str → Option Nat
  | [], sub => if sub.isEmpty then some 0 else none
  | c :: s, sub =>
    if sub.isPrefixOf (c :: s) then some 0
    else match Index s sub with
      | some i => some (i + 1)
      | none => none

/-- `strings.Contains(s, sub)`. -/
def Contains (s sub : Str) : Bool := (Index s sub).isSome

/-- `strings.LastIndex(s, sub)`, or `none` for `-1`. -/
def LastIndex : Str → Str → Option Nat
  | [], sub => if sub.isEmpty then some 0 else none
  | c :: s, sub =>
    match LastIndex s sub with
    | some i => some (i + 1)
    | none => if sub.isPrefixOf (c :: s) then some 0 else none

/-- `strings.Count(s, sub)` for a non-empty `sub`: the number of non-overlapping
occurrences.  The first argument counts the bytes still covered by the last match. -/
def countGo (sub : Str) : Nat → Str → Nat
  | _, [] => 0
  | skip + 1, _ :: s => countGo sub skip s
  | 0, c :: s =>
    if sub.isPrefixOf (c :: s) then 1 + countGo sub (sub.length - 1) s
    else countGo sub 0 s

/-- `strings.Count(s, sub)`; for an empty `sub` Go returns the number of runes plus one,
which is not needed here and is given for bytes. -/
def Count (s sub : Str) : Nat :=
  if sub.isEmpty then s.length + 1 else countGo sub 0 s

/-- `strings.Cut(s, sep)` for a one-byte separator: the text before the first `sep`,
the text after it, and whether `sep` was found. -/
def Cut : Str → Char → Str × Str × Bool
  | [], _ => ([], [], false)
  | c :: s, sep =>
    if c = sep then ([], s, true)
    else match Cut s sep with
      | (a, b, found) => (c :: a, b, found)

/-- The loop of `strings.Replace(s, old, new, -1)` for a non-empty `old`: scan from the
left, at each occurrence of `old` write `new` and jump over the occurrence.  The
first argument counts the bytes of the occurrence still to jump over. -/
def replaceGo (old new : Str) : Nat → Str → Str
  | _, [] => []
  | skip + 1, _ :: s => replaceGo old new skip s
  | 0, c :: s =>
    if old.isPrefixOf (c :: s) then new ++ replaceGo old new (old.length - 1) s
    else c :: replaceGo old new 0 s

/-- `strings.Replace(s, old, new, -1)`: every non-overlapping occurrence of `old`,
leftmost first, is replaced by `new`.  With an empty `old` Go inserts `new` before
every rune and at the end; that case is given for one-byte runes. -/
def ReplaceAll (s old new : Str) : Str :=
  if old = new then s
  else if old.isEmpty then new ++ s.flatMap (fun c => c :: new)
  else replaceGo old new 0 s

/-- ASCII lower-casing of one byte. -/
def lowerByte (c : Char) : Char :=
  if 'A' ≤ c ∧ c ≤ 'Z' then Char.ofNat (c.toNat + 32) else c

/-- `strings.ToLower` on a string of ASCII bytes (the only use is on a URL scheme, which
holds ASCII letters, digits, `+`, `-` and `.` only). -/
def ToLower (s : Str) : Str := s.map lowerByte

/-- Whether the string starts with the UTF-8 encoding of a rune that `unicode.IsSpace`
accepts; the result is the rest of the string after that rune. -/
def dropSpaceRune : Str → Option Str
  | [] => none
  | c :: s =>
    if c = '\t' ∨ c = '\n' ∨ c = Char.ofNat 0x0B ∨ c = Char.ofNat 0x0C ∨ c = '\r' ∨ c = ' ' then
      some s
    else match c.toNat, s with
      | 0xC2, d :: t => if d.toNat = 0x85 ∨ d.toNat = 0xA0 then some t else none
      | 0xE1, d :: e :: t => if d.toNat = 0x9A ∧ e.toNat = 0x80 then some t else none
      | 0xE2, d :: e :: t =>
        if (d.toNat = 0x80 ∧ ((0x80 ≤ e.toNat ∧ e.toNat ≤ 0x8A) ∨ e.toNat = 0xA8 ∨
            e.toNat = 0xA9 ∨ e.toNat = 0xAF)) ∨ (d.toNat = 0x81 ∧ e.toNat = 0x9F) then some t
        else none
      | 0xE3, d :: e :: t => if d.toNat = 0x80 ∧ e.toNat = 0x80 then some t else none
      | _, _ => none

/-- Whether `strings.TrimSpace(s)` is empty: the string is a sequence of white-space
runes.  The first argument bounds the number of runes read. -/
def allSpace : Nat → Str → Bool
  | _, [] => true
  | 0, _ :: _ => false
  | n + 1, c :: s =>
    match dropSpaceRune (c :: s) with
    | some t => allSpace n t
    | none => false

end strings

/-! ## `net/netip`: the address syntax that `net/url` asks of a bracketed host -/

namespace netip

/-- The loop of `parseIPv4Fields` over the text `in[off:end]`: `val`, `pos` and `digLen` are
its variables, `first` says that the byte is the first of the text (`i == 0`) and `prevDot`
that the byte before it is a `.`.  The fields it fills are not kept. -/
def parseIPv4FieldsGo : Str → Nat → Nat → Nat → Bool → Bool → Except Error Unit
  | [], _, pos, _, _, _ => if pos < 3 then .error "IPv4 address too short" else .ok ()
  | c :: s, val, pos, digLen, first, prevDot =>
    if '0' ≤ c ∧ c ≤ '9' then
      if digLen = 1 ∧ val = 0 then .error "IPv4 field has octet with leading zero"
      else if val * 10 + (c.toNat - 48) > 255 then .error "IPv4 field has value >255"
      else parseIPv4FieldsGo s (val * 10 + (c.toNat - 48)) pos (digLen + 1) false false
    else if c = '.' then
      if first = true ∨ s = [] ∨ prevDot = true then
        .error "IPv4 field must have at least one digit"
      else if pos = 3 then .error "IPv4 address too long"
      else parseIPv4FieldsGo s 0 (pos + 1) 0 false true
    else .error "unexpected character"

/-- The value of a hex digit, or `none` for another byte. -/
def hexVal (c : Char) : Option Nat :=
  if '0' ≤ c ∧ c ≤ '9' then some (c.toNat - 48)
  else if 'a' ≤ c ∧ c ≤ 'f' then some (c.toNat - 97 + 10)
  else if 'A' ≤ c ∧ c ≤ 'F' then some (c.toNat - 65 + 10)
  else none

/-- The inner loop of `parseIPv6` that reads one group of hex digits: the value `acc` and
the number `off` of bytes read. -/
def hexGroup : Str → Nat → Nat → Except Error (Nat × Nat)
  | [], acc, off => .ok (acc, off)
  | c :: s, acc, off =>
    match hexVal c with
    | some d =>
      if off > 3 then .error "each group must have 4 or less digits"
      else if acc * 16 + d > 0xffff then .error "IPv6 field has value >=2^16"
      else hexGroup s (acc * 16 + d) (off + 1)
    | none => .ok (acc, off)

/-- The main loop of `parseIPv6` (`for i < 16`): the first argument bounds the rounds (each
round adds at least 2 to `i`), `s` is the text left, `ellipsis` says whether `::` was seen.
It returns the text left, `i` and `ellipsis` at the end of the loop. -/
def parseIPv6Go : Nat → Str → Nat → Bool → Except Error (Str × Nat × Bool)
  | 0, s, i, ellipsis => .ok (s, i, ellipsis)
  | n + 1, s, i, ellipsis =>
    if ¬ i < 16 then .ok (s, i, ellipsis)
    else
      match hexGroup s 0 0 with
      | .error e => .error e
      | .ok (_, off) =>
        if off = 0 then .error "each colon-separated field must have at least one digit"
        else if (s.drop off).head? = some '.' then
          if ellipsis = false ∧ i ≠ 12 then
            .error "embedded IPv4 address must replace the final 2 fields of the address"
          else if i + 4 > 16 then
            .error "too many hex fields to fit an embedded IPv4 at the end of the address"
          else
            match parseIPv4FieldsGo s 0 0 0 true false with
            | .error e => .error e
            | .ok _ => .ok ([], i + 4, ellipsis)
        else if s.drop off = [] then .ok ([], i + 2, ellipsis)
        else if (s.drop off).head? ≠ some ':' then .error "unexpected character, want colon"
        else if (s.drop off).length = 1 then .error "colon must be followed by more characters"
        else if (s.drop (off + 1)).head? = some ':' then
          if ellipsis = true then .error "multiple :: in address"
          else if s.drop (off + 2) = [] then .ok ([], i + 2, true)
          else parseIPv6Go n (s.drop (off + 2)) (i + 2) true
        else parseIPv6Go n (s.drop (off + 1)) (i + 2) ellipsis

/-- `parseIPv6(in)`: the error it returns, if any (the address itself is not kept). -/
def parseIPv6 (input : Str) : Except Error Unit :=
  match strings.Cut input '%' with
  | (s, zone, found) =>
    if found = true ∧ zone = [] then .error "zone must be a non-empty string"
    else if strings.HasPrefix s (go "::") = true ∧ s.drop 2 = [] then .ok ()
    else
      match parseIPv6Go 9 (if strings.HasPrefix s (go "::") then s.drop 2 else s) 0
          (strings.HasPrefix s (go "::")) with
      | .error e => .error e
      | .ok (rest, i, ellipsis) =>
        if rest ≠ [] then .error "trailing garbage after address"
        else if i < 16 then
          if ellipsis = false then .error "address string too short" else .ok ()
        else if ellipsis = true then
          .error "the :: must expand to at least one field of zeros"
        else .ok ()

/-- The loop of `netip.ParseAddr(s)` over the bytes of `s`. -/
def ParseAddrGo (s : Str) : Str → Except Error Bool
  | [] => .error "unable to parse IP"
  | c :: t =>
    if c = '.' then
      match parseIPv4FieldsGo s 0 0 0 true false with
      | .error e => .error e
      | .ok _ => .ok true
    else if c = ':' then
      match parseIPv6 s with
      | .error e => .error e
      | .ok _ => .ok false
    else if c = '%' then .error "missing IPv6 address"
    else ParseAddrGo s t

/-- `netip.ParseAddr(s)`: whether the address read is an IPv4 address (`Is4`), or the
error. -/
def ParseAddr (s : Str) : Except Error Bool := ParseAddrGo s s

end netip

/-! ## `net/url` (Go 1.26) -/

namespace url

/-- The escaping modes of `net/url`. -/
inductive encoding where
  | encodePath
  | encodePathSegment
  | encodeHost
  | encodeZone
  | encodeUserPassword
  | encodeQueryComponent
  | encodeFragment
  deriving DecidableEq, Repr

open encoding

/-- ASCII letters and digits. -/
def isAlnum (c : Char) : Bool :=
  decide (('a' ≤ c ∧ c ≤ 'z') ∨ ('A' ≤ c ∧ c ≤ 'Z') ∨ ('0' ≤ c ∧ c ≤ '9'))

/-- `shouldEscape(c, mode)`: whether byte `c` is written `%XX` in the given part of a
URL. -/
def shouldEscape (c : Char) (mode : encoding) : Bool :=
  if isAlnum c then false
  else if (mode = encodeHost ∨ mode = encodeZone) ∧
      c ∈ ['!', '$', '&', Char.ofNat 39, '(', ')', '*', '+', ',', ';', '=', ':', '[', ']',
        '<', '>', Char.ofNat 34] then false
  else if c ∈ ['-', '_', '.', '~'] then false
  else if c ∈ ['$', '&', '+', ',', '/', ':', ';', '=', '?', '@'] then
    match mode with
    | encodePath => decide (c = '?')
    | encodePathSegment => decide (c = '/' ∨ c = ';' ∨ c = ',' ∨ c = '?')
    | encodeUserPassword => decide (c = '@' ∨ c = '/' ∨ c = '?' ∨ c = ':')
    | encodeQueryComponent => true
    | encodeFragment => false
    | encodeHost => true
    | encodeZone => true
  else if mode = encodeFragment ∧ c ∈ ['!', '(', ')', '*'] then false
  else true

/-- `ishex(c)`. -/
def ishex (c : Char) : Bool :=
  decide (('0' ≤ c ∧ c ≤ '9') ∨ ('a' ≤ c ∧ c ≤ 'f') ∨ ('A' ≤ c ∧ c ≤ 'F'))

/-- `unhex(c)`. -/
def unhex (c : Char) : Nat :=
  if '0' ≤ c ∧ c ≤ '9' then c.toNat - 48
  else if 'a' ≤ c ∧ c ≤ 'f' then c.toNat - 97 + 10
  else if 'A' ≤ c ∧ c ≤ 'F' then c.toNat - 65 + 10
  else 0

/-- The table `upperhex = "0123456789ABCDEF"`. -/
def upperhex (n : Nat) : Char := (go "0123456789ABCDEF").getD n '0'

/-- What `escape` writes for one byte. -/
def escapeByte (mode : encoding) (c : Char) : Str :=
  if shouldEscape c mode then
    if c = ' ' ∧ mode = encodeQueryComponent then ['+']
    else ['%', upperhex (c.toNat / 16 % 16), upperhex (c.toNat % 16)]
  else [c]

/-- `escape(s, mode)`.  (Go returns `s` itself when no byte needs escaping, which is the
same string.) -/
def escape (s : Str) (mode : encoding) : Str := s.flatMap (escapeByte mode)

/-- `url.PathEscape(s)`. -/
def PathEscape (s : Str) : Str := escape s encodePathSegment

/-- `url.QueryEscape(s)`. -/
def QueryEscape (s : Str) : Str := escape s encodeQueryComponent

/-- The first loop of `unescape`: the error it returns, if any. -/
def unescapeCheck (mode : encoding) : Str → Option Error
  | [] => none
  | c :: s =>
    if c = '%' then
      match s with
      | a :: b :: t =>
        if !ishex a || !ishex b then some "invalid URL escape"
        else if mode = encodeHost ∧ unhex a < 8 ∧ ¬ (a = '2' ∧ b = '5') then
          some "invalid URL escape"
        else if mode = encodeZone ∧ ¬ (a = '2' ∧ b = '5') ∧
            Char.ofNat (unhex a * 16 + unhex b) ≠ ' ' ∧
            shouldEscape (Char.ofNat (unhex a * 16 + unhex b)) encodeHost then
          some "invalid URL escape"
        else unescapeCheck mode t
      | _ => some "invalid URL escape"
    else if c = '+' then unescapeCheck mode s
    else if (mode = encodeHost ∨ mode = encodeZone) ∧ c.toNat < 0x80 ∧
        shouldEscape c encodeHost then
      some "invalid character in host name"
    else unescapeCheck mode s

/-- The second loop of `unescape`: the decoded string. -/
def unescapeGo (mode : encoding) : Str → Str
  | [] => []
  | c :: s =>
    if c = '%' then
      match s with
      | a :: b :: t => Char.ofNat (unhex a * 16 + unhex b) :: unescapeGo mode t
      | _ => []
    else if c = '+' then
      (if mode = encodeQueryComponent then ' ' else '+') :: unescapeGo mode s
    else c :: unescapeGo mode s

/-- `unescape(s, mode)`. -/
def unescape (s : Str) (mode : encoding) : Except Error Str :=
  match unescapeCheck mode s with
  | some e => .error e
  | none => .ok (unescapeGo mode s)

/-- `url.Userinfo`. -/
structure Userinfo where
  username : Str
  password : Str
  passwordSet : Bool
  deriving DecidableEq, Repr

/-- `url.URL`. -/
structure URL where
  Scheme : Str := []
  Opaque : Str := []
  User : Option Userinfo := none
  Host : Str := []
  Path : Str := []
  RawPath : Str := []
  OmitHost : Bool := false
  ForceQuery : Bool := false
  RawQuery : Str := []
  Fragment : Str := []
  RawFragment : Str := []
  deriving DecidableEq, Repr

/-- `stringContainsCTLByte(s)`. -/
def stringContainsCTLByte (s : Str) : Bool := s.any (fun b => decide (b < ' ' ∨ b.toNat = 0x7f))

/-- The loop of `getScheme`; the first argument is the index `i`. -/
def getSchemeGo (rawURL : Str) : Nat → Str → Except Error (Str × Str)
  | _, [] => .ok ([], rawURL)
  | i, c :: s =>
    if ('a' ≤ c ∧ c ≤ 'z') ∨ ('A' ≤ c ∧ c ≤ 'Z') then getSchemeGo rawURL (i + 1) s
    else if ('0' ≤ c ∧ c ≤ '9') ∨ c = '+' ∨ c = '-' ∨ c = '.' then
      if i = 0 then .ok ([], rawURL) else getSchemeGo rawURL (i + 1) s
    else if c = ':' then
      if i = 0 then .error "missing protocol scheme" else .ok (rawURL.take i, s)
    else .ok ([], rawURL)

/-- `getScheme(rawURL)`: the scheme and the rest after its colon. -/
def getScheme (rawURL : Str) : Except Error (Str × Str) := getSchemeGo rawURL 0 rawURL

/-- `validOptionalPort(port)`. -/
def validOptionalPort (port : Str) : Bool :=
  match port with
  | [] => true
  | c :: ds => decide (c = ':') && ds.all (fun b => decide ('0' ≤ b ∧ b ≤ '9'))

/-- The host name between the brackets of an IP literal, unescaped: the text from `%25` on
is the zone. -/
def unescapeHostname (hostname : Str) : Except Error Str :=
  match strings.Index hostname (go "%25") with
  | some zone =>
    match unescape (hostname.take zone) encodeHost with
    | .error e => .error e
    | .ok hostPart =>
      match unescape (hostname.drop zone) encodeZone with
      | .error e => .error e
      | .ok zonePart => .ok (hostPart ++ zonePart)
  | none => unescape hostname encodeHost

/-- `parseHost(host)`: a host with a `[` is an IP literal, whose text between the last `[`
and the last `]` must be an IPv6 address; another host has at most one `:`, the one before
the port. -/
def parseHost (host : Str) : Except Error Str :=
  match strings.LastIndex host ['['] with
  | some o =>
    match strings.LastIndex host [']'] with
    | none => .error "missing ']' in host"
    | some i =>
      if !validOptionalPort (host.drop (i + 1)) then .error "invalid port after host"
      else
        match unescape (host.drop (i + 1)) encodeHost with
        | .error e => .error e
        | .ok port =>
          match unescapeHostname ((host.take i).drop (o + 1)) with
          | .error e => .error e
          | .ok hostname =>
            match netip.ParseAddr hostname with
            | .error e => .error ("invalid host: " ++ e)
            | .ok is4 =>
              if is4 then .error "invalid IP-literal"
              else .ok ('[' :: hostname ++ ']' :: port)
  | none =>
    match strings.Index host [':'] with
    | some i =>
      if !validOptionalPort (host.drop i) then .error "invalid port after host"
      else unescape host encodeHost
    | none => unescape host encodeHost

/-- `validUserinfo(s)`. -/
def validUserinfo (s : Str) : Bool :=
  s.all (fun r => isAlnum r ||
    decide (r ∈ ['-', '.', '_', ':', '~', '!', '$', '&', Char.ofNat 39, '(', ')', '*', '+', ',',
      ';', '=', '%', '@']))

/-- `parseAuthority(authority)`. -/
def parseAuthority (authority : Str) : Except Error (Option Userinfo × Str) :=
  match strings.LastIndex authority ['@'] with
  | none =>
    match parseHost authority with
    | .error e => .error e
    | .ok host => .ok (none, host)
  | some i =>
    match parseHost (authority.drop (i + 1)) with
    | .error e => .error e
    | .ok host =>
      let userinfo := authority.take i
      if !validUserinfo userinfo then .error "net/url: invalid userinfo"
      else if !strings.Contains userinfo [':'] then
        match unescape userinfo encodeUserPassword with
        | .error e => .error e
        | .ok u => .ok (some ⟨u, [], false⟩, host)
      else
        match strings.Cut userinfo ':' with
        | (username, password, _) =>
          match unescape username encodeUserPassword with
          | .error e => .error e
          | .ok u =>
            match unescape password encodeUserPassword with
            | .error e => .error e
            | .ok p => .ok (some ⟨u, p, true⟩, host)

/-- `(*URL).setPath(p)`. -/
def URL.setPath (u : URL) (p : Str) : Except Error URL :=
  match unescape p encodePath with
  | .error e => .error e
  | .ok path =>
    if p = escape path encodePath then .ok { u with Path := path, RawPath := [] }
    else .ok { u with Path := path, RawPath := p }

/-- `(*URL).setFragment(f)`. -/
def URL.setFragment (u : URL) (f : Str) : Except Error URL :=
  match unescape f encodeFragment with
  | .error e => .error e
  | .ok frag =>
    if f = escape frag encodeFragment then .ok { u with Fragment := frag, RawFragment := [] }
    else .ok { u with Fragment := frag, RawFragment := f }

/-- Whether `parse` sets `ForceQuery`: the text after the scheme ends with its only `?`. -/
def forceQuery (rest : Str) : Bool :=
  strings.HasSuffix rest ['?'] && strings.Count rest ['?'] == 1

/-- The text after the scheme with the query cut off, in `parse`. -/
def beforeQuery (rest : Str) : Str :=
  if forceQuery rest then rest.dropLast else (strings.Cut rest '?').1

/-- The raw query that `parse` cuts off. -/
def rawQueryOf (rest : Str) : Str :=
  if forceQuery rest then [] else (strings.Cut rest '?').2.1

/-- The authority that `parse` reads after `//`: the text up to the next `/`. -/
def authorityOf (rest : Str) : Str :=
  match strings.Index (rest.drop 2) ['/'] with
  | some i => (rest.drop 2).take i
  | none => rest.drop 2

/-- The path that `parse` reads behind the authority. -/
def pathAfterAuthority (rest : Str) : Str :=
  match strings.Index (rest.drop 2) ['/'] with
  | some i => (rest.drop 2).drop i
  | none => []

/-- The part of `parse` that reads the opaque text, or the authority and the path; `u`
holds the scheme and the query, `rest` is the text between them. -/
def parseRest (u : URL) (rest : Str) : Except Error URL :=
  if !strings.HasPrefix rest ['/'] && u.Scheme ≠ [] then .ok { u with Opaque := rest }
  else if !strings.HasPrefix rest ['/'] &&
      strings.Contains (strings.Cut rest '/').1 [':'] then
    .error "first path segment in URL cannot contain colon"
  else if (u.Scheme ≠ [] || !strings.HasPrefix rest (go "///")) &&
      strings.HasPrefix rest (go "//") then
    match parseAuthority (authorityOf rest) with
    | .error e => .error e
    | .ok (user, host) => URL.setPath { u with User := user, Host := host } (pathAfterAuthority rest)
  else if u.Scheme ≠ [] && strings.HasPrefix rest ['/'] then
    URL.setPath { u with OmitHost := true } rest
  else URL.setPath u rest

/-- `parse(rawURL, viaRequest)` with `viaRequest = false`, the way `url.Parse` calls it. -/
def parse (rawURL : Str) : Except Error URL :=
  if stringContainsCTLByte rawURL then .error "net/url: invalid control character in URL"
  else if rawURL = ['*'] then .ok { Path := ['*'] }
  else
    match getScheme rawURL with
    | .error e => .error e
    | .ok (scheme, rest0) =>
      parseRest
        { Scheme := strings.ToLower scheme, ForceQuery := forceQuery rest0,
          RawQuery := rawQueryOf rest0 }
        (beforeQuery rest0)

/-- `url.Parse(rawURL)`. -/
def Parse (rawURL : Str) : Except Error URL :=
  match strings.Cut rawURL '#' with
  | (u, frag, _) =>
    match parse u with
    | .error e => .error e
    | .ok url => if frag = [] then .ok url else URL.setFragment url frag

/-- `validEncoded(s, mode)`. -/
def validEncoded (s : Str) (mode : encoding) : Bool :=
  s.all (fun c =>
    decide (c ∈ ['!', '$', '&', Char.ofNat 39, '(', ')', '*', '+', ',', ';', '=', ':', '@',
      '[', ']', '%']) || !shouldEscape c mode)

/-- The test `p, err := unescape(raw, mode); err == nil && p == want`. -/
def unescapesTo (raw : Str) (mode : encoding) (want : Str) : Bool :=
  match unescape raw mode with
  | .ok p => decide (p = want)
  | .error _ => false

/-- `(*URL).EscapedPath()`. -/
def URL.EscapedPath (u : URL) : Str :=
  if u.RawPath ≠ [] ∧ validEncoded u.RawPath encodePath = true ∧
      unescapesTo u.RawPath encodePath u.Path = true then u.RawPath
  else if u.Path = ['*'] then ['*']
  else escape u.Path encodePath

/-- `(*URL).EscapedFragment()`. -/
def URL.EscapedFragment (u : URL) : Str :=
  if u.RawFragment ≠ [] ∧ validEncoded u.RawFragment encodeFragment = true ∧
      unescapesTo u.RawFragment encodeFragment u.Fragment = true then u.RawFragment
  else escape u.Fragment encodeFragment

/-- `(*Userinfo).String()`. -/
def Userinfo.String (u : Userinfo) : Str :=
  escape u.username encodeUserPassword ++
    (if u.passwordSet then ':' :: escape u.password encodeUserPassword else [])

/-- `(*URL).IsAbs()`. -/
def URL.IsAbs (u : URL) : Bool := u.Scheme ≠ []

/-- The authority part that `(*URL).String()` writes (empty for an opaque URL). -/
def URL.authorityString (u : URL) : Str :=
  if u.Scheme ≠ [] ∨ u.Host ≠ [] ∨ u.User.isSome then
    if u.OmitHost ∧ u.Host = [] ∧ u.User.isNone then []
    else
      (if u.Host ≠ [] ∨ u.Path ≠ [] ∨ u.User.isSome then go "//" else []) ++
      (match u.User with
        | some ui => Userinfo.String ui ++ ['@']
        | none => []) ++
      (if u.Host ≠ [] then escape u.Host encodeHost else [])
  else []

/-- What `(*URL).String()` writes before the query: the scheme, the opaque part or the
authority and the escaped path. -/
def URL.stringBody (u : URL) : Str :=
  let scheme := if u.Scheme ≠ [] then u.Scheme ++ [':'] else []
  if u.Opaque ≠ [] then scheme ++ u.Opaque
  else
    let buf := scheme ++ URL.authorityString u
    let path := URL.EscapedPath u
    let buf1 := if path ≠ [] ∧ path.head? ≠ some '/' ∧ u.Host ≠ [] then buf ++ ['/'] else buf
    let buf2 :=
      if buf1 = [] ∧ strings.Contains (strings.Cut path '/').1 [':'] then go "./" else buf1
    buf2 ++ path

/-- `(*URL).String()`. -/
def URL.String (u : URL) : Str :=
  URL.stringBody u ++
    (if u.ForceQuery ∨ u.RawQuery ≠ [] then '?' :: u.RawQuery else []) ++
    (if u.Fragment ≠ [] then '#' :: URL.EscapedFragment u else [])

end url

/-! ## Go maps -/

namespace gomap

variable {K V : Type} [DecidableEq K]

/-- The lookup `m[k]` (`none` when the key is absent). -/
def get : List (K × V) → K → Option V
  | [], _ => none
  | (k1, v) :: m, k => if k1 = k then some v else get m k

/-- The builtin `delete(m, k)`. -/
def del (m : List (K × V)) (k : K) : List (K × V) := m.filter (fun e => decide (e.1 ≠ k))

/-- The assignment `m[k] = v`: the entry of `k` is replaced, or a new entry is added. -/
def set (m : List (K × V)) (k : K) (v : V) : List (K × V) :=
  if (get m k).isSome then m.map (fun e => if e.1 = k then (k, v) else e) else m ++ [(k, v)]

/-- The keys of the map, in visiting order. -/
def keys (m : List (K × V)) : List K := m.map Prod.fst

end gomap

/-! ## `net/textproto` and `net/http` headers -/

namespace http

/-- `validHeaderFieldByte(c)`: the token bytes of RFC 7230. -/
def validHeaderFieldByte (c : Char) : Bool :=
  url.isAlnum c ||
    decide (c ∈ ['!', '#', '$', '%', '&', Char.ofNat 39, '*', '+', '-', '.', '^', '_',
      Char.ofNat 96, '|', '~'])

/-- The canonicalising loop of `canonicalMIMEHeaderKey`: upper case for the first letter
and after each dash, lower case elsewhere.  The first argument is the flag `upper`. -/
def canonGo : Bool → Str → Str
  | _, [] => []
  | upper, c :: s =>
    let c1 :=
      if upper = true ∧ 'a' ≤ c ∧ c ≤ 'z' then Char.ofNat (c.toNat - 32)
      else if upper = false ∧ 'A' ≤ c ∧ c ≤ 'Z' then Char.ofNat (c.toNat + 32)
      else c
    c1 :: canonGo (decide (c1 = '-')) s

/-- `http.CanonicalHeaderKey(s)`:  a key with a byte that is not a token byte is returned
unchanged, any other key is put in canonical case. -/
def CanonicalHeaderKey (s : Str) : Str :=
  if s.all validHeaderFieldByte then canonGo true s else s

/-- `http.Header`, a `map[string][]string`. -/
abbrev Header := List (Str × List Str)

/-- `Header.Get(key)`. -/
def Header.Get (h : Header) (key : Str) : Str :=
  match gomap.get h (CanonicalHeaderKey key) with
  | some (v :: _) => v
  | _ => []

/-- `Header.Set(key, value)`. -/
def Header.Set (h : Header) (key value : Str) : Header :=
  gomap.set h (CanonicalHeaderKey key) [value]

/-- `Header.Add(key, value)`. -/
def Header.Add (h : Header) (key value : Str) : Header :=
  gomap.set h (CanonicalHeaderKey key) ((gomap.get h (CanonicalHeaderKey key)).getD [] ++ [value])

/-- `Header.Del(key)`. -/
def Header.Del (h : Header) (key : Str) : Header := gomap.del h (CanonicalHeaderKey key)

end http

namespace strings

/-- `strings.EqualFold(s, t)` for a `t` of ASCII letters other than `k` and `s` (the only
letters with a non-ASCII case variant): equality up to ASCII case. -/
def EqualFold (s t : Str) : Bool := decide (s.map lowerByte = t.map lowerByte)

/-- The order of `sort.Strings`: byte-wise lexicographic. -/
def le : Str → Str → Bool
  | [], _ => true
  | _ :: _, [] => false
  | a :: s, b :: t => if a.toNat < b.toNat then true else if b.toNat < a.toNat then false else le s t

end strings

namespace url

/-- `url.Values`, a `map[string][]string`. -/
abbrev Values := List (Str × List Str)

/-- `Values.Set(key, value)`. -/
def Values.Set (v : Values) (key value : Str) : Values := gomap.set v key [value]

/-- `Values.Add(key, value)`. -/
def Values.Add (v : Values) (key value : Str) : Values :=
  gomap.set v key ((gomap.get v key).getD [] ++ [value])

/-- `Values.Del(key)`. -/
def Values.Del (v : Values) (key : Str) : Values := gomap.del v key

/-- The pairs `key=value` that `Values.Encode` writes for one key. -/
def encodeKey (v : Values) (k : Str) : List Str :=
  ((gomap.get v k).getD []).map (fun iv => QueryEscape k ++ '=' :: QueryEscape iv)

/-- `Values.Encode()`: the keys sorted, every value of a key written `key=value` in the
order of the value list, all joined by `&`. -/
def Values.Encode (v : Values) : Str :=
  List.intercalate (go "&")
    (((gomap.keys v).insertionSort (fun a b => strings.le a b = true)).flatMap (encodeKey v))

end url

/-! ## `regexp` -/

namespace regexp

/-- The regular expressions used by the package.  `dot` is `.` (any rune but a line
feed), `eot` is `$` (end of text), `many a` is `a*`. -/
inductive Regex where
  | fail
  | eps
  | byte (c : Char)
  | dot
  | eot
  | alt (a b : Regex)
  | seq (a b : Regex)
  | many (a : Regex)

open Regex

/-- Whether the expression matches the empty string; `atEnd` says whether the position
is the end of the text. -/
def nullable (atEnd : Bool) : Regex → Bool
  | fail => false
  | eps => true
  | byte _ => false
  | dot => false
  | eot => atEnd
  | alt a b => nullable atEnd a || nullable atEnd b
  | seq a b => nullable atEnd a && nullable atEnd b
  | many _ => true

/-- The expression for what may follow after the byte `x` has been read. -/
def deriv : Regex → Char → Regex
  | fail, _ => fail
  | eps, _ => fail
  | byte c, x => if c = x then eps else fail
  | dot, x => if x = '\n' then fail else eps
  | eot, _ => fail
  | alt a b, x => alt (deriv a x) (deriv b x)
  | seq a b, x => if nullable false a then alt (seq (deriv a x) b) (deriv b x) else seq (deriv a x) b
  | many a, x => seq (deriv a x) (many a)

/-- Whether the expression matches some initial part of the text. -/
def matchHere (r : Regex) : Str → Bool
  | [] => nullable true r
  | c :: s => nullable false r || matchHere (deriv r c) s

/-- `(*Regexp).MatchString(s)`: whether the expression matches somewhere in the text. -/
def MatchString (r : Regex) : Str → Bool
  | [] => matchHere r []
  | c :: s => matchHere r (c :: s) || MatchString r s

/-- One letter under the flag `i`: both ASCII cases, and for `s` and `k` the two runes
that fold to them (U+017F and U+212A, as UTF-8). -/
def ci (c : Char) : Regex :=
  let both := if 'a' ≤ c ∧ c ≤ 'z' then alt (byte c) (byte (Char.ofNat (c.toNat - 32))) else byte c
  if c = 's' then alt both (seq (byte (Char.ofNat 0xC5)) (byte (Char.ofNat 0xBF)))
  else if c = 'k' then
    alt both (seq (byte (Char.ofNat 0xE2)) (seq (byte (Char.ofNat 0x84)) (byte (Char.ofNat 0xAA))))
  else both

/-- A literal word under the flag `i`. -/
def word (s : String) : Regex := s.data.foldr (fun c r => seq (ci c) r) eps

end regexp

/-! ## The package `hertz` -/

/-- `reflect.Kind`. -/
inductive Kind where
  | Invalid | Bool | Int | Int8 | Int16 | Int32 | Int64
  | Uint | Uint8 | Uint16 | Uint32 | Uint64 | Uintptr
  | Float32 | Float64 | Complex64 | Complex128
  | Array | Chan | Func | Interface | Map | Ptr | Slice | String | Struct | UnsafePointer
  deriving DecidableEq, Repr

/-- A value held in an `interface{}`, given by what the package can observe of it through
`reflect`, `fmt`, `encoding/json`, `encoding/xml` and `net/http`:
* `kind` is `reflect.ValueOf(v).Kind()` (`Invalid` for the nil interface);
* `elem` is the pointee when `v` is a non-nil pointer;
* `items` are the elements `v.Index(i).Interface()` when `v` is a slice or an array;
* `sprint` is `fmt.Sprint(v)` and `sprintValue` is `fmt.Sprint(reflect.ValueOf(v))`;
* `bytes` is `b` when `v` is a `[]byte` `b`, and `sniff` is `http.DetectContentType(b)`;
* `json` and `xml` are the results of `json.Marshal(v)` and `xml.Marshal(v)`;
* `valueString` is `reflect.ValueOf(v).String()`: the string itself for a value of kind
  `String`, `<T Value>` with the type `T` otherwise, `<invalid Value>` for the nil
  interface. -/
inductive Value where
  | mk (kind : Kind) (elem : Option Value) (items : List Value) (sprint sprintValue : Str)
      (bytes : Option Str) (sniff : Str) (json xml : Except Error Str) (valueString : Str)

namespace Value

/-- `reflect.ValueOf(v).Kind()`. -/
def kind : Value → Kind
  | mk k _ _ _ _ _ _ _ _ _ => k

/-- The pointee of a non-nil pointer. -/
def elem : Value → Option Value
  | mk _ e _ _ _ _ _ _ _ _ => e

/-- The elements of a slice or an array. -/
def items : Value → List Value
  | mk _ _ is _ _ _ _ _ _ _ => is

/-- `fmt.Sprint(v)`. -/
def sprint : Value → Str
  | mk _ _ _ s _ _ _ _ _ _ => s

/-- `fmt.Sprint(reflect.ValueOf(v))`. -/
def sprintValue : Value → Str
  | mk _ _ _ _ s _ _ _ _ _ => s

/-- The result of the type assertion `v.([]byte)`. -/
def bytes : Value → Option Str
  | mk _ _ _ _ _ b _ _ _ _ => b

/-- `http.DetectContentType(b)` for a `[]byte` value. -/
def sniff : Value → Str
  | mk _ _ _ _ _ _ s _ _ _ => s

/-- `json.Marshal(v)`. -/
def json : Value → Except Error Str
  | mk _ _ _ _ _ _ _ j _ _ => j

/-- `xml.Marshal(v)`. -/
def xml : Value → Except Error Str
  | mk _ _ _ _ _ _ _ _ x _ => x

/-- `reflect.ValueOf(v).String()`. -/
def valueString : Value → Str
  | mk _ _ _ _ _ _ _ _ _ s => s

/-- The nil interface value. -/
def null : Value :=
  mk Kind.Invalid none [] (go "<nil>") (go "<invalid reflect.Value>") none []
    (.ok (go "null")) (.ok []) (go "<invalid Value>")

/-- `reflect.Indirect(reflect.ValueOf(v)).Kind()`: a pointer is followed once; a nil
pointer gives the zero `reflect.Value`, of kind `Invalid`. -/
def indirectKind (v : Value) : Kind :=
  if v.kind = Kind.Ptr then
    match v.elem with
    | some e => e.kind
    | none => Kind.Invalid
  else v.kind

end Value

/-- A `context.Context`, opaque. -/
abbrev Context := Nat

/-- A `config.RequestOption`, opaque. -/
abbrev RequestOption := Nat

/-- A `config.ClientOption`, opaque. -/
abbrev ClientOption := Nat

/-- A `hertz_client.Middleware`, opaque. -/
abbrev Middleware := Nat

/-- The receptor that `setResult` or `setError` registers: a pointer to a caller's
object.  `content` is what has been decoded into the object so far; `decodeJSON b` and
`decodeXML b` give what `json.Unmarshal(b, d)` and `xml.Unmarshal(b, d)` leave in the
object and the error they return. -/
structure Receptor where
  content : Str
  decodeJSON : Str → Str × Option Error
  decodeXML : Str → Str × Option Error

/-- A `protocol.Request` as the package builds it: the arguments of
`protocol.NewRequest`, the `Header.Add` calls in order, the `SetHost` value and the
options. -/
structure RawRequest where
  method : Str
  uri : Str
  body : Option Str
  header : List (Str × Str) := []
  host : Option Str := none
  options : List RequestOption := []
  deriving DecidableEq, Repr

/-- A `protocol.Response` as the package reads it. -/
structure RawResponse where
  StatusCode : Int := 0
  header : List (Str × Str) := []
  contentEncoding : Str := []
  ContentLength : Int := 0
  BodyE : Except Error Str := .ok []
  BodyGunzip : Except Error Str := .ok []

/-- The transport, a `client.Doer`.  `Do` returns the response it fills and its error;
`hasUse` says whether the value also has the method `Use` (the interface `use`); `used`
records the argument lists of the calls of `Use`, in order. -/
structure Doer where
  Do : Option Context → Option RawRequest → RawResponse × Option Error
  hasUse : Bool := false
  used : List (List Middleware) := []

/-- The method `Use` of a transport that has it. -/
def Doer.Use (d : Doer) (mws : List Middleware) : Doer := { d with used := d.used ++ [mws] }

/-- The type `request` (the back pointer `client` is passed as an argument instead). -/
structure request where
  url : Str := []
  method : Str := []
  queryParam : hertz.url.Values := []
  header : http.Header := []
  requestOptions : List RequestOption := []
  bodyParam : Value := Value.null
  rawRequest : Option RawRequest := none
  ctx : Option Context := none
  pathParams : List (Str × Str) := []
  result : Option Receptor := none
  Error : Option Receptor := none

/-- The type `response`. -/
structure response where
  request : request
  rawResponse : Option RawResponse
  bodyByte : Str := []
  size : Int := 0

/-- The type `ResponseResultDecider`. -/
abbrev ResponseResultDecider := Int → Option RawResponse → Bool

/-- The fields of `cli` that carry no function over `cli`. -/
structure cliBase where
  hostUrl : Str := []
  header : Option http.Header := none
  responseResultDecider : ResponseResultDecider

/-- The type `bindRequestBodyFunc`; the `*cli` it receives is the part of the client
declared before it. -/
abbrev bindRequestBodyFunc :=
  cliBase → request → (Str × Option Str × Option Error) × request

/-- The fields of `cli` that the hooks can read. -/
structure cliCore extends cliBase where
  bindRequestBody : bindRequestBodyFunc

/-- The type `beforeRequestFunc`. -/
abbrev beforeRequestFunc := cliCore → request → request × Option Error

/-- The type `afterResponseFunc`. -/
abbrev afterResponseFunc := cliCore → response → response × Option Error

/-- The type `cli`. -/
structure cli extends cliCore where
  doer : Doer
  beforeRequest : List beforeRequestFunc
  afterResponse : List afterResponseFunc

/-- The type `Options`. -/
structure Options where
  hostUrl : Str := []
  doer : Option Doer := none
  header : Option http.Header := none
  requestBodyBind : Option bindRequestBodyFunc := none
  responseResultDecider : Option ResponseResultDecider := none
  middlewares : List Middleware := []
  clientOption : List ClientOption := []

/-- The type `Option` of the package: a function over `Options`. -/
structure Opt where
  f : Options → Options

/-- `getOptions(ops...)`. -/
def getOptions (ops : List Opt) : Options := ops.foldl (fun opts op => op.f opts) {}

/-- `WithHertzClientOption(opt...)`. -/
def WithHertzClientOption (opt : List ClientOption) : Opt :=
  ⟨fun op => { op with clientOption := op.clientOption ++ opt }⟩

/-- `WithHertzClientMiddleware(mws...)`. -/
def WithHertzClientMiddleware (mws : List Middleware) : Opt :=
  ⟨fun op => { op with middlewares := op.middlewares ++ mws }⟩

/-- `WithHertzClient(client)`. -/
def WithHertzClient (client : Doer) : Opt := ⟨fun op => { op with doer := some client }⟩

/-- `WithHeader(header)`. -/
def WithHeader (header : Option http.Header) : Opt := ⟨fun op => { op with header := header }⟩

/-- `WithResponseResultDecider(decider)`. -/
def WithResponseResultDecider (decider : ResponseResultDecider) : Opt :=
  ⟨fun op => { op with responseResultDecider := some decider }⟩

/-- `withHostUrl(HostUrl)`. -/
def withHostUrl (HostUrl : Str) : Opt := ⟨fun op => { op with hostUrl := HostUrl }⟩

/-- `hdrContentTypeKey`. -/
def hdrContentTypeKey : Str := http.CanonicalHeaderKey (go "Content-Type")

/-- `hdrContentEncodingKey`. -/
def hdrContentEncodingKey : Str := http.CanonicalHeaderKey (go "Content-Encoding")

/-- `plainTextType`. -/
def plainTextType : Str := go "text/plain; charset=utf-8"

/-- `jsonContentType`. -/
def jsonContentType : Str := go "application/json; charset=utf-8"

open regexp in
/-- `jsonCheck`, the expression `(?i:(application|text)/(json|.*\+json|json\-.*)(; |$))`. -/
def jsonCheck : Regex :=
  .seq (.alt (word "application") (word "text"))
    (.seq (.byte '/')
      (.seq
        (.alt (word "json")
          (.alt (.seq (.many .dot) (.seq (.byte '+') (word "json")))
            (.seq (word "json") (.seq (.byte '-') (.many .dot)))))
        (.alt (.seq (.byte ';') (.byte ' ')) .eot)))

open regexp in
/-- `xmlCheck`, the expression `(?i:(application|text)/(xml|.*\+xml)(; |$))`. -/
def xmlCheck : Regex :=
  .seq (.alt (word "application") (word "text"))
    (.seq (.byte '/')
      (.seq (.alt (word "xml") (.seq (.many .dot) (.seq (.byte '+') (word "xml"))))
        (.alt (.seq (.byte ';') (.byte ' ')) .eot)))

/-- `isJSONType(ct)`. -/
def isJSONType (ct : Str) : Bool := regexp.MatchString jsonCheck ct

/-- `isXMLType(ct)`. -/
def isXMLType (ct : Str) : Bool := regexp.MatchString xmlCheck ct

/-- `isStringEmpty(str)`: `len(strings.TrimSpace(str)) == 0`. -/
def isStringEmpty (str : Str) : Bool := strings.allSpace str.length str

/-- `(*cli).r()`: a fresh request. -/
def cli.r (_c : cli) : request := {}

/-- `(*request).setContext(ctx)`. -/
def request.setContext (r : request) (ctx : Option Context) : request := { r with ctx := ctx }

/-- `(*request).setHeader(header, value)`. -/
def request.setHeader (r : request) (header value : Str) : request :=
  { r with header := r.header.Set header value }

/-- `(*request).setQueryParam(param, value)`. -/
def request.setQueryParam (r : request) (param : Str) (value : Value) : request :=
  if value.kind = Kind.Slice ∨ value.kind = Kind.Array then
    { r with queryParam := value.items.foldl (fun q it => q.Add param it.sprint) r.queryParam }
  else { r with queryParam := r.queryParam.Set param value.sprintValue }

/-- `(*request).setResult(res)`. -/
def request.setResult (r : request) (res : Option Receptor) : request := { r with result := res }

/-- `(*request).setError(err)`. -/
def request.setError (r : request) (err : Option Receptor) : request := { r with Error := err }

/-- `(*request).setHeaders(headers)`; the list gives the visiting order of the map. -/
def request.setHeaders (r : request) (headers : List (Str × Str)) : request :=
  headers.foldl (fun r e => r.setHeader e.1 e.2) r

/-- `(*request).setQueryParams(params)`. -/
def request.setQueryParams (r : request) (params : List (Str × Value)) : request :=
  params.foldl (fun r e => r.setQueryParam e.1 e.2) r

/-- `(*request).setPathParams(params)`. -/
def request.setPathParams (r : request) (params : List (Str × Str)) : request :=
  params.foldl (fun r e => { r with pathParams := gomap.set r.pathParams e.1 e.2 }) r

/-- `(*request).setBodyParam(body)`. -/
def request.setBodyParam (r : request) (body : Value) : request := { r with bodyParam := body }

/-- `(*request).setRequestOption(option...)`. -/
def request.setRequestOption (r : request) (option : List RequestOption) : request :=
  { r with requestOptions := r.requestOptions ++ option }

/-- The loop over `r.pathParams` of `parseRequestURL`: every entry, in visiting order,
replaces all occurrences of `:name` in the URL by the path-escaped value. -/
def substPathParams (rurl : Str) (pathParams : List (Str × Str)) : Str :=
  pathParams.foldl (fun u e => strings.ReplaceAll u (':' :: e.1) (url.PathEscape e.2)) rurl

/-- The loop over `r.queryParam` of `parseRequestURL`, which fills `query`. -/
def buildQuery (queryParam : hertz.url.Values) : hertz.url.Values :=
  queryParam.foldl (fun query e => e.2.foldl (fun q iv => q.Add e.1 iv) (query.Del e.1)) []

/-- The last step of `parseRequestURL`: the request query is added to the raw query. -/
def addQuery (reqURL : url.URL) (query : hertz.url.Values) : url.URL :=
  if query.length > 0 then
    if isStringEmpty reqURL.RawQuery then { reqURL with RawQuery := query.Encode }
    else { reqURL with RawQuery := reqURL.RawQuery ++ go "&" ++ query.Encode }
  else reqURL

/-- The first step of `parseRequestURL`: the path variables are put into the URL. -/
def withPathParams (r : request) : request :=
  if r.pathParams.length > 0 then { r with url := substPathParams r.url r.pathParams } else r

/-- The second step of `parseRequestURL` for a relative URL: the printed URL gets a leading
`/` when it is not empty and has none. -/
def withSlash (u : Str) : Str :=
  if u.length > 0 ∧ u.head? ≠ some '/' then '/' :: u else u

/-- `parseRequestURL(c, r)`. -/
def parseRequestURL (c : cliCore) (r : request) : request × Option Error :=
  match url.Parse (withPathParams r).url with
  | .error err => (withPathParams r, some err)
  | .ok reqURL =>
    if !reqURL.IsAbs then
      match url.Parse (c.hostUrl ++ withSlash reqURL.String) with
      | .error err => ({ withPathParams r with url := withSlash reqURL.String }, some err)
      | .ok reqURL2 =>
        ({ withPathParams r with
            url := (addQuery reqURL2 (buildQuery (withPathParams r).queryParam)).String }, none)
    else
      ({ withPathParams r with
          url := (addQuery reqURL (buildQuery (withPathParams r).queryParam)).String }, none)

/-- `parseRequestHeader(c, r)`. -/
def parseRequestHeader (c : cliCore) (r : request) : request × Option Error :=
  let hdr0 : http.Header :=
    match c.header with
    | some h =>
      (gomap.keys h).foldl
        (fun hdr k => gomap.set hdr k ((gomap.get hdr k).getD [] ++ (gomap.get h k).getD [])) []
    | none => []
  let hdr : http.Header :=
    (gomap.keys r.header).foldl
      (fun hdr k =>
        let hdr1 := http.Header.Del hdr k
        gomap.set hdr1 k ((gomap.get hdr1 k).getD [] ++ (gomap.get r.header k).getD []))
      hdr0
  ({ r with header := hdr }, none)

/-- `detectContentType(body)`. -/
def detectContentType (body : Value) : Str :=
  let kind := body.indirectKind
  if kind = Kind.Struct ∨ kind = Kind.Map then jsonContentType
  else if kind = Kind.String then plainTextType
  else
    match body.bytes with
    | some _ => body.sniff
    | none => if kind = Kind.Slice then jsonContentType else plainTextType

/-- `isPayloadSupported(m)`. -/
def isPayloadSupported (m : Str) : Bool :=
  !(decide (m = go "HEAD") || decide (m = go "OPTIONS") || decide (m = go "GET") ||
    decide (m = go "DELETE"))

/-- `defaultRequestBodyBind(c, r)`: the content type, the body reader (`none` is a nil
reader, `some b` a reader over `b`) and the error, together with the request. -/
def defaultRequestBodyBind (_c : cliBase) (r : request) :
    (Str × Option Str × Option Error) × request :=
  if !isPayloadSupported r.method then (([], none, none), r)
  else
    let ct0 := r.header.Get hdrContentTypeKey
    let contentType := if isStringEmpty ct0 then detectContentType r.bodyParam else ct0
    let r1 : request :=
      if isStringEmpty ct0 then { r with header := r.header.Set hdrContentTypeKey contentType }
      else r
    let kind := r.bodyParam.indirectKind
    let encoded : Except Error Str :=
      if isJSONType contentType ∧ (kind = Kind.Struct ∨ kind = Kind.Map ∨ kind = Kind.Slice) then
        r.bodyParam.json
      else if isXMLType contentType ∧ kind = Kind.Struct then r.bodyParam.xml
      else .ok []
    match encoded with
    | .error err => ((contentType, none, some err), r1)
    | .ok bodyBytes => ((contentType, some bodyBytes, none), r1)

/-- The `Header.Add` calls of `createHTTPRequest`, in the visiting order of the header
map. -/
def headerPairs (h : http.Header) : List (Str × Str) :=
  h.flatMap (fun e => e.2.map (fun val => (e.1, val)))

/-- `createHTTPRequest(c, r)`. -/
def createHTTPRequest (c : cliCore) (r : request) : request × Option Error :=
  match c.bindRequestBody c.tocliBase r with
  | ((contentType, body, err), r1) =>
    let r2 : request :=
      if !isStringEmpty contentType then
        { r1 with header := r1.header.Set hdrContentTypeKey contentType }
      else r1
    match err with
    | none =>
      let raw : RawRequest :=
        { method := r2.method, uri := r2.url, body := body, header := headerPairs r2.header,
          options := r2.requestOptions }
      ({ r2 with rawRequest := some raw }, none)
    | some e => (r2, some e)

/-- `defaultResponseResultDecider(statusCode, rawResponse)`. -/
def defaultResponseResultDecider : ResponseResultDecider := fun statusCode _ => decide (statusCode > 399)

/-- `(*response).statusCode()`. -/
def response.statusCode (r : response) : Int :=
  match r.rawResponse with
  | none => 0
  | some raw => raw.StatusCode

/-- `(*response).body()`. -/
def response.body (r : response) : Str :=
  match r.rawResponse with
  | none => []
  | some _ => r.bodyByte

/-- `(*response).header()`. -/
def response.header (r : response) : http.Header :=
  match r.rawResponse with
  | none => []
  | some raw => raw.header.foldl (fun h e => h.Add e.1 e.2) []

/-- `unmarshalContent(ct, b, d)`: what is left in the receptor, and the error. -/
def unmarshalContent (ct b : Str) (d : Receptor) : Receptor × Option Error :=
  if isJSONType ct then ({ d with content := (d.decodeJSON b).1 }, (d.decodeJSON b).2)
  else if isXMLType ct then ({ d with content := (d.decodeXML b).1 }, (d.decodeXML b).2)
  else (d, none)

/-- `parseResponseBody(c, res)`.  In the branch without error receptor the map handed
to `json.Marshal` holds the method value `res.rawResponse.StatusCode`, a `func() int`,
which `json.Marshal` refuses. -/
def parseResponseBody (c : cliCore) (res : response) : response × Option Error :=
  if res.statusCode = 204 then (res, none)
  else
    let ct := res.header.Get hdrContentTypeKey
    let isError := c.responseResultDecider res.statusCode res.rawResponse
    if isError then
      match res.request.Error with
      | some d =>
        if isJSONType ct || isXMLType ct then
          ({ res with request := { res.request with Error := some (unmarshalContent ct res.bodyByte d).1 } },
            (unmarshalContent ct res.bodyByte d).2)
        else (res, none)
      | none => (res, some "json: unsupported type: func() int")
    else
      match res.request.result with
      | some d =>
        if isJSONType ct || isXMLType ct then
          ({ res with request := { res.request with result := some (unmarshalContent ct res.bodyByte d).1 } },
            (unmarshalContent ct res.bodyByte d).2)
        else (res, none)
      | none => (res, none)

/-- `(*cli).Use(mws...)`. -/
def cli.Use (c : cli) (mws : List Middleware) : cli × Option Error :=
  if c.doer.hasUse then ({ c with doer := c.doer.Use mws }, none)
  else (c, some "doer does not support middleware, choose the right doer.")

/-- `newClient(opts)`.  `NewClient` is `hertz_client.NewClient`, which builds the default
transport from the client options. -/
def newClient (NewClient : List ClientOption → Except Error Doer) (opts : Options) :
    Except Error cli :=
  let requestBodyBind := opts.requestBodyBind.getD defaultRequestBodyBind
  let responseResultDecider := opts.responseResultDecider.getD defaultResponseResultDecider
  let doer : Except Error Doer :=
    match opts.doer with
    | some d => .ok d
    | none => NewClient opts.clientOption
  match doer with
  | .error err => .error err
  | .ok d =>
    let c : cli :=
      { hostUrl := opts.hostUrl
        doer := d
        bindRequestBody := requestBodyBind
        responseResultDecider := responseResultDecider
        beforeRequest := [parseRequestURL, parseRequestHeader, createHTTPRequest]
        afterResponse := [parseResponseBody] }
    if opts.middlewares.length ≠ 0 then
      match c.Use opts.middlewares with
      | (_, some err) => .error err
      | (c1, none) => .ok c1
    else .ok c

/-- A call that `execute` makes: the pre-request hook of index `i`, the transport, the
post-response hook of index `i`. -/
inductive Call where
  | before (i : Nat)
  | transport
  | after (i : Nat)
  deriving DecidableEq, Repr

/-- How `execute` ends: it returns `(resp, err)`, or it panics on a nil pointer. -/
inductive Outcome where
  | returned (resp : Option response) (err : Option Error)
  | panicked

/-- A run of `execute`: the request as the hooks leave it, the outcome, and the calls made,
in order. -/
structure Execution where
  req : request
  out : Outcome
  calls : List Call

/-- The loop over `c.beforeRequest` of `execute`, from the hook of index `i` on: it stops
at the first hook that returns an error. -/
def runBefore (c : cliCore) : List beforeRequestFunc → Nat → request →
    request × Option Error × List Call
  | [], _, req => (req, none, [])
  | f :: fs, i, req =>
    match f c req with
    | (req1, some err) => (req1, some err, [Call.before i])
    | (req1, none) =>
      match runBefore c fs (i + 1) req1 with
      | (req2, err, calls) => (req2, err, Call.before i :: calls)

/-- The loop over `c.afterResponse` of `execute`, which breaks at the first error. -/
def runAfter (c : cliCore) : List afterResponseFunc → Nat → response →
    response × Option Error × List Call
  | [], _, res => (res, none, [])
  | f :: fs, i, res =>
    match f c res with
    | (res1, some err) => (res1, some err, [Call.after i])
    | (res1, none) =>
      match runAfter c fs (i + 1) res1 with
      | (res2, err, calls) => (res2, err, Call.after i :: calls)

/-- The part of `execute` after a transport call without error. -/
def afterTransport (c : cli) (req : request) (resp : RawResponse) (calls : List Call) :
    Execution :=
  match resp.BodyE with
  | .error err => ⟨req, .returned none (some err), calls⟩
  | .ok body0 =>
    let gz := strings.EqualFold resp.contentEncoding (go "gzip") && decide (resp.ContentLength ≠ 0)
    let body : Except Error Str := if gz then resp.BodyGunzip else .ok body0
    match body with
    | .error err => ⟨req, .returned none (some err), calls⟩
    | .ok b =>
      let response0 : response :=
        { request := req, rawResponse := some resp, bodyByte := b, size := b.length }
      match runAfter c.tocliCore c.afterResponse 0 response0 with
      | (response1, err, calls1) =>
        ⟨response1.request, .returned (some response1) err, calls ++ calls1⟩

/-- `(*cli).execute(req)`. -/
def cli.execute (c : cli) (req : request) : Execution :=
  match runBefore c.tocliCore c.beforeRequest 0 req with
  | (req1, some err, calls) => ⟨req1, .returned none (some err), calls⟩
  | (req1, none, calls) =>
    let hostHeader := req1.header.Get (go "Host")
    if hostHeader ≠ [] ∧ req1.rawRequest.isNone then ⟨req1, .panicked, calls⟩
    else
      let req2 : request :=
        if hostHeader ≠ [] then
          { req1 with rawRequest := req1.rawRequest.map (fun raw => { raw with host := some hostHeader }) }
        else req1
      match c.doer.Do req2.ctx req2.rawRequest with
      | (resp, some err) =>
        ⟨req2, .returned (some { request := req2, rawResponse := some resp }) (some err),
          calls ++ [Call.transport]⟩
      | (resp, none) => afterTransport c req2 resp (calls ++ [Call.transport])

/-- `(*request).execute(method, url)`, on the client `c` that made the request. -/
def request.execute (c : cli) (r : request) (method url : Str) : Execution :=
  c.execute { r with method := method, url := url }

/-! ## Definitions used to state the theorems -/

/-- The request as it stands before the pre-request hook of index `i` runs, the hooks
before it having run in list order. -/
def stateBefore (c : cliCore) (hooks : List beforeRequestFunc) (req : request) (i : Nat) :
    request :=
  (hooks.take i).foldl (fun r f => (f c r).1) req

/-- A transport that answers every request with an empty response of status 200. -/
def okDoer : Doer := { Do := fun _ _ => ({ StatusCode := 200 }, none) }

/-- A pre-request hook that fails. -/
def failingHook : beforeRequestFunc := fun _ r => (r, some "boom")

/-- A client whose second pre-request hook fails. -/
def failingClient : cli :=
  { responseResultDecider := defaultResponseResultDecider
    bindRequestBody := defaultRequestBodyBind
    doer := okDoer
    beforeRequest := [parseRequestHeader, failingHook, createHTTPRequest]
    afterResponse := [parseResponseBody] }

/-- A client with the hooks of `newClient`, an empty base URL and the transport `okDoer`. -/
def plainClient : cli :=
  { responseResultDecider := defaultResponseResultDecider
    bindRequestBody := defaultRequestBodyBind
    doer := okDoer
    beforeRequest := [parseRequestURL, parseRequestHeader, createHTTPRequest]
    afterResponse := [parseResponseBody] }

/-- A client with the default headers `X-Token: t` and `H1: d`. -/
def headerClient : cli :=
  { header := some [(go "X-Token", [go "t"]), (go "H1", [go "d"])]
    responseResultDecider := defaultResponseResultDecider
    bindRequestBody := defaultRequestBodyBind
    doer := okDoer
    beforeRequest := [parseRequestURL, parseRequestHeader, createHTTPRequest]
    afterResponse := [parseResponseBody] }

/-- A struct value `Req{QueryString: "a"}` handed over by pointer. -/
def sampleRecord : Value :=
  Value.mk Kind.Ptr
    (some (Value.mk Kind.Struct none [] (go "\x7ba\x7d") (go "\x7ba\x7d") none []
      (.ok (go "\x7b\"QueryString\":\"a\"\x7d")) (.ok (go "<Req><QueryString>a</QueryString></Req>"))
      (go "<template.Req Value>")))
    [] (go "&\x7ba\x7d") (go "&\x7ba\x7d") none []
    (.ok (go "\x7b\"QueryString\":\"a\"\x7d")) (.ok (go "<Req><QueryString>a</QueryString></Req>"))
    (go "<*template.Req Value>")

/-- The array value `[2]int{1, 2}`. -/
def sampleArray : Value :=
  Value.mk Kind.Array none
    [Value.mk Kind.Int none [] (go "1") (go "1") none [] (.ok (go "1")) (.ok (go "<int>1</int>"))
       (go "<int Value>"),
     Value.mk Kind.Int none [] (go "2") (go "2") none [] (.ok (go "2")) (.ok (go "<int>2</int>"))
       (go "<int Value>")]
    (go "[1 2]") (go "[1 2]") none [] (.ok (go "[1,2]")) (.ok (go "<int>1</int><int>2</int>"))
    (go "<[2]int Value>")

/-- A string value. -/
def stringValue (s : String) : Value :=
  Value.mk Kind.String none [] (go s) (go s) none [] (.ok (go ("\"" ++ s ++ "\"")))
    (.ok (go ("<string>" ++ s ++ "</string>"))) (go s)

/-- The text up to the next `:`. -/
def chunk (s : Str) : Str := s.takeWhile (fun c => decide (c ≠ ':'))

/-- The substitution that the claim describes, in one pass over the template: at a `:`
that is followed by a key of the map, the path-escaped value of that key is written in
place of `:key`; every other byte is copied.  The first argument counts the bytes of the
key still to jump over. -/
def expandGo (M : List (Str × Str)) : Nat → Str → Str
  | _, [] => []
  | skip + 1, _ :: s => expandGo M skip s
  | 0, c :: s =>
    if c = ':' then
      match M.find? (fun e => e.1.isPrefixOf s) with
      | some e => url.PathEscape e.2 ++ expandGo M e.1.length s
      | none => c :: expandGo M 0 s
    else c :: expandGo M 0 s

/-- The template with every placeholder `:key` of a key of the map replaced, at its
position, by the path-escaped value. -/
def expandPlaceholders (M : List (Str × Str)) (T : Str) : Str := expandGo M 0 T

/-- Whether the key fits what follows a `:` of the template: the key is a prefix of the
text `s` after the `:` (the `:` starts the placeholder of the key), or the text up to the
next `:` is not a prefix of the key (the text departs from the key, or the key is
shorter), or no other `:` follows. -/
def keyFits (s : Str) (k : Str) : Bool :=
  k.isPrefixOf s || !(chunk s).isPrefixOf k || !s.contains ':'

/-- Whether every `:` of the template is followed by a text that every key of the map
fits. -/
def colonsFit (M : List (Str × Str)) : Str → Bool
  | [] => true
  | c :: s => (c != ':' || M.all (fun e => keyFits s e.1)) && colonsFit M s

/-- The pieces of a query string between its `&` separators. -/
def splitAmp : Str → List Str
  | [] => [[]]
  | c :: s =>
    if c = '&' then [] :: splitAmp s
    else match splitAmp s with
      | [] => [[c]]
      | x :: xs => (c :: x) :: xs

/-- What one piece `key=value` of a query string gives for the key `key`, the way
`url.ParseQuery` reads it: a piece with a `;`, an empty piece and a piece with a bad
escape are skipped. -/
def queryItem (key : Str) (item : Str) : Option Str :=
  if item.contains ';' then none
  else if item = [] then none
  else
    match url.unescape (strings.Cut item '=').1 url.encoding.encodeQueryComponent,
      url.unescape (strings.Cut item '=').2.1 url.encoding.encodeQueryComponent with
    | .ok k1, .ok v1 => if k1 = key then some v1 else none
    | _, _ => none

/-- The values of a key in a query string, in order: `url.ParseQuery(rawQuery)[key]`. -/
def queryValues (rawQuery key : Str) : List Str := (splitAmp rawQuery).filterMap (queryItem key)

/-- The values that a sequence of `setQueryParam` calls adds for a key: a slice or an
array appends its elements, formatted by `fmt.Sprint`, and any other value replaces what
was set before. -/
def addedValues (key : Str) (ops : List (Str × Value)) : List Str :=
  ops.foldl
    (fun acc e =>
      if e.1 = key then
        if e.2.kind = Kind.Slice ∨ e.2.kind = Kind.Array then acc ++ e.2.items.map Value.sprint
        else [e.2.sprintValue]
      else acc)
    []

/-- A client with the hooks of `newClient`, the base URL `http://127.0.0.1:8899` and the
transport `okDoer`. -/
def localClient : cli :=
  { hostUrl := go "http://127.0.0.1:8899"
    responseResultDecider := defaultResponseResultDecider
    bindRequestBody := defaultRequestBodyBind
    doer := okDoer
    beforeRequest := [parseRequestURL, parseRequestHeader, createHTTPRequest]
    afterResponse := [parseResponseBody] }

/-- Whether every element of the string is a byte. -/
def isBytes (s : Str) : Bool := s.all (fun c => decide (c.toNat < 256))

/-- Whether a byte is an ASCII control character, as `stringContainsCTLByte` tests it. -/
def isCTL (c : Char) : Bool := decide (c < ' ' ∨ c.toNat = 0x7f)

/-- A client like `localClient` whose base URL ends with `/`. -/
def slashClient : cli := { localClient with hostUrl := go "http://127.0.0.1:8899/" }

/-- A client like `localClient` whose base URL has its scheme in upper case. -/
def upperClient : cli := { localClient with hostUrl := go "HTTP://127.0.0.1:8899" }

namespace url

/-- The query part that `URL.String` writes. -/
def queryPart (v : URL) : Str :=
  if v.ForceQuery = true ∨ v.RawQuery ≠ [] then '?' :: v.RawQuery else []

/-- The fragment part that `URL.String` writes. -/
def fragmentPart (v : URL) : Str :=
  if v.Fragment ≠ [] then '#' :: URL.EscapedFragment v else []

end url

/-- A receptor whose decoders store the body text as it is and never fail. -/
def sampleReceptor : Receptor :=
  { content := [], decodeJSON := fun b => (b, none), decodeXML := fun b => (b, none) }

/-- A response with the given status, `Content-Type` header and cached body, for the
request `req`. -/
def sampleResponse (req : request) (status : Int) (ct body : String) : response :=
  { request := req
    rawResponse := some { StatusCode := status, header := [(go "Content-Type", go ct)] }
    bodyByte := go body
    size := (go body).length }

/-- The `[]byte` value that holds the first bytes of a PNG file. -/
def sampleBytes : Value :=
  Value.mk Kind.Slice none [] (go "[137 80 78 71 13 10 26 10]") (go "[137 80 78 71 13 10 26 10]")
    (some [Char.ofNat 137, 'P', 'N', 'G', '\r', '\n', Char.ofNat 26, '\n']) (go "image/png")
    (.ok (go "\"iVBORw0KGgo=\"")) (.error "xml: unsupported type: []uint8")
    (go "<[]uint8 Value>")

/-- The slice value `[]int\x7b1, 2\x7d`. -/
def sampleSlice : Value :=
  Value.mk Kind.Slice none sampleArray.items (go "[1 2]") (go "[1 2]") none []
    (.ok (go "[1,2]")) (.ok (go "<int>1</int><int>2</int>")) (go "<[]int Value>")

/-- A decider that flags every status. -/
def flagAll : ResponseResultDecider := fun _ _ => true

/-- A client like `plainClient` whose decider flags every status. -/
def flagAllClient : cli := { plainClient with responseResultDecider := flagAll }

/-- The client that `newClient` builds around the transport `d`, before any middleware is
installed: the struct literal of `newClient`. -/
def builtClient (opts : Options) (d : Doer) : cli :=
  { hostUrl := opts.hostUrl
    doer := d
    bindRequestBody := opts.requestBodyBind.getD defaultRequestBodyBind
    responseResultDecider := opts.responseResultDecider.getD defaultResponseResultDecider
    beforeRequest := [parseRequestURL, parseRequestHeader, createHTTPRequest]
    afterResponse := [parseResponseBody] }

/-- The request that `execute` hands to the transport: the request as the pre-request hooks
leave it, with the `Host` header, when there is one, set on the raw request. -/
def hostRequest (req1 : request) : request :=
  if req1.header.Get (go "Host") ≠ [] then
    { req1 with
      rawRequest := req1.rawRequest.map (fun raw => { raw with host := some (req1.header.Get (go "Host")) }) }
  else req1

/-- A transport that fails every call with `connection refused`, after it has filled the
status 502 into the response. -/
def errDoer : Doer := { Do := fun _ _ => ({ StatusCode := 502 }, some "connection refused") }

/-- The client that `newClient` builds for the base URL `http://127.0.0.1:8899` around the
transport `errDoer`. -/
def errClient : cli :=
  builtClient (getOptions [WithHertzClient errDoer, withHostUrl (go "http://127.0.0.1:8899")])
    errDoer

/-- A transport like `okDoer` that has the method `Use`. -/
def useDoer : Doer := { okDoer with hasUse := true }

/-- The interface value that holds the `reflect.Value` `val.Elem()` of a pointer (the zero
`reflect.Value` for a nil pointer).  It is a struct; `fmt.Sprint` prints the value it
holds, and `fmt.Sprint` of its own `reflect.Value` prints what its method `String`
returns. -/
def Value.boxedElem (v : Value) : Value :=
  match v.elem with
  | some e =>
    Value.mk Kind.Struct none [] e.sprintValue e.valueString none [] (.ok (go "\x7b\x7d"))
      (.ok (go "<Value></Value>")) (go "<reflect.Value Value>")
  | none =>
    Value.mk Kind.Struct none [] (go "<invalid reflect.Value>") (go "<invalid Value>") none []
      (.ok (go "\x7b\x7d")) (.ok (go "<Value></Value>")) (go "<reflect.Value Value>")

/-- `DereferenceValue(v)`: for a pointer, `v = val.Elem()` stores the `reflect.Value` of the
pointee in the interface, not the pointee. -/
def DereferenceValue (v : Value) : Value :=
  if v.kind = Kind.Ptr then v.boxedElem else v

/-- `template.Req` as the facade reads it: the four fields, each as the interface value
that the facade hands on, and the request itself, a `*template.Req`, as a body value. -/
structure Req where
  QueryString : Value
  MixString : Value
  HeaderString : Value
  PathString : Value
  self : Value

/-- The type `idlClient`. -/
structure idlClient where
  client : cli

/-- `NewClient(hostUrl, ops...)` of the facade; `hertzNewClient` is
`hertz_client.NewClient`. -/
def NewClient (hertzNewClient : List ClientOption → Except Error Doer) (hostUrl : Str)
    (ops : List Opt) : Except Error idlClient :=
  match newClient hertzNewClient (getOptions (ops ++ [withHostUrl hostUrl])) with
  | .error err => .error err
  | .ok c => .ok { client := c }

/-- How a facade method ends: it returns `(resp, rawResponse, err)`, or it panics on a nil
pointer. -/
inductive FacadeResult where
  | returned (resp : Option Receptor) (rawResponse : Option RawResponse) (err : Option Error)
  | panicked

/-- The end of every facade method, after `execute` has returned `ret, err`: `resp` is the
receptor when there is no error, and `ret.rawResponse` is read without a test of `ret`. -/
def facadeReturn (e : Execution) : FacadeResult :=
  match e.out with
  | .panicked => .panicked
  | .returned none _ => .panicked
  | .returned (some ret) err =>
    .returned (if err.isNone then ret.request.result else none) ret.rawResponse err

/-- The request that `BizMethod2` builds before it calls `execute`; `httpResp` is the fresh
`&template.Resp`, and the map literals are visited in the order written. -/
def bizMethod2Request (s : idlClient) (context : Option Context) (req : Req)
    (reqOpt : List RequestOption) (httpResp : Receptor) : request :=
  (((((((s.client.r.setContext context).setQueryParams
    [(go "q1", DereferenceValue req.QueryString), (go "q2", DereferenceValue req.MixString)]).setPathParams
    [(go "p1", (DereferenceValue req.QueryString).sprint),
      (go "p2", (DereferenceValue req.MixString).sprint)]).setBodyParam req.self).setHeaders
    [(go "h1", (DereferenceValue req.HeaderString).sprint),
      (go "h2", (DereferenceValue req.MixString).sprint)]).setRequestOption reqOpt).setResult
    (some httpResp))

/-- `(*idlClient).BizMethod2(context, req, reqOpt...)`. -/
def idlClient.BizMethod2 (s : idlClient) (context : Option Context) (req : Req)
    (reqOpt : List RequestOption) (httpResp : Receptor) : FacadeResult :=
  facadeReturn
    ((bizMethod2Request s context req reqOpt httpResp).execute s.client (go "POST")
      (go "/life/client1"))

/-- The request that `BizMethod3` builds before it calls `execute`. -/
def bizMethod3Request (s : idlClient) (context : Option Context) (req : Req)
    (reqOpt : List RequestOption) (httpResp : Receptor) : request :=
  (((((((s.client.r.setContext context).setQueryParams
    [(go "q1", req.QueryString), (go "q2", req.MixString)]).setPathParams
    [(go "p1", req.PathString.sprint), (go "p2", req.MixString.sprint)]).setBodyParam
    req.self).setHeaders
    [(go "h1", req.HeaderString.sprint), (go "h2", req.MixString.sprint)]).setRequestOption
    reqOpt).setResult (some httpResp))

/-- `(*idlClient).BizMethod3(context, req, reqOpt...)`. -/
def idlClient.BizMethod3 (s : idlClient) (context : Option Context) (req : Req)
    (reqOpt : List RequestOption) (httpResp : Receptor) : FacadeResult :=
  facadeReturn
    ((bizMethod3Request s context req reqOpt httpResp).execute s.client (go "POST")
      (go "/life/client2"))

/-- The request that `BizMethod4` builds before it calls `execute`. -/
def bizMethod4Request (s : idlClient) (context : Option Context) (req : Req)
    (reqOpt : List RequestOption) (httpResp : Receptor) : request :=
  (((((((s.client.r.setContext context).setQueryParams
    [(go "q1", DereferenceValue req.QueryString), (go "q2", req.MixString)]).setPathParams
    [(go "p1", req.PathString.sprint), (go "p2", req.MixString.sprint)]).setBodyParam
    req.self).setHeaders
    [(go "h1", req.HeaderString.sprint), (go "h2", req.MixString.sprint)]).setRequestOption
    reqOpt).setResult (some httpResp))

/-- `(*idlClient).BizMethod4(context, req, reqOpt...)`. -/
def idlClient.BizMethod4 (s : idlClient) (context : Option Context) (req : Req)
    (reqOpt : List RequestOption) (httpResp : Receptor) : FacadeResult :=
  facadeReturn
    ((bizMethod4Request s context req reqOpt httpResp).execute s.client (go "POST")
      (go "/life/client3"))

/-- A nil `*string`. -/
def nilString : Value :=
  Value.mk Kind.Ptr none [] (go "<nil>") (go "<nil>") none [] (.ok (go "null")) (.ok [])
    (go "<*string Value>")

/-- A `*string` that points to the string `s`; `fmt` prints a pointer to a string as its
address. -/
def stringPointer (s : String) : Value :=
  Value.mk Kind.Ptr (some (stringValue s)) [] (go "0xc000012345") (go "0xc000012345") none []
    (.ok (go ("\"" ++ s ++ "\""))) (.ok (go ("<string>" ++ s ++ "</string>")))
    (go "<*string Value>")

/-- The body value of a `*template.Req` whose four fields are nil pointers. -/
def emptyReqBody : Value :=
  Value.mk Kind.Ptr
    (some (Value.mk Kind.Struct none [] (go "\x7b<nil> <nil> <nil> <nil>\x7d")
      (go "\x7b<nil> <nil> <nil> <nil>\x7d") none []
      (.ok (go "\x7b\"QueryString\":null,\"MixString\":null,\"HeaderString\":null,\"PathString\":null\x7d"))
      (.ok (go "<Req></Req>")) (go "<template.Req Value>")))
    [] (go "&\x7b<nil> <nil> <nil> <nil>\x7d") (go "&\x7b<nil> <nil> <nil> <nil>\x7d") none []
    (.ok (go "\x7b\"QueryString\":null,\"MixString\":null,\"HeaderString\":null,\"PathString\":null\x7d"))
    (.ok (go "<Req></Req>")) (go "<*template.Req Value>")

/-- A `template.Req` whose optional fields are all absent. -/
def emptyReq : Req :=
  { QueryString := nilString, MixString := nilString, HeaderString := nilString,
    PathString := nilString, self := emptyReqBody }

/-- The facade client for the base URL `http://127.0.0.1:8899` around `okDoer`. -/
def localFacade : idlClient := { client := localClient }

/-- The client that `newClient` builds for the base URL `http://bad host` around `okDoer`. -/
def badHostClient : cli := builtClient (getOptions [withHostUrl (go "http://bad host")]) okDoer

/-- A transport whose response body cannot be read. -/
def brokenBodyDoer : Doer :=
  { Do := fun _ _ => ({ StatusCode := 200, BodyE := .error "unexpected EOF" }, none) }

/-- Whether a facade method panicked. -/
def FacadeResult.isPanic : FacadeResult → Bool
  | .panicked => true
  | .returned _ _ _ => false

/-- Whether `execute` returned a nil response together with an error. -/
def Execution.nilWithError (e : Execution) : Bool :=
  match e.out with
  | .returned none (some _) => true
  | _ => false

/-- A pointer to the `int32` value 5; `fmt` prints a pointer to a number as its address. -/
def intPointer : Value :=
  Value.mk Kind.Ptr
    (some (Value.mk Kind.Int32 none [] (go "5") (go "5") none [] (.ok (go "5"))
      (.ok (go "<int32>5</int32>")) (go "<int32 Value>")))
    [] (go "0xc000012345") (go "0xc000012345") none [] (.ok (go "5"))
    (.ok (go "<int32>5</int32>")) (go "<*int32 Value>")

namespace url

open encoding

/-- The user and the host that `URL.String` writes behind `//`. -/
def authorityText (user : Option Userinfo) (host : Str) : Str :=
  (match user with
    | some ui => Userinfo.String ui ++ ['@']
    | none => []) ++
  (if host ≠ [] then escape host encodeHost else [])

end url

/-- A client like `localClient` with another base URL. -/
def baseClient (B : String) : cli := { localClient with hostUrl := go B }

namespace strings

/-- The text `s` holds the text `sub`. -/
def occurs (sub s : Str) : Prop := ∃ pre suf, s = pre ++ sub ++ suf

end strings

/-- Where `parseRequestURL` puts a URL text `S` that parses to `t`: an absolute URL stays as
it is, another one goes behind the base URL `B`, with a leading `/` when it is not empty and
has none. -/
def behindBase (B : Str) (t : url.URL) (S : Str) : Str :=
  if url.URL.IsAbs t = true then S else B ++ withSlash S

/-! # Theorems -/

theorem stateBefore_zero (c : cliCore) (hooks : List beforeRequestFunc) (req : request) :
    stateBefore c hooks req 0 = req := by
  simp [stateBefore]

theorem stateBefore_succ (c : cliCore) (g : beforeRequestFunc) (gs : List beforeRequestFunc)
    (req : request) (i : Nat) :
    stateBefore c (g :: gs) req (i + 1) = stateBefore c gs (g c req).1 i := by
  simp [stateBefore]

theorem runBefore_fail (c : cliCore) :
    ∀ (fs : List beforeRequestFunc) (k : Nat) (req : request) (i : Nat) (f : beforeRequestFunc)
      (e : Error),
      fs[i]? = some f →
      (∀ (j : Nat) (g : beforeRequestFunc), j < i → fs[j]? = some g →
          (g c (stateBefore c fs req j)).2 = none) →
      (f c (stateBefore c fs req i)).2 = some e →
      runBefore c fs k req =
        ((f c (stateBefore c fs req i)).1, some e, (List.range' k (i + 1)).map Call.before) := by
  intro fs
  induction fs with
  | nil => intro k req i f e hi; simp at hi
  | cons g gs ih =>
    intro k req i f e hi hok hfail
    cases i with
    | zero =>
      simp at hi
      subst hi
      rw [stateBefore_zero] at hfail ⊢
      rw [runBefore]
      cases hg : g c req with
      | mk r1 e1 =>
        rw [hg] at hfail
        simp at hfail
        subst hfail
        simp [List.range']
    | succ i =>
      simp at hi
      have h0 : (g c req).2 = none := by
        have := hok 0 g (Nat.succ_pos i) (by simp)
        rwa [stateBefore_zero] at this
      rw [stateBefore_succ] at hfail ⊢
      have hrec := ih (k + 1) (g c req).1 i f e hi
        (fun j g1 hj hg1 => by
          have := hok (j + 1) g1 (Nat.succ_lt_succ hj) (by simpa using hg1)
          rwa [stateBefore_succ] at this)
        hfail
      rw [runBefore]
      cases hg : g c req with
      | mk r1 e1 =>
        rw [hg] at h0 hrec
        simp at h0
        subst h0
        simp only [hrec]
        simp [List.range']

theorem runBefore_ok (c : cliCore) :
    ∀ (fs : List beforeRequestFunc) (k : Nat) (req r : request) (calls : List Call),
      runBefore c fs k req = (r, none, calls) →
      (∀ (j : Nat) (g : beforeRequestFunc), fs[j]? = some g →
          (g c (stateBefore c fs req j)).2 = none) ∧
        r = stateBefore c fs req fs.length ∧
        calls = (List.range' k fs.length).map Call.before := by
  intro fs
  induction fs with
  | nil =>
    intro k req r calls h
    simp [runBefore] at h
    obtain ⟨h1, h2⟩ := h
    subst h1 h2
    simp [stateBefore]
  | cons g gs ih =>
    intro k req r calls h
    rw [runBefore] at h
    cases hg : g c req with
    | mk r1 e1 =>
      rw [hg] at h
      cases e1 with
      | some e => simp at h
      | none =>
        simp only at h
        cases hrec : runBefore c gs (k + 1) r1 with
        | mk r2 rest =>
          cases rest with
          | mk e2 calls2 =>
            rw [hrec] at h
            simp at h
            obtain ⟨h1, h2, h3⟩ := h
            subst h1 h2 h3
            obtain ⟨a, b, d⟩ := ih (k + 1) r1 r2 calls2 hrec
            refine ⟨?_, ?_, ?_⟩
            · intro j g1 hj
              cases j with
              | zero =>
                simp at hj
                subst hj
                rw [stateBefore_zero, hg]
              | succ j =>
                simp at hj
                rw [stateBefore_succ, hg]
                exact a j g1 hj
            · rw [List.length_cons, stateBefore_succ, hg]
              exact b
            · rw [d]
              simp [List.range']

theorem runBefore_calls (c : cliCore) :
    ∀ (fs : List beforeRequestFunc) (k : Nat) (req : request) (x : Call),
      x ∈ (runBefore c fs k req).2.2 → ∃ i, x = Call.before i := by
  intro fs
  induction fs with
  | nil => intro k req x hx; simp [runBefore] at hx
  | cons g gs ih =>
    intro k req x hx
    rw [runBefore] at hx
    cases hg : g c req with
    | mk r1 e1 =>
      rw [hg] at hx
      cases e1 with
      | some e =>
        simp at hx
        exact ⟨k, hx⟩
      | none =>
        simp only at hx
        have := ih (k + 1) r1 x
        cases hrec : runBefore c gs (k + 1) r1 with
        | mk r2 rest =>
          cases rest with
          | mk e2 calls2 =>
            rw [hrec] at hx this
            simp at hx this
            rcases hx with hx | hx
            · exact ⟨k, hx⟩
            · exact this hx

theorem runAfter_calls (c : cliCore) :
    ∀ (fs : List afterResponseFunc) (k : Nat) (res : response) (x : Call),
      x ∈ (runAfter c fs k res).2.2 → ∃ i, x = Call.after i := by
  intro fs
  induction fs with
  | nil => intro k res x hx; simp [runAfter] at hx
  | cons g gs ih =>
    intro k res x hx
    rw [runAfter] at hx
    cases hg : g c res with
    | mk r1 e1 =>
      rw [hg] at hx
      cases e1 with
      | some e =>
        simp at hx
        exact ⟨k, hx⟩
      | none =>
        simp only at hx
        have := ih (k + 1) r1 x
        cases hrec : runAfter c gs (k + 1) r1 with
        | mk r2 rest =>
          cases rest with
          | mk e2 calls2 =>
            rw [hrec] at hx this
            simp at hx this
            rcases hx with hx | hx
            · exact ⟨k, hx⟩
            · exact this hx

theorem afterTransport_calls (c : cli) (req : request) (resp : RawResponse) (calls : List Call) :
    ∃ rest, (afterTransport c req resp calls).calls = calls ++ rest ∧
      ∀ x ∈ rest, ∃ i, x = Call.after i := by
  unfold afterTransport
  cases resp.BodyE with
  | error err => exact ⟨[], by simp, by simp⟩
  | ok body0 =>
    simp only
    split
    · exact ⟨[], by simp, by simp⟩
    · rename_i b hb
      refine ⟨(runAfter c.tocliCore c.afterResponse 0
        { request := req, rawResponse := some resp, bodyByte := b, size := b.length }).2.2, ?_, ?_⟩
      · rfl
      · intro x hx
        exact runAfter_calls _ _ _ _ x hx

/-- C1: `execute` runs the pre-request hooks in list order; at the first hook that
returns an error it returns `(nil, err)` with that error, having called the hooks up to
that one and nothing else (no later hook, no transport, no post-response hook); and a run
in which the transport is called has first called every pre-request hook, each of them
returning without error, and calls only post-response hooks afterwards. -/
theorem C1_execute_pre_request_hooks (c : cli) (req : request) :
    (∀ (i : Nat) (f : beforeRequestFunc) (e : Error),
        c.beforeRequest[i]? = some f →
        (∀ (j : Nat) (g : beforeRequestFunc), j < i → c.beforeRequest[j]? = some g →
          (g c.tocliCore (stateBefore c.tocliCore c.beforeRequest req j)).2 = none) →
        (f c.tocliCore (stateBefore c.tocliCore c.beforeRequest req i)).2 = some e →
        (c.execute req).calls = (List.range (i + 1)).map Call.before ∧
          (c.execute req).out = Outcome.returned none (some e) ∧
          (c.execute req).req = (f c.tocliCore (stateBefore c.tocliCore c.beforeRequest req i)).1) ∧
    (Call.transport ∈ (c.execute req).calls →
        (∀ (j : Nat) (g : beforeRequestFunc), c.beforeRequest[j]? = some g →
          (g c.tocliCore (stateBefore c.tocliCore c.beforeRequest req j)).2 = none) ∧
        ∃ rest, (c.execute req).calls =
            (List.range c.beforeRequest.length).map Call.before ++ Call.transport :: rest ∧
          ∀ x ∈ rest, ∃ i, x = Call.after i) := by
  constructor
  · intro i f e hi hok hfail
    have h := runBefore_fail c.tocliCore c.beforeRequest 0 req i f e hi hok hfail
    simp [cli.execute, h, List.range_eq_range']
  · intro hmem
    cases hrun : runBefore c.tocliCore c.beforeRequest 0 req with
    | mk r1 rest1 =>
      cases rest1 with
      | mk e1 calls1 =>
        have hcalls := runBefore_calls c.tocliCore c.beforeRequest 0 req
        rw [hrun] at hcalls
        simp only at hcalls
        cases e1 with
        | some e =>
          simp only [cli.execute, hrun] at hmem
          obtain ⟨i, hi⟩ := hcalls _ hmem
          cases hi
        | none =>
          obtain ⟨a, b, d⟩ := runBefore_ok c.tocliCore c.beforeRequest 0 req r1 calls1 hrun
          refine ⟨a, ?_⟩
          simp only [cli.execute, hrun] at hmem ⊢
          split at hmem
          · obtain ⟨i, hi⟩ := hcalls _ hmem
            cases hi
          · rename_i hnp
            simp only [if_neg hnp]
            split
            · exact ⟨[], by simp [d, List.range_eq_range'], by simp⟩
            · obtain ⟨rest, h1, h2⟩ := afterTransport_calls c _ ‹RawResponse› (calls1 ++ [Call.transport])
              refine ⟨rest, ?_, h2⟩
              rw [h1, d, List.range_eq_range']
              simp

/-- C1, at a client whose second hook fails and at a client whose hooks all succeed. -/
theorem C1_execute_pre_request_hooks_witness :
    ((failingClient.execute {}).calls = [Call.before 0, Call.before 1] ∧
      (failingClient.execute {}).out = Outcome.returned none (some "boom")) ∧
    (∃ rest, (plainClient.execute { url := go "/life/client1" }).calls =
      [Call.before 0, Call.before 1, Call.before 2] ++ Call.transport :: rest) :=
  ⟨by
    have h := (C1_execute_pre_request_hooks failingClient {}).1 1 failingHook "boom" rfl
      (fun j g hj hg => by
        obtain rfl : j = 0 := by omega
        simp [failingClient] at hg
        subst hg
        rfl)
      rfl
    exact ⟨h.1, h.2.1⟩,
   by
    obtain ⟨_, rest, h, _⟩ :=
      (C1_execute_pre_request_hooks plainClient { url := go "/life/client1" }).2 (by decide)
    exact ⟨rest, h⟩⟩

theorem toNat_ofNat_small (n : Nat) (h : n < 0xD800) : (Char.ofNat n).toNat = n := by
  have hv : n.isValidChar := Or.inl h
  simp only [Char.ofNat, hv, Char.ofNatAux, Char.toNat, dite_true, UInt32.toNat]
  simp only [BitVec.toNat_ofNatLt]

theorem char_le_iff (a b : Char) : a ≤ b ↔ a.toNat ≤ b.toNat := Iff.rfl

theorem char_eq_iff (a b : Char) : a = b ↔ a.toNat = b.toNat := by
  constructor
  · intro h; rw [h]
  · intro h
    have := congrArg Char.ofNat h
    rwa [Char.ofNat_toNat, Char.ofNat_toNat] at this

namespace gomap

variable {K V : Type} [DecidableEq K]

theorem get_append (m n : List (K × V)) (k : K) :
    get (m ++ n) k = (get m k).orElse (fun _ => get n k) := by
  induction m with
  | nil => simp [get]
  | cons e m ih =>
    obtain ⟨k1, v⟩ := e
    by_cases h : k1 = k <;> simp [get, h, ih]

theorem get_map_set (m : List (K × V)) (k k1 : K) (v : V) :
    get (m.map (fun e => if e.1 = k then (k, v) else e)) k1 =
      if k = k1 then (get m k).map (fun _ => v) else get m k1 := by
  induction m with
  | nil => simp [get]
  | cons e m ih =>
    obtain ⟨k2, v2⟩ := e
    rw [List.map_cons]
    dsimp only
    by_cases h2 : k2 = k
    · rw [if_pos h2]
      subst h2
      simp only [get, ih]
      split_ifs <;> simp_all
    · rw [if_neg h2]
      simp only [get, ih, if_neg h2]
      split_ifs <;> simp_all

theorem get_set (m : List (K × V)) (k k1 : K) (v : V) :
    get (set m k v) k1 = if k = k1 then some v else get m k1 := by
  unfold set
  split
  · rename_i h
    rw [get_map_set]
    split
    · obtain ⟨w, hw⟩ := Option.isSome_iff_exists.mp h
      simp [hw]
    · rfl
  · rename_i h
    rw [get_append]
    simp at h
    by_cases hk : k = k1
    · subst hk
      simp [h, get]
    · cases hg : get m k1 <;> simp [hk, get]

theorem get_del (m : List (K × V)) (k k1 : K) :
    get (del m k) k1 = if k = k1 then none else get m k1 := by
  unfold del
  induction m with
  | nil => simp [get]
  | cons e m ih =>
    obtain ⟨k2, v2⟩ := e
    by_cases h2 : k2 = k
    · subst h2
      simp only [List.filter, ne_eq, not_true_eq_false, decide_False, ih, get]
      split_ifs <;> simp_all
    · simp only [List.filter, ne_eq, h2, not_false_eq_true, decide_True, get, ih]
      split_ifs <;> simp_all

theorem get_isSome_iff (m : List (K × V)) (k : K) : (get m k).isSome ↔ k ∈ keys m := by
  induction m with
  | nil => simp [get, keys]
  | cons e m ih =>
    obtain ⟨k2, v2⟩ := e
    by_cases h : k2 = k
    · simp [get, keys, h]
    · have h' : ¬ k = k2 := fun x => h x.symm
      simp only [get, h, if_false, ih]
      simp [keys, h']

theorem get_eq_none_iff (m : List (K × V)) (k : K) : get m k = none ↔ k ∉ keys m := by
  rw [← get_isSome_iff]
  cases get m k <;> simp

theorem keys_set (m : List (K × V)) (k : K) (v : V) :
    keys (set m k v) = if k ∈ keys m then keys m else keys m ++ [k] := by
  unfold set
  by_cases h : k ∈ keys m
  · rw [if_pos ((get_isSome_iff m k).mpr h), if_pos h]
    simp only [keys, List.map_map]
    apply List.map_congr_left
    intro e _
    by_cases h : e.1 = k <;> simp [h]
  · have h1 : ¬ (get m k).isSome = true := fun x => h ((get_isSome_iff m k).mp x)
    rw [if_neg h1, if_neg h]
    simp [keys]

end gomap

namespace http

theorem canonChar_valid (upper : Bool) (c : Char) (h : validHeaderFieldByte c = true) :
    validHeaderFieldByte
      (if upper = true ∧ 'a' ≤ c ∧ c ≤ 'z' then Char.ofNat (c.toNat - 32)
        else if upper = false ∧ 'A' ≤ c ∧ c ≤ 'Z' then Char.ofNat (c.toNat + 32)
        else c) = true := by
  split
  · rename_i h1
    obtain ⟨_, h2, h3⟩ := h1
    rw [char_le_iff] at h2 h3
    have h2 : 97 ≤ c.toNat := h2
    have h3 : c.toNat ≤ 122 := h3
    have : (Char.ofNat (c.toNat - 32)).toNat = c.toNat - 32 := toNat_ofNat_small _ (by omega)
    simp only [validHeaderFieldByte, url.isAlnum, Bool.or_eq_true, decide_eq_true_eq, char_le_iff]
    left; right; left
    rw [this]
    exact ⟨by show 65 ≤ _; omega, by show _ ≤ 90; omega⟩
  · split
    · rename_i h1
      obtain ⟨_, h2, h3⟩ := h1
      rw [char_le_iff] at h2 h3
      have h2 : 65 ≤ c.toNat := h2
      have h3 : c.toNat ≤ 90 := h3
      have : (Char.ofNat (c.toNat + 32)).toNat = c.toNat + 32 := toNat_ofNat_small _ (by omega)
      simp only [validHeaderFieldByte, url.isAlnum, Bool.or_eq_true, decide_eq_true_eq, char_le_iff]
      left; left
      rw [this]
      exact ⟨by show 97 ≤ _; omega, by show _ ≤ 122; omega⟩
    · exact h

theorem canonGo_valid : ∀ (s : Str) (upper : Bool), s.all validHeaderFieldByte = true →
    (canonGo upper s).all validHeaderFieldByte = true := by
  intro s
  induction s with
  | nil => intro upper _; simp [canonGo]
  | cons c s ih =>
    intro upper h
    simp only [List.all_cons, Bool.and_eq_true] at h
    simp only [canonGo, List.all_cons, Bool.and_eq_true]
    exact ⟨canonChar_valid upper c h.1, ih _ h.2⟩

theorem canonChar_idem (upper : Bool) (c : Char) :
    (let c1 := (if upper = true ∧ 'a' ≤ c ∧ c ≤ 'z' then Char.ofNat (c.toNat - 32)
        else if upper = false ∧ 'A' ≤ c ∧ c ≤ 'Z' then Char.ofNat (c.toNat + 32)
        else c)
     (if upper = true ∧ 'a' ≤ c1 ∧ c1 ≤ 'z' then Char.ofNat (c1.toNat - 32)
        else if upper = false ∧ 'A' ≤ c1 ∧ c1 ≤ 'Z' then Char.ofNat (c1.toNat + 32)
        else c1) = c1) := by
  intro c1
  by_cases h1 : upper = true ∧ 'a' ≤ c ∧ c ≤ 'z'
  · obtain ⟨hu, h2, h3⟩ := h1
    rw [char_le_iff] at h2 h3
    have h2 : 97 ≤ c.toNat := h2
    have h3 : c.toNat ≤ 122 := h3
    have hc1 : c1 = Char.ofNat (c.toNat - 32) := by
      simp only [c1]
      rw [if_pos ⟨hu, h2, h3⟩]
    have hn : c1.toNat = c.toNat - 32 := by rw [hc1]; exact toNat_ofNat_small _ (by omega)
    have hA : ¬ (upper = true ∧ 'a' ≤ c1 ∧ c1 ≤ 'z') := by
      rintro ⟨_, a, _⟩
      rw [char_le_iff] at a
      have a : 97 ≤ c1.toNat := a
      omega
    have hB : ¬ (upper = false ∧ 'A' ≤ c1 ∧ c1 ≤ 'Z') := by
      rintro ⟨a, _, _⟩
      rw [hu] at a
      cases a
    rw [if_neg hA, if_neg hB]
  · by_cases h2 : upper = false ∧ 'A' ≤ c ∧ c ≤ 'Z'
    · obtain ⟨hu, h3, h4⟩ := h2
      rw [char_le_iff] at h3 h4
      have h3 : 65 ≤ c.toNat := h3
      have h4 : c.toNat ≤ 90 := h4
      have hc1 : c1 = Char.ofNat (c.toNat + 32) := by
        simp only [c1]
        rw [if_neg h1, if_pos ⟨hu, h3, h4⟩]
      have hn : c1.toNat = c.toNat + 32 := by rw [hc1]; exact toNat_ofNat_small _ (by omega)
      have hA : ¬ (upper = true ∧ 'a' ≤ c1 ∧ c1 ≤ 'z') := by
        rintro ⟨a, _, _⟩
        rw [hu] at a
        cases a
      have hB : ¬ (upper = false ∧ 'A' ≤ c1 ∧ c1 ≤ 'Z') := by
        rintro ⟨_, _, a⟩
        rw [char_le_iff] at a
        have a : c1.toNat ≤ 90 := a
        omega
      rw [if_neg hA, if_neg hB]
    · have hc1 : c1 = c := by
        simp only [c1]
        rw [if_neg h1, if_neg h2]
      rw [hc1, if_neg h1, if_neg h2]

theorem canonGo_idem : ∀ (s : Str) (upper : Bool),
    canonGo upper (canonGo upper s) = canonGo upper s := by
  intro s
  induction s with
  | nil => intro upper; simp [canonGo]
  | cons c s ih =>
    intro upper
    simp only [canonGo]
    have h := canonChar_idem upper c
    simp only at h
    rw [h, ih]

theorem CanonicalHeaderKey_idem (s : Str) :
    CanonicalHeaderKey (CanonicalHeaderKey s) = CanonicalHeaderKey s := by
  unfold CanonicalHeaderKey
  by_cases h : s.all validHeaderFieldByte = true
  · rw [if_pos h, if_pos (canonGo_valid s true h), canonGo_idem]
  · rw [if_neg h, if_neg h]

end http

theorem setHeaders_header_inv (ops : List (Str × Str)) :
    ∀ (r : request),
      (gomap.keys r.header).Nodup ∧ (∀ k ∈ gomap.keys r.header, http.CanonicalHeaderKey k = k) →
      (gomap.keys (r.setHeaders ops).header).Nodup ∧
        (∀ k ∈ gomap.keys (r.setHeaders ops).header, http.CanonicalHeaderKey k = k) := by
  induction ops with
  | nil => intro r h; exact h
  | cons e ops ih =>
    intro r h
    have : r.setHeaders (e :: ops) = (r.setHeader e.1 e.2).setHeaders ops := rfl
    rw [this]
    apply ih
    simp only [request.setHeader, http.Header.Set, gomap.keys_set]
    split
    · exact h
    · rename_i hk
      refine ⟨?_, ?_⟩
      · rw [List.nodup_append]
        refine ⟨h.1, List.nodup_singleton _, ?_⟩
        intro a ha hb
        simp only [List.mem_singleton] at hb
        subst hb
        exact hk ha
      · intro k hk1
        rw [List.mem_append] at hk1
        rcases hk1 with hk1 | hk1
        · exact h.2 k hk1
        · simp only [List.mem_singleton] at hk1
          subst hk1
          exact http.CanonicalHeaderKey_idem _

theorem copyLoop_get (h : http.Header) :
    ∀ (ks : List Str) (hdr : http.Header) (k : Str), ks.Nodup →
      gomap.get (ks.foldl
        (fun hdr k => gomap.set hdr k ((gomap.get hdr k).getD [] ++ (gomap.get h k).getD [])) hdr) k =
      if k ∈ ks then some ((gomap.get hdr k).getD [] ++ (gomap.get h k).getD [])
      else gomap.get hdr k := by
  intro ks
  induction ks with
  | nil => intro hdr k _; simp
  | cons a ks ih =>
    intro hdr k hnd
    rw [List.nodup_cons] at hnd
    rw [List.foldl_cons, ih _ _ hnd.2]
    by_cases hk : k ∈ ks
    · have hak : ¬ a = k := fun x => hnd.1 (x ▸ hk)
      rw [if_pos hk, if_pos (List.mem_cons_of_mem _ hk), gomap.get_set, if_neg hak]
    · rw [if_neg hk, gomap.get_set]
      by_cases hak : a = k
      · subst hak
        simp
      · have : k ∉ a :: ks := by
          simp only [List.mem_cons, not_or]
          exact ⟨fun x => hak x.symm, hk⟩
        rw [if_neg hak, if_neg this]

theorem mergeLoop_get (R : http.Header) :
    ∀ (ks : List Str) (hdr : http.Header) (k : Str), ks.Nodup →
      (∀ a ∈ ks, http.CanonicalHeaderKey a = a) →
      gomap.get (ks.foldl
        (fun hdr k =>
          let hdr1 := http.Header.Del hdr k
          gomap.set hdr1 k ((gomap.get hdr1 k).getD [] ++ (gomap.get R k).getD [])) hdr) k =
      if k ∈ ks then some ((gomap.get R k).getD []) else gomap.get hdr k := by
  intro ks
  induction ks with
  | nil => intro hdr k _ _; simp
  | cons a ks ih =>
    intro hdr k hnd hcan
    rw [List.nodup_cons] at hnd
    have ha : http.CanonicalHeaderKey a = a := hcan a (List.mem_cons_self _ _)
    rw [List.foldl_cons, ih _ _ hnd.2 (fun b hb => hcan b (List.mem_cons_of_mem _ hb))]
    simp only [http.Header.Del, ha, gomap.get_del, if_true, Option.getD_none, List.nil_append]
    by_cases hk : k ∈ ks
    · rw [if_pos hk, if_pos (List.mem_cons_of_mem _ hk)]
    · rw [if_neg hk, gomap.get_set]
      by_cases hak : a = k
      · subst hak
        simp
      · have : k ∉ a :: ks := by
          simp only [List.mem_cons, not_or]
          exact ⟨fun x => hak x.symm, hk⟩
        rw [if_neg hak, if_neg this, gomap.get_del, if_neg hak]

/-- C2: for every default header map `D` of the client and every request whose headers
`R` were built by `setHeader`/`setHeaders` on a fresh request, `parseRequestHeader`
returns no error and leaves a header map that holds exactly `R[k]` for every key `k` of
`R` and exactly `D[k]` for every key of `D` that is not a key of `R` (and no other
key). -/
theorem C2_parseRequestHeader_override (c : cliCore) (r0 : request) (ops : List (Str × Str))
    (hfresh : r0.header = [])
    (hD : ∀ D, c.header = some D → (gomap.keys D).Nodup) :
    (parseRequestHeader c (r0.setHeaders ops)).2 = none ∧
    (∀ k vs, gomap.get (r0.setHeaders ops).header k = some vs →
      gomap.get (parseRequestHeader c (r0.setHeaders ops)).1.header k = some vs) ∧
    (∀ k, gomap.get (r0.setHeaders ops).header k = none →
      gomap.get (parseRequestHeader c (r0.setHeaders ops)).1.header k =
        match c.header with
        | some D => gomap.get D k
        | none => none) := by
  obtain ⟨hnd, hcan⟩ := setHeaders_header_inv ops r0 (by simp [hfresh, gomap.keys])
  refine ⟨rfl, ?_, ?_⟩
  · intro k vs hk
    simp only [parseRequestHeader]
    rw [mergeLoop_get _ _ _ _ hnd hcan]
    have : k ∈ gomap.keys (r0.setHeaders ops).header := by
      rw [← gomap.get_isSome_iff, hk]; rfl
    rw [if_pos this, hk]
    rfl
  · intro k hk
    simp only [parseRequestHeader]
    rw [mergeLoop_get _ _ _ _ hnd hcan]
    have : k ∉ gomap.keys (r0.setHeaders ops).header := (gomap.get_eq_none_iff _ _).mp hk
    rw [if_neg this]
    cases hc : c.header with
    | none => rfl
    | some D =>
      simp only
      rw [copyLoop_get D _ _ _ (hD D hc)]
      by_cases hkD : k ∈ gomap.keys D
      · rw [if_pos hkD]
        obtain ⟨w, hw⟩ := Option.isSome_iff_exists.mp ((gomap.get_isSome_iff D k).mpr hkD)
        simp [hw, gomap.get]
      · rw [if_neg hkD, (gomap.get_eq_none_iff D k).mpr hkD]
        rfl

/-- C2, at default headers `X-Token: t`, `H1: d` and a request that sets `h1: h`. -/
theorem C2_parseRequestHeader_override_witness :
    gomap.get (parseRequestHeader headerClient.tocliCore
        (({} : request).setHeaders [(go "h1", go "h")])).1.header (go "H1") = some [go "h"] ∧
    gomap.get (parseRequestHeader headerClient.tocliCore
        (({} : request).setHeaders [(go "h1", go "h")])).1.header (go "X-Token") =
      some [go "t"] :=
  have h := C2_parseRequestHeader_override headerClient.tocliCore {} [(go "h1", go "h")] rfl
    (fun D hD => by
      have : D = [(go "X-Token", [go "t"]), (go "H1", [go "d"])] := by
        simp only [headerClient, Option.some.injEq] at hD
        exact hD.symm
      subst this
      decide)
  ⟨h.2.1 (go "H1") [go "h"] (by decide), h.2.2 (go "X-Token") (by decide)⟩

/-- C3: with the option `WithHeader` carrying `X-Token: t`, the client that `newClient`
builds has no default header, and a request without headers of its own has no header
after `parseRequestHeader`. -/
theorem C3_newClient_drops_default_header :
    (match newClient (fun _ => .ok okDoer)
        (getOptions [WithHeader (some [(go "X-Token", [go "t"])])]) with
      | .ok c => some (c.header, (parseRequestHeader c.tocliCore {}).1.header)
      | .error _ => none) = some (none, []) := by
  rfl

/-- C5: with the template `/users/:id/books/:bid`, the path variables `id = a/b` and
`bid = 42` visited in either order, no query parameter and an empty base URL,
`parseRequestURL` returns no error and leaves the URL `/users/a%2Fb/books/42`. -/
theorem C5_parseRequestURL_path_example :
    ((parseRequestURL plainClient.tocliCore
        { url := go "/users/:id/books/:bid"
          pathParams := [(go "id", go "a/b"), (go "bid", go "42")] }).2 = none ∧
      (parseRequestURL plainClient.tocliCore
        { url := go "/users/:id/books/:bid"
          pathParams := [(go "id", go "a/b"), (go "bid", go "42")] }).1.url =
        go "/users/a%2Fb/books/42") ∧
    ((parseRequestURL plainClient.tocliCore
        { url := go "/users/:id/books/:bid"
          pathParams := [(go "bid", go "42"), (go "id", go "a/b")] }).2 = none ∧
      (parseRequestURL plainClient.tocliCore
        { url := go "/users/:id/books/:bid"
          pathParams := [(go "bid", go "42"), (go "id", go "a/b")] }).1.url =
        go "/users/a%2Fb/books/42") := by
  decide

/-- C9: for the methods `GET`, `HEAD`, `OPTIONS` and `DELETE`, whatever the body value
and the headers, `defaultRequestBodyBind` returns an empty content type, a nil body
reader and no error, and leaves the request (its headers included) as it was; for any
other method it returns a body reader that is not nil whenever it returns no error. -/
theorem C9_payload_gating (c : cliBase) (r : request) :
    ((r.method = go "GET" ∨ r.method = go "HEAD" ∨ r.method = go "OPTIONS" ∨
        r.method = go "DELETE") →
      defaultRequestBodyBind c r = (([], none, none), r)) ∧
    ((r.method ≠ go "GET" ∧ r.method ≠ go "HEAD" ∧ r.method ≠ go "OPTIONS" ∧
        r.method ≠ go "DELETE") →
      (defaultRequestBodyBind c r).1.2.2 = none →
      ∃ b, (defaultRequestBodyBind c r).1.2.1 = some b) := by
  constructor
  · intro h
    have : isPayloadSupported r.method = false := by
      simp only [isPayloadSupported]
      rcases h with h | h | h | h <;> simp [h]
    simp [defaultRequestBodyBind, this]
  · rintro ⟨h1, h2, h3, h4⟩ herr
    have hp : isPayloadSupported r.method = true := by
      simp [isPayloadSupported, h1, h2, h3, h4]
    simp only [defaultRequestBodyBind, hp, Bool.not_true, Bool.false_eq_true, if_false] at herr ⊢
    split at herr
    · simp at herr
    · rename_i b hb
      exact ⟨b, rfl⟩

/-- C9, at a `GET` request with a record body and a header, and at a `POST` request. -/
theorem C9_payload_gating_witness :
    (defaultRequestBodyBind plainClient.tocliBase
        { method := go "GET", bodyParam := sampleRecord, header := [(go "H1", [go "h"])] }).1 =
      ([], none, none) ∧
    (∃ b, (defaultRequestBodyBind plainClient.tocliBase
        { method := go "POST", bodyParam := sampleRecord }).1.2.1 = some b) :=
  ⟨congrArg Prod.fst ((C9_payload_gating plainClient.tocliBase
      { method := go "GET", bodyParam := sampleRecord, header := [(go "H1", [go "h"])] }).1
      (Or.inl rfl)),
    (C9_payload_gating plainClient.tocliBase
      { method := go "POST", bodyParam := sampleRecord }).2
      ⟨by decide, by decide, by decide, by decide⟩ (by decide)⟩

/-- C10 fails for a Go array: a `POST` request with the header
`Content-Type: application/json` and the body `[2]int{1, 2}`, whose JSON encoding is
`[1,2]`, gets an empty body from `defaultRequestBodyBind`. -/
theorem C10_array_body_counterexample :
    isPayloadSupported (go "POST") = true ∧
    isJSONType (go "application/json") = true ∧
    sampleArray.indirectKind = Kind.Array ∧
    sampleArray.json = .ok (go "[1,2]") ∧
    (defaultRequestBodyBind plainClient.tocliBase
        { method := go "POST", bodyParam := sampleArray,
          header := [(go "Content-Type", [go "application/json"])] }).1 =
      (go "application/json", some [], none) :=
  ⟨by decide, by decide, by decide, rfl, by decide⟩

/-- C10, amended: for a payload-carrying method `defaultRequestBodyBind` returns as
content type the request's `Content-Type` header when that is not blank and the detected
type otherwise; when this type is a JSON type and the body value (a pointer followed once)
is a struct, a map or a slice, the body is its JSON encoding; when the type is an XML
type, not a JSON type, and the value is a struct, the body is its XML encoding; in every
other case (a Go array included) the body is empty and there is no error.  A failure of
the encoder is returned as the error, with a nil body reader. -/
theorem C10_default_bind_encoding (c : cliBase) (r : request)
    (hm : isPayloadSupported r.method = true) :
    (defaultRequestBodyBind c r).1.1 =
      (if isStringEmpty (r.header.Get hdrContentTypeKey) then detectContentType r.bodyParam
        else r.header.Get hdrContentTypeKey) ∧
    ((isJSONType (defaultRequestBodyBind c r).1.1 = true ∧
        (r.bodyParam.indirectKind = Kind.Struct ∨ r.bodyParam.indirectKind = Kind.Map ∨
          r.bodyParam.indirectKind = Kind.Slice)) →
      (∀ b, r.bodyParam.json = .ok b →
        (defaultRequestBodyBind c r).1.2 = (some b, none)) ∧
      (∀ e, r.bodyParam.json = .error e →
        (defaultRequestBodyBind c r).1.2 = (none, some e))) ∧
    ((isXMLType (defaultRequestBodyBind c r).1.1 = true ∧
        isJSONType (defaultRequestBodyBind c r).1.1 = false ∧
        r.bodyParam.indirectKind = Kind.Struct) →
      (∀ b, r.bodyParam.xml = .ok b →
        (defaultRequestBodyBind c r).1.2 = (some b, none)) ∧
      (∀ e, r.bodyParam.xml = .error e →
        (defaultRequestBodyBind c r).1.2 = (none, some e))) ∧
    (¬ (isJSONType (defaultRequestBodyBind c r).1.1 = true ∧
        (r.bodyParam.indirectKind = Kind.Struct ∨ r.bodyParam.indirectKind = Kind.Map ∨
          r.bodyParam.indirectKind = Kind.Slice)) →
      ¬ (isXMLType (defaultRequestBodyBind c r).1.1 = true ∧
        isJSONType (defaultRequestBodyBind c r).1.1 = false ∧
        r.bodyParam.indirectKind = Kind.Struct) →
      (defaultRequestBodyBind c r).1.2 = (some [], none)) := by
  have hct : (defaultRequestBodyBind c r).1.1 =
      (if isStringEmpty (r.header.Get hdrContentTypeKey) then detectContentType r.bodyParam
        else r.header.Get hdrContentTypeKey) := by
    simp only [defaultRequestBodyBind, hm, Bool.not_true, Bool.false_eq_true, if_false]
    split <;> rfl
  refine ⟨hct, ?_, ?_, ?_⟩
  · rintro ⟨hj, hk⟩
    rw [hct] at hj
    constructor
    · intro b hb
      simp only [defaultRequestBodyBind, hm, Bool.not_true, Bool.false_eq_true, if_false]
      rw [if_pos ⟨hj, hk⟩, hb]
    · intro e he
      simp only [defaultRequestBodyBind, hm, Bool.not_true, Bool.false_eq_true, if_false]
      rw [if_pos ⟨hj, hk⟩, he]
  · rintro ⟨hx, hj, hk⟩
    rw [hct] at hj hx
    have hnj : ¬ (isJSONType (if isStringEmpty (r.header.Get hdrContentTypeKey) then
        detectContentType r.bodyParam else r.header.Get hdrContentTypeKey) = true ∧
        (r.bodyParam.indirectKind = Kind.Struct ∨ r.bodyParam.indirectKind = Kind.Map ∨
          r.bodyParam.indirectKind = Kind.Slice)) := by
      rintro ⟨a, _⟩
      rw [hj] at a
      cases a
    constructor
    · intro b hb
      simp only [defaultRequestBodyBind, hm, Bool.not_true, Bool.false_eq_true, if_false]
      rw [if_neg hnj, if_pos ⟨hx, hk⟩, hb]
    · intro e he
      simp only [defaultRequestBodyBind, hm, Bool.not_true, Bool.false_eq_true, if_false]
      rw [if_neg hnj, if_pos ⟨hx, hk⟩, he]
  · intro hnj hnx
    rw [hct] at hnj hnx
    have hnx2 : ¬ (isXMLType (if isStringEmpty (r.header.Get hdrContentTypeKey) then
        detectContentType r.bodyParam else r.header.Get hdrContentTypeKey) = true ∧
        r.bodyParam.indirectKind = Kind.Struct) := by
      rintro ⟨a, b⟩
      apply hnx
      refine ⟨a, ?_, b⟩
      cases hj : isJSONType (if isStringEmpty (r.header.Get hdrContentTypeKey) then
        detectContentType r.bodyParam else r.header.Get hdrContentTypeKey)
      · rfl
      · exact absurd ⟨hj, Or.inl b⟩ hnj
    simp only [defaultRequestBodyBind, hm, Bool.not_true, Bool.false_eq_true, if_false]
    rw [if_neg hnj, if_neg hnx2]

/-- C10, at a `POST` request with a record body and no `Content-Type` header (JSON is
detected and the body is the JSON encoding) and at one with a string body (the body is
empty). -/
theorem C10_default_bind_encoding_witness :
    (defaultRequestBodyBind plainClient.tocliBase
        { method := go "POST", bodyParam := sampleRecord }).1 =
      (go "application/json; charset=utf-8", some (go "\x7b\"QueryString\":\"a\"\x7d"), none) ∧
    (defaultRequestBodyBind plainClient.tocliBase
        { method := go "POST", bodyParam := stringValue "hello" }).1 =
      (go "text/plain; charset=utf-8", some [], none) := by
  have h1 := C10_default_bind_encoding plainClient.tocliBase
    { method := go "POST", bodyParam := sampleRecord } (by decide)
  have h2 := C10_default_bind_encoding plainClient.tocliBase
    { method := go "POST", bodyParam := stringValue "hello" } (by decide)
  refine ⟨Prod.ext (h1.1.trans (by decide)) ?_, Prod.ext (h2.1.trans (by decide)) ?_⟩
  · exact (h1.2.1 ⟨by rw [h1.1]; decide, Or.inl (by decide)⟩).1 _ rfl
  · exact h2.2.2.2 (by rw [h2.1]; decide) (by rw [h2.1]; decide)

namespace strings

theorem replaceGo_drop (old new : Str) : ∀ (s : Str) (n : Nat),
    replaceGo old new n s = replaceGo old new 0 (s.drop n) := by
  intro s
  induction s with
  | nil => intro n; cases n <;> simp [replaceGo]
  | cons c s ih =>
    intro n
    cases n with
    | zero => rfl
    | succ n => rw [replaceGo, ih n]; rfl

theorem replaceGo_nil (old new : Str) (n : Nat) : replaceGo old new n [] = [] := by
  cases n <;> rfl

/-- The loop of `strings.Replace` for the pattern `:key`, one step. -/
theorem replaceGo_colon_cons (k new : Str) (c : Char) (s : Str) :
    replaceGo (':' :: k) new 0 (c :: s) =
      if c = ':' ∧ k <+: s then new ++ replaceGo (':' :: k) new 0 (s.drop k.length)
      else c :: replaceGo (':' :: k) new 0 s := by
  rw [replaceGo]
  by_cases h : c = ':' ∧ k <+: s
  · obtain ⟨h1, h2⟩ := h
    subst h1
    have : List.isPrefixOf (':' :: k) (':' :: s) = true := by
      simp [List.isPrefixOf, List.isPrefixOf_iff_prefix, h2]
    rw [if_pos this, if_pos ⟨rfl, h2⟩, replaceGo_drop]
    simp
  · have : ¬ List.isPrefixOf (':' :: k) (c :: s) = true := by
      intro hp
      apply h
      simp only [List.isPrefixOf, Bool.and_eq_true, beq_iff_eq, List.isPrefixOf_iff_prefix] at hp
      exact ⟨hp.1.symm, hp.2⟩
    rw [if_neg this, if_neg h]

theorem replaceGo_passthrough (k new : Str) : ∀ (x s : Str), ':' ∉ x →
    replaceGo (':' :: k) new 0 (x ++ s) = x ++ replaceGo (':' :: k) new 0 s := by
  intro x
  induction x with
  | nil => intro s _; rfl
  | cons c x ih =>
    intro s hx
    simp only [List.mem_cons, not_or] at hx
    have hc : ¬ (c = ':' ∧ k <+: x ++ s) := fun h => hx.1 h.1.symm
    rw [List.cons_append, replaceGo_colon_cons, if_neg hc, ih s hx.2]
    rfl

theorem replaceGo_no_colon (k new : Str) (s : Str) (h : ':' ∉ s) :
    replaceGo (':' :: k) new 0 s = s := by
  have := replaceGo_passthrough k new s [] h
  simpa [replaceGo_nil] using this

end strings

theorem expandGo_drop (M : List (Str × Str)) : ∀ (s : Str) (n : Nat),
    expandGo M n s = expandGo M 0 (s.drop n) := by
  intro s
  induction s with
  | nil => intro n; cases n <;> simp [expandGo]
  | cons c s ih =>
    intro n
    cases n with
    | zero => rfl
    | succ n => rw [expandGo, ih n]; rfl

theorem expandGo_nil (M : List (Str × Str)) (n : Nat) : expandGo M n [] = [] := by
  cases n <;> rfl

theorem expandGo_cons_ne (M : List (Str × Str)) (c : Char) (s : Str) (h : c ≠ ':') :
    expandGo M 0 (c :: s) = c :: expandGo M 0 s := by
  rw [expandGo, if_neg h]

theorem expandGo_colon_some (M : List (Str × Str)) (s : Str) (e : Str × Str)
    (h : M.find? (fun e => e.1.isPrefixOf s) = some e) :
    expandGo M 0 (':' :: s) = url.PathEscape e.2 ++ expandGo M 0 (s.drop e.1.length) := by
  rw [expandGo, if_pos rfl, h]
  simp only
  rw [expandGo_drop]

theorem expandGo_colon_none (M : List (Str × Str)) (s : Str)
    (h : M.find? (fun e => e.1.isPrefixOf s) = none) :
    expandGo M 0 (':' :: s) = ':' :: expandGo M 0 s := by
  rw [expandGo, if_pos rfl, h]

theorem expandGo_passthrough (M : List (Str × Str)) : ∀ (x s : Str), ':' ∉ x →
    expandGo M 0 (x ++ s) = x ++ expandGo M 0 s := by
  intro x
  induction x with
  | nil => intro s _; rfl
  | cons c x ih =>
    intro s hx
    simp only [List.mem_cons, not_or] at hx
    rw [List.cons_append, expandGo_cons_ne M c _ (fun h => hx.1 h.symm), ih s hx.2]
    rfl

theorem expandGo_no_colon (M : List (Str × Str)) (s : Str) (h : ':' ∉ s) :
    expandGo M 0 s = s := by
  have := expandGo_passthrough M s [] h
  simpa [expandGo_nil] using this

theorem chunk_no_colon (s : Str) : ':' ∉ chunk s := by
  intro h
  have := List.mem_takeWhile_imp h
  simp at this

theorem chunk_append_rest (s : Str) :
    s = chunk s ++ s.dropWhile (fun c => decide (c ≠ ':')) :=
  (List.takeWhile_append_dropWhile _ s).symm

theorem rest_nil_or_colon (s : Str) :
    s.dropWhile (fun c => decide (c ≠ ':')) = [] ∨
      ∃ t, s.dropWhile (fun c => decide (c ≠ ':')) = ':' :: t := by
  cases h : s.dropWhile (fun c => decide (c ≠ ':')) with
  | nil => exact Or.inl rfl
  | cons a t =>
    right
    have := List.head?_dropWhile_not (fun c => decide (c ≠ ':')) s
    rw [h] at this
    simp at this
    exact ⟨t, by rw [this]⟩

theorem chunk_eq_self_of_no_colon (s : Str) (h : ':' ∉ s) : chunk s = s := by
  unfold chunk
  rw [List.takeWhile_eq_self_iff]
  intro a ha
  simp only [ne_eq, decide_eq_true_eq]
  intro hc
  exact h (hc ▸ ha)

theorem chunk_prefix_of_colon_free (k s : Str) (hk : ':' ∉ k) (h : k <+: s) : k <+: chunk s := by
  obtain ⟨r, rfl⟩ := h
  unfold chunk
  rw [List.takeWhile_append_of_pos]
  · exact List.prefix_append _ _
  · intro a ha
    simp only [ne_eq, decide_eq_true_eq]
    intro hc
    exact hk (hc ▸ ha)

theorem keyFits_iff (s k : Str) :
    keyFits s k = true ↔ (k <+: s ∨ ¬ (chunk s <+: k) ∨ ':' ∉ s) := by
  have h1 : List.isPrefixOf (chunk s) k = false ↔ ¬ chunk s <+: k := by
    rw [← List.isPrefixOf_iff_prefix]
    cases List.isPrefixOf (chunk s) k <;> simp
  have h2 : (!s.contains ':') = true ↔ ':' ∉ s := by simp
  simp only [keyFits, Bool.or_eq_true, List.isPrefixOf_iff_prefix, Bool.not_eq_true', h1, h2,
    or_assoc]

theorem colonsFit_tail (M : List (Str × Str)) (c : Char) (s : Str)
    (h : colonsFit M (c :: s) = true) : colonsFit M s = true := by
  simp only [colonsFit, Bool.and_eq_true] at h
  exact h.2

theorem colonsFit_head (M : List (Str × Str)) (s : Str)
    (h : colonsFit M (':' :: s) = true) : ∀ e ∈ M, keyFits s e.1 = true := by
  simp only [colonsFit, Bool.and_eq_true, Bool.or_eq_true, List.all_eq_true] at h
  rcases h.1 with h1 | h1
  · simp at h1
  · exact h1

theorem colonsFit_drop (M : List (Str × Str)) : ∀ (n : Nat) (s : Str),
    colonsFit M s = true → colonsFit M (s.drop n) = true := by
  intro n
  induction n with
  | zero => intro s h; exact h
  | succ n ih =>
    intro s h
    cases s with
    | nil => exact h
    | cons c s => exact ih s (colonsFit_tail M c s h)

/-- A key without `:` that fits is a prefix of the text after the replacement of another
placeholder exactly when it is a prefix of the text before it. -/
theorem prefix_replace_iff (k new key s : Str) (hkey : ':' ∉ key)
    (hfit : keyFits s key = true) :
    key <+: strings.replaceGo (':' :: k) new 0 s ↔ key <+: s := by
  have hs := chunk_append_rest s
  have hR : strings.replaceGo (':' :: k) new 0 s =
      chunk s ++ strings.replaceGo (':' :: k) new 0 (s.dropWhile (fun c => decide (c ≠ ':'))) := by
    conv_lhs => rw [hs]
    exact strings.replaceGo_passthrough k new _ _ (chunk_no_colon s)
  constructor
  · intro h
    rw [hR] at h
    rcases List.prefix_or_prefix_of_prefix h (List.prefix_append (chunk s) _) with h1 | h1
    · rw [hs]
      exact h1.trans (List.prefix_append _ _)
    · rcases (keyFits_iff s key).mp hfit with h2 | h2 | h2
      · exact h2
      · exact absurd h1 h2
      · rw [strings.replaceGo_no_colon k new s h2] at hR
        rw [← hR] at h
        exact h
  · intro h
    rw [hR]
    exact (chunk_prefix_of_colon_free key s hkey h).trans (List.prefix_append _ _)

namespace url

theorem upperhex_ne_colon (n : Nat) : upperhex (n % 16) ≠ ':' := by
  have h : n % 16 < 16 := Nat.mod_lt _ (by decide)
  generalize n % 16 = m at h
  interval_cases m <;> decide

theorem escapeByte_no_colon (mode : encoding) (c : Char) (h : c ≠ ':') :
    ':' ∉ escapeByte mode c := by
  unfold escapeByte
  split
  · split
    · simp
    · simp only [List.mem_cons, List.mem_singleton, not_or, List.not_mem_nil, or_false]
      exact ⟨by decide, (upperhex_ne_colon _).symm, (upperhex_ne_colon _).symm⟩
  · simp only [List.mem_singleton]
    exact fun x => h x.symm

theorem escape_no_colon (mode : encoding) (s : Str) (h : ':' ∉ s) : ':' ∉ escape s mode := by
  unfold escape
  rw [List.mem_flatMap]
  rintro ⟨c, hc, hmem⟩
  exact escapeByte_no_colon mode c (fun x => h (x ▸ hc)) hmem

end url

theorem find_congr {α : Type} (p q : α → Bool) : ∀ (l : List α),
    (∀ e ∈ l, p e = q e) → l.find? p = l.find? q := by
  intro l
  induction l with
  | nil => intro _; rfl
  | cons a l ih =>
    intro h
    rw [List.find?_cons, List.find?_cons, h a (List.mem_cons_self _ _),
      ih (fun e he => h e (List.mem_cons_of_mem _ he))]

/-- Replacing the placeholder of the first entry and expanding the others is expanding
all of them. -/
theorem expand_replace (M : List (Str × Str)) (k v : Str) (hv : ':' ∉ v)
    (hM : ∀ e ∈ M, ':' ∉ e.1) :
    ∀ (n : Nat) (s : Str), s.length ≤ n → colonsFit ((k, v) :: M) s = true →
      expandGo M 0 (strings.replaceGo (':' :: k) (url.PathEscape v) 0 s) =
        expandGo ((k, v) :: M) 0 s := by
  have hesc : ':' ∉ url.PathEscape v := url.escape_no_colon _ v hv
  intro n
  induction n with
  | zero =>
    intro s hs _
    have : s = [] := List.length_eq_zero.mp (Nat.le_zero.mp hs)
    subst this
    rfl
  | succ n ih =>
    intro s hs hfit
    cases s with
    | nil => rfl
    | cons c s =>
      have hlen : s.length ≤ n := by simpa using hs
      have hfit1 := colonsFit_tail _ c s hfit
      rw [strings.replaceGo_colon_cons]
      by_cases hc : c = ':'
      · subst hc
        have hhead := colonsFit_head _ s hfit
        by_cases hp : k <+: s
        · rw [if_pos ⟨rfl, hp⟩, expandGo_passthrough M _ _ hesc]
          have hfind : List.find? (fun e => e.1.isPrefixOf s) ((k, v) :: M) = some (k, v) := by
            rw [List.find?_cons]
            have : List.isPrefixOf k s = true := List.isPrefixOf_iff_prefix.mpr hp
            simp only [this]
          rw [expandGo_colon_some _ s (k, v) hfind]
          congr 1
          exact ih _ (by rw [List.length_drop]; omega) (colonsFit_drop _ _ _ hfit1)
        · have hnot : ¬ (':' = ':' ∧ k <+: s) := fun h => hp h.2
          rw [if_neg hnot]
          have hfind0 : List.find? (fun e => e.1.isPrefixOf s) ((k, v) :: M) =
              List.find? (fun e => e.1.isPrefixOf s) M := by
            rw [List.find?_cons]
            have : List.isPrefixOf k s = false := by
              cases h : List.isPrefixOf k s
              · rfl
              · exact absurd (List.isPrefixOf_iff_prefix.mp h) hp
            simp only [this]
          have hcongr : List.find? (fun e => e.1.isPrefixOf
                (strings.replaceGo (':' :: k) (url.PathEscape v) 0 s)) M =
              List.find? (fun e => e.1.isPrefixOf s) M := by
            apply find_congr
            intro e he
            have := prefix_replace_iff k (url.PathEscape v) e.1 s (hM e he)
              (hhead e (List.mem_cons_of_mem _ he))
            rw [Bool.eq_iff_iff, List.isPrefixOf_iff_prefix, List.isPrefixOf_iff_prefix]
            exact this
          cases hf : List.find? (fun e => e.1.isPrefixOf s) M with
          | none =>
            rw [expandGo_colon_none M _ (hcongr.trans hf),
              expandGo_colon_none _ s (hfind0.trans hf)]
            congr 1
            exact ih s hlen hfit1
          | some e =>
            rw [expandGo_colon_some M _ e (hcongr.trans hf),
              expandGo_colon_some _ s e (hfind0.trans hf)]
            congr 1
            have he : e ∈ M := List.mem_of_find?_eq_some hf
            have hpre : e.1 <+: s := by
              have := List.find?_some hf
              exact List.isPrefixOf_iff_prefix.mp this
            obtain ⟨r, hr⟩ := hpre
            have hdrop : s.drop e.1.length = r := by
              rw [← hr]
              simp
            have hR : (strings.replaceGo (':' :: k) (url.PathEscape v) 0 s).drop e.1.length =
                strings.replaceGo (':' :: k) (url.PathEscape v) 0 r := by
              rw [← hr, strings.replaceGo_passthrough k _ _ _ (hM e he)]
              simp
            rw [hR, hdrop]
            have hfr : colonsFit ((k, v) :: M) r = true := by
              rw [← hdrop]
              exact colonsFit_drop _ _ _ hfit1
            exact ih r (by rw [← hr] at hlen; simp at hlen; omega) hfr
      · have hnot : ¬ (c = ':' ∧ k <+: s) := fun h => hc h.1
        rw [if_neg hnot, expandGo_cons_ne M c _ hc, expandGo_cons_ne _ c _ hc]
        congr 1
        exact ih s hlen hfit1

theorem colonsFit_passthrough (M : List (Str × Str)) : ∀ (x s : Str), ':' ∉ x →
    colonsFit M (x ++ s) = colonsFit M s := by
  intro x
  induction x with
  | nil => intro s _; rfl
  | cons c x ih =>
    intro s hx
    simp only [List.mem_cons, not_or] at hx
    have hc : (c != ':') = true := by
      simp only [bne_iff_ne, ne_eq]
      exact fun h => hx.1 h.symm
    rw [List.cons_append, colonsFit, hc, ih s hx.2]
    simp

theorem chunk_replace (k new s : Str) :
    chunk s <+: chunk (strings.replaceGo (':' :: k) new 0 s) := by
  have hs := chunk_append_rest s
  have hR : strings.replaceGo (':' :: k) new 0 s =
      chunk s ++ strings.replaceGo (':' :: k) new 0 (s.dropWhile (fun c => decide (c ≠ ':'))) := by
    conv_lhs => rw [hs]
    exact strings.replaceGo_passthrough k new _ _ (chunk_no_colon s)
  rw [hR]
  conv_rhs => unfold chunk
  rw [List.takeWhile_append_of_pos]
  · exact List.prefix_append _ _
  · intro a ha
    simp only [ne_eq, decide_eq_true_eq]
    intro hc
    exact chunk_no_colon s (hc ▸ ha)

theorem keyFits_replace (k new key s : Str) (hkey : ':' ∉ key) (h : keyFits s key = true) :
    keyFits (strings.replaceGo (':' :: k) new 0 s) key = true := by
  rw [keyFits_iff]
  rcases (keyFits_iff s key).mp h with h1 | h1 | h1
  · exact Or.inl ((prefix_replace_iff k new key s hkey h).mpr h1)
  · exact Or.inr (Or.inl (fun h2 => h1 ((chunk_replace k new s).trans h2)))
  · rw [strings.replaceGo_no_colon k new s h1]
    exact Or.inr (Or.inr h1)

/-- The template stays fit for the other entries when the placeholder of the first entry
has been replaced. -/
theorem colonsFit_replace (M : List (Str × Str)) (k v : Str) (hv : ':' ∉ v)
    (hM : ∀ e ∈ M, ':' ∉ e.1) :
    ∀ (n : Nat) (s : Str), s.length ≤ n → colonsFit ((k, v) :: M) s = true →
      colonsFit M (strings.replaceGo (':' :: k) (url.PathEscape v) 0 s) = true := by
  have hesc : ':' ∉ url.PathEscape v := url.escape_no_colon _ v hv
  intro n
  induction n with
  | zero =>
    intro s hs _
    have : s = [] := List.length_eq_zero.mp (Nat.le_zero.mp hs)
    subst this
    rfl
  | succ n ih =>
    intro s hs hfit
    cases s with
    | nil => rfl
    | cons c s =>
      have hlen : s.length ≤ n := by simpa using hs
      have hfit1 := colonsFit_tail _ c s hfit
      rw [strings.replaceGo_colon_cons]
      by_cases hc : c = ':'
      · subst hc
        have hhead := colonsFit_head _ s hfit
        by_cases hp : k <+: s
        · rw [if_pos ⟨rfl, hp⟩, colonsFit_passthrough M _ _ hesc]
          exact ih _ (by rw [List.length_drop]; omega) (colonsFit_drop _ _ _ hfit1)
        · have hnot : ¬ (':' = ':' ∧ k <+: s) := fun h => hp h.2
          rw [if_neg hnot]
          simp only [colonsFit, Bool.and_eq_true, Bool.or_eq_true, List.all_eq_true]
          refine ⟨Or.inr ?_, ih s hlen hfit1⟩
          intro e he
          exact keyFits_replace k _ e.1 s (hM e he) (hhead e (List.mem_cons_of_mem _ he))
      · have hnot : ¬ (c = ':' ∧ k <+: s) := fun h => hc h.1
        have hc1 : (c != ':') = true := by simpa using hc
        rw [if_neg hnot, colonsFit, hc1]
        simp only [Bool.true_or, Bool.true_and]
        exact ih s hlen hfit1

/-- The loop of `parseRequestURL` over the path variables computes the one-pass
substitution, when no key and no value holds a `:` and the template is fit. -/
theorem substPathParams_eq_expand : ∀ (M : List (Str × Str)) (T : Str),
    (∀ e ∈ M, ':' ∉ e.1) → (∀ e ∈ M, ':' ∉ e.2) → colonsFit M T = true →
    substPathParams T M = expandGo M 0 T := by
  intro M
  induction M with
  | nil =>
    intro T _ _ _
    simp only [substPathParams, List.foldl_nil]
    have : ∀ (s : Str), expandGo [] 0 s = s := by
      intro s
      induction s with
      | nil => rfl
      | cons c s ih =>
        rw [expandGo]
        split
        · simp only [List.find?_nil]
          rw [ih]
        · rw [ih]
    exact (this T).symm
  | cons e M ih =>
    intro T hk hv hfit
    obtain ⟨k, v⟩ := e
    have hv1 : ':' ∉ v := hv (k, v) (List.mem_cons_self _ _)
    have hM : ∀ e ∈ M, ':' ∉ e.1 := fun e he => hk e (List.mem_cons_of_mem _ he)
    have hesc : ':' ∉ url.PathEscape v := url.escape_no_colon _ v hv1
    have hrep : strings.ReplaceAll T (':' :: k) (url.PathEscape v) =
        strings.replaceGo (':' :: k) (url.PathEscape v) 0 T := by
      unfold strings.ReplaceAll
      have h1 : ¬ (':' :: k = url.PathEscape v) := by
        intro h
        apply hesc
        rw [← h]
        exact List.mem_cons_self _ _
      rw [if_neg h1]
      simp
    have hstep : substPathParams T ((k, v) :: M) =
        substPathParams (strings.ReplaceAll T (':' :: k) (url.PathEscape v)) M := rfl
    rw [hstep, hrep,
      ih _ hM (fun e he => hv e (List.mem_cons_of_mem _ he))
        (colonsFit_replace M k v hv1 hM _ T (Nat.le_refl _) hfit)]
    exact expand_replace M k v hv1 hM _ T (Nat.le_refl _) hfit

namespace strings

theorem Index_some_split : ∀ (s sub : Str) (i : Nat), Index s sub = some i →
    ∃ pre suf, s = pre ++ sub ++ suf := by
  intro s
  induction s with
  | nil =>
    intro sub i h
    simp only [Index] at h
    split at h
    · rename_i he
      have : sub = [] := by simpa using he
      exact ⟨[], [], by simp [this]⟩
    · cases h
  | cons c s ih =>
    intro sub i h
    rw [Index] at h
    split at h
    · rename_i hp
      obtain ⟨r, hr⟩ := List.isPrefixOf_iff_prefix.mp hp
      exact ⟨[], r, by simp [hr]⟩
    · cases hi : Index s sub with
      | none => rw [hi] at h; cases h
      | some j =>
        obtain ⟨pre, suf, hs⟩ := ih sub j hi
        exact ⟨c :: pre, suf, by simp [hs]⟩

theorem Contains_false_of_no_split (s sub : Str)
    (h : ∀ pre suf, s ≠ pre ++ sub ++ suf) : Contains s sub = false := by
  unfold Contains
  cases hi : Index s sub with
  | none => rfl
  | some i =>
    obtain ⟨pre, suf, hs⟩ := Index_some_split s sub i hi
    exact absurd hs (h pre suf)

end strings

theorem expand_chunk (M : List (Str × Str)) (s : Str) :
    expandGo M 0 s = chunk s ++ expandGo M 0 (s.dropWhile (fun c => decide (c ≠ ':'))) := by
  conv_lhs => rw [chunk_append_rest s]
  exact expandGo_passthrough M _ _ (chunk_no_colon s)

theorem prefix_expand_iff (M : List (Str × Str)) (key s : Str) (hkey : ':' ∉ key)
    (hfit : keyFits s key = true) :
    key <+: expandGo M 0 s ↔ key <+: s := by
  have hs := chunk_append_rest s
  have hR := expand_chunk M s
  constructor
  · intro h
    rw [hR] at h
    rcases List.prefix_or_prefix_of_prefix h (List.prefix_append (chunk s) _) with h1 | h1
    · rw [hs]
      exact h1.trans (List.prefix_append _ _)
    · rcases (keyFits_iff s key).mp hfit with h2 | h2 | h2
      · exact h2
      · exact absurd h1 h2
      · rw [expandGo_no_colon M s h2] at hR
        rw [← hR] at h
        exact h
  · intro h
    rw [hR]
    exact (chunk_prefix_of_colon_free key s hkey h).trans (List.prefix_append _ _)

theorem split_after_colon_free (x y pre rest : Str) (hx : ':' ∉ x)
    (h : x ++ y = pre ++ ':' :: rest) : ∃ pre1, pre = x ++ pre1 ∧ y = pre1 ++ ':' :: rest := by
  induction x generalizing pre with
  | nil => exact ⟨pre, rfl, h⟩
  | cons c x ih =>
    simp only [List.mem_cons, not_or] at hx
    cases pre with
    | nil =>
      simp only [List.cons_append, List.nil_append, List.cons.injEq] at h
      exact absurd h.1.symm hx.1
    | cons d pre =>
      simp only [List.cons_append, List.cons.injEq] at h
      obtain ⟨pre1, h1, h2⟩ := ih pre hx.2 h.2
      exact ⟨pre1, by rw [h.1, h1]; rfl, h2⟩

/-- No placeholder of a key of the map is left in the one-pass substitution of a fit
template. -/
theorem expand_no_placeholder (M : List (Str × Str)) (hk : ∀ e ∈ M, ':' ∉ e.1)
    (hv : ∀ e ∈ M, ':' ∉ e.2) :
    ∀ (n : Nat) (s : Str), s.length ≤ n → colonsFit M s = true →
      ∀ e ∈ M, ∀ pre suf, expandGo M 0 s ≠ pre ++ (':' :: e.1) ++ suf := by
  intro n
  induction n with
  | zero =>
    intro s hs _ e _ pre suf
    have : s = [] := List.length_eq_zero.mp (Nat.le_zero.mp hs)
    subst this
    simp [expandGo]
  | succ n ih =>
    intro s hs hfit e he pre suf heq
    cases s with
    | nil => simp [expandGo] at heq
    | cons c s =>
      have hlen : s.length ≤ n := by simpa using hs
      have hfit1 := colonsFit_tail _ c s hfit
      by_cases hc : c = ':'
      · subst hc
        have hhead := colonsFit_head _ s hfit
        cases hf : List.find? (fun e => e.1.isPrefixOf s) M with
        | some e1 =>
          rw [expandGo_colon_some M s e1 hf] at heq
          have he1 : e1 ∈ M := List.mem_of_find?_eq_some hf
          have hesc : ':' ∉ url.PathEscape e1.2 := url.escape_no_colon _ _ (hv e1 he1)
          have heq1 : url.PathEscape e1.2 ++ expandGo M 0 (List.drop e1.1.length s) =
              pre ++ ':' :: (e.1 ++ suf) := by simpa using heq
          obtain ⟨pre1, _, h2⟩ := split_after_colon_free _ _ _ _ hesc heq1
          exact ih (List.drop e1.1.length s) (by rw [List.length_drop]; omega)
            (colonsFit_drop _ _ _ hfit1) e he pre1 suf (by simpa using h2)
        | none =>
          rw [expandGo_colon_none M s hf] at heq
          cases pre with
          | nil =>
            simp only [List.nil_append, List.cons_append, List.cons.injEq, true_and] at heq
            have hpre : e.1 <+: expandGo M 0 s := ⟨suf, heq.symm⟩
            have := (prefix_expand_iff M e.1 s (hk e he) (hhead e he)).mp hpre
            rw [List.find?_eq_none] at hf
            exact hf e he (List.isPrefixOf_iff_prefix.mpr this)
          | cons d pre =>
            simp only [List.cons_append, List.cons.injEq] at heq
            exact ih s hlen hfit1 e he pre suf (by simpa using heq.2)
      · rw [expandGo_cons_ne M c s hc] at heq
        cases pre with
        | nil =>
          simp only [List.nil_append, List.cons_append, List.cons.injEq] at heq
          exact hc heq.1
        | cons d pre =>
          simp only [List.cons_append, List.cons.injEq] at heq
          exact ih s hlen hfit1 e he pre suf (by simpa using heq.2)

theorem prefix_append_colon (key p rest : Str) (hkey : ':' ∉ key) :
    key <+: p ++ ':' :: rest ↔ key <+: p := by
  constructor
  · intro h
    rcases List.prefix_or_prefix_of_prefix h (List.prefix_append p (':' :: rest)) with h1 | h1
    · exact h1
    · obtain ⟨t, ht⟩ := h1
      obtain ⟨u, hu⟩ := h
      cases t with
      | nil => simp at ht; rw [ht]
      | cons a t =>
        exfalso
        rw [← ht] at hu
        simp only [List.append_assoc, List.cons_append, List.append_cancel_left_eq,
          List.cons.injEq] at hu
        apply hkey
        rw [← ht, ← hu.1]
        simp
  · intro h
    exact h.trans (List.prefix_append _ _)

/-- The one-pass substitution of the text before a `:` does not depend on what follows
that `:`. -/
theorem expand_split (M : List (Str × Str)) (hk : ∀ e ∈ M, ':' ∉ e.1) (rest : Str) :
    ∀ (n : Nat) (p : Str), p.length ≤ n →
      expandGo M 0 (p ++ ':' :: rest) = expandGo M 0 p ++ expandGo M 0 (':' :: rest) := by
  intro n
  induction n with
  | zero =>
    intro p hp
    have : p = [] := List.length_eq_zero.mp (Nat.le_zero.mp hp)
    subst this
    simp [expandGo_nil]
  | succ n ih =>
    intro p hp
    cases p with
    | nil => simp [expandGo_nil]
    | cons c p =>
      have hlen : p.length ≤ n := by simpa using hp
      by_cases hc : c = ':'
      · subst hc
        have hcongr : List.find? (fun e => e.1.isPrefixOf (p ++ ':' :: rest)) M =
            List.find? (fun e => e.1.isPrefixOf p) M := by
          apply find_congr
          intro e he
          rw [Bool.eq_iff_iff, List.isPrefixOf_iff_prefix, List.isPrefixOf_iff_prefix]
          exact prefix_append_colon e.1 p rest (hk e he)
        rw [List.cons_append]
        cases hf : List.find? (fun e => e.1.isPrefixOf p) M with
        | none =>
          rw [expandGo_colon_none M _ (hcongr.trans hf), expandGo_colon_none M p hf, ih p hlen]
          rfl
        | some e =>
          rw [expandGo_colon_some M _ e (hcongr.trans hf), expandGo_colon_some M p e hf]
          have hpre : e.1 <+: p := by
            have := List.find?_some hf
            exact List.isPrefixOf_iff_prefix.mp this
          have hle := hpre.length_le
          rw [List.drop_append_of_le_length hle,
            ih _ (by rw [List.length_drop]; omega), List.append_assoc]
      · rw [List.cons_append, expandGo_cons_ne M c _ hc, expandGo_cons_ne M c _ hc, ih p hlen]
        rfl

namespace url

open encoding

theorem upperhex_ishex (n : Nat) (h : n < 16) : ishex (upperhex n) = true := by
  interval_cases n <;> decide

theorem upperhex_unhex (n : Nat) (h : n < 16) : unhex (upperhex n) = n := by
  interval_cases n <;> decide

theorem upperhex_not_sep (n : Nat) (h : n < 16) :
    upperhex n ≠ '&' ∧ upperhex n ≠ '=' ∧ upperhex n ≠ ';' ∧ upperhex n ≠ '%' ∧
      upperhex n ≠ '+' := by
  interval_cases n <;> decide

theorem shouldEscape_query_false (c : Char) (h : shouldEscape c encodeQueryComponent = false) :
    c ≠ '&' ∧ c ≠ '=' ∧ c ≠ ';' ∧ c ≠ '%' ∧ c ≠ '+' := by
  refine ⟨?_, ?_, ?_, ?_, ?_⟩ <;>
  · intro hc
    subst hc
    revert h
    decide

theorem escapeByte_query_not_sep (c d : Char) (hd : d ∈ escapeByte encodeQueryComponent c) :
    d ≠ '&' ∧ d ≠ '=' ∧ d ≠ ';' := by
  unfold escapeByte at hd
  split at hd
  · split at hd
    · simp only [List.mem_singleton] at hd
      subst hd
      decide
    · simp only [List.mem_cons, List.mem_singleton, List.not_mem_nil, or_false] at hd
      have h1 := upperhex_not_sep (c.toNat / 16 % 16) (Nat.mod_lt _ (by decide))
      have h2 := upperhex_not_sep (c.toNat % 16) (Nat.mod_lt _ (by decide))
      rcases hd with hd | hd | hd
      · subst hd; decide
      · subst hd; exact ⟨h1.1, h1.2.1, h1.2.2.1⟩
      · subst hd; exact ⟨h2.1, h2.2.1, h2.2.2.1⟩
  · rename_i hs
    simp only [List.mem_singleton] at hd
    subst hd
    have := shouldEscape_query_false d (by simpa using hs)
    exact ⟨this.1, this.2.1, this.2.2.1⟩

theorem QueryEscape_not_sep (s : Str) (d : Char) (hd : d ∈ QueryEscape s) :
    d ≠ '&' ∧ d ≠ '=' ∧ d ≠ ';' := by
  unfold QueryEscape escape at hd
  rw [List.mem_flatMap] at hd
  obtain ⟨c, _, hc⟩ := hd
  exact escapeByte_query_not_sep c d hc

theorem unescapeCheck_plain (c : Char) (t : Str) (h1 : c ≠ '%') (h2 : c ≠ '+') :
    unescapeCheck encodeQueryComponent (c :: t) = unescapeCheck encodeQueryComponent t := by
  conv_lhs => rw [unescapeCheck.eq_def]
  simp only [if_neg h1, if_neg h2]
  rw [if_neg (fun h => by rcases h.1 with h | h <;> cases h)]

theorem unescapeCheck_plus (t : Str) :
    unescapeCheck encodeQueryComponent ('+' :: t) = unescapeCheck encodeQueryComponent t := by
  conv_lhs => rw [unescapeCheck.eq_def]
  simp

theorem unescapeCheck_pct (a b : Char) (t : Str) (ha : ishex a = true) (hb : ishex b = true) :
    unescapeCheck encodeQueryComponent ('%' :: a :: b :: t) =
      unescapeCheck encodeQueryComponent t := by
  conv_lhs => rw [unescapeCheck.eq_def]
  simp only [if_true, ha, hb]
  rw [if_neg (by decide), if_neg (fun h => by cases h.1), if_neg (fun h => by cases h.1)]

theorem unescapeGo_plain (c : Char) (t : Str) (h1 : c ≠ '%') (h2 : c ≠ '+') :
    unescapeGo encodeQueryComponent (c :: t) = c :: unescapeGo encodeQueryComponent t := by
  conv_lhs => rw [unescapeGo.eq_def]
  simp only [if_neg h1, if_neg h2]

theorem unescapeGo_plus (t : Str) :
    unescapeGo encodeQueryComponent ('+' :: t) = ' ' :: unescapeGo encodeQueryComponent t := by
  conv_lhs => rw [unescapeGo.eq_def]
  simp

theorem unescapeGo_pct (a b : Char) (t : Str) :
    unescapeGo encodeQueryComponent ('%' :: a :: b :: t) =
      Char.ofNat (unhex a * 16 + unhex b) :: unescapeGo encodeQueryComponent t := by
  conv_lhs => rw [unescapeGo.eq_def]
  simp only [if_true]

theorem unescapeCheck_escapeByte (c : Char) (t : Str) :
    unescapeCheck encodeQueryComponent (escapeByte encodeQueryComponent c ++ t) =
      unescapeCheck encodeQueryComponent t := by
  unfold escapeByte
  split
  · split
    · exact unescapeCheck_plus t
    · have h1 := upperhex_ishex (c.toNat / 16 % 16) (Nat.mod_lt _ (by decide))
      have h2 := upperhex_ishex (c.toNat % 16) (Nat.mod_lt _ (by decide))
      exact unescapeCheck_pct _ _ t h1 h2
  · rename_i hs
    have := shouldEscape_query_false c (by simpa using hs)
    exact unescapeCheck_plain c t this.2.2.2.1 this.2.2.2.2

theorem unescapeGo_escapeByte (c : Char) (t : Str) (hc : c.toNat < 256) :
    unescapeGo encodeQueryComponent (escapeByte encodeQueryComponent c ++ t) =
      c :: unescapeGo encodeQueryComponent t := by
  unfold escapeByte
  split
  · split
    · rename_i h
      rw [h.1]
      exact unescapeGo_plus t
    · have h1 := upperhex_unhex (c.toNat / 16 % 16) (Nat.mod_lt _ (by decide))
      have h2 := upperhex_unhex (c.toNat % 16) (Nat.mod_lt _ (by decide))
      have : c.toNat / 16 % 16 * 16 + c.toNat % 16 = c.toNat := by omega
      have h3 := unescapeGo_pct (upperhex (c.toNat / 16 % 16)) (upperhex (c.toNat % 16)) t
      rw [h1, h2, this, Char.ofNat_toNat] at h3
      exact h3
  · rename_i hs
    have := shouldEscape_query_false c (by simpa using hs)
    exact unescapeGo_plain c t this.2.2.2.1 this.2.2.2.2

/-- `QueryUnescape(QueryEscape(s)) = s` for a string of bytes. -/
theorem unescape_QueryEscape (s : Str) (hs : isBytes s = true) :
    unescape (QueryEscape s) encodeQueryComponent = .ok s := by
  have h1 : unescapeCheck encodeQueryComponent (QueryEscape s) = none := by
    unfold QueryEscape escape
    clear hs
    induction s with
    | nil => rfl
    | cons c s ih =>
      rw [List.flatMap_cons, unescapeCheck_escapeByte]
      exact ih
  have h2 : unescapeGo encodeQueryComponent (QueryEscape s) = s := by
    unfold QueryEscape escape
    clear h1
    induction s with
    | nil => rfl
    | cons c s ih =>
      simp only [isBytes, List.all_cons, Bool.and_eq_true, decide_eq_true_eq] at hs
      rw [List.flatMap_cons, unescapeGo_escapeByte c _ hs.1, ih]
      simpa [isBytes] using hs.2
  unfold unescape
  rw [h1, h2]

end url

theorem splitAmp_ne_nil (s : Str) : splitAmp s ≠ [] := by
  cases s with
  | nil => simp [splitAmp]
  | cons c s =>
    rw [splitAmp]
    split
    · simp
    · split <;> simp

theorem splitAmp_no_amp (x : Str) (h : '&' ∉ x) : splitAmp x = [x] := by
  induction x with
  | nil => rfl
  | cons c x ih =>
    simp only [List.mem_cons, not_or] at h
    rw [splitAmp, if_neg (fun hc => h.1 hc.symm), ih h.2]

theorem splitAmp_append (a b : Str) : splitAmp (a ++ '&' :: b) = splitAmp a ++ splitAmp b := by
  induction a with
  | nil => simp [splitAmp]
  | cons c a ih =>
    rw [List.cons_append, splitAmp, splitAmp]
    by_cases hc : c = '&'
    · rw [if_pos hc, if_pos hc, ih]
      rfl
    · rw [if_neg hc, if_neg hc, ih]
      cases h : splitAmp a with
      | nil => exact absurd h (splitAmp_ne_nil a)
      | cons x xs => rfl

theorem queryItem_nil (key : Str) : queryItem key [] = none := by
  simp [queryItem]

theorem queryValues_append (a b key : Str) :
    queryValues (a ++ go "&" ++ b) key = queryValues a key ++ queryValues b key := by
  unfold queryValues
  have : a ++ go "&" ++ b = a ++ '&' :: b := by simp [go]
  rw [this, splitAmp_append, List.filterMap_append]

theorem intercalate_cons_cons (sep x y : Str) (r : List Str) :
    List.intercalate sep (x :: y :: r) = x ++ sep ++ List.intercalate sep (y :: r) := by
  simp [List.intercalate, List.intersperse]

theorem queryValues_intercalate (key : Str) : ∀ (L : List Str), (∀ x ∈ L, '&' ∉ x) →
    queryValues (List.intercalate (go "&") L) key = L.filterMap (queryItem key) := by
  intro L
  induction L with
  | nil =>
    intro _
    simp [queryValues, List.intercalate, splitAmp, queryItem_nil]
  | cons x L ih =>
    intro h
    cases L with
    | nil =>
      have : List.intercalate (go "&") [x] = x := by simp [List.intercalate]
      rw [this]
      unfold queryValues
      rw [splitAmp_no_amp x (h x (List.mem_cons_self _ _))]
    | cons y r =>
      rw [intercalate_cons_cons, queryValues_append,
        ih (fun z hz => h z (List.mem_cons_of_mem _ hz))]
      unfold queryValues
      rw [splitAmp_no_amp x (h x (List.mem_cons_self _ _)), ← List.filterMap_append]
      rfl

namespace strings

theorem Cut_at_sep (x y : Str) (sep : Char) (h : sep ∉ x) :
    Cut (x ++ sep :: y) sep = (x, y, true) := by
  induction x with
  | nil => simp [Cut]
  | cons c x ih =>
    simp only [List.mem_cons, not_or] at h
    rw [List.cons_append, Cut, if_neg (fun hc => h.1 hc.symm), ih h.2]

end strings

theorem queryItem_pair (key k v : Str) (hk : isBytes k = true) (hv : isBytes v = true) :
    queryItem key (url.QueryEscape k ++ '=' :: url.QueryEscape v) =
      if k = key then some v else none := by
  have hsemi : (url.QueryEscape k ++ '=' :: url.QueryEscape v).contains ';' = false := by
    rw [Bool.eq_false_iff]
    intro h
    have hm : ';' ∈ url.QueryEscape k ++ '=' :: url.QueryEscape v := by simpa using h
    rw [List.mem_append, List.mem_cons] at hm
    rcases hm with hm | hm | hm
    · exact (url.QueryEscape_not_sep k _ hm).2.2 rfl
    · cases hm
    · exact (url.QueryEscape_not_sep v _ hm).2.2 rfl
  have hcut := strings.Cut_at_sep (url.QueryEscape k) (url.QueryEscape v) '='
    (fun h => (url.QueryEscape_not_sep k _ h).2.1 rfl)
  unfold queryItem
  rw [hsemi, hcut]
  simp only [Bool.false_eq_true, if_false]
  rw [if_neg (by simp), url.unescape_QueryEscape k hk, url.unescape_QueryEscape v hv]

theorem get_some_mem {V : Type} (m : List (Str × V)) (k : Str) (v : V)
    (h : gomap.get m k = some v) : (k, v) ∈ m := by
  induction m with
  | nil => simp [gomap.get] at h
  | cons e m ih =>
    obtain ⟨k1, v1⟩ := e
    rw [gomap.get] at h
    split at h
    · rename_i hk
      simp only [Option.some.injEq] at h
      rw [hk, h]
      exact List.mem_cons_self _ _
    · exact List.mem_cons_of_mem _ (ih h)

theorem filterMap_flatMap {α β γ : Type} (f : α → List β) (g : β → Option γ) (l : List α) :
    (l.flatMap f).filterMap g = l.flatMap (fun a => (f a).filterMap g) := by
  induction l with
  | nil => rfl
  | cons a l ih => rw [List.flatMap_cons, List.filterMap_append, ih, List.flatMap_cons]

theorem flatMap_single_key (key : Str) (X : List Str) : ∀ (ks : List Str), ks.Nodup →
    ks.flatMap (fun k => if k = key then X else []) = if key ∈ ks then X else [] := by
  intro ks
  induction ks with
  | nil => intro _; rfl
  | cons a ks ih =>
    intro hnd
    rw [List.nodup_cons] at hnd
    rw [List.flatMap_cons, ih hnd.2]
    by_cases ha : a = key
    · subst ha
      simp [hnd.1]
    · have : ¬ key = a := fun h => ha h.symm
      simp [ha, this]

/-- The values of a key in the encoding of a query map are the values the map holds for
the key, in their order. -/
theorem queryValues_Encode (q : url.Values) (key : Str) (hnd : (gomap.keys q).Nodup)
    (hb : ∀ k vs, gomap.get q k = some vs → isBytes k = true ∧ ∀ v ∈ vs, isBytes v = true) :
    queryValues (url.Values.Encode q) key = (gomap.get q key).getD [] := by
  unfold url.Values.Encode
  have hperm := List.perm_insertionSort (fun a b => strings.le a b = true) (gomap.keys q)
  rw [queryValues_intercalate]
  · rw [filterMap_flatMap]
    have hitem : ∀ k ∈ List.insertionSort (fun a b => strings.le a b = true) (gomap.keys q),
        (url.encodeKey q k).filterMap (queryItem key) =
          if k = key then (gomap.get q key).getD [] else [] := by
      intro k hk
      have hkq : k ∈ gomap.keys q := hperm.mem_iff.mp hk
      obtain ⟨vs, hvs⟩ := Option.isSome_iff_exists.mp ((gomap.get_isSome_iff q k).mpr hkq)
      obtain ⟨hbk, hbv⟩ := hb k vs hvs
      unfold url.encodeKey
      rw [hvs, List.filterMap_map]
      simp only [Option.getD_some]
      by_cases hkk : k = key
      · subst hkk
        rw [if_pos rfl, hvs]
        simp only [Option.getD_some]
        clear hvs
        induction vs with
        | nil => rfl
        | cons v vs ih =>
          rw [List.filterMap_cons]
          simp only [Function.comp]
          rw [queryItem_pair k k v hbk (hbv v (List.mem_cons_self _ _)), if_pos rfl]
          simp only
          rw [ih (fun w hw => hbv w (List.mem_cons_of_mem _ hw))]
      · rw [if_neg hkk]
        clear hvs
        induction vs with
        | nil => rfl
        | cons v vs ih =>
          rw [List.filterMap_cons]
          simp only [Function.comp]
          rw [queryItem_pair key k v hbk (hbv v (List.mem_cons_self _ _)), if_neg hkk]
          simp only
          exact ih (fun w hw => hbv w (List.mem_cons_of_mem _ hw))
    rw [List.flatMap_congr hitem]
    have hnd2 : (List.insertionSort (fun a b => strings.le a b = true) (gomap.keys q)).Nodup :=
      hperm.nodup_iff.mpr hnd
    rw [flatMap_single_key key _ _ hnd2]
    by_cases hk : key ∈ gomap.keys q
    · rw [if_pos (hperm.mem_iff.mpr hk)]
    · rw [if_neg (fun h => hk (hperm.mem_iff.mp h)), (gomap.get_eq_none_iff q key).mpr hk]
      rfl
  · intro x hx
    rw [List.mem_flatMap] at hx
    obtain ⟨k, _, hxk⟩ := hx
    unfold url.encodeKey at hxk
    rw [List.mem_map] at hxk
    obtain ⟨iv, _, hiv⟩ := hxk
    rw [← hiv]
    intro hmem
    rw [List.mem_append, List.mem_cons] at hmem
    rcases hmem with h | h | h
    · exact (url.QueryEscape_not_sep k _ h).1 rfl
    · cases h
    · exact (url.QueryEscape_not_sep iv _ h).1 rfl

theorem nodup_keys_set {V : Type} (m : List (Str × V)) (k : Str) (v : V)
    (h : (gomap.keys m).Nodup) : (gomap.keys (gomap.set m k v)).Nodup := by
  rw [gomap.keys_set]
  split
  · exact h
  · rename_i hk
    rw [List.nodup_append]
    refine ⟨h, List.nodup_singleton _, ?_⟩
    intro a ha hb
    simp only [List.mem_singleton] at hb
    subst hb
    exact hk ha

theorem nodup_keys_del {V : Type} (m : List (Str × V)) (k : Str)
    (h : (gomap.keys m).Nodup) : (gomap.keys (gomap.del m k)).Nodup := by
  have : gomap.keys (gomap.del m k) = (gomap.keys m).filter (fun a => decide (a ≠ k)) := by
    unfold gomap.keys gomap.del
    rw [List.filter_map]
    rfl
  rw [this]
  exact List.Nodup.filter _ h

/-- The values of a key after a run of `Add` calls for the key `k`. -/
theorem addLoop_get (k : Str) : ∀ (vs : List Str) (q0 : url.Values) (k1 : Str),
    gomap.get (vs.foldl (fun q iv => url.Values.Add q k iv) q0) k1 =
      if k = k1 then (if vs = [] then gomap.get q0 k else some ((gomap.get q0 k).getD [] ++ vs))
      else gomap.get q0 k1 := by
  intro vs
  induction vs with
  | nil => intro q0 k1; by_cases h : k = k1 <;> simp [h]
  | cons v vs ih =>
    intro q0 k1
    rw [List.foldl_cons, ih]
    by_cases h : k = k1
    · subst h
      simp only [if_true, url.Values.Add, gomap.get_set, Option.getD_some, List.append_assoc,
        List.singleton_append]
      split <;> simp_all
    · simp only [if_neg h, url.Values.Add, gomap.get_set]

theorem addLoop_nodup (k : Str) : ∀ (vs : List Str) (q0 : url.Values),
    (gomap.keys q0).Nodup →
    (gomap.keys (vs.foldl (fun q iv => url.Values.Add q k iv) q0)).Nodup := by
  intro vs
  induction vs with
  | nil => intro q0 h; exact h
  | cons v vs ih =>
    intro q0 h
    rw [List.foldl_cons]
    exact ih _ (nodup_keys_set _ _ _ h)

/-- The loop of `parseRequestURL` over the query parameters: the query it builds holds,
for every key with at least one value, the values of the request. -/
theorem buildLoop_get : ∀ (qp : url.Values) (query : url.Values) (k : Str),
    (gomap.keys qp).Nodup →
    gomap.get (qp.foldl
      (fun query e => e.2.foldl (fun q iv => url.Values.Add q e.1 iv) (url.Values.Del query e.1))
      query) k =
      if k ∈ gomap.keys qp then
        (if (gomap.get qp k).getD [] = [] then none else some ((gomap.get qp k).getD []))
      else gomap.get query k := by
  intro qp
  induction qp with
  | nil => intro query k _; simp [gomap.keys]
  | cons e qp ih =>
    intro query k hnd
    obtain ⟨k1, vs⟩ := e
    have hnd' : k1 ∉ gomap.keys qp ∧ (gomap.keys qp).Nodup := by
      simpa [gomap.keys] using hnd
    rw [List.foldl_cons, ih _ _ hnd'.2]
    by_cases hk : k ∈ gomap.keys qp
    · have hne : ¬ k1 = k := fun h => hnd'.1 (h ▸ hk)
      have hmem : k ∈ gomap.keys ((k1, vs) :: qp) := by
        simp only [gomap.keys, List.map_cons, List.mem_cons]
        exact Or.inr hk
      rw [if_pos hk, if_pos hmem]
      simp only [gomap.get, if_neg hne]
    · rw [if_neg hk, addLoop_get]
      by_cases hkk : k1 = k
      · subst hkk
        have hmem : k1 ∈ gomap.keys ((k1, vs) :: qp) := by simp [gomap.keys]
        rw [if_pos rfl, if_pos hmem]
        simp only [url.Values.Del, gomap.get_del, if_true, gomap.get, Option.getD_some,
          Option.getD_none, List.nil_append]
      · have hmem : k ∉ gomap.keys ((k1, vs) :: qp) := by
          simp only [gomap.keys, List.map_cons, List.mem_cons, not_or]
          exact ⟨fun h => hkk h.symm, hk⟩
        rw [if_neg hkk, if_neg hmem]
        simp only [url.Values.Del, gomap.get_del, if_neg hkk]

theorem buildLoop_nodup : ∀ (qp : url.Values) (query : url.Values),
    (gomap.keys query).Nodup →
    (gomap.keys (qp.foldl
      (fun query e => e.2.foldl (fun q iv => url.Values.Add q e.1 iv) (url.Values.Del query e.1))
      query)).Nodup := by
  intro qp
  induction qp with
  | nil => intro query h; exact h
  | cons e qp ih =>
    intro query h
    rw [List.foldl_cons]
    exact ih _ (addLoop_nodup _ _ _ (nodup_keys_del _ _ h))

theorem getD_buildQuery (qp : url.Values) (k : Str) (hnd : (gomap.keys qp).Nodup) :
    (gomap.get (buildQuery qp) k).getD [] = (gomap.get qp k).getD [] := by
  unfold buildQuery
  rw [buildLoop_get qp [] k hnd]
  by_cases hk : k ∈ gomap.keys qp
  · rw [if_pos hk]
    split
    · rename_i h
      rw [h]
      rfl
    · rfl
  · rw [if_neg hk, (gomap.get_eq_none_iff qp k).mpr hk]
    rfl

theorem get_buildQuery_some (qp : url.Values) (k : Str) (vs : List Str)
    (hnd : (gomap.keys qp).Nodup) (h : gomap.get (buildQuery qp) k = some vs) :
    gomap.get qp k = some vs := by
  unfold buildQuery at h
  rw [buildLoop_get qp [] k hnd] at h
  by_cases hk : k ∈ gomap.keys qp
  · rw [if_pos hk] at h
    split at h
    · cases h
    · simp only [Option.some.injEq] at h
      cases hg : gomap.get qp k with
      | none => rw [hg] at h; simp at h; rename_i h1; rw [hg] at h1; simp at h1
      | some ws => rw [hg] at h; simpa using h
  · rw [if_neg hk] at h
    simp [gomap.get] at h

/-- What a request holds for a key after a run of `setQueryParam` calls. -/
theorem setQueryParams_get (k : Str) : ∀ (ops : List (Str × Value)) (r : request),
    (gomap.get (r.setQueryParams ops).queryParam k).getD [] =
      ops.foldl
        (fun acc e =>
          if e.1 = k then
            if e.2.kind = Kind.Slice ∨ e.2.kind = Kind.Array then
              acc ++ e.2.items.map Value.sprint
            else [e.2.sprintValue]
          else acc)
        ((gomap.get r.queryParam k).getD []) := by
  intro ops
  induction ops with
  | nil => intro r; rfl
  | cons e ops ih =>
    intro r
    have hstep : r.setQueryParams (e :: ops) = (r.setQueryParam e.1 e.2).setQueryParams ops := rfl
    rw [hstep, ih, List.foldl_cons]
    congr 1
    unfold request.setQueryParam
    split
    · rename_i hseq
      simp only [if_pos hseq]
      rw [← List.foldl_map (g := fun q iv => url.Values.Add q e.1 iv), addLoop_get]
      by_cases hk : e.1 = k
      · rw [if_pos hk, if_pos hk, hk]
        split
        · rename_i hnil
          rw [hnil]
          simp
        · rfl
      · rw [if_neg hk, if_neg hk]
    · rename_i hseq
      simp only [if_neg hseq, url.Values.Set, gomap.get_set]
      by_cases hk : e.1 = k
      · rw [if_pos hk, if_pos hk]
        rfl
      · rw [if_neg hk, if_neg hk]

/-- The query map of a request built by `setQueryParam` calls has one entry per key and
holds byte strings when the keys and the formatted values are byte strings. -/
theorem setQueryParams_inv : ∀ (ops : List (Str × Value)) (r : request),
    (∀ e ∈ ops, isBytes e.1 = true ∧ isBytes e.2.sprintValue = true ∧
      ∀ it ∈ e.2.items, isBytes it.sprint = true) →
    ((gomap.keys r.queryParam).Nodup ∧
      ∀ k vs, gomap.get r.queryParam k = some vs →
        isBytes k = true ∧ ∀ v ∈ vs, isBytes v = true) →
    ((gomap.keys (r.setQueryParams ops).queryParam).Nodup ∧
      ∀ k vs, gomap.get (r.setQueryParams ops).queryParam k = some vs →
        isBytes k = true ∧ ∀ v ∈ vs, isBytes v = true) := by
  intro ops
  induction ops with
  | nil => intro r _ h; exact h
  | cons e ops ih =>
    intro r hb hr
    have hstep : r.setQueryParams (e :: ops) = (r.setQueryParam e.1 e.2).setQueryParams ops := rfl
    rw [hstep]
    apply ih _ (fun x hx => hb x (List.mem_cons_of_mem _ hx))
    obtain ⟨hbk, hbv, hbi⟩ := hb e (List.mem_cons_self _ _)
    unfold request.setQueryParam
    split
    · simp only
      rw [← List.foldl_map (g := fun q iv => url.Values.Add q e.1 iv)]
      refine ⟨addLoop_nodup _ _ _ hr.1, ?_⟩
      intro k vs hget
      rw [addLoop_get] at hget
      by_cases hk : e.1 = k
      · rw [if_pos hk] at hget
        split at hget
        · rw [hk] at hget
          exact hr.2 k vs hget
        · simp only [Option.some.injEq] at hget
          refine ⟨hk ▸ hbk, ?_⟩
          intro v hv
          rw [← hget, List.mem_append] at hv
          rcases hv with hv | hv
          · cases hold : gomap.get r.queryParam e.1 with
            | none => rw [hold] at hv; simp at hv
            | some ws =>
              rw [hold] at hv
              exact (hr.2 e.1 ws hold).2 v hv
          · rw [List.mem_map] at hv
            obtain ⟨it, hit, hv⟩ := hv
            rw [← hv]
            exact hbi it hit
      · rw [if_neg hk] at hget
        exact hr.2 k vs hget
    · simp only [url.Values.Set]
      refine ⟨nodup_keys_set _ _ _ hr.1, ?_⟩
      intro k vs hget
      rw [gomap.get_set] at hget
      by_cases hk : e.1 = k
      · rw [if_pos hk] at hget
        simp only [Option.some.injEq] at hget
        refine ⟨hk ▸ hbk, ?_⟩
        intro v hv
        rw [← hget, List.mem_singleton] at hv
        rw [hv]
        exact hbv
      · rw [if_neg hk] at hget
        exact hr.2 k vs hget

/-- `URL.String` writes the raw query between two texts that do not depend on it. -/
theorem String_query (v : url.URL) (q : Str) :
    url.URL.String { v with RawQuery := q } =
      url.URL.stringBody v ++ (if v.ForceQuery ∨ q ≠ [] then '?' :: q else []) ++
        (if v.Fragment ≠ [] then '#' :: url.URL.EscapedFragment v else []) :=
  rfl

theorem withPathParams_queryParam (r : request) :
    (withPathParams r).queryParam = r.queryParam := by
  unfold withPathParams
  split <;> rfl

theorem addQuery_eq (v : url.URL) (Q : url.Values) :
    addQuery v Q =
      { v with RawQuery :=
          if Q = [] then v.RawQuery
          else if isStringEmpty v.RawQuery then url.Values.Encode Q
          else v.RawQuery ++ go "&" ++ url.Values.Encode Q } := by
  unfold addQuery
  cases Q with
  | nil => simp
  | cons e Q =>
    simp only [List.length_cons, gt_iff_lt, Nat.zero_lt_succ, if_true]
    split <;> simp

/-- C8 fails when the template already holds the key: with the base URL
`http://127.0.0.1:8899`, the template `/life/client1?q1=z` and `q1 = a` set through
`setQueryParam`, the resolved URL is `http://127.0.0.1:8899/life/client1?q1=z&q1=a`, whose
query string holds the values `z`, `a` for `q1`, while `a` alone was added. -/
theorem C8_template_query_counterexample :
    (parseRequestURL localClient.tocliCore
        ((({ url := go "/life/client1?q1=z" } : request)).setQueryParam (go "q1")
          (stringValue "a"))).1.url =
      go "http://127.0.0.1:8899/life/client1?q1=z&q1=a" ∧
    (url.Parse (go "http://127.0.0.1:8899/life/client1?q1=z&q1=a")).toOption.map
        (fun u => queryValues u.RawQuery (go "q1")) = some [go "z", go "a"] ∧
    addedValues (go "q1") [(go "q1", stringValue "a")] = [go "a"] := by
  decide

namespace strings

theorem Cut_append_notin (sep : Char) : ∀ (x y : Str), sep ∉ x →
    Cut (x ++ y) sep = (x ++ (Cut y sep).1, (Cut y sep).2.1, (Cut y sep).2.2) := by
  intro x
  induction x with
  | nil => intro y _; rfl
  | cons c x ih =>
    intro y h
    simp only [List.mem_cons, not_or] at h
    rw [List.cons_append, Cut, if_neg (fun hc => h.1 hc.symm), ih y h.2]
    rfl

theorem Cut_no_sep (sep : Char) : ∀ (s : Str), sep ∉ s → Cut s sep = (s, [], false) := by
  intro s
  induction s with
  | nil => intro _; rfl
  | cons c s ih =>
    intro h
    simp only [List.mem_cons, not_or] at h
    rw [Cut, if_neg (fun hc => h.1 hc.symm), ih h.2]

theorem Cut_fst_notin (sep : Char) : ∀ (s : Str), sep ∉ (Cut s sep).1 := by
  intro s
  induction s with
  | nil => simp [Cut]
  | cons c s ih =>
    rw [Cut]
    split
    · simp
    · rename_i hc
      simp only [List.mem_cons, not_or]
      exact ⟨fun h => hc h.symm, ih⟩

theorem Cut_split (sep : Char) : ∀ (s : Str),
    ((Cut s sep).2.2 = true ∧ s = (Cut s sep).1 ++ sep :: (Cut s sep).2.1) ∨
      ((Cut s sep).2.2 = false ∧ s = (Cut s sep).1 ∧ (Cut s sep).2.1 = []) := by
  intro s
  induction s with
  | nil => right; simp [Cut]
  | cons c s ih =>
    rw [Cut]
    split
    · rename_i hc
      left
      simp [hc]
    · rcases ih with ⟨h1, h2⟩ | ⟨h1, h2, h3⟩
      · left
        refine ⟨h1, ?_⟩
        simp only [List.cons_append, List.cons.injEq, true_and]
        exact h2
      · right
        refine ⟨h1, ?_, h3⟩
        simp only [List.cons.injEq, true_and]
        exact h2

theorem Cut_fst_mem (sep : Char) (s : Str) (c : Char) (h : c ∈ (Cut s sep).1) : c ∈ s := by
  rcases Cut_split sep s with ⟨_, h2⟩ | ⟨_, h2, _⟩
  · rw [h2]
    exact List.mem_append_left _ h
  · rw [h2]
    exact h

theorem Cut_snd_mem (sep : Char) (s : Str) (c : Char) (h : c ∈ (Cut s sep).2.1) : c ∈ s := by
  rcases Cut_split sep s with ⟨_, h2⟩ | ⟨_, _, h3⟩
  · rw [h2]
    exact List.mem_append_right _ (List.mem_cons_of_mem _ h)
  · rw [h3] at h
    cases h

end strings

namespace url

open encoding

theorem isCTL_cases (c : Char) (h : isCTL c = true) :
    ∃ n, (n < 32 ∨ n = 127) ∧ c = Char.ofNat n := by
  refine ⟨c.toNat, ?_, (Char.ofNat_toNat c).symm⟩
  simp only [isCTL, decide_eq_true_eq] at h
  rcases h with h | h
  · left
    have : c.toNat < ' '.toNat := h
    exact this
  · right
    exact h

theorem shouldEscape_of_isCTL (c : Char) (mode : encoding) (h : isCTL c = true) :
    shouldEscape c mode = true ∧
      c ∉ ['!', '$', '&', Char.ofNat 39, '(', ')', '*', '+', ',', ';', '=', ':', '@',
        '[', ']', '%'] := by
  obtain ⟨n, hn, rfl⟩ := isCTL_cases c h
  rcases hn with hn | hn
  · interval_cases n <;> cases mode <;> decide
  · subst hn
    cases mode <;> decide

theorem shouldEscape_pct (mode : encoding) : shouldEscape '%' mode = true := by
  cases mode <;> decide

theorem upperhex_alnum (n : Nat) (h : n < 16) : isAlnum (upperhex n) = true := by
  interval_cases n <;> decide

theorem shouldEscape_of_alnum (c : Char) (mode : encoding) (h : isAlnum c = true) :
    shouldEscape c mode = false := by
  unfold shouldEscape
  rw [if_pos h]

/-- Every byte that `escape` writes is accepted by `validEncoded`. -/
theorem validEncoded_escape (s : Str) (mode : encoding) :
    validEncoded (escape s mode) mode = true := by
  unfold validEncoded escape
  rw [List.all_eq_true]
  intro d hd
  rw [List.mem_flatMap] at hd
  obtain ⟨c, _, hc⟩ := hd
  unfold escapeByte at hc
  split at hc
  · split at hc
    · simp only [List.mem_singleton] at hc
      subst hc
      cases mode <;> decide
    · simp only [List.mem_cons, List.mem_singleton, List.not_mem_nil, or_false] at hc
      rcases hc with hc | hc | hc
      · subst hc
        cases mode <;> decide
      · subst hc
        rw [shouldEscape_of_alnum _ mode (upperhex_alnum _ (Nat.mod_lt _ (by decide)))]
        simp
      · subst hc
        rw [shouldEscape_of_alnum _ mode (upperhex_alnum _ (Nat.mod_lt _ (by decide)))]
        simp
  · rename_i hs
    simp only [List.mem_singleton] at hc
    subst hc
    simp only [Bool.not_eq_true] at hs
    rw [hs]
    simp

theorem unescapeCheck_plain_mode (mode : encoding) (c : Char) (t : Str)
    (hm : mode ≠ encodeHost ∧ mode ≠ encodeZone) (h1 : c ≠ '%') :
    unescapeCheck mode (c :: t) = unescapeCheck mode t := by
  conv_lhs => rw [unescapeCheck.eq_def]
  simp only [if_neg h1]
  split
  · rfl
  · rw [if_neg (fun h => by rcases h.1 with h | h; exact hm.1 h; exact hm.2 h)]

theorem unescapeCheck_pct_mode (mode : encoding) (a b : Char) (t : Str)
    (hm : mode ≠ encodeHost ∧ mode ≠ encodeZone) (ha : ishex a = true) (hb : ishex b = true) :
    unescapeCheck mode ('%' :: a :: b :: t) = unescapeCheck mode t := by
  conv_lhs => rw [unescapeCheck.eq_def]
  simp only [if_true, ha, hb]
  rw [if_neg (by decide), if_neg (fun h => hm.1 h.1), if_neg (fun h => hm.2 h.1)]

theorem unescapeCheck_escapeByte_mode (mode : encoding) (c : Char) (t : Str)
    (hm : mode ≠ encodeHost ∧ mode ≠ encodeZone) :
    unescapeCheck mode (escapeByte mode c ++ t) = unescapeCheck mode t := by
  unfold escapeByte
  split
  · split
    · exact unescapeCheck_plain_mode mode '+' t hm (by decide)
    · have h1 := upperhex_ishex (c.toNat / 16 % 16) (Nat.mod_lt _ (by decide))
      have h2 := upperhex_ishex (c.toNat % 16) (Nat.mod_lt _ (by decide))
      exact unescapeCheck_pct_mode mode _ _ t hm h1 h2
  · rename_i hs
    have hc : c ≠ '%' := by
      intro h
      subst h
      exact hs (shouldEscape_pct mode)
    exact unescapeCheck_plain_mode mode c t hm hc

/-- `unescape` accepts what `escape` writes. -/
theorem unescapeCheck_escape (mode : encoding) (hm : mode ≠ encodeHost ∧ mode ≠ encodeZone) :
    ∀ (s : Str), unescapeCheck mode (escape s mode) = none := by
  intro s
  unfold escape
  induction s with
  | nil => rfl
  | cons c s ih =>
    rw [List.flatMap_cons, unescapeCheck_escapeByte_mode mode c _ hm]
    exact ih

theorem unescapesTo_check (raw : Str) (mode : encoding) (want : Str)
    (h : unescapesTo raw mode want = true) : unescapeCheck mode raw = none := by
  unfold unescapesTo unescape at h
  cases hc : unescapeCheck mode raw with
  | none => rfl
  | some e => rw [hc] at h; simp at h

/-- The escaped path that `URL.String` writes is a valid encoding that `unescape`
accepts. -/
theorem EscapedPath_ok (t : URL) :
    validEncoded (URL.EscapedPath t) encodePath = true ∧
      unescapeCheck encodePath (URL.EscapedPath t) = none := by
  unfold URL.EscapedPath
  split
  · rename_i h
    exact ⟨h.2.1, unescapesTo_check _ _ _ h.2.2⟩
  · split
    · exact ⟨by decide, by decide⟩
    · exact ⟨validEncoded_escape _ _, unescapeCheck_escape _ (by decide) _⟩

/-- The escaped fragment that `URL.String` writes is a valid encoding that `unescape`
accepts. -/
theorem EscapedFragment_ok (t : URL) :
    validEncoded (URL.EscapedFragment t) encodeFragment = true ∧
      unescapeCheck encodeFragment (URL.EscapedFragment t) = none := by
  unfold URL.EscapedFragment
  split
  · rename_i h
    exact ⟨h.2.1, unescapesTo_check _ _ _ h.2.2⟩
  · exact ⟨validEncoded_escape _ _, unescapeCheck_escape _ (by decide) _⟩

/-- A valid encoding holds no control character and no `#`, and no `?` when it is the
encoding of a path. -/
theorem validEncoded_mem (s : Str) (mode : encoding) (h : validEncoded s mode = true)
    (c : Char) (hc : c ∈ s) :
    isCTL c = false ∧ c ≠ '#' ∧ (mode = encodePath → c ≠ '?') := by
  unfold validEncoded at h
  rw [List.all_eq_true] at h
  have hcv := h c hc
  refine ⟨?_, ?_, ?_⟩
  · cases hctl : isCTL c with
    | false => rfl
    | true =>
      exfalso
      obtain ⟨h1, h2⟩ := shouldEscape_of_isCTL c mode hctl
      simp only [Bool.or_eq_true, decide_eq_true_eq, Bool.not_eq_true'] at hcv
      rcases hcv with hcv | hcv
      · exact h2 hcv
      · rw [h1] at hcv
        cases hcv
  · intro hx
    subst hx
    revert hcv
    cases mode <;> decide
  · intro hm hx
    subst hm hx
    revert hcv
    decide

theorem getSchemeGo_rest_mem (raw : Str) : ∀ (s : Str) (i : Nat) (a b : Str),
    (∀ c ∈ s, c ∈ raw) → getSchemeGo raw i s = .ok (a, b) → ∀ c ∈ b, c ∈ raw := by
  intro s
  induction s with
  | nil =>
    intro i a b _ h
    simp only [getSchemeGo, Except.ok.injEq, Prod.mk.injEq] at h
    rw [← h.2]
    exact fun c hc => hc
  | cons d s ih =>
    intro i a b hs h
    rw [getSchemeGo] at h
    split at h
    · exact ih _ a b (fun c hc => hs c (List.mem_cons_of_mem _ hc)) h
    · split at h
      · split at h
        · simp only [Except.ok.injEq, Prod.mk.injEq] at h
          rw [← h.2]
          exact fun c hc => hc
        · exact ih _ a b (fun c hc => hs c (List.mem_cons_of_mem _ hc)) h
      · split at h
        · split at h
          · cases h
          · simp only [Except.ok.injEq, Prod.mk.injEq] at h
            rw [← h.2]
            exact fun c hc => hs c (List.mem_cons_of_mem _ hc)
        · simp only [Except.ok.injEq, Prod.mk.injEq] at h
          rw [← h.2]
          exact fun c hc => hc

/-- What `setPath` returns: the fields other than the path are kept, the path is the
decoded text, and the text is one that `unescape` accepts. -/
theorem setPath_ok (u u1 : URL) (p : Str) (h : URL.setPath u p = .ok u1) :
    unescapeCheck encodePath p = none ∧
      ∃ rp, u1 = { u with Path := unescapeGo encodePath p, RawPath := rp } ∧
        ((rp = [] ∧ p = escape (unescapeGo encodePath p) encodePath) ∨ rp = p) := by
  unfold URL.setPath unescape at h
  cases hc : unescapeCheck encodePath p with
  | some e => rw [hc] at h; simp at h
  | none =>
    rw [hc] at h
    simp only at h
    refine ⟨rfl, ?_⟩
    split at h
    · rename_i heq
      simp only [Except.ok.injEq] at h
      exact ⟨[], h.symm, Or.inl ⟨rfl, heq⟩⟩
    · simp only [Except.ok.injEq] at h
      exact ⟨p, h.symm, Or.inr rfl⟩

/-- What `setFragment` returns. -/
theorem setFragment_ok (u u1 : URL) (f : Str) (h : URL.setFragment u f = .ok u1) :
    unescapeCheck encodeFragment f = none ∧
      ∃ rf, u1 = { u with Fragment := unescapeGo encodeFragment f, RawFragment := rf } ∧
        ((rf = [] ∧ f = escape (unescapeGo encodeFragment f) encodeFragment) ∨ rf = f) := by
  unfold URL.setFragment unescape at h
  cases hc : unescapeCheck encodeFragment f with
  | some e => rw [hc] at h; simp at h
  | none =>
    rw [hc] at h
    simp only at h
    refine ⟨rfl, ?_⟩
    split at h
    · rename_i heq
      simp only [Except.ok.injEq] at h
      exact ⟨[], h.symm, Or.inl ⟨rfl, heq⟩⟩
    · simp only [Except.ok.injEq] at h
      exact ⟨f, h.symm, Or.inr rfl⟩

theorem ToLower_eq_nil (s : Str) (h : strings.ToLower s = []) : s = [] := by
  unfold strings.ToLower at h
  exact List.map_eq_nil_iff.mp h

/-- What `parseRest` keeps of the URL it is given: the scheme, the query, and an empty
opaque part unless there is a scheme. -/
theorem parseRest_ok (u0 u : URL) (rest : Str) (h : parseRest u0 rest = .ok u)
    (hop : u0.Opaque = []) :
    u.Scheme = u0.Scheme ∧ u.RawQuery = u0.RawQuery ∧ u.ForceQuery = u0.ForceQuery ∧
      u.Fragment = u0.Fragment ∧ u.RawFragment = u0.RawFragment ∧
      (u.Scheme = [] → u.Opaque = []) := by
  unfold parseRest at h
  by_cases h1 : (!strings.HasPrefix rest ['/'] && decide (u0.Scheme ≠ [])) = true
  · rw [if_pos h1] at h
    simp only [Except.ok.injEq] at h
    rw [← h]
    refine ⟨rfl, rfl, rfl, rfl, rfl, ?_⟩
    intro hs
    simp only [Bool.and_eq_true, decide_eq_true_eq] at h1
    exact absurd hs h1.2
  · rw [if_neg h1] at h
    by_cases h2 : (!strings.HasPrefix rest ['/'] &&
        strings.Contains (strings.Cut rest '/').1 [':']) = true
    · rw [if_pos h2] at h
      cases h
    · rw [if_neg h2] at h
      by_cases h3 : ((decide (u0.Scheme ≠ []) || !strings.HasPrefix rest (go "///")) &&
          strings.HasPrefix rest (go "//")) = true
      · rw [if_pos h3] at h
        cases hpa : parseAuthority (authorityOf rest) with
        | error e => rw [hpa] at h; cases h
        | ok pr =>
          obtain ⟨user, host⟩ := pr
          rw [hpa] at h
          obtain ⟨_, rp, hu, _⟩ := setPath_ok _ _ _ h
          rw [hu]
          exact ⟨rfl, rfl, rfl, rfl, rfl, fun _ => hop⟩
      · rw [if_neg h3] at h
        by_cases h4 : (decide (u0.Scheme ≠ []) && strings.HasPrefix rest ['/']) = true
        · rw [if_pos h4] at h
          obtain ⟨_, rp, hu, _⟩ := setPath_ok _ _ _ h
          rw [hu]
          exact ⟨rfl, rfl, rfl, rfl, rfl, fun _ => hop⟩
        · rw [if_neg h4] at h
          obtain ⟨_, rp, hu, _⟩ := setPath_ok _ _ _ h
          rw [hu]
          exact ⟨rfl, rfl, rfl, rfl, rfl, fun _ => hop⟩

theorem rawQueryOf_mem (rest : Str) (c : Char) (h : c ∈ rawQueryOf rest) : c ∈ rest := by
  unfold rawQueryOf at h
  split at h
  · cases h
  · exact strings.Cut_snd_mem _ _ _ h

/-- What `parse` guarantees about the URL it returns: the text holds no control character,
the raw query is made of bytes of the text, a URL without scheme has no opaque part, and
there is no fragment yet. -/
theorem parse_ok (raw : Str) (u : URL) (h : parse raw = .ok u) :
    stringContainsCTLByte raw = false ∧ (∀ c ∈ u.RawQuery, c ∈ raw) ∧
      (u.Scheme = [] → u.Opaque = []) ∧ u.Fragment = [] ∧ u.RawFragment = [] := by
  unfold parse at h
  by_cases hctl : stringContainsCTLByte raw = true
  · rw [if_pos hctl] at h
    cases h
  rw [if_neg hctl] at h
  refine ⟨by simpa using hctl, ?_⟩
  by_cases hstar : raw = ['*']
  · rw [if_pos hstar] at h
    simp only [Except.ok.injEq] at h
    rw [← h]
    exact ⟨by simp, fun _ => rfl, rfl, rfl⟩
  rw [if_neg hstar] at h
  cases hg : getScheme raw with
  | error e => rw [hg] at h; cases h
  | ok pr =>
    obtain ⟨scheme, rest0⟩ := pr
    rw [hg] at h
    simp only at h
    have hrest : ∀ c ∈ rest0, c ∈ raw :=
      getSchemeGo_rest_mem raw raw 0 scheme rest0 (fun c hc => hc) hg
    obtain ⟨_, h2, _, h4, h5, h6⟩ := parseRest_ok _ _ _ h rfl
    refine ⟨?_, h6, h4, h5⟩
    intro c hc
    rw [h2] at hc
    exact hrest c (rawQueryOf_mem rest0 c hc)

/-- What `Parse` guarantees about the URL it returns: the raw query holds no control
character and no `#`, and a URL without scheme has no opaque part. -/
theorem Parse_ok (T : Str) (t : URL) (h : Parse T = .ok t) :
    (∀ c ∈ t.RawQuery, isCTL c = false ∧ c ≠ '#') ∧ (t.Scheme = [] → t.Opaque = []) := by
  unfold Parse at h
  simp only at h
  cases hp : parse (strings.Cut T '#').1 with
  | error e => rw [hp] at h; cases h
  | ok u =>
    rw [hp] at h
    simp only at h
    obtain ⟨hctl, hq, hop, _, _⟩ := parse_ok _ u hp
    have hfields : t.RawQuery = u.RawQuery ∧ t.Scheme = u.Scheme ∧ t.Opaque = u.Opaque := by
      split at h
      · simp only [Except.ok.injEq] at h
        rw [h]
        exact ⟨rfl, rfl, rfl⟩
      · obtain ⟨_, rf, hu, _⟩ := setFragment_ok _ _ _ h
        rw [hu]
        exact ⟨rfl, rfl, rfl⟩
    rw [hfields.1, hfields.2.1, hfields.2.2]
    refine ⟨?_, hop⟩
    intro c hc
    have hmem := hq c hc
    constructor
    · unfold stringContainsCTLByte at hctl
      cases hx : isCTL c with
      | false => rfl
      | true =>
        exfalso
        have : (strings.Cut T '#').1.any (fun b => decide (b < ' ' ∨ b.toNat = 0x7f)) = true := by
          rw [List.any_eq_true]
          exact ⟨c, hmem, hx⟩
        rw [this] at hctl
        cases hctl
    · intro hcs
      subst hcs
      exact strings.Cut_fst_notin '#' T hmem

theorem countGo_single (c : Char) : ∀ (s : Str), strings.countGo [c] 0 s = s.count c := by
  intro s
  induction s with
  | nil => rfl
  | cons d s ih =>
    rw [strings.countGo]
    by_cases h : d = c
    · subst h
      have : List.isPrefixOf [d] (d :: s) = true := by simp [List.isPrefixOf]
      rw [if_pos this]
      simp only [List.length_singleton, Nat.sub_self, List.count_cons_self]
      rw [ih]
      omega
    · have : ¬ List.isPrefixOf [c] (d :: s) = true := by
        simp only [List.isPrefixOf, Bool.and_eq_true, beq_iff_eq, List.isPrefixOf_nil_left,
          and_true]
        exact fun x => h x.symm
      rw [if_neg this, ih, List.count_cons_of_ne (Ne.symm h)]

theorem forceQuery_false_of_notin (Y : Str) (h : '?' ∉ Y) : forceQuery Y = false := by
  unfold forceQuery strings.HasSuffix
  cases hs : List.isSuffixOf ['?'] Y with
  | false => rfl
  | true =>
    exfalso
    have : ['?'] <:+ Y := List.isSuffixOf_iff_suffix.mp hs
    obtain ⟨t, ht⟩ := this
    apply h
    rw [← ht]
    simp

/-- How `parse` splits the text `Y` followed by a query part, when `Y` holds no `?`: the
text before the query is `Y`, and the flag and the raw query print the query part
again. -/
theorem query_split (Y Qp : Str) (hY : '?' ∉ Y)
    (hQ : Qp = [] ∨ ∃ rq, Qp = '?' :: rq) :
    beforeQuery (Y ++ Qp) = Y ∧
      (if forceQuery (Y ++ Qp) = true ∨ rawQueryOf (Y ++ Qp) ≠ [] then
        '?' :: rawQueryOf (Y ++ Qp) else []) = Qp := by
  rcases hQ with hQ | ⟨rq, hQ⟩
  · subst hQ
    rw [List.append_nil]
    have hf := forceQuery_false_of_notin Y hY
    unfold beforeQuery rawQueryOf
    rw [hf, strings.Cut_no_sep '?' Y hY]
    simp
  · subst hQ
    cases rq with
    | nil =>
      have hf : forceQuery (Y ++ ['?']) = true := by
        unfold forceQuery strings.HasSuffix strings.Count
        have h1 : List.isSuffixOf ['?'] (Y ++ ['?']) = true :=
          List.isSuffixOf_iff_suffix.mpr (List.suffix_append _ _)
        have h2 : List.count '?' Y = 0 := List.count_eq_zero.mpr hY
        rw [h1]
        simp only [List.isEmpty_cons, Bool.false_eq_true, if_false, countGo_single,
          List.count_append, h2]
        rfl
      unfold beforeQuery rawQueryOf
      rw [hf]
      simp
    | cons a rq =>
      have hf : forceQuery (Y ++ '?' :: a :: rq) = false := by
        unfold forceQuery strings.HasSuffix strings.Count
        cases hs : List.isSuffixOf ['?'] (Y ++ '?' :: a :: rq) with
        | false => rfl
        | true =>
          have hsuf : ['?'] <:+ Y ++ '?' :: a :: rq := List.isSuffixOf_iff_suffix.mp hs
          have hsuf2 : ['?'] <:+ a :: rq := by
            have h3 : a :: rq <:+ Y ++ '?' :: a :: rq :=
              ⟨Y ++ ['?'], by simp⟩
            rcases List.suffix_or_suffix_of_suffix hsuf h3 with h | h
            · exact h
            · have hl := h.length_le
              have hrq : rq = [] := by
                cases rq with
                | nil => rfl
                | cons b t => simp at hl
              subst hrq
              have he : [a] = ['?'] := List.IsSuffix.eq_of_length h rfl
              rw [he]
          have hmem : '?' ∈ a :: rq := by
            obtain ⟨t, ht⟩ := hsuf2
            rw [← ht]
            simp
          have hpos : 0 < List.count '?' (a :: rq) := List.count_pos_iff.mpr hmem
          simp only [List.isEmpty_cons, Bool.false_eq_true, if_false, countGo_single,
            List.count_append, List.count_cons_self, Bool.true_and, beq_eq_false_iff_ne, ne_eq]
          omega
      unfold beforeQuery rawQueryOf
      rw [hf, strings.Cut_at_sep Y (a :: rq) '?' hY]
      simp

/-- `getScheme` on a text that begins with `/`. -/
theorem getScheme_slash (s : Str) : getScheme ('/' :: s) = .ok ([], '/' :: s) := by
  unfold getScheme
  rw [getSchemeGo, if_neg (by decide), if_neg (by decide), if_neg (by decide)]

theorem Index_slash (auth P : Str) (ha : '/' ∉ auth) (hP : P.head? = some '/') :
    strings.Index (auth ++ P) ['/'] = some auth.length := by
  induction auth with
  | nil =>
    cases P with
    | nil => simp at hP
    | cons c P =>
      simp only [List.head?_cons, Option.some.injEq] at hP
      subst hP
      simp [strings.Index, List.isPrefixOf]
  | cons c auth ih =>
    simp only [List.mem_cons, not_or] at ha
    rw [List.cons_append, strings.Index]
    have : ¬ List.isPrefixOf ['/'] (c :: (auth ++ P)) = true := by
      simp only [List.isPrefixOf, Bool.and_eq_true, beq_iff_eq, List.isPrefixOf_nil_left,
        and_true]
      exact ha.1
    rw [if_neg this, ih ha.2]
    rfl

theorem unescapeGo_ne_nil (mode : encoding) (s : Str) (hc : unescapeCheck mode s = none)
    (hs : s ≠ []) : unescapeGo mode s ≠ [] := by
  cases s with
  | nil => exact absurd rfl hs
  | cons c s =>
    by_cases h : c = '%'
    · subst h
      cases s with
      | nil => simp [unescapeCheck] at hc
      | cons a s =>
        cases s with
        | nil => simp [unescapeCheck] at hc
        | cons b t => simp [unescapeGo]
    · intro hnil
      rw [unescapeGo.eq_def] at hnil
      simp only [if_neg h] at hnil
      split at hnil <;> cases hnil

theorem escapeByte_ne_nil (mode : encoding) (c : Char) : escapeByte mode c ≠ [] := by
  unfold escapeByte
  split
  · split <;> simp
  · simp

theorem escape_ne_nil (mode : encoding) (s : Str) (hs : s ≠ []) : escape s mode ≠ [] := by
  cases s with
  | nil => exact absurd rfl hs
  | cons c s =>
    unfold escape
    rw [List.flatMap_cons]
    intro h
    exact escapeByte_ne_nil mode c (List.append_eq_nil.mp h).1

/-- `setPath` accepts a valid encoding, and the URL it returns has the text as its escaped
path. -/
theorem setPath_valid (u : URL) (P : Str) (hP : P.head? = some '/')
    (hv : validEncoded P encodePath = true) (hc : unescapeCheck encodePath P = none) :
    ∃ rp, URL.setPath u P = .ok { u with Path := unescapeGo encodePath P, RawPath := rp } ∧
      URL.EscapedPath { u with Path := unescapeGo encodePath P, RawPath := rp } = P := by
  unfold URL.setPath unescape
  rw [hc]
  dsimp only
  by_cases heq : P = escape (unescapeGo encodePath P) encodePath
  · refine ⟨[], by rw [if_pos heq], ?_⟩
    unfold URL.EscapedPath
    dsimp only
    rw [if_neg (fun h => h.1 rfl)]
    by_cases hs : unescapeGo encodePath P = ['*']
    · exfalso
      cases P with
      | nil => simp at hP
      | cons c P =>
        simp only [List.head?_cons, Option.some.injEq] at hP
        subst hP
        rw [unescapeGo.eq_def] at hs
        simp at hs
    · rw [if_neg hs]
      exact heq.symm
  · refine ⟨P, by rw [if_neg heq], ?_⟩
    unfold URL.EscapedPath
    dsimp only
    have hne : P ≠ [] := by
      intro h
      subst h
      exact heq rfl
    have hto : unescapesTo P encodePath (unescapeGo encodePath P) = true := by
      unfold unescapesTo unescape
      rw [hc]
      simp
    rw [if_pos ⟨hne, hv, hto⟩]

/-- `setFragment` accepts a valid encoding, and the URL it returns has the text as its
escaped fragment. -/
theorem setFragment_valid (u : URL) (F : Str) (hv : validEncoded F encodeFragment = true)
    (hc : unescapeCheck encodeFragment F = none) :
    ∃ rf, URL.setFragment u F =
        .ok { u with Fragment := unescapeGo encodeFragment F, RawFragment := rf } ∧
      URL.EscapedFragment { u with Fragment := unescapeGo encodeFragment F, RawFragment := rf }
        = F := by
  unfold URL.setFragment unescape
  rw [hc]
  dsimp only
  by_cases heq : F = escape (unescapeGo encodeFragment F) encodeFragment
  · refine ⟨[], by rw [if_pos heq], ?_⟩
    unfold URL.EscapedFragment
    dsimp only
    rw [if_neg (fun h => h.1 rfl)]
    exact heq.symm
  · refine ⟨F, by rw [if_neg heq], ?_⟩
    unfold URL.EscapedFragment
    dsimp only
    have hne : F ≠ [] := by
      intro h
      subst h
      exact heq rfl
    have hto : unescapesTo F encodeFragment (unescapeGo encodeFragment F) = true := by
      unfold unescapesTo unescape
      rw [hc]
      simp
    rw [if_pos ⟨hne, hv, hto⟩]

theorem noCTL_of_forall (s : Str) (h : ∀ c ∈ s, isCTL c = false) :
    stringContainsCTLByte s = false := by
  unfold stringContainsCTLByte
  rw [List.any_eq_false]
  intro c hc
  have := h c hc
  unfold isCTL at this
  rw [this]
  decide

/-- What `URL.String` writes before the query for a URL without scheme, host and user and
with a path that begins with `/`. -/
theorem stringBody_rel (v : URL) (P : Str) (hO : v.Opaque = []) (hS : v.Scheme = [])
    (hU : v.User = none) (hH : v.Host = []) (hE : URL.EscapedPath v = P)
    (hP : P.head? = some '/') :
    URL.stringBody v = P := by
  unfold URL.stringBody URL.authorityString
  simp only [hO, hS, hU, hE, hH, hP]
  cases P with
  | nil => simp at hP
  | cons c P =>
    simp only [List.head?_cons, Option.some.injEq] at hP
    subst hP
    simp [strings.Cut, strings.Contains, strings.Index]

theorem authorityOf_joined (auth P : Str) (ha : '/' ∉ auth) (hP : P.head? = some '/') :
    authorityOf ('/' :: '/' :: (auth ++ P)) = auth ∧
      pathAfterAuthority ('/' :: '/' :: (auth ++ P)) = P := by
  unfold authorityOf pathAfterAuthority
  have : List.drop 2 ('/' :: '/' :: (auth ++ P)) = auth ++ P := rfl
  rw [this, Index_slash auth P ha hP]
  simp

theorem parseRest_rel (u0 : URL) (P : Str) (hS : u0.Scheme = [])
    (hP : P.head? = some '/') (hP2 : strings.HasPrefix P (go "//") = false) :
    parseRest u0 P = URL.setPath u0 P := by
  have hp1 : strings.HasPrefix P ['/'] = true := by
    cases P with
    | nil => simp at hP
    | cons c P =>
      simp only [List.head?_cons, Option.some.injEq] at hP
      subst hP
      simp [strings.HasPrefix, List.isPrefixOf]
  unfold parseRest
  simp [hp1, hP2, hS]

/-- `parse` on a path that begins with one `/`, followed by a query part: it succeeds, and
the URL it returns prints the same text. -/
theorem parse_rel (P Qp : Str)
    (hP : P.head? = some '/') (hP2 : strings.HasPrefix P (go "//") = false)
    (hPv : validEncoded P encodePath = true) (hPc : unescapeCheck encodePath P = none)
    (hQ : Qp = [] ∨ ∃ rq, Qp = '?' :: rq ∧ ∀ c ∈ rq, isCTL c = false) :
    ∃ v, parse (P ++ Qp) = .ok v ∧ URL.stringBody v = P ∧
      queryPart v = Qp ∧ v.Fragment = [] ∧ v.RawFragment = [] ∧ v.Scheme = [] := by
  have hqY : '?' ∉ P := fun hm => (validEncoded_mem P _ hPv _ hm).2.2 rfl rfl
  have hctl : stringContainsCTLByte (P ++ Qp) = false := by
    apply noCTL_of_forall
    intro c hc
    rcases List.mem_append.mp hc with hc | hc
    · exact (validEncoded_mem P _ hPv c hc).1
    · rcases hQ with hQ | ⟨rq, hQ, hrq⟩
      · subst hQ
        cases hc
      · subst hQ
        rcases List.mem_cons.mp hc with hc | hc
        · subst hc; decide
        · exact hrq c hc
  obtain ⟨hbefore, hprint⟩ := query_split P Qp hqY
    (by rcases hQ with hQ | ⟨rq, hQ, _⟩
        · exact Or.inl hQ
        · exact Or.inr ⟨rq, hQ⟩)
  obtain ⟨rp, hset, hesc⟩ := setPath_valid
    { Scheme := [], ForceQuery := forceQuery (P ++ Qp), RawQuery := rawQueryOf (P ++ Qp) }
    P hP hPv hPc
  cases P with
  | nil => simp at hP
  | cons c w =>
    simp only [List.head?_cons, Option.some.injEq] at hP
    subst hP
    refine ⟨{ Scheme := [], ForceQuery := forceQuery (('/' :: w) ++ Qp),
              RawQuery := rawQueryOf (('/' :: w) ++ Qp),
              Path := unescapeGo encodePath ('/' :: w), RawPath := rp },
      ?_, ?_, ?_, ?_, ?_, ?_⟩
    · unfold parse
      rw [hctl, if_neg (by decide), if_neg (by simp), List.cons_append, getScheme_slash]
      dsimp only
      rw [← List.cons_append, hbefore]
      have : strings.ToLower [] = [] := rfl
      rw [this, parseRest_rel _ ('/' :: w) rfl rfl hP2]
      exact hset
    · exact stringBody_rel _ _ rfl rfl rfl rfl hesc rfl
    · exact hprint
    · rfl
    · rfl
    · rfl

theorem String_parts (v : URL) :
    URL.String v = URL.stringBody v ++ queryPart v ++ fragmentPart v := rfl

/-- `Parse` on a text that `parse` accepts, followed by a fragment part: it succeeds, and
the URL it returns prints the fragment part again. -/
theorem Parse_joined (R Fp : Str) (v : URL) (hR : '#' ∉ R) (hparse : parse R = .ok v)
    (hvF : v.Fragment = [])
    (hF : Fp = [] ∨ ∃ ef, Fp = '#' :: ef ∧ ef ≠ [] ∧
      validEncoded ef encodeFragment = true ∧ unescapeCheck encodeFragment ef = none) :
    ∃ w, Parse (R ++ Fp) = .ok w ∧ URL.stringBody w = URL.stringBody v ∧
      queryPart w = queryPart v ∧ fragmentPart w = Fp ∧ w.Scheme = v.Scheme := by
  rcases hF with hF | ⟨ef, hF, hne, hv, hc⟩
  · subst hF
    refine ⟨v, ?_, rfl, rfl, ?_, rfl⟩
    · unfold Parse
      rw [List.append_nil, strings.Cut_no_sep '#' R hR]
      simp only [hparse, if_true]
    · unfold fragmentPart
      rw [if_neg (fun h => h hvF)]
  · subst hF
    obtain ⟨rf, hset, hesc⟩ := setFragment_valid v ef hv hc
    refine ⟨{ v with Fragment := unescapeGo encodeFragment ef, RawFragment := rf },
      ?_, rfl, rfl, ?_, rfl⟩
    · unfold Parse
      rw [strings.Cut_at_sep R ef '#' hR]
      simp only [hparse, if_neg hne]
      exact hset
    · unfold fragmentPart
      rw [if_pos (unescapeGo_ne_nil _ ef hc hne), hesc]

theorem queryPart_head (v : URL) : (queryPart v).head? ≠ some '/' := by
  unfold queryPart
  split <;> simp

/-- The query part that a parsed URL prints is empty, or `?` and a raw query without
control characters and `#`. -/
theorem queryPart_cases (T : Str) (t : URL) (hT : Parse T = .ok t) :
    queryPart t = [] ∨
      ∃ rq, queryPart t = '?' :: rq ∧ ∀ c ∈ rq, isCTL c = false ∧ c ≠ '#' := by
  unfold queryPart
  split
  · exact Or.inr ⟨t.RawQuery, rfl, (Parse_ok T t hT).1⟩
  · exact Or.inl rfl

/-- The fragment part that a URL prints is empty, or `#` and a non-empty valid encoding. -/
theorem fragmentPart_cases (t : URL) :
    fragmentPart t = [] ∨
      ∃ ef, fragmentPart t = '#' :: ef ∧ ef ≠ [] ∧
        validEncoded ef encodeFragment = true ∧ unescapeCheck encodeFragment ef = none := by
  unfold fragmentPart
  split
  · rename_i hne
    refine Or.inr ⟨URL.EscapedFragment t, rfl, ?_, (EscapedFragment_ok t).1,
      (EscapedFragment_ok t).2⟩
    unfold URL.EscapedFragment
    split
    · rename_i h
      exact h.1
    · exact escape_ne_nil _ _ hne
  · exact Or.inl rfl

theorem fragmentPart_head (v : URL) : (fragmentPart v).head? ≠ some '/' := by
  unfold fragmentPart
  split <;> simp

theorem HasPrefix_append (a b p : Str) (h : strings.HasPrefix a p = true) :
    strings.HasPrefix (a ++ b) p = true := by
  unfold strings.HasPrefix at h ⊢
  rw [List.isPrefixOf_iff_prefix] at h ⊢
  exact h.trans (List.prefix_append a b)

/-- A URL without scheme and opaque part that has a host or a user prints `//` first. -/
theorem stringBody_authority (t : URL) (hS : t.Scheme = []) (hO : t.Opaque = [])
    (h : t.Host ≠ [] ∨ t.User.isSome = true) :
    strings.HasPrefix (URL.stringBody t) (go "//") = true := by
  have hauth : ∃ A, URL.authorityString t = '/' :: '/' :: A := by
    unfold URL.authorityString
    rw [if_pos (Or.inr h)]
    have h1 : ¬ (t.OmitHost = true ∧ t.Host = [] ∧ t.User.isNone = true) := by
      rintro ⟨_, h2, h3⟩
      rcases h with h | h
      · exact h h2
      · cases hu : t.User with
        | none => rw [hu] at h; cases h
        | some x => rw [hu] at h3; cases h3
    have h2 : t.Host ≠ [] ∨ t.Path ≠ [] ∨ t.User.isSome = true := by
      rcases h with h | h
      · exact Or.inl h
      · exact Or.inr (Or.inr h)
    rw [if_neg h1, if_pos h2]
    exact ⟨_, rfl⟩
  obtain ⟨A, hA⟩ := hauth
  unfold URL.stringBody
  rw [if_neg (fun h => h hO), hA, if_neg (fun h => hS.symm ▸ h <| rfl)]
  dsimp only
  split_ifs with h1 h2 h3
  · simp at h2
  · simp [strings.HasPrefix, List.isPrefixOf, go]
  · simp at h3
  · simp [strings.HasPrefix, List.isPrefixOf, go]

/-- What a URL without scheme, opaque part, host and user prints before the query. -/
theorem stringBody_path (t : URL) (hS : t.Scheme = []) (hO : t.Opaque = [])
    (hH : t.Host = []) (hU : t.User = none) :
    URL.stringBody t =
      (if strings.Contains (strings.Cut (URL.EscapedPath t) '/').1 [':'] = true then go "./"
        else []) ++ URL.EscapedPath t := by
  unfold URL.stringBody URL.authorityString
  simp [hS, hO, hH, hU]

theorem withSlash_parts (Bd Qp Fp : Str) (hne : Bd ++ Qp ++ Fp ≠ [])
    (hq : Qp.head? ≠ some '/') (hf : Fp.head? ≠ some '/') :
    withSlash (Bd ++ Qp ++ Fp) =
      (if Bd.head? = some '/' then Bd else '/' :: Bd) ++ Qp ++ Fp := by
  unfold withSlash
  have hlen : (Bd ++ Qp ++ Fp).length > 0 := List.length_pos.mpr hne
  cases Bd with
  | nil =>
    have hhead : ([] ++ Qp ++ Fp).head? ≠ some '/' := by
      cases Qp with
      | nil => exact hf
      | cons c Qp => exact hq
    rw [if_pos ⟨hlen, hhead⟩]
    simp
  | cons c Bd =>
    by_cases hc : c = '/'
    · subst hc
      rw [if_neg (fun h => h.2 rfl)]
      simp
    · have h1 : ((c :: Bd) ++ Qp ++ Fp).head? ≠ some '/' := by
        simp only [List.cons_append, List.head?_cons, ne_eq, Option.some.injEq]
        exact hc
      have h2 : ¬ (c :: Bd).head? = some '/' := by
        simp only [List.head?_cons, Option.some.injEq]
        exact hc
      rw [if_pos ⟨hlen, h1⟩, if_neg h2]
      rfl

theorem validEncoded_cons (c : Char) (s : Str) (mode : encoding)
    (hc : validEncoded [c] mode = true) (hs : validEncoded s mode = true) :
    validEncoded (c :: s) mode = true := by
  unfold validEncoded at hc hs ⊢
  rw [List.all_cons, hs, Bool.and_true]
  simpa using hc

/-- The printed form of a parsed URL without scheme, after `withSlash`: a path part that
begins with exactly one `/` and is a valid encoding, then the query part and the fragment
part of the URL. -/
theorem withSlash_String (T : Str) (t : URL) (hT : Parse T = .ok t) (hS : t.Scheme = [])
    (hne : URL.String t ≠ [])
    (h2 : strings.HasPrefix (URL.String t) (go "//") = false) :
    ∃ P, withSlash (URL.String t) = P ++ queryPart t ++ fragmentPart t ∧
      P.head? = some '/' ∧ strings.HasPrefix P (go "//") = false ∧
      validEncoded P encodePath = true ∧ unescapeCheck encodePath P = none := by
  have hO := (Parse_ok T t hT).2 hS
  by_cases hauth : t.Host ≠ [] ∨ t.User.isSome = true
  · exfalso
    have h3 := HasPrefix_append _ (fragmentPart t) _
      (HasPrefix_append _ (queryPart t) _ (stringBody_authority t hS hO hauth))
    rw [← String_parts, h2] at h3
    cases h3
  · have hH : t.Host = [] := by
      by_contra h
      exact hauth (Or.inl h)
    have hU : t.User = none := by
      cases hu : t.User with
      | none => rfl
      | some x =>
        exfalso
        apply hauth
        right
        rw [hu]
        rfl
    have hbody := stringBody_path t hS hO hH hU
    obtain ⟨hXv, hXc⟩ := EscapedPath_ok t
    have hB : validEncoded (URL.stringBody t) encodePath = true ∧
        unescapeCheck encodePath (URL.stringBody t) = none := by
      rw [hbody]
      split
      · constructor
        · exact validEncoded_cons '.' _ _ (by decide) (validEncoded_cons '/' _ _ (by decide) hXv)
        · show unescapeCheck encodePath ('.' :: '/' :: URL.EscapedPath t) = none
          rw [unescapeCheck_plain_mode _ '.' _ (by decide) (by decide),
            unescapeCheck_plain_mode _ '/' _ (by decide) (by decide)]
          exact hXc
      · exact ⟨hXv, hXc⟩
    refine ⟨if (URL.stringBody t).head? = some '/' then URL.stringBody t
      else '/' :: URL.stringBody t, ?_, ?_, ?_, ?_, ?_⟩
    · rw [String_parts]
      exact withSlash_parts _ _ _ (by rw [← String_parts]; exact hne) (queryPart_head t)
        (fragmentPart_head t)
    · split
      · assumption
      · rfl
    · split
      · cases hp : strings.HasPrefix (URL.stringBody t) (go "//") with
        | false => rfl
        | true =>
          exfalso
          have h3 := HasPrefix_append _ (fragmentPart t) _
            (HasPrefix_append _ (queryPart t) _ hp)
          rw [← String_parts, h2] at h3
          cases h3
      · rename_i hh
        cases hb : URL.stringBody t with
        | nil => rfl
        | cons c Bd =>
          rw [hb] at hh
          simp only [List.head?_cons, Option.some.injEq] at hh
          simp only [strings.HasPrefix, List.isPrefixOf, go, beq_self_eq_true, Bool.true_and,
            List.isPrefixOf_nil_left, Bool.and_true, beq_eq_false_iff_ne, ne_eq]
          exact fun h => hh h.symm
    · split
      · exact hB.1
      · exact validEncoded_cons '/' _ _ (by decide) hB.1
    · split
      · exact hB.2
      · rw [unescapeCheck_plain_mode _ '/' _ (by decide) (by decide)]
        exact hB.2

end url

theorem String_addQuery (w : url.URL) (Q : url.Values) :
    url.URL.String (addQuery w Q) =
      url.URL.stringBody w ++ url.queryPart (addQuery w Q) ++ url.fragmentPart w := by
  rw [addQuery_eq]
  rfl

/-- What `parseRequestURL` does with a template without scheme, given the URL `w` that the
second `url.Parse` returns for the base URL followed by the printed template. -/
theorem parseRequestURL_relative (c : cliCore) (r : request) (t w : url.URL)
    (hT : url.Parse (withPathParams r).url = .ok t) (hS : t.Scheme = [])
    (hw : url.Parse (c.hostUrl ++ withSlash (url.URL.String t)) = .ok w) :
    (parseRequestURL c r).2 = none ∧
      (parseRequestURL c r).1.url =
        url.URL.stringBody w ++ url.queryPart (addQuery w (buildQuery r.queryParam)) ++
          url.fragmentPart w := by
  have hrel : (!url.URL.IsAbs t) = true := by
    unfold url.URL.IsAbs
    rw [hS]
    decide
  unfold parseRequestURL
  rw [hT]
  dsimp only
  rw [if_pos hrel, hw]
  dsimp only
  rw [withPathParams_queryParam]
  exact ⟨rfl, String_addQuery w _⟩

theorem head_parts (P Qp Fp : Str) (w : Str) (hP : P = '/' :: w)
    (hP2 : strings.HasPrefix P (go "//") = false)
    (hq : Qp.head? ≠ some '/') (hf : Fp.head? ≠ some '/') :
    (w ++ Qp ++ Fp).head? ≠ some '/' := by
  subst hP
  cases w with
  | nil =>
    cases Qp with
    | nil => exact hf
    | cons c Qp => exact hq
  | cons c w =>
    simp only [List.cons_append, List.head?_cons, ne_eq, Option.some.injEq]
    intro h
    subst h
    simp [strings.HasPrefix, List.isPrefixOf, go] at hP2

/-- C6 fails for a base URL that ends with `/`: with the base URL
`http://127.0.0.1:8899/`, the templates `/life/client1` and `life/client1` both give
`http://127.0.0.1:8899//life/client1`, with two `/` between the authority and the path.
An empty template gets no `/` at all, and a template that begins with `//` gets a second
one.  A base URL that `url.Parse` does not print back as written is not the beginning of
the URL that is left: the scheme `HTTP` is lowered, and the path `/a b` is escaped.  Behind
a base URL with a fragment the template lands in the fragment, which is escaped anew, so
that the base URL is not the beginning of the URL that is left either. -/
theorem C6_doubled_slash_counterexample :
    (parseRequestURL slashClient.tocliCore { url := go "/life/client1" }).2 = none ∧
    (parseRequestURL slashClient.tocliCore { url := go "/life/client1" }).1.url =
      go "http://127.0.0.1:8899//life/client1" ∧
    (parseRequestURL slashClient.tocliCore { url := go "life/client1" }).1.url =
      go "http://127.0.0.1:8899//life/client1" ∧
    (parseRequestURL localClient.tocliCore { url := [] }).2 = none ∧
    (parseRequestURL localClient.tocliCore { url := [] }).1.url = go "http://127.0.0.1:8899" ∧
    (parseRequestURL localClient.tocliCore { url := go "//x/y" }).1.url =
      go "http://127.0.0.1:8899//x/y" ∧
    (parseRequestURL upperClient.tocliCore { url := go "/life/client1" }).2 = none ∧
    (parseRequestURL upperClient.tocliCore { url := go "/life/client1" }).1.url =
      go "http://127.0.0.1:8899/life/client1" ∧
    (parseRequestURL (baseClient "http://127.0.0.1:8899/a b").tocliCore
        { url := go "/life/client1" }).1.url = go "http://127.0.0.1:8899/a%20b/life/client1" ∧
    (parseRequestURL (baseClient "http://127.0.0.1:8899#a%2Fb").tocliCore
        { url := go "/p#f" }).1.url = go "http://127.0.0.1:8899#a/b/p%23f" := by
  decide

theorem createHTTPRequest_ok (c : cliCore) (r : request)
    (h : (createHTTPRequest c r).2 = none) :
    (createHTTPRequest c r).1.rawRequest.isNone = false := by
  unfold createHTTPRequest at h ⊢
  cases hb : c.bindRequestBody c.tocliBase r with
  | mk x r1 =>
    obtain ⟨ct, body, err⟩ := x
    rw [hb] at h
    cases err with
    | none => rfl
    | some e => simp at h

/-- C11 fails for a Go array: the body `[2]int{1, 2}`, a sequence of two elements that is
not raw bytes, gets `text/plain; charset=utf-8` from `detectContentType`. -/
theorem C11_array_counterexample :
    sampleArray.indirectKind = Kind.Array ∧ sampleArray.bytes = none ∧
      sampleArray.items.length = 2 ∧
      detectContentType sampleArray = go "text/plain; charset=utf-8" := by
  decide

/-- C11, amended: with the kind taken after a pointer is followed once, `detectContentType`
returns `application/json; charset=utf-8` for a struct and a map; `text/plain;
charset=utf-8` for a string; for any other kind the result of `http.DetectContentType` when
the value itself is a `[]byte`, `application/json; charset=utf-8` when it is another
slice, and `text/plain; charset=utf-8` in every other case, a Go array and the nil
interface included. -/
theorem C11_detectContentType_shapes (v : Value) :
    ((v.indirectKind = Kind.Struct ∨ v.indirectKind = Kind.Map) →
      detectContentType v = go "application/json; charset=utf-8") ∧
    (v.indirectKind = Kind.String → detectContentType v = go "text/plain; charset=utf-8") ∧
    (v.indirectKind ≠ Kind.Struct → v.indirectKind ≠ Kind.Map → v.indirectKind ≠ Kind.String →
      ∀ b, v.bytes = some b → detectContentType v = v.sniff) ∧
    (v.indirectKind = Kind.Slice → v.bytes = none →
      detectContentType v = go "application/json; charset=utf-8") ∧
    (v.indirectKind ≠ Kind.Struct → v.indirectKind ≠ Kind.Map → v.indirectKind ≠ Kind.String →
      v.indirectKind ≠ Kind.Slice → v.bytes = none →
      detectContentType v = go "text/plain; charset=utf-8") ∧
    detectContentType Value.null = go "text/plain; charset=utf-8" := by
  refine ⟨?_, ?_, ?_, ?_, ?_, by decide⟩
  · intro h
    unfold detectContentType
    simp only [h, if_true]
    rfl
  · intro h
    unfold detectContentType
    simp only [h]
    rfl
  · intro h1 h2 h3 b hb
    unfold detectContentType
    simp only [h1, h2, h3, hb, false_or, if_false]
  · intro h hb
    unfold detectContentType
    simp only [h, hb]
    rfl
  · intro h1 h2 h3 h4 hb
    unfold detectContentType
    simp only [h1, h2, h3, h4, hb, false_or, if_false]
    rfl

/-- The amended C11 at a record behind a pointer, a string, a `[]byte` with a PNG header, a
slice of integers and an array of integers. -/
theorem C11_detectContentType_shapes_witness :
    detectContentType sampleRecord = go "application/json; charset=utf-8" ∧
      detectContentType (stringValue "hello") = go "text/plain; charset=utf-8" ∧
      detectContentType sampleBytes = go "image/png" ∧
      detectContentType sampleSlice = go "application/json; charset=utf-8" ∧
      detectContentType sampleArray = go "text/plain; charset=utf-8" :=
  ⟨(C11_detectContentType_shapes sampleRecord).1 (Or.inl (by decide)),
    (C11_detectContentType_shapes (stringValue "hello")).2.1 (by decide),
    (C11_detectContentType_shapes sampleBytes).2.2.1 (by decide) (by decide) (by decide) _ rfl,
    (C11_detectContentType_shapes sampleSlice).2.2.2.1 (by decide) rfl,
    (C11_detectContentType_shapes sampleArray).2.2.2.2.1 (by decide) (by decide) (by decide)
      (by decide) rfl⟩

theorem parseResponseBody_204 (c : cliCore) (res : response) (h : res.statusCode = 204) :
    parseResponseBody c res = (res, none) := by
  unfold parseResponseBody
  rw [if_pos h]

theorem parseResponseBody_flagged_some (c : cliCore) (res : response) (d : Receptor)
    (h204 : res.statusCode ≠ 204)
    (hflag : c.responseResultDecider res.statusCode res.rawResponse = true)
    (hd : res.request.Error = some d) :
    parseResponseBody c res =
      if (isJSONType (res.header.Get hdrContentTypeKey) ||
          isXMLType (res.header.Get hdrContentTypeKey)) = true then
        ({ res with request := { res.request with
              Error := some (unmarshalContent (res.header.Get hdrContentTypeKey)
                res.bodyByte d).1 } },
          (unmarshalContent (res.header.Get hdrContentTypeKey) res.bodyByte d).2)
      else (res, none) := by
  unfold parseResponseBody
  rw [if_neg h204]
  simp only [hflag, if_true, hd]

theorem parseResponseBody_flagged_none (c : cliCore) (res : response)
    (h204 : res.statusCode ≠ 204)
    (hflag : c.responseResultDecider res.statusCode res.rawResponse = true)
    (hd : res.request.Error = none) :
    parseResponseBody c res = (res, some "json: unsupported type: func() int") := by
  unfold parseResponseBody
  rw [if_neg h204]
  simp only [hflag, if_true, hd]

theorem parseResponseBody_ok_some (c : cliCore) (res : response) (d : Receptor)
    (h204 : res.statusCode ≠ 204)
    (hflag : c.responseResultDecider res.statusCode res.rawResponse = false)
    (hd : res.request.result = some d) :
    parseResponseBody c res =
      if (isJSONType (res.header.Get hdrContentTypeKey) ||
          isXMLType (res.header.Get hdrContentTypeKey)) = true then
        ({ res with request := { res.request with
              result := some (unmarshalContent (res.header.Get hdrContentTypeKey)
                res.bodyByte d).1 } },
          (unmarshalContent (res.header.Get hdrContentTypeKey) res.bodyByte d).2)
      else (res, none) := by
  unfold parseResponseBody
  rw [if_neg h204]
  simp only [hflag, Bool.false_eq_true, if_false, hd]

theorem parseResponseBody_ok_none (c : cliCore) (res : response)
    (h204 : res.statusCode ≠ 204)
    (hflag : c.responseResultDecider res.statusCode res.rawResponse = false)
    (hd : res.request.result = none) :
    parseResponseBody c res = (res, none) := by
  unfold parseResponseBody
  rw [if_neg h204]
  simp only [hflag, Bool.false_eq_true, if_false, hd]

/-- C12: for a response whose status is not 204, `parseResponseBody` returns the response
with the result receptor replaced by what `unmarshalContent` decodes from the cached body,
and the decoder's error, when the decider does not flag the status, a result receptor is
set and the `Content-Type` is a JSON or an XML type, and leaves the result receptor as it
was in every other case; the same holds for the error receptor with a flagged status; one
of the two receptors is always left as it was; and `unmarshalContent` decodes with
`json.Unmarshal` for a JSON type and with `xml.Unmarshal` for an XML type that is not a JSON
type. -/
theorem C12_parseResponseBody_receptors (c : cliCore) (res : response)
    (h204 : res.statusCode ≠ 204) :
    (∀ d, c.responseResultDecider res.statusCode res.rawResponse = false →
      res.request.result = some d →
      (isJSONType (res.header.Get hdrContentTypeKey) ||
        isXMLType (res.header.Get hdrContentTypeKey)) = true →
      parseResponseBody c res =
        ({ res with request := { res.request with
              result := some (unmarshalContent (res.header.Get hdrContentTypeKey)
                res.bodyByte d).1 } },
          (unmarshalContent (res.header.Get hdrContentTypeKey) res.bodyByte d).2)) ∧
    (¬ (c.responseResultDecider res.statusCode res.rawResponse = false ∧
        res.request.result.isSome = true ∧
        (isJSONType (res.header.Get hdrContentTypeKey) ||
          isXMLType (res.header.Get hdrContentTypeKey)) = true) →
      (parseResponseBody c res).1.request.result = res.request.result) ∧
    (∀ d, c.responseResultDecider res.statusCode res.rawResponse = true →
      res.request.Error = some d →
      (isJSONType (res.header.Get hdrContentTypeKey) ||
        isXMLType (res.header.Get hdrContentTypeKey)) = true →
      parseResponseBody c res =
        ({ res with request := { res.request with
              Error := some (unmarshalContent (res.header.Get hdrContentTypeKey)
                res.bodyByte d).1 } },
          (unmarshalContent (res.header.Get hdrContentTypeKey) res.bodyByte d).2)) ∧
    (¬ (c.responseResultDecider res.statusCode res.rawResponse = true ∧
        res.request.Error.isSome = true ∧
        (isJSONType (res.header.Get hdrContentTypeKey) ||
          isXMLType (res.header.Get hdrContentTypeKey)) = true) →
      (parseResponseBody c res).1.request.Error = res.request.Error) ∧
    ((parseResponseBody c res).1.request.result = res.request.result ∨
      (parseResponseBody c res).1.request.Error = res.request.Error) ∧
    (∀ (ct b : Str) (d : Receptor), isJSONType ct = true →
      unmarshalContent ct b d = ({ d with content := (d.decodeJSON b).1 }, (d.decodeJSON b).2)) ∧
    (∀ (ct b : Str) (d : Receptor), isJSONType ct = false → isXMLType ct = true →
      unmarshalContent ct b d = ({ d with content := (d.decodeXML b).1 }, (d.decodeXML b).2)) := by
  have hres : ∀ flag, c.responseResultDecider res.statusCode res.rawResponse = flag →
      (flag = true ∨ res.request.result = none ∨
        (isJSONType (res.header.Get hdrContentTypeKey) ||
          isXMLType (res.header.Get hdrContentTypeKey)) = false) →
      (parseResponseBody c res).1.request.result = res.request.result := by
    intro flag hf h
    cases flag with
    | true =>
      cases hE : res.request.Error with
      | none => rw [parseResponseBody_flagged_none c res h204 hf hE]
      | some d =>
        rw [parseResponseBody_flagged_some c res d h204 hf hE]
        split <;> rfl
    | false =>
      cases hR : res.request.result with
      | none =>
        rw [parseResponseBody_ok_none c res h204 hf hR]
        exact hR
      | some d =>
        rw [parseResponseBody_ok_some c res d h204 hf hR]
        rcases h with h | h | h
        · cases h
        · rw [hR] at h
          cases h
        · rw [h]
          simp only [Bool.false_eq_true, if_false]
          exact hR
  have herr : ∀ flag, c.responseResultDecider res.statusCode res.rawResponse = flag →
      (flag = false ∨ res.request.Error = none ∨
        (isJSONType (res.header.Get hdrContentTypeKey) ||
          isXMLType (res.header.Get hdrContentTypeKey)) = false) →
      (parseResponseBody c res).1.request.Error = res.request.Error := by
    intro flag hf h
    cases flag with
    | false =>
      cases hR : res.request.result with
      | none => rw [parseResponseBody_ok_none c res h204 hf hR]
      | some d =>
        rw [parseResponseBody_ok_some c res d h204 hf hR]
        split <;> rfl
    | true =>
      cases hE : res.request.Error with
      | none =>
        rw [parseResponseBody_flagged_none c res h204 hf hE]
        exact hE
      | some d =>
        rw [parseResponseBody_flagged_some c res d h204 hf hE]
        rcases h with h | h | h
        · cases h
        · rw [hE] at h
          cases h
        · rw [h]
          simp only [Bool.false_eq_true, if_false]
          exact hE
  refine ⟨?_, ?_, ?_, ?_, ?_, ?_, ?_⟩
  · intro d hf hR hct
    rw [parseResponseBody_ok_some c res d h204 hf hR, if_pos hct]
  · intro hn
    cases hf : c.responseResultDecider res.statusCode res.rawResponse with
    | true => exact hres true hf (Or.inl rfl)
    | false =>
      apply hres false hf
      right
      cases hR : res.request.result with
      | none => exact Or.inl rfl
      | some d =>
        right
        cases hct : (isJSONType (res.header.Get hdrContentTypeKey) ||
          isXMLType (res.header.Get hdrContentTypeKey)) with
        | false => rfl
        | true => exact absurd ⟨hf, by rw [hR]; rfl, hct⟩ hn
  · intro d hf hE hct
    rw [parseResponseBody_flagged_some c res d h204 hf hE, if_pos hct]
  · intro hn
    cases hf : c.responseResultDecider res.statusCode res.rawResponse with
    | false => exact herr false hf (Or.inl rfl)
    | true =>
      apply herr true hf
      right
      cases hE : res.request.Error with
      | none => exact Or.inl rfl
      | some d =>
        right
        cases hct : (isJSONType (res.header.Get hdrContentTypeKey) ||
          isXMLType (res.header.Get hdrContentTypeKey)) with
        | false => rfl
        | true => exact absurd ⟨hf, by rw [hE]; rfl, hct⟩ hn
  · cases hf : c.responseResultDecider res.statusCode res.rawResponse with
    | true => exact Or.inl (hres true hf (Or.inl rfl))
    | false => exact Or.inr (herr false hf (Or.inl rfl))
  · intro ct b d hj
    unfold unmarshalContent
    rw [if_pos hj]
  · intro ct b d hj hx
    unfold unmarshalContent
    rw [if_neg (by rw [hj]; decide), if_pos hx]

/-- C12 at a 200 response with both receptors set: with `application/json` the body goes
into the result receptor and the error receptor stays empty; with `text/html` the result
receptor stays empty. -/
theorem C12_parseResponseBody_receptors_witness :
    ((parseResponseBody plainClient.tocliCore
        (sampleResponse { result := some sampleReceptor, Error := some sampleReceptor } 200
          "application/json" "ok")).1.request.result.map Receptor.content = some (go "ok")) ∧
    ((parseResponseBody plainClient.tocliCore
        (sampleResponse { result := some sampleReceptor, Error := some sampleReceptor } 200
          "application/json" "ok")).1.request.Error.map Receptor.content = some []) ∧
    ((parseResponseBody plainClient.tocliCore
        (sampleResponse { result := some sampleReceptor, Error := some sampleReceptor } 200
          "text/html" "ok")).1.request.result.map Receptor.content = some []) :=
  ⟨(congrArg (fun x => x.1.request.result.map Receptor.content)
      ((C12_parseResponseBody_receptors plainClient.tocliCore
        (sampleResponse { result := some sampleReceptor, Error := some sampleReceptor } 200
          "application/json" "ok") (by decide)).1 sampleReceptor (by decide) rfl
        (by decide))).trans (by decide),
    (congrArg (Option.map Receptor.content)
      ((C12_parseResponseBody_receptors plainClient.tocliCore
        (sampleResponse { result := some sampleReceptor, Error := some sampleReceptor } 200
          "application/json" "ok") (by decide)).2.2.2.1 (by decide))).trans rfl,
    (congrArg (Option.map Receptor.content)
      ((C12_parseResponseBody_receptors plainClient.tocliCore
        (sampleResponse { result := some sampleReceptor, Error := some sampleReceptor } 200
          "text/html" "ok") (by decide)).2.1 (by decide))).trans rfl⟩

/-- C13: for the response with status 500, `Content-Type: application/json` and the body
`{"msg":"bad"}` on a request without error receptor, the error that `parseResponseBody`
returns is the failure of `json.Marshal` on the method value `StatusCode`, not the JSON
diagnostic of the claim. -/
theorem C13_diagnostic_error_is_marshal_failure :
    (sampleResponse {} 500 "application/json" "\x7b\"msg\":\"bad\"\x7d").statusCode = 500 ∧
    defaultResponseResultDecider 500
      (sampleResponse {} 500 "application/json" "\x7b\"msg\":\"bad\"\x7d").rawResponse = true ∧
    (parseResponseBody plainClient.tocliCore
      (sampleResponse {} 500 "application/json" "\x7b\"msg\":\"bad\"\x7d")).2 =
        some "json: unsupported type: func() int" ∧
    (parseResponseBody plainClient.tocliCore
      (sampleResponse {} 500 "application/json" "\x7b\"msg\":\"bad\"\x7d")).2 ≠
        some "\x7b\"status_code\":500,\"body\":\"\x7b\\\"msg\\\":\\\"bad\\\"\x7d\"\x7d" := by
  refine ⟨by decide, by decide, by decide, ?_⟩
  have h : (parseResponseBody plainClient.tocliCore
      (sampleResponse {} 500 "application/json" "\x7b\"msg\":\"bad\"\x7d")).2 =
        some "json: unsupported type: func() int" := by decide
  rw [h]
  decide

/-- C14: for a response with status 204, `parseResponseBody` returns the response as it
was (the receptors of its request included) and no error, whatever the client, so the
decider has no influence. -/
theorem C14_no_content (c : cliCore) (res : response) (h : res.statusCode = 204) :
    parseResponseBody c res = (res, none) ∧
      ∀ c2 : cliCore, parseResponseBody c2 res = parseResponseBody c res := by
  refine ⟨parseResponseBody_204 c res h, ?_⟩
  intro c2
  rw [parseResponseBody_204 c res h, parseResponseBody_204 c2 res h]

/-- C14 at a 204 response with a JSON body and both receptors set, on a client whose
decider flags every status. -/
theorem C14_no_content_witness :
    (parseResponseBody flagAllClient.tocliCore
        (sampleResponse { result := some sampleReceptor, Error := some sampleReceptor } 204
          "application/json" "\x7b\"msg\":\"bad\"\x7d")).2 = none ∧
    (parseResponseBody flagAllClient.tocliCore
        (sampleResponse { result := some sampleReceptor, Error := some sampleReceptor } 204
          "application/json" "\x7b\"msg\":\"bad\"\x7d")).1.request.result.map Receptor.content =
      some [] ∧
    (parseResponseBody flagAllClient.tocliCore
        (sampleResponse { result := some sampleReceptor, Error := some sampleReceptor } 204
          "application/json" "\x7b\"msg\":\"bad\"\x7d")).1.request.Error.map Receptor.content =
      some [] :=
  have h := (C14_no_content flagAllClient.tocliCore
    (sampleResponse { result := some sampleReceptor, Error := some sampleReceptor } 204
      "application/json" "\x7b\"msg\":\"bad\"\x7d") (by decide)).1
  ⟨congrArg Prod.snd h,
    congrArg (fun x => x.1.request.result.map Receptor.content) h,
    congrArg (fun x => x.1.request.Error.map Receptor.content) h⟩

/-- C16: `defaultResponseResultDecider(s, raw)` is true exactly when `s > 399`; it is false
at 399 and true at 400, and the raw response has no influence. -/
theorem C16_default_decider (s : Int) (raw raw2 : Option RawResponse) :
    (defaultResponseResultDecider s raw = true ↔ s > 399) ∧
      defaultResponseResultDecider 399 raw = false ∧
      defaultResponseResultDecider 400 raw = true ∧
      defaultResponseResultDecider s raw = defaultResponseResultDecider s raw2 := by
  refine ⟨?_, ?_, ?_, rfl⟩
  · unfold defaultResponseResultDecider
    exact decide_eq_true_iff
  · unfold defaultResponseResultDecider
    decide
  · unfold defaultResponseResultDecider
    decide

/-- C19 fails for a flagged status with an error receptor and a `Content-Type` that is
neither a JSON nor an XML type: for status 500 with `text/plain`, `parseResponseBody`
returns no error and leaves the error receptor empty. -/
theorem C19_flagged_without_report_counterexample :
    defaultResponseResultDecider 500
      (sampleResponse { Error := some sampleReceptor } 500 "text/plain" "oops").rawResponse =
        true ∧
    isJSONType (go "text/plain") = false ∧ isXMLType (go "text/plain") = false ∧
    (parseResponseBody plainClient.tocliCore
      (sampleResponse { Error := some sampleReceptor } 500 "text/plain" "oops")).2 = none ∧
    (parseResponseBody plainClient.tocliCore
      (sampleResponse { Error := some sampleReceptor } 500 "text/plain" "oops")).1.request.Error.map
        Receptor.content = some [] := by
  decide

/-- C19, amended: for a response whose status is not 204 and is flagged by the decider,
`parseResponseBody` returns an error when no error receptor is set; decodes the body into
the error receptor, returning the decoder's error, when an error receptor is set and the
`Content-Type` is a JSON or an XML type; and returns the response as it was and no error
when an error receptor is set and the `Content-Type` is neither. -/
theorem C19_flagged_status (c : cliCore) (res : response) (h204 : res.statusCode ≠ 204)
    (hflag : c.responseResultDecider res.statusCode res.rawResponse = true) :
    (res.request.Error = none →
      (parseResponseBody c res).1 = res ∧ (parseResponseBody c res).2 ≠ none) ∧
    (∀ d, res.request.Error = some d →
      (isJSONType (res.header.Get hdrContentTypeKey) ||
        isXMLType (res.header.Get hdrContentTypeKey)) = true →
      parseResponseBody c res =
        ({ res with request := { res.request with
              Error := some (unmarshalContent (res.header.Get hdrContentTypeKey)
                res.bodyByte d).1 } },
          (unmarshalContent (res.header.Get hdrContentTypeKey) res.bodyByte d).2)) ∧
    (∀ d, res.request.Error = some d →
      (isJSONType (res.header.Get hdrContentTypeKey) ||
        isXMLType (res.header.Get hdrContentTypeKey)) = false →
      parseResponseBody c res = (res, none)) := by
  refine ⟨?_, ?_, ?_⟩
  · intro hE
    rw [parseResponseBody_flagged_none c res h204 hflag hE]
    exact ⟨rfl, by simp⟩
  · intro d hE hct
    rw [parseResponseBody_flagged_some c res d h204 hflag hE, if_pos hct]
  · intro d hE hct
    rw [parseResponseBody_flagged_some c res d h204 hflag hE, hct]
    rfl

/-- The amended C19 at status 500: without error receptor, with an error receptor and
`application/json`, and with an error receptor and `text/plain`. -/
theorem C19_flagged_status_witness :
    (parseResponseBody plainClient.tocliCore
      (sampleResponse {} 500 "text/plain" "oops")).2 ≠ none ∧
    (parseResponseBody plainClient.tocliCore
      (sampleResponse { Error := some sampleReceptor } 500 "application/json"
        "oops")).1.request.Error.map Receptor.content = some (go "oops") ∧
    (parseResponseBody plainClient.tocliCore
      (sampleResponse { Error := some sampleReceptor } 500 "text/plain" "oops")).2 = none :=
  ⟨((C19_flagged_status plainClient.tocliCore (sampleResponse {} 500 "text/plain" "oops")
      (by decide) (by decide)).1 rfl).2,
    (congrArg (fun x => x.1.request.Error.map Receptor.content)
      ((C19_flagged_status plainClient.tocliCore
        (sampleResponse { Error := some sampleReceptor } 500 "application/json" "oops")
        (by decide) (by decide)).2.1 sampleReceptor rfl (by decide))).trans (by decide),
    congrArg Prod.snd
      ((C19_flagged_status plainClient.tocliCore
        (sampleResponse { Error := some sampleReceptor } 500 "text/plain" "oops")
        (by decide) (by decide)).2.2 sampleReceptor rfl (by decide))⟩

theorem newClient_of_doer (NC : List ClientOption → Except Error Doer) (opts : Options)
    (d : Doer)
    (hd : opts.doer = some d ∨ (opts.doer = none ∧ NC opts.clientOption = .ok d)) :
    newClient NC opts =
      if opts.middlewares.length ≠ 0 then
        if d.hasUse = true then .ok { builtClient opts d with doer := d.Use opts.middlewares }
        else .error "doer does not support middleware, choose the right doer."
      else .ok (builtClient opts d) := by
  have key : ∀ (x : Except Error Doer), x = .ok d →
      (match x with
        | .error err => (Except.error err : Except Error cli)
        | .ok d =>
          if opts.middlewares.length ≠ 0 then
            match (builtClient opts d).Use opts.middlewares with
            | (_, some err) => .error err
            | (c1, none) => .ok c1
          else .ok (builtClient opts d)) =
      if opts.middlewares.length ≠ 0 then
        if d.hasUse = true then .ok { builtClient opts d with doer := d.Use opts.middlewares }
        else .error "doer does not support middleware, choose the right doer."
      else .ok (builtClient opts d) := by
    intro x hx
    subst hx
    dsimp only
    by_cases hm : opts.middlewares.length ≠ 0
    · rw [if_pos hm, if_pos hm]
      unfold cli.Use
      by_cases hu : d.hasUse = true
      · have hu2 : (builtClient opts d).doer.hasUse = true := hu
        rw [if_pos hu, if_pos hu2]
        rfl
      · have hu2 : ¬ (builtClient opts d).doer.hasUse = true := hu
        rw [if_neg hu, if_neg hu2]
    · rw [if_neg hm, if_neg hm]
  rcases hd with hd | ⟨hd, hn⟩
  · have := key (.ok d) rfl
    unfold newClient
    rw [hd]
    exact this
  · have := key (NC opts.clientOption) hn
    unfold newClient
    rw [hd]
    exact this

theorem newClient_of_failure (NC : List ClientOption → Except Error Doer) (opts : Options)
    (e : Error) (hd : opts.doer = none) (hn : NC opts.clientOption = .error e) :
    newClient NC opts = .error e := by
  unfold newClient
  simp only [hd, hn]

/-- Every client that `newClient` returns has the three pre-request hooks and the one
post-response hook of the struct literal. -/
theorem newClient_hooks (NC : List ClientOption → Except Error Doer) (opts : Options)
    (c : cli) (h : newClient NC opts = .ok c) :
    c.beforeRequest = [parseRequestURL, parseRequestHeader, createHTTPRequest] ∧
      c.afterResponse = [parseResponseBody] := by
  cases hdo : opts.doer with
  | some d =>
    rw [newClient_of_doer NC opts d (Or.inl hdo)] at h
    split at h
    · split at h
      · cases h
        exact ⟨rfl, rfl⟩
      · cases h
    · cases h
      exact ⟨rfl, rfl⟩
  | none =>
    cases hn : NC opts.clientOption with
    | error e =>
      rw [newClient_of_failure NC opts e hdo hn] at h
      cases h
    | ok d =>
      rw [newClient_of_doer NC opts d (Or.inr ⟨hdo, hn⟩)] at h
      split at h
      · split at h
        · cases h
          exact ⟨rfl, rfl⟩
        · cases h
      · cases h
        exact ⟨rfl, rfl⟩

/-- C18: `hertz_client.NewClient` (package `pkg/app/client`, which is not embedded here) has
the single return `c, nil`, so it is taken as a function `NC` that returns a transport.  For every options
record, with the transport being the injected one or else the one `NC` returns: `newClient`
returns an error exactly when a non-empty middleware list was requested and the transport
has no method `Use`; when the transport has it, the whole list is handed to `Use` in one
call, in order; when no middleware was requested, the client is built around the transport
as it is and `Use` is not called. -/
theorem C18_newClient_middleware (NC : List ClientOption → Doer) (opts : Options) :
    ((∃ e, newClient (fun o => .ok (NC o)) opts = .error e) ↔
      (opts.middlewares ≠ [] ∧ (opts.doer.getD (NC opts.clientOption)).hasUse = false)) ∧
    (opts.middlewares ≠ [] → (opts.doer.getD (NC opts.clientOption)).hasUse = true →
      newClient (fun o => .ok (NC o)) opts =
        .ok { builtClient opts (opts.doer.getD (NC opts.clientOption)) with
              doer := (opts.doer.getD (NC opts.clientOption)).Use opts.middlewares } ∧
      ((opts.doer.getD (NC opts.clientOption)).Use opts.middlewares).used =
        (opts.doer.getD (NC opts.clientOption)).used ++ [opts.middlewares] ∧
      ((opts.doer.getD (NC opts.clientOption)).Use opts.middlewares).Do =
        (opts.doer.getD (NC opts.clientOption)).Do) ∧
    (opts.middlewares = [] →
      newClient (fun o => .ok (NC o)) opts =
        .ok (builtClient opts (opts.doer.getD (NC opts.clientOption))) ∧
      (builtClient opts (opts.doer.getD (NC opts.clientOption))).doer =
        opts.doer.getD (NC opts.clientOption)) := by
  have hd : opts.doer = some (opts.doer.getD (NC opts.clientOption)) ∨
      (opts.doer = none ∧
        (fun o => (Except.ok (NC o) : Except Error Doer)) opts.clientOption =
          .ok (opts.doer.getD (NC opts.clientOption))) := by
    cases h : opts.doer with
    | some d => exact Or.inl rfl
    | none => exact Or.inr ⟨rfl, rfl⟩
  have hnew := newClient_of_doer (fun o => .ok (NC o)) opts _ hd
  have hlen : opts.middlewares.length ≠ 0 ↔ opts.middlewares ≠ [] := by
    rw [ne_eq, List.length_eq_zero]
  refine ⟨?_, ?_, ?_⟩
  · constructor
    · rintro ⟨e, he⟩
      rw [hnew] at he
      by_cases hm : opts.middlewares.length ≠ 0
      · rw [if_pos hm] at he
        by_cases hu : (opts.doer.getD (NC opts.clientOption)).hasUse = true
        · rw [if_pos hu] at he
          cases he
        · exact ⟨hlen.mp hm, by simpa using hu⟩
      · rw [if_neg hm] at he
        cases he
    · rintro ⟨hm, hu⟩
      refine ⟨"doer does not support middleware, choose the right doer.", ?_⟩
      rw [hnew, if_pos (hlen.mpr hm), if_neg (by rw [hu]; decide)]
  · intro hm hu
    refine ⟨?_, rfl, rfl⟩
    rw [hnew, if_pos (hlen.mpr hm), if_pos hu]
  · intro hm
    refine ⟨?_, rfl⟩
    rw [hnew, if_neg (fun h => hlen.mp h hm)]

/-- C18 at an injected transport without `Use` and two middlewares, at the default
transport without `Use` and two middlewares, at an injected transport with `Use` and three
middlewares given by two options, and at an injected and at the default transport without
middleware. -/
theorem C18_newClient_middleware_witness :
    ((∃ e, newClient (fun _ => .ok useDoer) (getOptions [WithHertzClient okDoer,
        WithHertzClientMiddleware [1, 2]]) = .error e)) ∧
    ((∃ e, newClient (fun _ => .ok okDoer) (getOptions [WithHertzClientMiddleware [1, 2]])
        = .error e)) ∧
    (newClient (fun _ => .ok okDoer) (getOptions [WithHertzClient useDoer,
        WithHertzClientMiddleware [1, 2], WithHertzClientMiddleware [3]]) =
      .ok { builtClient (getOptions [WithHertzClient useDoer,
              WithHertzClientMiddleware [1, 2], WithHertzClientMiddleware [3]]) useDoer with
            doer := useDoer.Use [1, 2, 3] }) ∧
    (useDoer.Use [1, 2, 3]).used = [[1, 2, 3]] ∧
    (newClient (fun _ => .ok useDoer) (getOptions [WithHertzClient okDoer]) =
      .ok (builtClient (getOptions [WithHertzClient okDoer]) okDoer)) ∧
    (newClient (fun _ => .ok okDoer) (getOptions []) = .ok (builtClient (getOptions []) okDoer)) :=
  ⟨(C18_newClient_middleware (fun _ => useDoer) (getOptions [WithHertzClient okDoer,
        WithHertzClientMiddleware [1, 2]])).1.mpr ⟨by decide, rfl⟩,
    (C18_newClient_middleware (fun _ => okDoer)
        (getOptions [WithHertzClientMiddleware [1, 2]])).1.mpr ⟨by decide, rfl⟩,
    ((C18_newClient_middleware (fun _ => okDoer) (getOptions [WithHertzClient useDoer,
        WithHertzClientMiddleware [1, 2], WithHertzClientMiddleware [3]])).2.1
        (by decide) rfl).1,
    ((C18_newClient_middleware (fun _ => okDoer) (getOptions [WithHertzClient useDoer,
        WithHertzClientMiddleware [1, 2], WithHertzClientMiddleware [3]])).2.1
        (by decide) rfl).2.1,
    ((C18_newClient_middleware (fun _ => useDoer) (getOptions [WithHertzClient okDoer])).2.2
        rfl).1,
    ((C18_newClient_middleware (fun _ => okDoer) (getOptions [])).2.2 rfl).1⟩

/-- When the three pre-request hooks of `newClient` all succeed, the request they leave has
a raw request, and the calls made are the three hooks in order. -/
theorem runBefore_newClient_hooks (c : cliCore) (req req1 : request) (calls : List Call)
    (h : runBefore c [parseRequestURL, parseRequestHeader, createHTTPRequest] 0 req =
      (req1, none, calls)) :
    req1.rawRequest.isNone = false ∧
      calls = [Call.before 0, Call.before 1, Call.before 2] := by
  obtain ⟨hok, hreq, hcalls⟩ := runBefore_ok c _ 0 req req1 calls h
  constructor
  · have h2 := hok 2 createHTTPRequest rfl
    have h3 := createHTTPRequest_ok c _ h2
    rw [hreq]
    simpa [stateBefore] using h3
  · rw [hcalls]
    rfl

/-- What `execute` returns when the pre-request hooks succeed, the request has a raw
request and the transport returns an error. -/
theorem execute_transport_error (c : cli) (req req1 : request) (calls : List Call)
    (resp : RawResponse) (err : Error)
    (hb : runBefore c.tocliCore c.beforeRequest 0 req = (req1, none, calls))
    (hraw : req1.rawRequest.isNone = false)
    (hdo : c.doer.Do (hostRequest req1).ctx (hostRequest req1).rawRequest = (resp, some err)) :
    c.execute req =
      ⟨hostRequest req1,
        .returned (some { request := hostRequest req1, rawResponse := some resp }) (some err),
        calls ++ [Call.transport]⟩ := by
  unfold hostRequest at hdo ⊢
  unfold cli.execute
  rw [hb]
  dsimp only
  rw [if_neg (fun h => by rw [hraw] at h; exact Bool.false_ne_true h.2), hdo]

/-- C15: on a client that `newClient` returned, when the pre-request hooks all succeed and
the transport returns an error, `execute` returns that error together with a response that
wraps the request handed to the transport and the raw response, with an empty cached body;
the calls made are the three pre-request hooks and the transport, no post-response hook;
and the receptors are those the pre-request hooks left. -/
theorem C15_transport_error (NC : List ClientOption → Except Error Doer) (opts : Options)
    (c : cli) (hnew : newClient NC opts = .ok c) (req req1 : request) (calls : List Call)
    (resp : RawResponse) (err : Error)
    (hb : runBefore c.tocliCore c.beforeRequest 0 req = (req1, none, calls))
    (hdo : c.doer.Do (hostRequest req1).ctx (hostRequest req1).rawRequest = (resp, some err)) :
    c.execute req =
        ⟨hostRequest req1,
          .returned
            (some { request := hostRequest req1, rawResponse := some resp, bodyByte := [], size := 0 })
            (some err),
          [Call.before 0, Call.before 1, Call.before 2, Call.transport]⟩ ∧
      (∀ i, Call.after i ∉ (c.execute req).calls) ∧
      (hostRequest req1).result = req1.result ∧ (hostRequest req1).Error = req1.Error := by
  obtain ⟨hooks, _⟩ := newClient_hooks NC opts c hnew
  have hb2 := hb
  rw [hooks] at hb2
  obtain ⟨hraw, hcalls⟩ := runBefore_newClient_hooks c.tocliCore req req1 calls hb2
  have hex := execute_transport_error c req req1 calls resp err hb hraw hdo
  rw [hcalls] at hex
  refine ⟨hex, ?_, ?_, ?_⟩
  · intro i hi
    rw [hex] at hi
    simp at hi
  · unfold hostRequest
    split <;> rfl
  · unfold hostRequest
    split <;> rfl

/-- C15 at a `POST` request on the client built around a transport that always fails. -/
theorem C15_transport_error_witness :
    (errClient.execute { method := go "POST", url := go "/life/client1" }).calls =
        [Call.before 0, Call.before 1, Call.before 2, Call.transport] ∧
      ∀ i, Call.after i ∉
        (errClient.execute { method := go "POST", url := go "/life/client1" }).calls :=
  have h := C15_transport_error (fun _ => .ok okDoer)
    (getOptions [WithHertzClient errDoer, withHostUrl (go "http://127.0.0.1:8899")])
    errClient rfl { method := go "POST", url := go "/life/client1" }
    (runBefore errClient.tocliCore errClient.beforeRequest 0
      { method := go "POST", url := go "/life/client1" }).1
    (runBefore errClient.tocliCore errClient.beforeRequest 0
      { method := go "POST", url := go "/life/client1" }).2.2
    { StatusCode := 502 } "connection refused" rfl rfl
  ⟨congrArg Execution.calls h.1, h.2.1⟩

theorem Header_Get_Set (h : http.Header) (k v : Str) : (h.Set k v).Get k = v := by
  unfold http.Header.Get http.Header.Set
  rw [gomap.get_set, if_pos rfl]

theorem Values_get_Set (q : url.Values) (k v : Str) : gomap.get (q.Set k v) k = some [v] := by
  unfold url.Values.Set
  rw [gomap.get_set, if_pos rfl]

theorem DereferenceValue_some (p e : Value) (hp : p.kind = Kind.Ptr) (he : p.elem = some e) :
    (DereferenceValue p).kind = Kind.Struct ∧ (DereferenceValue p).sprint = e.sprintValue ∧
      (DereferenceValue p).sprintValue = e.valueString := by
  unfold DereferenceValue Value.boxedElem
  rw [if_pos hp, he]
  exact ⟨rfl, rfl, rfl⟩

theorem DereferenceValue_none (p : Value) (hp : p.kind = Kind.Ptr) (he : p.elem = none) :
    (DereferenceValue p).kind = Kind.Struct ∧
      (DereferenceValue p).sprint = go "<invalid reflect.Value>" ∧
      (DereferenceValue p).sprintValue = go "<invalid Value>" := by
  unfold DereferenceValue Value.boxedElem
  rw [if_pos hp, he]
  exact ⟨rfl, rfl, rfl⟩

theorem setQueryParam_struct (r : request) (k : Str) (v : Value) (hk : v.kind = Kind.Struct) :
    (r.setQueryParam k v).queryParam = r.queryParam.Set k v.sprintValue := by
  unfold request.setQueryParam
  rw [if_neg (by rw [hk]; decide)]

/-- C17 is broken by `DereferenceValue`, which stores `val.Elem()`, a `reflect.Value`, where
its name and its comment mean the pointee.  For a `template.Req` whose optional fields are
nil pointers, the request that `BizMethod2` builds has the query parameters `q1` and `q2`
with the value `<invalid Value>` and the headers `H1` and `H2` with the value
`<invalid reflect.Value>`, and the URL handed to the transport carries the query parameters;
for a pointer to the `int32` value 5, the query value is `<int32 Value>` and not `5`.  Only
a pointer to a string is sent as its pointee. -/
theorem C17_dereference_value_bug :
    emptyReq.QueryString.kind = Kind.Ptr ∧ emptyReq.QueryString.elem.isNone = true ∧
    emptyReq.HeaderString.kind = Kind.Ptr ∧ emptyReq.HeaderString.elem.isNone = true ∧
    (bizMethod2Request localFacade none emptyReq [] sampleReceptor).queryParam =
      [(go "q1", [go "<invalid Value>"]), (go "q2", [go "<invalid Value>"])] ∧
    (bizMethod2Request localFacade none emptyReq [] sampleReceptor).header =
      [(go "H1", [go "<invalid reflect.Value>"]), (go "H2", [go "<invalid reflect.Value>"])] ∧
    ((bizMethod2Request localFacade none emptyReq [] sampleReceptor).execute localClient
        (go "POST") (go "/life/client1")).req.rawRequest.map RawRequest.uri =
      some (go "http://127.0.0.1:8899/life/client1?q1=%3Cinvalid+Value%3E&q2=%3Cinvalid+Value%3E") ∧
    intPointer.kind = Kind.Ptr ∧ intPointer.elem.map Value.sprint = some (go "5") ∧
    (({} : request).setQueryParam (go "n") (DereferenceValue intPointer)).queryParam =
      [(go "n", [go "<int32 Value>"])] ∧
    (({} : request).setQueryParam (go "q1") (DereferenceValue (stringPointer "a"))).queryParam =
      [(go "q1", [go "a"])] := by
  decide

/-- When `execute` returns a nil response with an error, the facade method panics. -/
theorem facadeReturn_nil (e : Execution) (h : e.nilWithError = true) :
    (facadeReturn e).isPanic = true := by
  unfold Execution.nilWithError at h
  unfold facadeReturn
  cases ho : e.out with
  | panicked => rfl
  | returned resp err =>
    rw [ho] at h
    cases resp with
    | none => rfl
    | some r => cases err <;> cases h

/-- C20: on the client that `NewClient` builds for the base URL `http://bad host`, the
pre-request hook `parseRequestURL` fails, `execute` returns a nil response with the error,
and `BizMethod2`, `BizMethod3` and `BizMethod4` panic at `ret.rawResponse`; the same happens
when the body of the transport's response cannot be read. -/
theorem C20_facade_nil_response :
    (match NewClient (fun _ => .ok okDoer) (go "http://bad host") [] with
      | .ok s => s.client.hostUrl = badHostClient.hostUrl ∧
          s.client.beforeRequest.length = badHostClient.beforeRequest.length
      | .error _ => False) ∧
    ((bizMethod2Request ⟨badHostClient⟩ none emptyReq [] sampleReceptor).execute badHostClient
      (go "POST") (go "/life/client1")).nilWithError = true ∧
    ((bizMethod2Request ⟨badHostClient⟩ none emptyReq [] sampleReceptor).execute badHostClient
      (go "POST") (go "/life/client1")).calls = [Call.before 0] ∧
    (idlClient.BizMethod2 ⟨badHostClient⟩ none emptyReq [] sampleReceptor).isPanic = true ∧
    (idlClient.BizMethod3 ⟨badHostClient⟩ none emptyReq [] sampleReceptor).isPanic = true ∧
    (idlClient.BizMethod4 ⟨badHostClient⟩ none emptyReq [] sampleReceptor).isPanic = true ∧
    ((bizMethod2Request ⟨{ localClient with doer := brokenBodyDoer }⟩ none emptyReq []
        sampleReceptor).execute { localClient with doer := brokenBodyDoer }
      (go "POST") (go "/life/client1")).nilWithError = true ∧
    (idlClient.BizMethod2 ⟨{ localClient with doer := brokenBodyDoer }⟩ none emptyReq []
      sampleReceptor).isPanic = true := by
  refine ⟨⟨rfl, rfl⟩, ?_, ?_, ?_, ?_, ?_, ?_, ?_⟩ <;> decide

/-- C21 fails when one key is a prefix of another and when a value holds `:` followed by
another key: for the template `/:idx` and the map `id = 1`, `idx = 2`, visiting `id` first
gives `/1x` and visiting `idx` first gives `/2`; for the template `/:a/:b` and the map
`a = :b`, `b = x`, visiting `a` first gives `/x/x` and visiting `b` first gives `/:b/x`. -/
theorem C21_visiting_order_counterexample :
    List.Perm [(go "id", go "1"), (go "idx", go "2")] [(go "idx", go "2"), (go "id", go "1")] ∧
    (parseRequestURL plainClient.tocliCore
        { url := go "/:idx", pathParams := [(go "id", go "1"), (go "idx", go "2")] }).1.url =
      go "/1x" ∧
    (parseRequestURL plainClient.tocliCore
        { url := go "/:idx", pathParams := [(go "idx", go "2"), (go "id", go "1")] }).1.url =
      go "/2" ∧
    (parseRequestURL plainClient.tocliCore
        { url := go "/:a/:b", pathParams := [(go "a", go ":b"), (go "b", go "x")] }).1.url =
      go "/x/x" ∧
    (parseRequestURL plainClient.tocliCore
        { url := go "/:a/:b", pathParams := [(go "b", go "x"), (go "a", go ":b")] }).1.url =
      go "/:b/x" := by
  refine ⟨List.Perm.swap _ _ _, ?_, ?_, ?_, ?_⟩ <;> decide

/-- `find?` does not depend on the order of the list when at most one element of the list
passes the test. -/
theorem find_perm_of_unique {α : Type} (p : α → Bool) (l l2 : List α) (hperm : l.Perm l2)
    (huniq : ∀ a ∈ l, ∀ b ∈ l, p a = true → p b = true → a = b) :
    l.find? p = l2.find? p := by
  cases h1 : l.find? p with
  | none =>
    rw [List.find?_eq_none] at h1
    symm
    rw [List.find?_eq_none]
    intro x hx
    exact h1 x (hperm.mem_iff.mpr hx)
  | some a =>
    have ha : p a = true := List.find?_some h1
    have hal : a ∈ l := List.mem_of_find?_eq_some h1
    cases h2 : l2.find? p with
    | none =>
      rw [List.find?_eq_none] at h2
      exact absurd ha (h2 a (hperm.mem_iff.mp hal))
    | some b =>
      have hb : p b = true := List.find?_some h2
      have hbl : b ∈ l := hperm.mem_iff.mpr (List.mem_of_find?_eq_some h2)
      rw [huniq a hal b hbl ha hb]

/-- The one-pass substitution does not depend on the order of the map when no key is a
prefix of another key. -/
theorem expandGo_perm (M M2 : List (Str × Str)) (hperm : M.Perm M2)
    (hpf : M.Pairwise (fun a b => ¬ a.1 <+: b.1 ∧ ¬ b.1 <+: a.1)) :
    ∀ (n : Nat) (s : Str), s.length ≤ n → expandGo M 0 s = expandGo M2 0 s := by
  have hsym : Symmetric (fun (a b : Str × Str) => ¬ a.1 <+: b.1 ∧ ¬ b.1 <+: a.1) :=
    fun a b h => ⟨h.2, h.1⟩
  have hfind : ∀ (s : Str), M.find? (fun e => e.1.isPrefixOf s) =
      M2.find? (fun e => e.1.isPrefixOf s) := by
    intro s
    apply find_perm_of_unique _ M M2 hperm
    intro a ha b hb hpa hpb
    by_contra hne
    have hp1 : a.1 <+: s := List.isPrefixOf_iff_prefix.mp hpa
    have hp2 : b.1 <+: s := List.isPrefixOf_iff_prefix.mp hpb
    have := hpf.forall hsym ha hb hne
    rcases List.prefix_or_prefix_of_prefix hp1 hp2 with h | h
    · exact this.1 h
    · exact this.2 h
  intro n
  induction n with
  | zero =>
    intro s hs
    have : s = [] := List.length_eq_zero.mp (Nat.le_zero.mp hs)
    subst this
    rfl
  | succ n ih =>
    intro s hs
    cases s with
    | nil => rfl
    | cons c s =>
      have hlen : s.length ≤ n := by
        simp only [List.length_cons] at hs
        omega
      by_cases hc : c = ':'
      · subst hc
        cases hf : M.find? (fun e => e.1.isPrefixOf s) with
        | none =>
          rw [expandGo_colon_none M s hf, expandGo_colon_none M2 s ((hfind s).symm.trans hf),
            ih s hlen]
        | some e =>
          rw [expandGo_colon_some M s e hf,
            expandGo_colon_some M2 s e ((hfind s).symm.trans hf),
            ih _ (by rw [List.length_drop]; omega)]
      · rw [expandGo_cons_ne M c s hc, expandGo_cons_ne M2 c s hc, ih s hlen]

theorem colonsFit_perm (M M2 : List (Str × Str)) (hperm : M.Perm M2) :
    ∀ (s : Str), colonsFit M s = colonsFit M2 s := by
  intro s
  induction s with
  | nil => rfl
  | cons c s ih =>
    have hall : M.all (fun e => keyFits s e.1) = M2.all (fun e => keyFits s e.1) := by
      rw [Bool.eq_iff_iff, List.all_eq_true, List.all_eq_true]
      exact ⟨fun h x hx => h x (hperm.mem_iff.mpr hx), fun h x hx => h x (hperm.mem_iff.mp hx)⟩
    simp only [colonsFit, hall, ih]

/-- C21, amended: when no key and no value of the path-variable map holds a `:`, no key is
a prefix of another key, and every `:` of the template is followed by a text that every
key fits, any other visiting order of the map's entries gives the same substituted URL,
and `parseRequestURL` leaves the same URL and returns the same error. -/
theorem C21_order_independence (c : cliCore) (r : request) (M2 : List (Str × Str))
    (hperm : r.pathParams.Perm M2)
    (hk : ∀ e ∈ r.pathParams, ':' ∉ e.1) (hv : ∀ e ∈ r.pathParams, ':' ∉ e.2)
    (hpf : r.pathParams.Pairwise (fun a b => ¬ a.1 <+: b.1 ∧ ¬ b.1 <+: a.1))
    (hfit : colonsFit r.pathParams r.url = true) :
    substPathParams r.url M2 = substPathParams r.url r.pathParams ∧
      (parseRequestURL c { r with pathParams := M2 }).1.url = (parseRequestURL c r).1.url ∧
      (parseRequestURL c { r with pathParams := M2 }).2 = (parseRequestURL c r).2 := by
  have hk2 : ∀ e ∈ M2, ':' ∉ e.1 := fun e he => hk e (hperm.mem_iff.mpr he)
  have hv2 : ∀ e ∈ M2, ':' ∉ e.2 := fun e he => hv e (hperm.mem_iff.mpr he)
  have hfit2 : colonsFit M2 r.url = true := by
    rw [← colonsFit_perm r.pathParams M2 hperm]
    exact hfit
  have hsub : substPathParams r.url M2 = substPathParams r.url r.pathParams := by
    rw [substPathParams_eq_expand M2 r.url hk2 hv2 hfit2,
      substPathParams_eq_expand r.pathParams r.url hk hv hfit]
    exact (expandGo_perm r.pathParams M2 hperm hpf _ r.url (Nat.le_refl _)).symm
  have hlen : M2.length = r.pathParams.length := hperm.length_eq.symm
  have hurl : (withPathParams { r with pathParams := M2 }).url = (withPathParams r).url := by
    unfold withPathParams
    dsimp only
    rw [hlen]
    split
    · exact hsub
    · rfl
  have hq : (withPathParams { r with pathParams := M2 }).queryParam =
      (withPathParams r).queryParam := by
    rw [withPathParams_queryParam, withPathParams_queryParam]
  refine ⟨hsub, ?_, ?_⟩
  · unfold parseRequestURL
    rw [hurl, hq]
    split
    · exact hurl
    · split
      · split <;> rfl
      · rfl
  · unfold parseRequestURL
    rw [hurl, hq]
    split
    · rfl
    · split
      · split <;> rfl
      · rfl

/-- The amended C21 at the template `/users/:id/books/:bid` with `id = a/b` and `bid = 42`,
visited in both orders. -/
theorem C21_order_independence_witness :
    substPathParams (go "/users/:id/books/:bid") [(go "bid", go "42"), (go "id", go "a/b")] =
        substPathParams (go "/users/:id/books/:bid")
          [(go "id", go "a/b"), (go "bid", go "42")] ∧
      (parseRequestURL plainClient.tocliCore
        { url := go "/users/:id/books/:bid"
          pathParams := [(go "bid", go "42"), (go "id", go "a/b")] }).1.url =
      (parseRequestURL plainClient.tocliCore
        { url := go "/users/:id/books/:bid"
          pathParams := [(go "id", go "a/b"), (go "bid", go "42")] }).1.url :=
  have h := C21_order_independence plainClient.tocliCore
    { url := go "/users/:id/books/:bid", pathParams := [(go "id", go "a/b"), (go "bid", go "42")] }
    [(go "bid", go "42"), (go "id", go "a/b")] (List.Perm.swap _ _ _)
    (by decide) (by decide) (by decide) (by decide)
  ⟨h.1, h.2.1⟩

namespace url

open encoding

/-- Every byte that `escape` writes is `%`, `+`, a letter or a digit, or a byte of the text
that the mode does not escape. -/
theorem escape_mem (s : Str) (mode : encoding) (c : Char) (h : c ∈ escape s mode) :
    c = '%' ∨ c = '+' ∨ isAlnum c = true ∨ (c ∈ s ∧ shouldEscape c mode = false) := by
  unfold escape at h
  rw [List.mem_flatMap] at h
  obtain ⟨d, hd, hc⟩ := h
  unfold escapeByte at hc
  split at hc
  · split at hc
    · simp only [List.mem_singleton] at hc
      exact Or.inr (Or.inl hc)
    · simp only [List.mem_cons, List.mem_singleton, List.not_mem_nil, or_false] at hc
      rcases hc with hc | hc | hc
      · exact Or.inl hc
      · subst hc
        exact Or.inr (Or.inr (Or.inl (upperhex_alnum _ (Nat.mod_lt _ (by decide)))))
      · subst hc
        exact Or.inr (Or.inr (Or.inl (upperhex_alnum _ (Nat.mod_lt _ (by decide)))))
  · rename_i hs
    simp only [List.mem_singleton] at hc
    subst hc
    exact Or.inr (Or.inr (Or.inr ⟨hd, by simpa using hs⟩))

/-- The text that `escape` writes for a user name, a password or a host holds none of `/`,
`?` and `#`. -/
theorem escape_no_delim (s : Str) (mode : encoding)
    (hm : mode = encodeUserPassword ∨ mode = encodeHost) (c : Char)
    (hc : c = '/' ∨ c = '?' ∨ c = '#') : c ∉ escape s mode := by
  intro h
  rcases escape_mem s mode c h with h1 | h1 | h1 | ⟨_, h1⟩
  · rcases hc with hc | hc | hc <;> subst hc <;> revert h1 <;> decide
  · rcases hc with hc | hc | hc <;> subst hc <;> revert h1 <;> decide
  · rcases hc with hc | hc | hc <;> subst hc <;> revert h1 <;> decide
  · rcases hm with hm | hm <;> subst hm <;> rcases hc with hc | hc | hc <;> subst hc <;>
      revert h1 <;> decide

/-- The authority that `URL.String` writes holds no `?` and no `#`. -/
theorem authorityString_no_query (t : URL) (c : Char) (hc : c = '?' ∨ c = '#') :
    c ∉ URL.authorityString t := by
  have hc3 : c = '/' ∨ c = '?' ∨ c = '#' := Or.inr hc
  have hne : c ≠ '/' ∧ c ≠ '@' ∧ c ≠ ':' := by
    rcases hc with hc | hc <;> subst hc <;> decide
  have huser : ∀ ui : Userinfo, c ∉ Userinfo.String ui ++ ['@'] := by
    intro ui hm
    rcases List.mem_append.mp hm with hm | hm
    · unfold Userinfo.String at hm
      rcases List.mem_append.mp hm with hm | hm
      · exact escape_no_delim _ _ (Or.inl rfl) c hc3 hm
      · split at hm
        · rcases List.mem_cons.mp hm with hm | hm
          · exact hne.2.2 hm
          · exact escape_no_delim _ _ (Or.inl rfl) c hc3 hm
        · cases hm
    · simp only [List.mem_singleton] at hm
      exact hne.2.1 hm
  intro hm
  unfold URL.authorityString at hm
  split at hm
  · split at hm
    · cases hm
    · rcases List.mem_append.mp hm with hm | hm
      · rcases List.mem_append.mp hm with hm | hm
        · split at hm
          · simp only [go, List.mem_cons, List.mem_singleton, List.not_mem_nil, or_false,
              or_self] at hm
            exact hne.1 hm
          · cases hm
        · cases hu : t.User with
          | none => rw [hu] at hm; cases hm
          | some ui => rw [hu] at hm; exact huser ui hm
      · split at hm
        · exact escape_no_delim _ _ (Or.inr rfl) c hc3 hm
        · cases hm
  · cases hm

/-- What `URL.String` writes before the query for a URL without opaque part holds no `?`
and no `#`, apart from what the scheme holds. -/
theorem stringBody_no_query (t : URL) (hS : t.Scheme = []) (hO : t.Opaque = []) (c : Char)
    (hc : c = '?' ∨ c = '#') : c ∉ URL.stringBody t := by
  have hne : c ≠ '/' ∧ c ≠ '.' := by
    rcases hc with hc | hc <;> subst hc <;> decide
  have hpath : c ∉ URL.EscapedPath t := by
    intro hm
    have := validEncoded_mem _ _ (EscapedPath_ok t).1 c hm
    rcases hc with hc | hc
    · exact this.2.2 rfl hc
    · exact this.2.1 hc
  have hauth := authorityString_no_query t c hc
  intro hm
  unfold URL.stringBody at hm
  rw [if_neg (fun h => h hO), if_neg (fun h => h hS)] at hm
  simp only [List.nil_append] at hm
  rcases List.mem_append.mp hm with hm | hm
  · have hdot : c ∉ go "./" := by
      intro hx
      simp only [go, List.mem_cons, List.mem_singleton, List.not_mem_nil, or_false] at hx
      rcases hx with hx | hx
      · exact hne.2 hx
      · exact hne.1 hx
    have hsl : c ∉ URL.authorityString t ++ ['/'] := by
      intro hx
      rcases List.mem_append.mp hx with hx | hx
      · exact hauth hx
      · simp only [List.mem_singleton] at hx
        exact hne.1 hx
    split_ifs at hm
    · exact hdot hm
    · exact hsl hm
    · exact hdot hm
    · exact hauth hm
  · exact hpath hm

/-- What `getScheme` returns: the whole text and no scheme, or the text cut at the `:` that
ends a non-empty scheme of letters, digits, `+`, `-` and `.`. -/
theorem getSchemeGo_split (raw : Str) : ∀ (s : Str) (i : Nat) (pre a b : Str),
    raw = pre ++ s → pre.length = i →
    (∀ c ∈ pre, c ≠ '?' ∧ c ≠ '#' ∧ c ≠ '/' ∧ c ≠ ':') →
    getSchemeGo raw i s = .ok (a, b) →
    (a = [] ∧ b = raw) ∨
      (a ≠ [] ∧ raw = a ++ ':' :: b ∧ ∀ c ∈ a, c ≠ '?' ∧ c ≠ '#' ∧ c ≠ '/' ∧ c ≠ ':') := by
  intro s
  induction s with
  | nil =>
    intro i pre a b _ _ _ h
    simp only [getSchemeGo, Except.ok.injEq, Prod.mk.injEq] at h
    exact Or.inl ⟨h.1.symm, h.2.symm⟩
  | cons d s ih =>
    intro i pre a b hraw hlen hpre h
    have hstep : raw = (pre ++ [d]) ++ s := by rw [hraw]; simp
    have hlen2 : (pre ++ [d]).length = i + 1 := by simp [hlen]
    rw [getSchemeGo] at h
    split at h
    · rename_i hd
      refine ih (i + 1) (pre ++ [d]) a b hstep hlen2 ?_ h
      intro c hc
      rcases List.mem_append.mp hc with hc | hc
      · exact hpre c hc
      · simp only [List.mem_singleton] at hc
        subst hc
        have h1 : ¬ (('a' ≤ '?' ∧ '?' ≤ 'z') ∨ ('A' ≤ '?' ∧ '?' ≤ 'Z')) := by decide
        have h2 : ¬ (('a' ≤ '#' ∧ '#' ≤ 'z') ∨ ('A' ≤ '#' ∧ '#' ≤ 'Z')) := by decide
        have h3 : ¬ (('a' ≤ '/' ∧ '/' ≤ 'z') ∨ ('A' ≤ '/' ∧ '/' ≤ 'Z')) := by decide
        have h4 : ¬ (('a' ≤ ':' ∧ ':' ≤ 'z') ∨ ('A' ≤ ':' ∧ ':' ≤ 'Z')) := by decide
        exact ⟨fun e => h1 (e ▸ hd), fun e => h2 (e ▸ hd), fun e => h3 (e ▸ hd),
          fun e => h4 (e ▸ hd)⟩
    · split at h
      · rename_i hd
        split at h
        · simp only [Except.ok.injEq, Prod.mk.injEq] at h
          exact Or.inl ⟨h.1.symm, h.2.symm⟩
        · refine ih (i + 1) (pre ++ [d]) a b hstep hlen2 ?_ h
          intro c hc
          rcases List.mem_append.mp hc with hc | hc
          · exact hpre c hc
          · simp only [List.mem_singleton] at hc
            subst hc
            have h1 : ¬ (('0' ≤ '?' ∧ '?' ≤ '9') ∨ '?' = '+' ∨ '?' = '-' ∨ '?' = '.') := by decide
            have h2 : ¬ (('0' ≤ '#' ∧ '#' ≤ '9') ∨ '#' = '+' ∨ '#' = '-' ∨ '#' = '.') := by decide
            have h3 : ¬ (('0' ≤ '/' ∧ '/' ≤ '9') ∨ '/' = '+' ∨ '/' = '-' ∨ '/' = '.') := by decide
            have h4 : ¬ (('0' ≤ ':' ∧ ':' ≤ '9') ∨ ':' = '+' ∨ ':' = '-' ∨ ':' = '.') := by decide
            exact ⟨fun e => h1 (e ▸ hd), fun e => h2 (e ▸ hd), fun e => h3 (e ▸ hd),
              fun e => h4 (e ▸ hd)⟩
      · split at h
        · rename_i hd
          split at h
          · cases h
          · rename_i hi
            simp only [Except.ok.injEq, Prod.mk.injEq] at h
            have htake : raw.take i = pre := by
              rw [hraw, ← hlen]
              simp
            right
            rw [htake] at h
            rw [← h.1, ← h.2]
            refine ⟨?_, ?_, hpre⟩
            · intro hp
              apply hi
              rw [← hlen, hp]
              rfl
            · rw [hraw, hd]
        · simp only [Except.ok.injEq, Prod.mk.injEq] at h
          exact Or.inl ⟨h.1.symm, h.2.symm⟩

theorem getScheme_split (raw a b : Str) (h : getScheme raw = .ok (a, b)) :
    (a = [] ∧ b = raw) ∨
      (a ≠ [] ∧ raw = a ++ ':' :: b ∧ ∀ c ∈ a, c ≠ '?' ∧ c ≠ '#' ∧ c ≠ '/' ∧ c ≠ ':') :=
  getSchemeGo_split raw raw 0 [] a b rfl rfl (fun _ hc => by cases hc) h

/-- A text `pre ++ rest` that is also `Y ++ Qp`, where `pre` and `Y` hold no `?` and `Qp`
is empty or begins with `?`: `rest` is a text without `?` followed by `Qp`. -/
theorem split_before_query : ∀ (pre rest Y Qp : Str), pre ++ rest = Y ++ Qp →
    '?' ∉ pre → '?' ∉ Y → (Qp = [] ∨ ∃ rq, Qp = '?' :: rq) →
    ∃ Y2, rest = Y2 ++ Qp ∧ '?' ∉ Y2 ∧ ∀ c ∈ Y2, c ∈ Y := by
  intro pre
  induction pre with
  | nil =>
    intro rest Y Qp h _ hY _
    exact ⟨Y, h, hY, fun _ hc => hc⟩
  | cons d pre ih =>
    intro rest Y Qp h hpre hY hQ
    simp only [List.mem_cons, not_or] at hpre
    cases Y with
    | nil =>
      exfalso
      rcases hQ with hQ | ⟨rq, hQ⟩
      · subst hQ
        cases h
      · subst hQ
        simp only [List.cons_append, List.nil_append, List.cons.injEq] at h
        exact hpre.1 h.1.symm
    | cons y Y =>
      simp only [List.cons_append, List.cons.injEq] at h
      simp only [List.mem_cons, not_or] at hY
      obtain ⟨Y2, h1, h2, h3⟩ := ih rest Y Qp h.2 hpre.2 hY.2 hQ
      exact ⟨Y2, h1, h2, fun c hc => List.mem_cons_of_mem _ (h3 c hc)⟩

/-- The query that `parse` reads from a text `Y` without `?`, followed by a query part. -/
theorem parse_query (Y Qp : Str) (v : URL) (hY : '?' ∉ Y)
    (hQ : Qp = [] ∨ ∃ rq, Qp = '?' :: rq) (h : parse (Y ++ Qp) = .ok v) :
    queryPart v = Qp := by
  unfold parse at h
  split at h
  · cases h
  split at h
  · rename_i hstar
    simp only [Except.ok.injEq] at h
    rw [← h]
    rcases hQ with hQ | ⟨rq, hQ⟩
    · rw [hQ]
      rfl
    · exfalso
      subst hQ
      cases Y with
      | nil => simp at hstar
      | cons y Y =>
        simp only [List.cons_append, List.cons.injEq, List.append_eq_nil] at hstar
        cases hstar.2.2
  · cases hg : getScheme (Y ++ Qp) with
    | error e => rw [hg] at h; cases h
    | ok pr =>
      obtain ⟨scheme, rest0⟩ := pr
      rw [hg] at h
      simp only at h
      obtain ⟨_, hq, hf, _⟩ := parseRest_ok _ _ _ h rfl
      have hrest : ∃ Y2, rest0 = Y2 ++ Qp ∧ '?' ∉ Y2 := by
        rcases getScheme_split _ _ _ hg with ⟨_, h2⟩ | ⟨_, h2, h3⟩
        · exact ⟨Y, h2, hY⟩
        · have h4 : (scheme ++ [':']) ++ rest0 = Y ++ Qp := by rw [h2]; simp
          have h5 : '?' ∉ scheme ++ [':'] := by
            intro hm
            rcases List.mem_append.mp hm with hm | hm
            · exact (h3 _ hm).1 rfl
            · revert hm; decide
          obtain ⟨Y2, h6, h7, _⟩ := split_before_query _ _ _ _ h4 h5 hY hQ
          exact ⟨Y2, h6, h7⟩
      obtain ⟨Y2, hr, hY2⟩ := hrest
      have := (query_split Y2 Qp hY2 hQ).2
      rw [← hr] at this
      unfold queryPart
      rw [hq, hf]
      simp only at this ⊢
      rw [← this]

/-- The query that `Parse` reads from a text `Y` without `?` and `#`, followed by a query
part and a fragment part. -/
theorem Parse_query (Y Qp Fp : Str) (v : URL) (hY : '?' ∉ Y) (hY2 : '#' ∉ Y)
    (hQ : Qp = [] ∨ ∃ rq, Qp = '?' :: rq ∧ '#' ∉ rq)
    (hF : Fp = [] ∨ ∃ ef, Fp = '#' :: ef) (h : Parse (Y ++ Qp ++ Fp) = .ok v) :
    queryPart v = Qp := by
  have hQ1 : Qp = [] ∨ ∃ rq, Qp = '?' :: rq := by
    rcases hQ with hQ | ⟨rq, hQ, _⟩
    · exact Or.inl hQ
    · exact Or.inr ⟨rq, hQ⟩
  have hsharp : '#' ∉ Y ++ Qp := by
    intro hm
    rcases List.mem_append.mp hm with hm | hm
    · exact hY2 hm
    · rcases hQ with hQ | ⟨rq, hQ, hrq⟩
      · rw [hQ] at hm; cases hm
      · rw [hQ] at hm
        rcases List.mem_cons.mp hm with hm | hm
        · revert hm; decide
        · exact hrq hm
  have hcut : (strings.Cut (Y ++ Qp ++ Fp) '#').1 = Y ++ Qp := by
    rcases hF with hF | ⟨ef, hF⟩
    · rw [hF, List.append_nil, strings.Cut_no_sep '#' _ hsharp]
    · rw [hF, strings.Cut_at_sep _ ef '#' hsharp]
  unfold Parse at h
  simp only at h
  rw [hcut] at h
  cases hp : parse (Y ++ Qp) with
  | error e => rw [hp] at h; cases h
  | ok u =>
    rw [hp] at h
    simp only at h
    have hu := parse_query Y Qp u hY hQ1 hp
    split at h
    · simp only [Except.ok.injEq] at h
      rw [← h]
      exact hu
    · obtain ⟨_, rf, hv, _⟩ := setFragment_ok _ _ _ h
      rw [hv]
      exact hu

theorem queryPart_inj (v t : URL) (h : queryPart v = queryPart t) : v.RawQuery = t.RawQuery := by
  unfold queryPart at h
  split at h <;> split at h
  · simpa using h
  · cases h
  · cases h
  · rename_i h1 h2
    have a1 : v.RawQuery = [] := by
      by_contra hx
      exact h1 (Or.inr hx)
    have a2 : t.RawQuery = [] := by
      by_contra hx
      exact h2 (Or.inr hx)
    rw [a1, a2]

end url

/-- The URL whose query `parseRequestURL` extends: the parsed template itself when it is
absolute, and otherwise what `url.Parse` returns for the base URL followed by the printed
template. -/
theorem parseRequestURL_parsed (c : cliCore) (r : request)
    (h : (parseRequestURL c r).2 = none) :
    ∃ t v, url.Parse (withPathParams r).url = .ok t ∧
      ((url.URL.IsAbs t = true ∧ v = t) ∨
        (url.URL.IsAbs t = false ∧
          url.Parse (c.hostUrl ++ withSlash (url.URL.String t)) = .ok v)) ∧
      (parseRequestURL c r).1.url = url.URL.String (addQuery v (buildQuery r.queryParam)) := by
  unfold parseRequestURL at h ⊢
  cases hparse : url.Parse (withPathParams r).url with
  | error err => rw [hparse] at h; simp at h
  | ok reqURL =>
    rw [hparse] at h
    simp only at h ⊢
    by_cases hrel : (!reqURL.IsAbs) = true
    · rw [if_pos hrel] at h ⊢
      cases hparse2 : url.Parse (c.hostUrl ++ withSlash reqURL.String) with
      | error err => rw [hparse2] at h; simp at h
      | ok reqURL2 =>
        simp only
        rw [withPathParams_queryParam]
        exact ⟨reqURL, reqURL2, rfl, Or.inr ⟨by simpa using hrel, hparse2⟩, rfl⟩
    · rw [if_neg hrel]
      simp only
      rw [withPathParams_queryParam]
      exact ⟨reqURL, reqURL, rfl, Or.inl ⟨by simpa using hrel, rfl⟩, rfl⟩

/-- Behind a base URL without `?` and `#`, the second `url.Parse` of `parseRequestURL` reads
the raw query of the parsed template again. -/
theorem Parse_behind_base_query (B T : Str) (t v : url.URL) (hT : url.Parse T = .ok t)
    (hS : t.Scheme = []) (hB : '?' ∉ B ∧ '#' ∉ B)
    (hv : url.Parse (B ++ withSlash (url.URL.String t)) = .ok v) :
    v.RawQuery = t.RawQuery := by
  have hO := (url.Parse_ok T t hT).2 hS
  have hbody : ∀ c, c = '?' ∨ c = '#' → c ∉ url.URL.stringBody t :=
    fun c hc => url.stringBody_no_query t hS hO c hc
  have hQ : url.queryPart t = [] ∨ ∃ rq, url.queryPart t = '?' :: rq ∧ '#' ∉ rq := by
    rcases url.queryPart_cases T t hT with h | ⟨rq, h, hrq⟩
    · exact Or.inl h
    · exact Or.inr ⟨rq, h, fun hm => (hrq _ hm).2 rfl⟩
  have hF : url.fragmentPart t = [] ∨ ∃ ef, url.fragmentPart t = '#' :: ef := by
    rcases url.fragmentPart_cases t with h | ⟨ef, h, _⟩
    · exact Or.inl h
    · exact Or.inr ⟨ef, h⟩
  have hjoin : ∃ Y, B ++ withSlash (url.URL.String t) =
      Y ++ url.queryPart t ++ url.fragmentPart t ∧ '?' ∉ Y ∧ '#' ∉ Y := by
    unfold withSlash
    rw [url.String_parts]
    split
    · refine ⟨B ++ '/' :: url.URL.stringBody t, by simp, ?_, ?_⟩
      · intro hm
        rcases List.mem_append.mp hm with hm | hm
        · exact hB.1 hm
        · rcases List.mem_cons.mp hm with hm | hm
          · revert hm; decide
          · exact hbody _ (Or.inl rfl) hm
      · intro hm
        rcases List.mem_append.mp hm with hm | hm
        · exact hB.2 hm
        · rcases List.mem_cons.mp hm with hm | hm
          · revert hm; decide
          · exact hbody _ (Or.inr rfl) hm
    · refine ⟨B ++ url.URL.stringBody t, by simp, ?_, ?_⟩
      · intro hm
        rcases List.mem_append.mp hm with hm | hm
        · exact hB.1 hm
        · exact hbody _ (Or.inl rfl) hm
      · intro hm
        rcases List.mem_append.mp hm with hm | hm
        · exact hB.2 hm
        · exact hbody _ (Or.inr rfl) hm
  obtain ⟨Y, hY, hY1, hY2⟩ := hjoin
  rw [hY] at hv
  exact url.queryPart_inj v t (url.Parse_query Y _ _ v hY1 hY2 hQ hF hv)

/-- C8, amended: for a request whose query parameters were set through `setQueryParam`
(keys and formatted values being byte strings), when `parseRequestURL` returns no error,
`t` being the URL that `url.Parse` returns for the template (with its path variables put
in) and `v` the URL whose query is extended (`t` itself when it is absolute, otherwise what
`url.Parse` returns for the base URL followed by the printed `t`): the raw query of `v` is
the raw query of the template `t` whenever the base URL holds no `?` and no `#`, and the
URL left is `v` printed with the raw query `newRaw`: the raw query of `v` when the request
has no query value; the encoded request query when the raw query of `v` is blank; the raw
query of `v`, `&` and the encoded request query otherwise.  The encoded request query holds
for every key exactly the values added for it through `setQueryParam`, in insertion order,
so the values of a key in `newRaw` are the values it has in the raw query of `v` (none when
that is blank and replaced) followed by the values added. -/
theorem C8_query_values (c : cliCore) (r0 : request) (ops : List (Str × Value))
    (hfresh : r0.queryParam = [])
    (hbytes : ∀ e ∈ ops, isBytes e.1 = true ∧ isBytes e.2.sprintValue = true ∧
      ∀ it ∈ e.2.items, isBytes it.sprint = true)
    (hok : (parseRequestURL c (r0.setQueryParams ops)).2 = none) :
    ∃ (t v : url.URL) (newRaw : Str),
      url.Parse (withPathParams (r0.setQueryParams ops)).url = .ok t ∧
      ((url.URL.IsAbs t = true ∧ v = t) ∨
        (url.URL.IsAbs t = false ∧
          url.Parse (c.hostUrl ++ withSlash (url.URL.String t)) = .ok v)) ∧
      ('?' ∉ c.hostUrl ∧ '#' ∉ c.hostUrl → v.RawQuery = t.RawQuery) ∧
      (parseRequestURL c (r0.setQueryParams ops)).1.url =
        url.URL.stringBody v ++ (if v.ForceQuery ∨ newRaw ≠ [] then '?' :: newRaw else []) ++
          (if v.Fragment ≠ [] then '#' :: url.URL.EscapedFragment v else []) ∧
      newRaw =
        (if buildQuery (r0.setQueryParams ops).queryParam = [] then v.RawQuery
          else if isStringEmpty v.RawQuery then
            url.Values.Encode (buildQuery (r0.setQueryParams ops).queryParam)
          else v.RawQuery ++ go "&" ++
            url.Values.Encode (buildQuery (r0.setQueryParams ops).queryParam)) ∧
      (∀ k, queryValues (url.Values.Encode (buildQuery (r0.setQueryParams ops).queryParam)) k =
        addedValues k ops) ∧
      (∀ k, queryValues newRaw k =
        (if buildQuery (r0.setQueryParams ops).queryParam ≠ [] ∧
            isStringEmpty v.RawQuery = true then []
          else queryValues v.RawQuery k) ++ addedValues k ops) := by
  obtain ⟨t, v, hparse, hv, hurl⟩ := parseRequestURL_parsed c _ hok
  obtain ⟨hnd, hb⟩ := setQueryParams_inv ops r0 hbytes
    (by rw [hfresh]; exact ⟨by simp [gomap.keys], by intro k vs h; simp [gomap.get] at h⟩)
  have hadded : ∀ k, (gomap.get (r0.setQueryParams ops).queryParam k).getD [] =
      addedValues k ops := by
    intro k
    rw [setQueryParams_get k ops r0, hfresh]
    rfl
  have hQnd : (gomap.keys (buildQuery (r0.setQueryParams ops).queryParam)).Nodup :=
    buildLoop_nodup _ [] (by simp [gomap.keys])
  have hQb : ∀ k vs, gomap.get (buildQuery (r0.setQueryParams ops).queryParam) k = some vs →
      isBytes k = true ∧ ∀ v ∈ vs, isBytes v = true :=
    fun k vs h => hb k vs (get_buildQuery_some _ k vs hnd h)
  have henc : ∀ k, queryValues
      (url.Values.Encode (buildQuery (r0.setQueryParams ops).queryParam)) k =
      addedValues k ops := by
    intro k
    rw [queryValues_Encode _ k hQnd hQb, getD_buildQuery _ k hnd, hadded]
  have htie : '?' ∉ c.hostUrl ∧ '#' ∉ c.hostUrl → v.RawQuery = t.RawQuery := by
    intro hB
    rcases hv with ⟨_, hv⟩ | ⟨hrel, hv⟩
    · rw [hv]
    · have hS : t.Scheme = [] := by
        unfold url.URL.IsAbs at hrel
        simpa using hrel
      exact Parse_behind_base_query c.hostUrl _ t v hparse hS hB hv
  refine ⟨t, v, _, hparse, hv, htie, ?_, rfl, henc, ?_⟩
  · rw [hurl, addQuery_eq, String_query]
  · intro k
    by_cases hQ : buildQuery (r0.setQueryParams ops).queryParam = []
    · have hnone : addedValues k ops = [] := by
        rw [← hadded, ← getD_buildQuery _ k hnd, hQ]
        rfl
      rw [if_pos hQ, if_neg (fun h => h.1 hQ), hnone, List.append_nil]
    · rw [if_neg hQ]
      by_cases hblank : isStringEmpty v.RawQuery = true
      · rw [if_pos hblank, if_pos ⟨hQ, hblank⟩, henc]
        rfl
      · rw [if_neg hblank, if_neg (fun h => hblank h.2), queryValues_append, henc]

/-- The amended C8 at the example of the claim: the base URL `http://127.0.0.1:8899`, the
template `/life/client1`, `q1 = a` and `q2 = b`. -/
theorem C8_query_values_witness :
    (parseRequestURL localClient.tocliCore
        ((({ url := go "/life/client1" } : request)).setQueryParams
          [(go "q1", stringValue "a"), (go "q2", stringValue "b")])).1.url =
      go "http://127.0.0.1:8899/life/client1?q1=a&q2=b" ∧
    queryValues (url.Values.Encode (buildQuery
        ((({ url := go "/life/client1" } : request)).setQueryParams
          [(go "q1", stringValue "a"), (go "q2", stringValue "b")]).queryParam)) (go "q2") =
      [go "b"] ∧
    (∃ t v, url.Parse (go "/life/client1") = .ok t ∧
      url.Parse (go "http://127.0.0.1:8899/life/client1") = .ok v ∧
      v.RawQuery = t.RawQuery) := by
  obtain ⟨t, v, newRaw, h1, h2, h3, _, _, h6, _⟩ := C8_query_values localClient.tocliCore
    { url := go "/life/client1" } [(go "q1", stringValue "a"), (go "q2", stringValue "b")]
    rfl (by decide) (by decide)
  refine ⟨by decide, (h6 (go "q2")).trans (by decide), t, v, h1, ?_, h3 (by decide)⟩
  have ht : t = { Path := go "/life/client1" } := by
    have : url.Parse (go "/life/client1") = .ok { Path := go "/life/client1" } := rfl
    have h1' : url.Parse (go "/life/client1") = .ok t := h1
    rw [this] at h1'
    exact (Except.ok.inj h1').symm
  subst ht
  rcases h2 with ⟨h2, _⟩ | ⟨_, h2⟩
  · exact absurd h2 (by decide)
  · exact h2

namespace url

open encoding

/-- Text put behind a text with a scheme does not change what `getScheme` reads. -/
theorem getSchemeGo_append (raw x : Str) : ∀ (s : Str) (i : Nat) (pre a b : Str),
    raw = pre ++ s → pre.length = i → getSchemeGo raw i s = .ok (a, b) → a ≠ [] →
    getSchemeGo (raw ++ x) i (s ++ x) = .ok (a, b ++ x) := by
  intro s
  induction s with
  | nil =>
    intro i pre a b _ _ h hne
    simp only [getSchemeGo, Except.ok.injEq, Prod.mk.injEq] at h
    exact absurd h.1.symm hne
  | cons d s ih =>
    intro i pre a b hraw hlen h hne
    have hstep : raw = (pre ++ [d]) ++ s := by rw [hraw]; simp
    have hlen2 : (pre ++ [d]).length = i + 1 := by simp [hlen]
    rw [List.cons_append, getSchemeGo]
    rw [getSchemeGo] at h
    by_cases h1 : ('a' ≤ d ∧ d ≤ 'z') ∨ ('A' ≤ d ∧ d ≤ 'Z')
    · rw [if_pos h1] at h ⊢
      exact ih _ _ a b hstep hlen2 h hne
    · rw [if_neg h1] at h ⊢
      by_cases h2 : ('0' ≤ d ∧ d ≤ '9') ∨ d = '+' ∨ d = '-' ∨ d = '.'
      · rw [if_pos h2] at h ⊢
        by_cases h3 : i = 0
        · rw [if_pos h3] at h
          simp only [Except.ok.injEq, Prod.mk.injEq] at h
          exact absurd h.1.symm hne
        · rw [if_neg h3] at h ⊢
          exact ih _ _ a b hstep hlen2 h hne
      · rw [if_neg h2] at h ⊢
        by_cases h4 : d = ':'
        · rw [if_pos h4] at h ⊢
          by_cases h3 : i = 0
          · rw [if_pos h3] at h
            cases h
          · rw [if_neg h3] at h ⊢
            simp only [Except.ok.injEq, Prod.mk.injEq] at h ⊢
            refine ⟨?_, by rw [h.2]⟩
            rw [← h.1, hraw, ← hlen]
            simp
        · rw [if_neg h4] at h
          simp only [Except.ok.injEq, Prod.mk.injEq] at h
          exact absurd h.1.symm hne

theorem getScheme_append (raw x a b : Str) (h : getScheme raw = .ok (a, b)) (hne : a ≠ []) :
    getScheme (raw ++ x) = .ok (a, b ++ x) :=
  getSchemeGo_append raw x raw 0 [] a b rfl rfl h hne

theorem ToLower_length (s : Str) : (strings.ToLower s).length = s.length := by
  unfold strings.ToLower
  simp

theorem Index_char_some (c : Char) : ∀ (s : Str) (i : Nat), strings.Index s [c] = some i →
    c ∉ s.take i ∧ (s.drop i).head? = some c := by
  intro s
  induction s with
  | nil =>
    intro i h
    simp [strings.Index] at h
  | cons d s ih =>
    intro i h
    rw [strings.Index] at h
    by_cases hd : List.isPrefixOf [c] (d :: s) = true
    · rw [if_pos hd] at h
      simp only [Option.some.injEq] at h
      subst h
      simp only [List.isPrefixOf, Bool.and_eq_true, beq_iff_eq, List.isPrefixOf_nil_left,
        and_true] at hd
      subst hd
      simp
    · rw [if_neg hd] at h
      simp only [List.isPrefixOf, Bool.and_eq_true, beq_iff_eq, List.isPrefixOf_nil_left,
        and_true] at hd
      cases hi : strings.Index s [c] with
      | none => rw [hi] at h; cases h
      | some j =>
        rw [hi] at h
        simp only [Option.some.injEq] at h
        subst h
        obtain ⟨h1, h2⟩ := ih j hi
        simp only [List.take_succ_cons, List.mem_cons, not_or, List.drop_succ_cons]
        exact ⟨⟨hd, h1⟩, h2⟩

theorem Index_char_none (c : Char) : ∀ (s : Str), strings.Index s [c] = none → c ∉ s := by
  intro s
  induction s with
  | nil => intro _ h; cases h
  | cons d s ih =>
    intro h
    rw [strings.Index] at h
    by_cases hd : List.isPrefixOf [c] (d :: s) = true
    · rw [if_pos hd] at h
      cases h
    · rw [if_neg hd] at h
      simp only [List.isPrefixOf, Bool.and_eq_true, beq_iff_eq, List.isPrefixOf_nil_left,
        and_true] at hd
      cases hi : strings.Index s [c] with
      | none =>
        simp only [List.mem_cons, not_or]
        exact ⟨hd, ih hi⟩
      | some j => rw [hi] at h; cases h

/-- The authority and the path that `parse` reads behind `//`: the authority holds no `/`,
and the path is empty or begins with `/`. -/
theorem authority_split (rest : Str) :
    rest.drop 2 = authorityOf rest ++ pathAfterAuthority rest ∧ '/' ∉ authorityOf rest ∧
      (pathAfterAuthority rest = [] ∨ (pathAfterAuthority rest).head? = some '/') := by
  unfold authorityOf pathAfterAuthority
  cases hi : strings.Index (rest.drop 2) ['/'] with
  | none =>
    simp only [List.append_nil, true_and]
    exact ⟨Index_char_none '/' _ hi, Or.inl trivial⟩
  | some i =>
    obtain ⟨h1, h2⟩ := Index_char_some '/' _ i hi
    simp only
    exact ⟨(List.take_append_drop i _).symm, h1, Or.inr h2⟩

theorem split_at_slash : ∀ (a c x y : Str), a ++ x = c ++ y → '/' ∉ a → '/' ∉ c →
    (x = [] ∨ x.head? = some '/') → (y = [] ∨ y.head? = some '/') → a = c ∧ x = y := by
  intro a
  induction a with
  | nil =>
    intro c x y h _ hc hx _
    cases c with
    | nil => exact ⟨rfl, h⟩
    | cons d c =>
      exfalso
      simp only [List.nil_append, List.cons_append] at h
      simp only [List.mem_cons, not_or] at hc
      rcases hx with hx | hx
      · rw [hx] at h
        cases h
      · rw [h] at hx
        simp only [List.head?_cons, Option.some.injEq] at hx
        exact hc.1 hx.symm
  | cons e a ih =>
    intro c x y h ha hc hx hy
    simp only [List.mem_cons, not_or] at ha
    cases c with
    | nil =>
      exfalso
      simp only [List.nil_append, List.cons_append] at h
      rcases hy with hy | hy
      · rw [hy] at h
        cases h
      · rw [← h] at hy
        simp only [List.head?_cons, Option.some.injEq] at hy
        exact ha.1 hy.symm
    | cons d c =>
      simp only [List.cons_append, List.cons.injEq] at h
      simp only [List.mem_cons, not_or] at hc
      obtain ⟨h1, h2⟩ := ih c x y h.2 ha.2 hc.2 hx hy
      exact ⟨by rw [h.1, h1], h2⟩

theorem authorityText_no_slash (user : Option Userinfo) (host : Str) :
    '/' ∉ authorityText user host := by
  intro hm
  unfold authorityText at hm
  rcases List.mem_append.mp hm with hm | hm
  · cases user with
    | none => cases hm
    | some ui =>
      simp only at hm
      rcases List.mem_append.mp hm with hm | hm
      · unfold Userinfo.String at hm
        rcases List.mem_append.mp hm with hm | hm
        · exact escape_no_delim _ _ (Or.inl rfl) '/' (Or.inl rfl) hm
        · split at hm
          · rcases List.mem_cons.mp hm with hm | hm
            · revert hm; decide
            · exact escape_no_delim _ _ (Or.inl rfl) '/' (Or.inl rfl) hm
          · cases hm
      · revert hm; decide
  · split at hm
    · exact escape_no_delim _ _ (Or.inr rfl) '/' (Or.inl rfl) hm
    · cases hm

theorem validEncoded_append (a b : Str) (mode : encoding) :
    validEncoded (a ++ b) mode = (validEncoded a mode && validEncoded b mode) := by
  unfold validEncoded
  rw [List.all_append]

/-- `unescape` accepts two accepted texts put together (in the mode of a path). -/
theorem unescapeCheck_append (b : Str) : ∀ (n : Nat) (a : Str), a.length ≤ n →
    unescapeCheck encodePath a = none →
    unescapeCheck encodePath (a ++ b) = unescapeCheck encodePath b := by
  intro n
  induction n with
  | zero =>
    intro a ha _
    have : a = [] := List.length_eq_zero.mp (Nat.le_zero.mp ha)
    subst this
    rfl
  | succ n ih =>
    intro a ha h
    cases a with
    | nil => rfl
    | cons c s =>
      by_cases hc : c = '%'
      · subst hc
        cases s with
        | nil => simp [unescapeCheck] at h
        | cons x s =>
          cases s with
          | nil => simp [unescapeCheck] at h
          | cons y t =>
            by_cases hx : ishex x = true ∧ ishex y = true
            · rw [unescapeCheck_pct_mode _ x y t (by decide) hx.1 hx.2] at h
              show unescapeCheck encodePath ('%' :: x :: y :: (t ++ b)) = _
              rw [unescapeCheck_pct_mode _ x y (t ++ b) (by decide) hx.1 hx.2]
              exact ih t (by simp at ha; omega) h
            · exfalso
              rw [unescapeCheck.eq_def] at h
              simp only [if_true] at h
              have : (!ishex x || !ishex y) = true := by
                rcases not_and_or.mp hx with hx | hx
                · simp [hx]
                · simp [hx]
              rw [if_pos this] at h
              cases h
      · rw [unescapeCheck_plain_mode _ c s (by decide) hc] at h
        show unescapeCheck encodePath (c :: (s ++ b)) = _
        rw [unescapeCheck_plain_mode _ c (s ++ b) (by decide) hc]
        exact ih s (by simp at ha; omega) h

theorem parseRest_opaque (u : URL) (rest : Str) (hS : u.Scheme ≠ [])
    (h1 : strings.HasPrefix rest ['/'] = false) :
    parseRest u rest = .ok { u with Opaque := rest } := by
  unfold parseRest
  simp [h1, hS]

theorem parseRest_authority (u : URL) (rest : Str) (hS : u.Scheme ≠ [])
    (h2 : strings.HasPrefix rest (go "//") = true) :
    parseRest u rest =
      match parseAuthority (authorityOf rest) with
      | .error e => .error e
      | .ok (user, host) =>
        URL.setPath { u with User := user, Host := host } (pathAfterAuthority rest) := by
  have h1 : strings.HasPrefix rest ['/'] = true := by
    unfold strings.HasPrefix at h2 ⊢
    cases rest with
    | nil => simp [go, List.isPrefixOf] at h2
    | cons c rest =>
      simp only [go, List.isPrefixOf, Bool.and_eq_true, beq_iff_eq] at h2
      simp only [List.isPrefixOf, Bool.and_eq_true, beq_iff_eq, List.isPrefixOf_nil_left,
        and_true]
      exact h2.1
  unfold parseRest
  simp only [h1, h2, Bool.not_true, Bool.false_and, Bool.false_eq_true, if_false,
    decide_eq_true hS, Bool.true_or, Bool.and_self, if_true]

theorem parseRest_omit (u : URL) (rest : Str) (hS : u.Scheme ≠ [])
    (h1 : strings.HasPrefix rest ['/'] = true)
    (h2 : strings.HasPrefix rest (go "//") = false) :
    parseRest u rest = URL.setPath { u with OmitHost := true } rest := by
  unfold parseRest
  simp [h1, h2, hS]

/-- What `URL.String` writes before the query for a URL with a scheme, no opaque part and an
escaped path that is empty or begins with `/`. -/
theorem stringBody_scheme (v : URL) (hO : v.Opaque = []) (hS : v.Scheme ≠ [])
    (hE : URL.EscapedPath v = [] ∨ (URL.EscapedPath v).head? = some '/') :
    URL.stringBody v = v.Scheme ++ ':' :: (URL.authorityString v ++ URL.EscapedPath v) := by
  have hb1 : ¬ (URL.EscapedPath v ≠ [] ∧ (URL.EscapedPath v).head? ≠ some '/' ∧ v.Host ≠ []) := by
    rintro ⟨h1, h2, _⟩
    rcases hE with hE | hE
    · exact h1 hE
    · exact h2 hE
  have hne : ∀ X : Str, (v.Scheme ++ [':']) ++ X ≠ [] := by
    intro X h
    exact hS (List.append_eq_nil.mp (List.append_eq_nil.mp h).1).1
  unfold URL.stringBody
  rw [if_neg (fun h => h hO), if_pos hS]
  dsimp only
  rw [if_neg hb1, if_neg (fun h => hne _ h.1)]
  simp

/-- The authority that `URL.String` writes for a URL with a scheme whose host is not left
out. -/
theorem authorityString_hier (v : URL) (hS : v.Scheme ≠ []) (hOm : v.OmitHost = false) :
    URL.authorityString v =
      (if v.Host ≠ [] ∨ v.Path ≠ [] ∨ v.User.isSome = true then go "//" else []) ++
        authorityText v.User v.Host := by
  unfold URL.authorityString authorityText
  rw [if_pos (Or.inl hS), if_neg (fun h => by rw [hOm] at h; exact absurd h.1 (by decide)),
    List.append_assoc]

theorem authorityString_omit (v : URL) (hOm : v.OmitHost = true) (hH : v.Host = [])
    (hU : v.User = none) : URL.authorityString v = [] := by
  unfold URL.authorityString
  split
  · rw [if_pos ⟨hOm, hH, by rw [hU]; rfl⟩]
  · rfl

theorem unescapeGo_slash (p : Str) :
    unescapeGo encodePath ('/' :: p) = '/' :: unescapeGo encodePath p := by
  conv_lhs => rw [unescapeGo.eq_def]
  simp only [if_neg (show ¬ '/' = '%' by decide), if_neg (show ¬ '/' = '+' by decide)]

theorem escape_slash (p : Str) : escape ('/' :: p) encodePath = '/' :: escape p encodePath := by
  unfold escape
  rw [List.flatMap_cons]
  rfl

/-- The escaped path of the URL that `setPath` returns is empty for an empty text and begins
with `/` for a text that does. -/
theorem EscapedPath_setPath (u u1 : URL) (p : Str) (h : URL.setPath u p = .ok u1) :
    (p = [] → URL.EscapedPath u1 = [] ∧ u1.Path = []) ∧
      (p.head? = some '/' → (URL.EscapedPath u1).head? = some '/' ∧ u1.Path ≠ []) := by
  obtain ⟨_, rp, hu, hrp⟩ := setPath_ok u u1 p h
  constructor
  · intro hp
    subst hp
    have hrp2 : rp = [] := by
      rcases hrp with hrp | hrp
      · exact hrp.1
      · exact hrp
    subst hrp2
    rw [hu]
    exact ⟨rfl, rfl⟩
  · intro hp
    cases p with
    | nil => simp at hp
    | cons c p =>
      simp only [List.head?_cons, Option.some.injEq] at hp
      subst hp
      rw [hu]
      refine ⟨?_, ?_⟩
      · unfold URL.EscapedPath
        simp only
        split
        · rename_i hx
          have : rp = '/' :: p := by
            rcases hrp with hrp | hrp
            · exact absurd hrp.1 hx.1
            · exact hrp
          rw [this]
          rfl
        · rw [unescapeGo_slash, if_neg (by simp), escape_slash]
          rfl
      · simp only
        rw [unescapeGo_slash]
        simp

theorem HasPrefix_slash_of_head (P : Str) (hP : P.head? = some '/') :
    strings.HasPrefix P ['/'] = true := by
  cases P with
  | nil => simp at hP
  | cons c P =>
    simp only [List.head?_cons, Option.some.injEq] at hP
    subst hP
    simp [strings.HasPrefix, List.isPrefixOf]

theorem head_of_HasPrefix_slash (P : Str) (h : strings.HasPrefix P ['/'] = true) :
    P.head? = some '/' := by
  cases P with
  | nil => simp [strings.HasPrefix, List.isPrefixOf] at h
  | cons c P =>
    simp only [strings.HasPrefix, List.isPrefixOf, Bool.and_eq_true, beq_iff_eq,
      List.isPrefixOf_nil_left, and_true] at h
    rw [← h]
    rfl

/-- The heart of the re-parse behind a base URL: when `parseRest` reads the text `rest0`
behind a scheme and the URL it returns prints `rest0` again, it also reads `rest0` followed
by a path `P` in valid encoding, and the URL it returns prints `rest0` and `P`. -/
theorem parseRest_behind (ls rest0 P : Str) (f0 f1 : Bool) (q0 q1 : Str) (b : URL)
    (hls : ls ≠ [])
    (hb : parseRest { Scheme := ls, ForceQuery := f0, RawQuery := q0 } rest0 = .ok b)
    (hprint : URL.stringBody b = ls ++ ':' :: rest0)
    (hend : rest0 ≠ ['/'])
    (hP : P.head? = some '/') (hP2 : strings.HasPrefix P (go "//") = false)
    (hPv : validEncoded P encodePath = true) (hPc : unescapeCheck encodePath P = none) :
    ∃ w, parseRest { Scheme := ls, ForceQuery := f1, RawQuery := q1 } (rest0 ++ P) = .ok w ∧
      URL.stringBody w = ls ++ ':' :: (rest0 ++ P) := by
  have hP1 := HasPrefix_slash_of_head P hP
  by_cases h1 : strings.HasPrefix rest0 ['/'] = true
  · by_cases h2 : strings.HasPrefix rest0 (go "//") = true
    · -- an authority
      rw [parseRest_authority _ _ hls h2] at hb
      cases hpa : parseAuthority (authorityOf rest0) with
      | error e => rw [hpa] at hb; cases hb
      | ok pr =>
        obtain ⟨user, host⟩ := pr
        rw [hpa] at hb
        simp only at hb
        obtain ⟨hsplit, ha0, hp0⟩ := authority_split rest0
        have hrest : rest0 = '/' :: '/' :: (authorityOf rest0 ++ pathAfterAuthority rest0) := by
          rw [← hsplit]
          cases rest0 with
          | nil => simp [strings.HasPrefix, go, List.isPrefixOf] at h2
          | cons c r =>
            cases r with
            | nil => simp [strings.HasPrefix, go, List.isPrefixOf] at h2
            | cons d r =>
              simp only [strings.HasPrefix, go, List.isPrefixOf, Bool.and_eq_true, beq_iff_eq,
                List.isPrefixOf_nil_left, and_true] at h2
              rw [← h2.1, ← h2.2]
              rfl
        obtain ⟨hpc0, rp, hbu, _⟩ := setPath_ok _ _ _ hb
        obtain ⟨hE0, hE1⟩ := EscapedPath_setPath _ _ _ hb
        have hEform : URL.EscapedPath b = [] ∨ (URL.EscapedPath b).head? = some '/' := by
          rcases hp0 with hp0 | hp0
          · exact Or.inl (hE0 hp0).1
          · exact Or.inr (hE1 hp0).1
        have hbO : b.Opaque = [] := by rw [hbu]
        have hbS : b.Scheme = ls := by rw [hbu]
        have hbOm : b.OmitHost = false := by rw [hbu]
        have hbU : b.User = user := by rw [hbu]
        have hbH : b.Host = host := by rw [hbu]
        have hbody := stringBody_scheme b hbO (by rw [hbS]; exact hls) hEform
        rw [authorityString_hier b (by rw [hbS]; exact hls) hbOm, hbS, hbU, hbH, hprint] at hbody
        have hbody2 := List.cons.inj (List.append_cancel_left hbody)
        have hkey : authorityText user host = authorityOf rest0 ∧
            URL.EscapedPath b = pathAfterAuthority rest0 := by
          have h3 := hbody2.2
          by_cases hcond : host ≠ [] ∨ b.Path ≠ [] ∨ user.isSome = true
          · rw [if_pos hcond] at h3
            nth_rewrite 1 [hrest] at h3
            simp only [go, List.cons_append, List.nil_append, List.cons.injEq, true_and,
              List.append_assoc] at h3
            exact split_at_slash _ _ _ _ h3.symm (authorityText_no_slash user host) ha0 hEform hp0
          · exfalso
            rw [if_neg hcond] at h3
            have hh : host = [] := by
              by_contra hx
              exact hcond (Or.inl hx)
            have hpth : b.Path = [] := by
              by_contra hx
              exact hcond (Or.inr (Or.inl hx))
            have hu : user = none := by
              cases user with
              | none => rfl
              | some x => exact absurd (Or.inr (Or.inr rfl)) hcond
            have hp00 : pathAfterAuthority rest0 = [] := by
              rcases hp0 with hp0 | hp0
              · exact hp0
              · exact absurd hpth (hE1 hp0).2
            rw [hh, hu, (hE0 hp00).1, hrest] at h3
            simp [authorityText] at h3
        obtain ⟨hauth, hpath⟩ := hkey
        obtain ⟨hp0v, hp0c⟩ := EscapedPath_ok b
        rw [hpath] at hp0v hp0c
        have hhead : (pathAfterAuthority rest0 ++ P).head? = some '/' := by
          rcases hp0 with hp0 | hp0
          · rw [hp0]
            exact hP
          · cases hx : pathAfterAuthority rest0 with
            | nil => rw [hx] at hp0; simp at hp0
            | cons c r => rw [hx] at hp0; simpa using hp0
        have hv2 : validEncoded (pathAfterAuthority rest0 ++ P) encodePath = true := by
          rw [validEncoded_append, hp0v, hPv]
          rfl
        have hc2 : unescapeCheck encodePath (pathAfterAuthority rest0 ++ P) = none := by
          rw [unescapeCheck_append P _ _ (Nat.le_refl _) hp0c]
          exact hPc
        have hjoin : rest0 ++ P =
            '/' :: '/' :: (authorityOf rest0 ++ (pathAfterAuthority rest0 ++ P)) := by
          nth_rewrite 1 [hrest]
          simp
        obtain ⟨ha1, ha2⟩ := authorityOf_joined (authorityOf rest0) (pathAfterAuthority rest0 ++ P)
          ha0 hhead
        have h2' : strings.HasPrefix (rest0 ++ P) (go "//") = true := HasPrefix_append _ _ _ h2
        obtain ⟨rp2, hset, hesc⟩ := setPath_valid
          { Scheme := ls, ForceQuery := f1, RawQuery := q1, User := user, Host := host }
          (pathAfterAuthority rest0 ++ P) hhead hv2 hc2
        refine ⟨{ ({ Scheme := ls, ForceQuery := f1, RawQuery := q1, User := user,
                      Host := host } : URL) with
                  Path := unescapeGo encodePath (pathAfterAuthority rest0 ++ P),
                  RawPath := rp2 }, ?_, ?_⟩
        · rw [parseRest_authority _ _ hls h2', hjoin, ha1, ha2, hpa]
          exact hset
        · have hwE : (URL.EscapedPath
              { Scheme := ls, ForceQuery := f1, RawQuery := q1, User := user, Host := host,
                Path := unescapeGo encodePath (pathAfterAuthority rest0 ++ P),
                RawPath := rp2 }) = [] ∨
              (URL.EscapedPath
                { Scheme := ls, ForceQuery := f1, RawQuery := q1, User := user, Host := host,
                  Path := unescapeGo encodePath (pathAfterAuthority rest0 ++ P),
                  RawPath := rp2 }).head? = some '/' := by
            right
            rw [hesc]
            exact hhead
          rw [stringBody_scheme _ rfl hls hwE, authorityString_hier _ hls rfl, hesc]
          have hne : unescapeGo encodePath (pathAfterAuthority rest0 ++ P) ≠ [] := by
            apply unescapeGo_ne_nil _ _ hc2
            intro hx
            rw [hx] at hhead
            simp at hhead
          simp only
          rw [if_pos (Or.inr (Or.inl hne)), hauth, hjoin]
          simp [go]
    · -- the host is left out
      have h2f : strings.HasPrefix rest0 (go "//") = false := by simpa using h2
      rw [parseRest_omit _ _ hls h1 h2f] at hb
      obtain ⟨hpc0, rp, hbu, _⟩ := setPath_ok _ _ _ hb
      obtain ⟨_, hE1⟩ := EscapedPath_setPath _ _ _ hb
      have hh0 := head_of_HasPrefix_slash rest0 h1
      have hEform : URL.EscapedPath b = [] ∨ (URL.EscapedPath b).head? = some '/' :=
        Or.inr (hE1 hh0).1
      have hbO : b.Opaque = [] := by rw [hbu]
      have hbS : b.Scheme = ls := by rw [hbu]
      have hbody := stringBody_scheme b hbO (by rw [hbS]; exact hls) hEform
      rw [authorityString_omit b (by rw [hbu]) (by rw [hbu]) (by rw [hbu]), hbS, hprint]
        at hbody
      have hpath : URL.EscapedPath b = rest0 := by
        have := (List.cons.inj (List.append_cancel_left hbody)).2
        simpa using this.symm
      obtain ⟨hp0v, hp0c⟩ := EscapedPath_ok b
      rw [hpath] at hp0v hp0c
      have hhead : (rest0 ++ P).head? = some '/' := by
        cases rest0 with
        | nil => simp at hh0
        | cons c r => simpa using hh0
      have hv2 : validEncoded (rest0 ++ P) encodePath = true := by
        rw [validEncoded_append, hp0v, hPv]
        rfl
      have hc2 : unescapeCheck encodePath (rest0 ++ P) = none := by
        rw [unescapeCheck_append P _ _ (Nat.le_refl _) hp0c]
        exact hPc
      have h1' : strings.HasPrefix (rest0 ++ P) ['/'] = true := HasPrefix_append _ _ _ h1
      have h2' : strings.HasPrefix (rest0 ++ P) (go "//") = false := by
        cases rest0 with
        | nil => simp at hh0
        | cons c r =>
          cases r with
          | nil =>
            exfalso
            simp only [List.head?_cons, Option.some.injEq] at hh0
            subst hh0
            exact hend rfl
          | cons d r =>
            simp only [strings.HasPrefix, go, List.isPrefixOf, Bool.and_eq_false_imp,
              beq_iff_eq, List.isPrefixOf_nil_left] at h2f ⊢
            simpa using h2f
      obtain ⟨rp2, hset, hesc⟩ := setPath_valid
        { Scheme := ls, ForceQuery := f1, RawQuery := q1, OmitHost := true }
        (rest0 ++ P) hhead hv2 hc2
      refine ⟨{ ({ Scheme := ls, ForceQuery := f1, RawQuery := q1, OmitHost := true } : URL) with
                Path := unescapeGo encodePath (rest0 ++ P), RawPath := rp2 }, ?_, ?_⟩
      · rw [parseRest_omit _ _ hls h1' h2']
        exact hset
      · have hwE : (URL.EscapedPath
            { Scheme := ls, ForceQuery := f1, RawQuery := q1, OmitHost := true,
              Path := unescapeGo encodePath (rest0 ++ P), RawPath := rp2 }) = [] ∨
            (URL.EscapedPath
              { Scheme := ls, ForceQuery := f1, RawQuery := q1, OmitHost := true,
                Path := unescapeGo encodePath (rest0 ++ P), RawPath := rp2 }).head? = some '/' := by
          right
          rw [hesc]
          exact hhead
        rw [stringBody_scheme _ rfl hls hwE, authorityString_omit _ rfl rfl rfl, hesc]
        simp
  · -- an opaque part, or nothing behind the scheme
    have h1f : strings.HasPrefix rest0 ['/'] = false := by simpa using h1
    cases hr : rest0 with
    | nil =>
      obtain ⟨rp2, hset, hesc⟩ := setPath_valid
        { Scheme := ls, ForceQuery := f1, RawQuery := q1, OmitHost := true } P hP hPv hPc
      refine ⟨{ ({ Scheme := ls, ForceQuery := f1, RawQuery := q1, OmitHost := true } : URL) with
                Path := unescapeGo encodePath P, RawPath := rp2 }, ?_, ?_⟩
      · rw [List.nil_append, parseRest_omit _ _ hls hP1 hP2]
        exact hset
      · have hwE : (URL.EscapedPath
            { Scheme := ls, ForceQuery := f1, RawQuery := q1, OmitHost := true,
              Path := unescapeGo encodePath P, RawPath := rp2 }) = [] ∨
            (URL.EscapedPath
              { Scheme := ls, ForceQuery := f1, RawQuery := q1, OmitHost := true,
                Path := unescapeGo encodePath P, RawPath := rp2 }).head? = some '/' := by
          right
          rw [hesc]
          exact hP
        rw [stringBody_scheme _ rfl hls hwE, authorityString_omit _ rfl rfl rfl, hesc]
    | cons c r =>
      rw [hr] at h1f
      have h1' : strings.HasPrefix ((c :: r) ++ P) ['/'] = false := by
        simp only [strings.HasPrefix, List.isPrefixOf, List.cons_append] at h1f ⊢
        exact h1f
      refine ⟨_, parseRest_opaque _ _ hls h1', ?_⟩
      unfold URL.stringBody
      simp [hls]

/-- What `URL.String` writes for a URL with a scheme begins with the scheme and `:`. -/
theorem stringBody_prefix (v : URL) (hS : v.Scheme ≠ []) :
    ∃ X, URL.stringBody v = v.Scheme ++ ':' :: X := by
  have hne : ∀ X : Str, (v.Scheme ++ [':']) ++ X ≠ [] := by
    intro X h
    exact hS (List.append_eq_nil.mp (List.append_eq_nil.mp h).1).1
  have hne0 : v.Scheme ++ [':'] ≠ [] := fun h => hS (List.append_eq_nil.mp h).1
  unfold URL.stringBody
  rw [if_pos hS]
  dsimp only
  split_ifs with h1 h2 h3 h4
  · simp only [List.append_assoc, List.singleton_append]
    exact ⟨_, rfl⟩
  · exact absurd (List.append_eq_nil.mp (List.append_eq_nil.mp h3.1).1).1 hne0
  · simp only [List.append_assoc, List.singleton_append]
    exact ⟨_, rfl⟩
  · exact absurd h4.1 (hne _)
  · simp only [List.append_assoc, List.singleton_append]
    exact ⟨_, rfl⟩

theorem getLast?_behind (pre : Str) (x : Char) : ∀ (s : Str), s ≠ [] →
    (pre ++ x :: s).getLast? = s.getLast? := by
  intro s hs
  induction pre with
  | nil =>
    cases s with
    | nil => exact absurd rfl hs
    | cons c s => simp [List.getLast?_cons_cons]
  | cons p pre ih =>
    rw [List.cons_append]
    cases hx : pre ++ x :: s with
    | nil => simp at hx
    | cons d l =>
      rw [List.getLast?_cons_cons, ← hx]
      exact ih

theorem noCTL_mem (s : Str) (h : stringContainsCTLByte s = false) (c : Char) (hc : c ∈ s) :
    isCTL c = false := by
  unfold stringContainsCTLByte at h
  rw [List.any_eq_false] at h
  have := h c hc
  unfold isCTL
  simpa using this

/-- `parse` on a base URL with a scheme that it prints back as written, followed by a path
in valid encoding and a query part: it succeeds, and the URL it returns prints the same
text. -/
theorem parse_behind_base (B P Qp : Str) (b : URL)
    (hB : parse B = .ok b) (hS : b.Scheme ≠ []) (hprint : URL.stringBody b = B)
    (hq : '?' ∉ B) (hend : B.getLast? ≠ some '/' ∨ b.Host ≠ [])
    (hP : P.head? = some '/') (hP2 : strings.HasPrefix P (go "//") = false)
    (hPv : validEncoded P encodePath = true) (hPc : unescapeCheck encodePath P = none)
    (hQ : Qp = [] ∨ ∃ rq, Qp = '?' :: rq ∧ ∀ c ∈ rq, isCTL c = false) :
    ∃ v, parse (B ++ P ++ Qp) = .ok v ∧ URL.stringBody v = B ++ P ∧
      queryPart v = Qp ∧ v.Fragment = [] ∧ v.RawFragment = [] := by
  have hB0 := hB
  unfold parse at hB
  by_cases hctl : stringContainsCTLByte B = true
  · rw [if_pos hctl] at hB
    cases hB
  rw [if_neg hctl] at hB
  have hctlB : stringContainsCTLByte B = false := by simpa using hctl
  by_cases hstar : B = ['*']
  · rw [if_pos hstar] at hB
    simp only [Except.ok.injEq] at hB
    rw [← hB] at hS
    exact absurd rfl hS
  rw [if_neg hstar] at hB
  cases hg : getScheme B with
  | error e => rw [hg] at hB; cases hB
  | ok pr =>
    obtain ⟨scheme, rest0⟩ := pr
    rw [hg] at hB
    simp only at hB
    obtain ⟨hbS, _, _, _, _, _⟩ := parseRest_ok _ _ _ hB rfl
    simp only at hbS
    have hsch : scheme ≠ [] := by
      intro h
      rw [h] at hbS
      exact hS hbS
    have hBeq : B = scheme ++ ':' :: rest0 := by
      rcases getScheme_split _ _ _ hg with ⟨h, _⟩ | ⟨_, h, _⟩
      · exact absurd h hsch
      · exact h
    have hqr : '?' ∉ rest0 := by
      intro hm
      apply hq
      rw [hBeq]
      exact List.mem_append_right _ (List.mem_cons_of_mem _ hm)
    have hbefore : beforeQuery rest0 = rest0 := by
      have := (query_split rest0 [] hqr (Or.inl rfl)).1
      rwa [List.append_nil] at this
    rw [hbefore] at hB
    obtain ⟨X, hX⟩ := stringBody_prefix b hS
    rw [hprint, hbS] at hX
    have hlow : strings.ToLower scheme = scheme ∧ X = rest0 := by
      have h1 : scheme ++ ':' :: rest0 = strings.ToLower scheme ++ ':' :: X := by
        rw [← hBeq]
        exact hX
      have := List.append_inj h1 (ToLower_length scheme).symm
      exact ⟨this.1.symm, (List.cons.inj this.2).2.symm⟩
    have hls : strings.ToLower scheme ≠ [] := by
      rw [hlow.1]
      exact hsch
    have hprint2 : URL.stringBody b = strings.ToLower scheme ++ ':' :: rest0 := by
      rw [hprint, hlow.1]
      exact hBeq
    have hend2 : rest0 ≠ ['/'] := by
      intro hr
      rw [hr] at hB hBeq
      rcases hend with hend | hend
      · apply hend
        rw [hBeq, getLast?_behind scheme ':' ['/'] (by simp)]
        rfl
      · rw [parseRest_omit _ ['/'] hls (by decide) (by decide)] at hB
        obtain ⟨_, rp, hbu, _⟩ := setPath_ok _ _ _ hB
        apply hend
        rw [hbu]
    have hqY : '?' ∉ rest0 ++ P := by
      intro hm
      rcases List.mem_append.mp hm with hm | hm
      · exact hqr hm
      · exact (validEncoded_mem P _ hPv _ hm).2.2 rfl rfl
    obtain ⟨hbefore2, hprintq⟩ := query_split (rest0 ++ P) Qp hqY
      (by rcases hQ with hQ | ⟨rq, hQ, _⟩
          · exact Or.inl hQ
          · exact Or.inr ⟨rq, hQ⟩)
    obtain ⟨w, hw, hwb⟩ := parseRest_behind (strings.ToLower scheme) rest0 P
      (forceQuery rest0) (forceQuery ((rest0 ++ P) ++ Qp)) (rawQueryOf rest0)
      (rawQueryOf ((rest0 ++ P) ++ Qp)) b hls hB hprint2 hend2 hP hP2 hPv hPc
    obtain ⟨_, hwq, hwf, hwF, hwR, _⟩ := parseRest_ok _ _ _ hw rfl
    simp only at hwq hwf hwF hwR
    have hctl2 : stringContainsCTLByte (B ++ P ++ Qp) = false := by
      apply noCTL_of_forall
      intro c hc
      rcases List.mem_append.mp hc with hc | hc
      · rcases List.mem_append.mp hc with hc | hc
        · exact noCTL_mem B hctlB c hc
        · exact (validEncoded_mem P _ hPv c hc).1
      · rcases hQ with hQ | ⟨rq, hQ, hrq⟩
        · subst hQ
          cases hc
        · subst hQ
          rcases List.mem_cons.mp hc with hc | hc
          · subst hc; decide
          · exact hrq c hc
    have hstar2 : B ++ P ++ Qp ≠ ['*'] := by
      intro h
      have := congrArg List.length h
      rw [hBeq] at this
      cases scheme with
      | nil => exact hsch rfl
      | cons a t => simp at this
    have hg2 : getScheme (B ++ P ++ Qp) = .ok (scheme, (rest0 ++ P) ++ Qp) := by
      have := getScheme_append B (P ++ Qp) scheme rest0 hg hsch
      simpa using this
    refine ⟨w, ?_, ?_, ?_, hwF, hwR⟩
    · unfold parse
      rw [hctl2, if_neg (by decide), if_neg hstar2, hg2]
      dsimp only
      rw [hbefore2]
      exact hw
    · rw [hwb, hlow.1, hBeq]
      simp
    · unfold queryPart
      rw [hwq, hwf]
      exact hprintq

/-- `url.Parse` on an absolute base URL without query and fragment that it prints back as
written and that has a host or does not end with `/`, followed by a path in valid encoding, a query part
and a fragment part: it succeeds, and the URL it returns prints the same text. -/
theorem Parse_behind_base (B P Qp Fp : Str) (b : URL)
    (hB : Parse B = .ok b) (habs : URL.IsAbs b = true) (hprint : URL.String b = B)
    (hq : '?' ∉ B) (hf : '#' ∉ B) (hend : B.getLast? ≠ some '/' ∨ b.Host ≠ [])
    (hP : P.head? = some '/') (hP2 : strings.HasPrefix P (go "//") = false)
    (hPv : validEncoded P encodePath = true) (hPc : unescapeCheck encodePath P = none)
    (hQ : Qp = [] ∨ ∃ rq, Qp = '?' :: rq ∧ ∀ c ∈ rq, isCTL c = false ∧ c ≠ '#')
    (hF : Fp = [] ∨ ∃ ef, Fp = '#' :: ef ∧ ef ≠ [] ∧
      validEncoded ef encodeFragment = true ∧ unescapeCheck encodeFragment ef = none) :
    ∃ w, Parse (B ++ P ++ Qp ++ Fp) = .ok w ∧ URL.stringBody w = B ++ P ∧
      queryPart w = Qp ∧ fragmentPart w = Fp := by
  have hS : b.Scheme ≠ [] := by
    unfold URL.IsAbs at habs
    simpa using habs
  have hparse : parse B = .ok b := by
    unfold Parse at hB
    rw [strings.Cut_no_sep '#' B hf] at hB
    simp only at hB
    cases hp : parse B with
    | error e => rw [hp] at hB; cases hB
    | ok u =>
      rw [hp] at hB
      simpa using hB
  obtain ⟨_, _, _, hbF, _⟩ := parse_ok B b hparse
  have hbody : URL.stringBody b = B := by
    have h1 := String_parts b
    rw [hprint] at h1
    have hfp : fragmentPart b = [] := by
      unfold fragmentPart
      rw [if_neg (fun h => h hbF)]
    have hqp : queryPart b = [] := by
      unfold queryPart
      split
      · exfalso
        apply hq
        rw [h1]
        unfold queryPart
        rename_i hc
        rw [if_pos hc]
        simp
      · rfl
    rw [hfp, hqp] at h1
    simpa using h1.symm
  have hQ1 : Qp = [] ∨ ∃ rq, Qp = '?' :: rq ∧ ∀ c ∈ rq, isCTL c = false := by
    rcases hQ with hQ | ⟨rq, hQ, hrq⟩
    · exact Or.inl hQ
    · exact Or.inr ⟨rq, hQ, fun c hc => (hrq c hc).1⟩
  obtain ⟨v, hv, hvb, hvq, hvF, _⟩ := parse_behind_base B P Qp b hparse hS hbody hq hend hP hP2
    hPv hPc hQ1
  have hsharp : '#' ∉ B ++ P ++ Qp := by
    intro hm
    rcases List.mem_append.mp hm with hm | hm
    · rcases List.mem_append.mp hm with hm | hm
      · exact hf hm
      · exact (validEncoded_mem P _ hPv _ hm).2.1 rfl
    · rcases hQ with hQ | ⟨rq, hQ, hrq⟩
      · rw [hQ] at hm
        cases hm
      · rw [hQ] at hm
        rcases List.mem_cons.mp hm with hm | hm
        · revert hm; decide
        · exact (hrq _ hm).2 rfl
  obtain ⟨w, hw, hwb, hwq, hwf, _⟩ := Parse_joined _ Fp v hsharp hv hvF hF
  exact ⟨w, hw, hwb.trans hvb, hwq.trans hvq, hwf⟩

end url

/-- What `parseRequestURL` leaves for a template without scheme behind an absolute base URL
without query and fragment that `url.Parse` prints back as written and that does not end
with `/` unless it has a host: there is no error, and the URL is the base URL, the path
part `P` of the printed
template (with its leading `/`), the query part with the request query added, and the
fragment part of the template. -/
theorem parseRequestURL_behind_base (c : cliCore) (r : request) (b t : url.URL)
    (hB : url.Parse c.hostUrl = .ok b) (habs : url.URL.IsAbs b = true)
    (hprint : url.URL.String b = c.hostUrl)
    (hq : '?' ∉ c.hostUrl) (hf : '#' ∉ c.hostUrl)
    (hend : c.hostUrl.getLast? ≠ some '/' ∨ b.Host ≠ [])
    (hT : url.Parse (withPathParams r).url = .ok t) (hrel : url.URL.IsAbs t = false)
    (hne : url.URL.String t ≠ [])
    (h2 : strings.HasPrefix (url.URL.String t) (go "//") = false) :
    ∃ P w, withSlash (url.URL.String t) = P ++ url.queryPart t ++ url.fragmentPart t ∧
      P.head? = some '/' ∧ strings.HasPrefix P (go "//") = false ∧
      url.Parse (c.hostUrl ++ withSlash (url.URL.String t)) = .ok w ∧
      url.URL.String w = c.hostUrl ++ withSlash (url.URL.String t) ∧
      url.URL.stringBody w = c.hostUrl ++ P ∧ url.queryPart w = url.queryPart t ∧
      url.fragmentPart w = url.fragmentPart t ∧
      (parseRequestURL c r).2 = none ∧
      (parseRequestURL c r).1.url =
        c.hostUrl ++ P ++ url.queryPart (addQuery w (buildQuery r.queryParam)) ++
          url.fragmentPart t := by
  have hS : t.Scheme = [] := by
    unfold url.URL.IsAbs at hrel
    simpa using hrel
  obtain ⟨P, hsplit, hP1, hP2, hPv, hPc⟩ := url.withSlash_String _ t hT hS hne h2
  have hQ := url.queryPart_cases _ t hT
  have hF := url.fragmentPart_cases t
  obtain ⟨w, hw, hwb, hwq, hwf⟩ := url.Parse_behind_base c.hostUrl P (url.queryPart t)
    (url.fragmentPart t) b hB habs hprint hq hf hend hP1 hP2 hPv hPc hQ hF
  have hjoin : c.hostUrl ++ withSlash (url.URL.String t) =
      c.hostUrl ++ P ++ url.queryPart t ++ url.fragmentPart t := by
    rw [hsplit]
    simp
  rw [← hjoin] at hw
  obtain ⟨he, hu⟩ := parseRequestURL_relative c r t w hT hS hw
  refine ⟨P, w, hsplit, hP1, hP2, hw, ?_, hwb, hwq, hwf, he, ?_⟩
  · rw [url.String_parts, hwb, hwq, hwf, hjoin]
  · rw [hu, hwb, hwf]

namespace strings

theorem occurs_append (sub X A Z : Str) (h : occurs sub X) : occurs sub (A ++ X ++ Z) := by
  obtain ⟨pre, suf, h⟩ := h
  exact ⟨A ++ pre, suf ++ Z, by rw [h]; simp⟩

theorem occurs_left (sub X Z : Str) (h : occurs sub X) : occurs sub (X ++ Z) := by
  have := occurs_append sub X [] Z h
  simpa using this

theorem occurs_right (sub X A : Str) (h : occurs sub X) : occurs sub (A ++ X) := by
  have := occurs_append sub X A [] h
  simpa using this

theorem Contains_of_occurs (sub : Str) : ∀ (pre suf : Str),
    Contains (pre ++ sub ++ suf) sub = true := by
  intro pre
  induction pre with
  | nil =>
    intro suf
    unfold Contains
    rw [List.nil_append]
    have hp : List.isPrefixOf sub (sub ++ suf) = true :=
      List.isPrefixOf_iff_prefix.mpr (List.prefix_append _ _)
    cases hs : sub ++ suf with
    | nil =>
      have : sub = [] := (List.append_eq_nil.mp hs).1
      subst this
      simp [Index]
    | cons c s =>
      rw [hs] at hp
      simp [Index, hp]
  | cons c pre ih =>
    intro suf
    unfold Contains at ih ⊢
    have h := ih suf
    simp only [List.cons_append, Index]
    split
    · rfl
    · cases hi : Index (pre ++ sub ++ suf) sub with
      | none => rw [hi] at h; cases h
      | some i => rfl

theorem Contains_iff_occurs (s sub : Str) : Contains s sub = true ↔ occurs sub s := by
  constructor
  · intro h
    unfold Contains at h
    cases hi : Index s sub with
    | none => rw [hi] at h; cases h
    | some i => exact Index_some_split s sub i hi
  · rintro ⟨pre, suf, h⟩
    rw [h]
    exact Contains_of_occurs sub pre suf

theorem prefix_before (x : Char) : ∀ (pat A Z suf : Str), x ∉ pat →
    pat ++ suf = A ++ x :: Z → ∃ s, A = pat ++ s := by
  intro pat
  induction pat with
  | nil => intro A _ _ _ _; exact ⟨A, rfl⟩
  | cons y pat ih =>
    intro A Z suf hx h
    simp only [List.mem_cons, not_or] at hx
    cases A with
    | nil =>
      simp only [List.cons_append, List.nil_append, List.cons.injEq] at h
      exact absurd h.1.symm hx.1
    | cons a A =>
      simp only [List.cons_append, List.cons.injEq] at h
      obtain ⟨s, hs⟩ := ih A Z suf hx.2 h.2
      exact ⟨s, by rw [h.1, hs]; rfl⟩

/-- A text without the byte `x` that occurs in two texts joined by `x` occurs in one of
them. -/
theorem occurs_split (x : Char) (pat : Str) (hx : x ∉ pat) : ∀ (A Z : Str),
    occurs pat (A ++ x :: Z) → occurs pat A ∨ occurs pat Z := by
  intro A
  induction A with
  | nil =>
    rintro Z ⟨pre, suf, h⟩
    cases pre with
    | nil =>
      left
      obtain ⟨s, hs⟩ := prefix_before x pat [] Z suf hx (by simpa using h.symm)
      exact ⟨[], s, by simpa using hs⟩
    | cons p pre =>
      right
      simp only [List.nil_append, List.cons_append, List.cons.injEq] at h
      exact ⟨pre, suf, h.2⟩
  | cons a A ih =>
    rintro Z ⟨pre, suf, h⟩
    cases pre with
    | nil =>
      left
      obtain ⟨s, hs⟩ := prefix_before x pat (a :: A) Z suf hx (by simpa using h.symm)
      exact ⟨[], s, by simpa using hs⟩
    | cons p pre =>
      simp only [List.cons_append, List.cons.injEq] at h
      rcases ih Z ⟨pre, suf, h.2⟩ with ⟨p1, s1, h1⟩ | h1
      · left
        exact ⟨a :: p1, s1, by rw [h1]; rfl⟩
      · right
        exact h1

theorem mem_intercalate (sep : Str) : ∀ (L : List Str) (c : Char),
    c ∈ List.intercalate sep L → c ∈ sep ∨ ∃ l ∈ L, c ∈ l := by
  intro L
  induction L with
  | nil => intro c h; simp [List.intercalate] at h
  | cons l L ih =>
    intro c h
    cases L with
    | nil =>
      right
      refine ⟨l, List.mem_cons_self _ _, ?_⟩
      simpa [List.intercalate, List.intersperse] using h
    | cons l2 L =>
      have hh : List.intercalate sep (l :: l2 :: L) = l ++ sep ++ List.intercalate sep (l2 :: L) := by
        simp [List.intercalate, List.intersperse]
      rw [hh] at h
      rcases List.mem_append.mp h with h | h
      · rcases List.mem_append.mp h with h | h
        · exact Or.inr ⟨l, List.mem_cons_self _ _, h⟩
        · exact Or.inl h
      · rcases ih c h with h | ⟨l3, hl3, h⟩
        · exact Or.inl h
        · exact Or.inr ⟨l3, List.mem_cons_of_mem _ hl3, h⟩

end strings

namespace url

open encoding

theorem QueryEscape_no_colon (s : Str) : ':' ∉ QueryEscape s := by
  intro h
  unfold QueryEscape at h
  rcases escape_mem s _ ':' h with h1 | h1 | h1 | ⟨_, h1⟩
  · revert h1; decide
  · revert h1; decide
  · revert h1; decide
  · revert h1; decide

/-- The encoded query holds no `:`. -/
theorem Encode_no_colon (Q : Values) : ':' ∉ Values.Encode Q := by
  intro h
  unfold Values.Encode at h
  rcases strings.mem_intercalate _ _ _ h with h | ⟨l, hl, h⟩
  · revert h; decide
  · rw [List.mem_flatMap] at hl
    obtain ⟨k, _, hl⟩ := hl
    unfold encodeKey at hl
    rw [List.mem_map] at hl
    obtain ⟨iv, _, hl⟩ := hl
    rw [← hl] at h
    rcases List.mem_append.mp h with h | h
    · exact QueryEscape_no_colon _ h
    · rcases List.mem_cons.mp h with h | h
      · revert h; decide
      · exact QueryEscape_no_colon _ h

end url

/-- A text without `/` that occurs behind the base URL occurs in the base URL or in the
text put behind it. -/
theorem occurs_behind (pat B S : Str) (hx : '/' ∉ pat)
    (h : strings.occurs pat (B ++ withSlash S)) : strings.occurs pat B ∨ strings.occurs pat S := by
  unfold withSlash at h
  split at h
  · exact strings.occurs_split '/' pat hx _ _ h
  · cases S with
    | nil =>
      rw [List.append_nil] at h
      exact Or.inl h
    | cons c S =>
      rename_i hc
      have hc2 : c = '/' := by
        by_contra hne
        apply hc
        refine ⟨by simp, ?_⟩
        simp only [List.head?_cons, ne_eq, Option.some.injEq]
        exact hne
      subst hc2
      rcases strings.occurs_split '/' pat hx _ _ h with h | h
      · exact Or.inl h
      · right
        have := strings.occurs_right pat S ['/'] h
        simpa using this

theorem withPathParams_url (r : request) :
    (withPathParams r).url = substPathParams r.url r.pathParams := by
  unfold withPathParams
  split
  · rfl
  · rename_i h
    have : r.pathParams = [] := by
      cases hp : r.pathParams with
      | nil => rfl
      | cons a l => rw [hp] at h; simp at h
    rw [this]
    rfl

/-- What `parseRequestURL` does with a template that has a scheme. -/
theorem parseRequestURL_absolute (c : cliCore) (r : request) (t : url.URL)
    (hT : url.Parse (withPathParams r).url = .ok t) (habs : url.URL.IsAbs t = true) :
    (parseRequestURL c r).2 = none ∧
      (parseRequestURL c r).1.url = url.URL.String (addQuery t (buildQuery r.queryParam)) := by
  unfold parseRequestURL
  rw [hT]
  dsimp only
  rw [if_neg (by rw [habs]; decide)]
  dsimp only
  rw [withPathParams_queryParam]
  exact ⟨rfl, rfl⟩

/-- The second `url.Parse` of `parseRequestURL` for a template without scheme whose printed
form does not begin with `//`, behind an empty base URL or an absolute base URL without
query and fragment that `url.Parse` prints back as written and that has a host or does not
end with `/`: it succeeds, and the URL it returns prints the text it was given. -/
theorem Parse_resolved (B T : Str) (t b : url.URL)
    (hT : url.Parse T = .ok t) (hrel : url.URL.IsAbs t = false)
    (h2 : strings.HasPrefix (url.URL.String t) (go "//") = false)
    (hbase : B = [] ∨
      (url.Parse B = .ok b ∧ url.URL.IsAbs b = true ∧ url.URL.String b = B ∧
        '?' ∉ B ∧ '#' ∉ B ∧ (B.getLast? ≠ some '/' ∨ b.Host ≠ []))) :
    ∃ w, url.Parse (B ++ withSlash (url.URL.String t)) = .ok w ∧
      url.URL.String w = B ++ withSlash (url.URL.String t) := by
  have hS : t.Scheme = [] := by
    unfold url.URL.IsAbs at hrel
    simpa using hrel
  by_cases hne : url.URL.String t = []
  · rw [hne]
    have hws : withSlash [] = [] := rfl
    rw [hws, List.append_nil]
    rcases hbase with hb | ⟨hb, _, hp, _⟩
    · subst hb
      exact ⟨{}, rfl, rfl⟩
    · exact ⟨b, hb, hp⟩
  · obtain ⟨P, hsplit, hP1, hP2, hPv, hPc⟩ := url.withSlash_String _ t hT hS hne h2
    have hQ := url.queryPart_cases _ t hT
    have hF := url.fragmentPart_cases t
    rcases hbase with hb | ⟨hb, habs, hp, hq, hf, hend⟩
    · subst hb
      have hQ1 : url.queryPart t = [] ∨
          ∃ rq, url.queryPart t = '?' :: rq ∧ ∀ x ∈ rq, isCTL x = false := by
        rcases hQ with hQ | ⟨rq, hQ, hrq⟩
        · exact Or.inl hQ
        · exact Or.inr ⟨rq, hQ, fun x hx => (hrq x hx).1⟩
      obtain ⟨v, hv, hvb, hvq, hvF, _, _⟩ :=
        url.parse_rel P (url.queryPart t) hP1 hP2 hPv hPc hQ1
      have hsharp : '#' ∉ P ++ url.queryPart t := by
        intro hm
        rcases List.mem_append.mp hm with hm | hm
        · exact (url.validEncoded_mem P _ hPv _ hm).2.1 rfl
        · rcases hQ with hQ | ⟨rq, hQ, hrq⟩
          · rw [hQ] at hm
            cases hm
          · rw [hQ] at hm
            rcases List.mem_cons.mp hm with hm | hm
            · revert hm; decide
            · exact (hrq _ hm).2 rfl
      obtain ⟨w, hw, hwb, hwq, hwf, _⟩ :=
        url.Parse_joined _ (url.fragmentPart t) v hsharp hv hvF hF
      refine ⟨w, ?_, ?_⟩
      · rw [List.nil_append, hsplit]
        exact hw
      · rw [url.String_parts, hwb, hvb, hwq, hvq, hwf, List.nil_append, hsplit]
    · obtain ⟨w, hw, hwb, hwq, hwf⟩ := url.Parse_behind_base B P (url.queryPart t)
        (url.fragmentPart t) b hb habs hp hq hf hend hP1 hP2 hPv hPc hQ hF
      refine ⟨w, ?_, ?_⟩
      · rw [hsplit]
        simpa using hw
      · rw [url.String_parts, hwb, hwq, hwf, hsplit]
        simp

namespace strings

theorem dropSpaceRune_slash (s t : Str) (h : dropSpaceRune s = some t) (hs : '/' ∈ s) :
    '/' ∈ t := by
  have key : ∀ x : Char, x.toNat ≠ 47 → '/' ≠ x := by
    intro x hx he
    subst he
    exact hx (by decide)
  unfold dropSpaceRune at h
  split at h
  · cases h
  · rename_i c s2
    split at h
    · rename_i hw
      simp only [Option.some.injEq] at h
      subst h
      rcases List.mem_cons.mp hs with hc | hc
      · subst hc
        exact absurd hw (by decide)
      · exact hc
    · split at h
      · rename_i d t2 hc
        split at h
        · rename_i hd
          simp only [Option.some.injEq] at h
          subst h
          have h1 : '/' ≠ c := key c (by omega)
          have h2 : '/' ≠ d := key d (by omega)
          simp only [List.mem_cons] at hs
          rcases hs with hs | hs | hs
          · exact absurd hs h1
          · exact absurd hs h2
          · exact hs
        · cases h
      · rename_i d e t2 hc
        split at h
        · rename_i hd
          simp only [Option.some.injEq] at h
          subst h
          have h1 : '/' ≠ c := key c (by omega)
          have h2 : '/' ≠ d := key d (by omega)
          have h3 : '/' ≠ e := key e (by omega)
          simp only [List.mem_cons] at hs
          rcases hs with hs | hs | hs | hs
          · exact absurd hs h1
          · exact absurd hs h2
          · exact absurd hs h3
          · exact hs
        · cases h
      · rename_i d e t2 hc
        split at h
        · rename_i hd
          simp only [Option.some.injEq] at h
          subst h
          have h1 : '/' ≠ c := key c (by omega)
          have h2 : '/' ≠ d := key d (by omega)
          have h3 : '/' ≠ e := key e (by omega)
          simp only [List.mem_cons] at hs
          rcases hs with hs | hs | hs | hs
          · exact absurd hs h1
          · exact absurd hs h2
          · exact absurd hs h3
          · exact hs
        · cases h
      · rename_i d e t2 hc
        split at h
        · rename_i hd
          simp only [Option.some.injEq] at h
          subst h
          have h1 : '/' ≠ c := key c (by omega)
          have h2 : '/' ≠ d := key d (by omega)
          have h3 : '/' ≠ e := key e (by omega)
          simp only [List.mem_cons] at hs
          rcases hs with hs | hs | hs | hs
          · exact absurd hs h1
          · exact absurd hs h2
          · exact absurd hs h3
          · exact hs
        · cases h
      · cases h

theorem allSpace_slash : ∀ (n : Nat) (s : Str), '/' ∈ s → allSpace n s = false := by
  intro n
  induction n with
  | zero =>
    intro s hs
    cases s with
    | nil => cases hs
    | cons c s => rfl
  | succ n ih =>
    intro s hs
    cases s with
    | nil => cases hs
    | cons c s =>
      rw [allSpace]
      cases hd : dropSpaceRune (c :: s) with
      | none => rfl
      | some t => exact ih t (dropSpaceRune_slash _ _ hd hs)

end strings

theorem isStringEmpty_slash (s : Str) (h : '/' ∈ s) : isStringEmpty s = false :=
  strings.allSpace_slash _ s h

namespace url

open encoding

theorem setPath_query (u : URL) (p : Str) (f : Bool) (q : Str) (b : URL)
    (h : URL.setPath u p = .ok b) :
    URL.setPath { u with ForceQuery := f, RawQuery := q } p =
      .ok { b with ForceQuery := f, RawQuery := q } := by
  unfold URL.setPath at h ⊢
  cases hu : unescape p encodePath with
  | error e => rw [hu] at h; cases h
  | ok path =>
    rw [hu] at h
    dsimp only at h ⊢
    by_cases hp : p = escape path encodePath
    · rw [if_pos hp] at h ⊢
      cases h
      rfl
    · rw [if_neg hp] at h ⊢
      cases h
      rfl

/-- The part of `parse` between the scheme and the query does not look at the query: with
another query it reads the same URL, with that query. -/
theorem parseRest_query (u : URL) (rest : Str) (f : Bool) (q : Str) (b : URL)
    (h : parseRest u rest = .ok b) :
    parseRest { u with ForceQuery := f, RawQuery := q } rest =
      .ok { b with ForceQuery := f, RawQuery := q } := by
  unfold parseRest at h ⊢
  dsimp only at h ⊢
  split_ifs at h ⊢ with h1 h2 h3 h4
  · cases h
    rfl
  · cases hp : parseAuthority (authorityOf rest) with
    | error e => rw [hp] at h; cases h
    | ok pr =>
      obtain ⟨user, host⟩ := pr
      rw [hp] at h
      dsimp only at h ⊢
      exact setPath_query _ _ f q b h
  · exact setPath_query _ _ f q b h
  · exact setPath_query _ _ f q b h

theorem rawQuery_of_queryPart (v : URL) (z : Str) (h : queryPart v = '?' :: z) :
    v.RawQuery = z := by
  unfold queryPart at h
  split at h
  · exact (List.cons.inj h).2
  · cases h

/-- `parse` on a base URL with a scheme and a query, followed by a text without control
characters: it succeeds, and the text goes behind the raw query. -/
theorem parse_behind_query (B X : Str) (b : URL)
    (hB : parse B = .ok b) (hS : b.Scheme ≠ []) (hq : '?' ∈ B)
    (hX : ∀ c ∈ X, isCTL c = false) :
    ∃ v q0, parse (B ++ X) = .ok v ∧ URL.stringBody v = URL.stringBody b ∧
      queryPart b = '?' :: q0 ∧ queryPart v = '?' :: (q0 ++ X) ∧
      v.Fragment = [] ∧ v.RawFragment = [] := by
  obtain ⟨hctlB, _, _, hbF, hbR⟩ := parse_ok B b hB
  unfold parse at hB
  rw [hctlB, if_neg (by decide)] at hB
  by_cases hstar : B = ['*']
  · rw [if_pos hstar] at hB
    simp only [Except.ok.injEq] at hB
    rw [← hB] at hS
    exact absurd rfl hS
  rw [if_neg hstar] at hB
  cases hg : getScheme B with
  | error e => rw [hg] at hB; cases hB
  | ok pr =>
    obtain ⟨scheme, rest0⟩ := pr
    rw [hg] at hB
    simp only at hB
    obtain ⟨hbS, hbq, hbf, _, _, _⟩ := parseRest_ok _ _ _ hB rfl
    simp only at hbS hbq hbf
    have hsch : scheme ≠ [] := by
      intro h
      rw [h] at hbS
      exact hS hbS
    obtain ⟨hBeq, hschars⟩ : B = scheme ++ ':' :: rest0 ∧
        ∀ c ∈ scheme, c ≠ '?' ∧ c ≠ '#' ∧ c ≠ '/' ∧ c ≠ ':' := by
      rcases getScheme_split _ _ _ hg with ⟨h, _⟩ | ⟨_, h, h2⟩
      · exact absurd h hsch
      · exact ⟨h, h2⟩
    have hqr : '?' ∈ rest0 := by
      rw [hBeq] at hq
      rcases List.mem_append.mp hq with hm | hm
      · exact absurd rfl (hschars _ hm).1
      · rcases List.mem_cons.mp hm with hm | hm
        · exact absurd hm (by decide)
        · exact hm
    have hY := strings.Cut_fst_notin '?' rest0
    obtain ⟨q0, hr0⟩ : ∃ q0, rest0 = (strings.Cut rest0 '?').1 ++ '?' :: q0 := by
      rcases strings.Cut_split '?' rest0 with ⟨_, h⟩ | ⟨_, h, _⟩
      · exact ⟨_, h⟩
      · exfalso
        apply hY
        rw [← h]
        exact hqr
    generalize (strings.Cut rest0 '?').1 = Y0 at hY hr0
    subst hr0
    obtain ⟨hb0, hp0⟩ := query_split Y0 ('?' :: q0) hY (Or.inr ⟨q0, rfl⟩)
    obtain ⟨hb1, hp1⟩ := query_split Y0 ('?' :: (q0 ++ X)) hY (Or.inr ⟨_, rfl⟩)
    rw [hb0] at hB
    have hw := parseRest_query _ _ (forceQuery (Y0 ++ '?' :: (q0 ++ X)))
      (rawQueryOf (Y0 ++ '?' :: (q0 ++ X))) b hB
    have hctl2 : stringContainsCTLByte (scheme ++ ':' :: (Y0 ++ '?' :: q0) ++ X) = false := by
      apply noCTL_of_forall
      intro c hc
      rcases List.mem_append.mp hc with hc | hc
      · exact noCTL_mem _ (by rw [← hBeq]; exact hctlB) c hc
      · exact hX c hc
    have hstar2 : scheme ++ ':' :: (Y0 ++ '?' :: q0) ++ X ≠ ['*'] := by
      intro h
      have := congrArg List.length h
      cases scheme with
      | nil => exact hsch rfl
      | cons a t => simp at this
    have hg2 : getScheme (scheme ++ ':' :: (Y0 ++ '?' :: q0) ++ X) =
        .ok (scheme, Y0 ++ '?' :: (q0 ++ X)) := by
      have := getScheme_append B X scheme _ hg hsch
      rw [hBeq] at this
      simpa using this
    rw [hBeq]
    refine ⟨({ b with
        ForceQuery := forceQuery (Y0 ++ '?' :: (q0 ++ X)),
        RawQuery := rawQueryOf (Y0 ++ '?' :: (q0 ++ X)) } : URL), q0, ?_, ?_, ?_, ?_, ?_, ?_⟩
    · unfold parse
      rw [hctl2, if_neg (by decide), if_neg hstar2, hg2]
      dsimp only
      rw [hb1]
      exact hw
    · rfl
    · unfold queryPart
      rw [hbq, hbf]
      exact hp0
    · exact hp1
    · exact hbF
    · exact hbR

/-- `url.Parse` on an absolute base URL with a query and without fragment that it prints
back as written, followed by a text without control characters and `#` and by a fragment
part: it succeeds, the text goes behind the raw query, and what is printed before the query
is the base URL up to its query. -/
theorem Parse_behind_query (B X Fp : Str) (b : URL)
    (hB : Parse B = .ok b) (habs : URL.IsAbs b = true) (hprint : URL.String b = B)
    (hq : '?' ∈ B) (hf : '#' ∉ B)
    (hX : ∀ c ∈ X, isCTL c = false ∧ c ≠ '#')
    (hF : Fp = [] ∨ ∃ ef, Fp = '#' :: ef ∧ ef ≠ [] ∧
      validEncoded ef encodeFragment = true ∧ unescapeCheck encodeFragment ef = none) :
    ∃ w q0, Parse (B ++ X ++ Fp) = .ok w ∧ B = URL.stringBody w ++ '?' :: q0 ∧
      w.RawQuery = q0 ++ X ∧ fragmentPart w = Fp := by
  have hS : b.Scheme ≠ [] := by
    unfold URL.IsAbs at habs
    simpa using habs
  have hparse : parse B = .ok b := by
    unfold Parse at hB
    rw [strings.Cut_no_sep '#' B hf] at hB
    simp only at hB
    cases hp : parse B with
    | error e => rw [hp] at hB; cases hB
    | ok u =>
      rw [hp] at hB
      simpa using hB
  obtain ⟨_, _, _, hbF, _⟩ := parse_ok B b hparse
  obtain ⟨v, q0, hv, hvb, hbq, hvq, hvF, _⟩ :=
    parse_behind_query B X b hparse hS hq (fun c hc => (hX c hc).1)
  have hBs : B = URL.stringBody b ++ '?' :: q0 := by
    have h1 := String_parts b
    rw [hprint, hbq] at h1
    have hfp : fragmentPart b = [] := by
      unfold fragmentPart
      rw [if_neg (fun h => h hbF)]
    rw [hfp, List.append_nil] at h1
    exact h1
  have hsharp : '#' ∉ B ++ X := by
    intro hm
    rcases List.mem_append.mp hm with hm | hm
    · exact hf hm
    · exact (hX _ hm).2 rfl
  obtain ⟨w, hw, hwb, hwq, hwf, _⟩ := Parse_joined _ Fp v hsharp hv hvF hF
  refine ⟨w, q0, hw, ?_, ?_, hwf⟩
  · rw [hwb, hvb]
    exact hBs
  · exact rawQuery_of_queryPart w _ (hwq.trans hvq)

end url


/-- What `parseRequestURL` leaves for a template without scheme behind an absolute base URL
without fragment that `url.Parse` prints back as written and that has a host or does not
end with `/`: there is no error, and the URL is the base URL, the path part `P` of the
printed template (with its leading `/`), a query part `Qx` (the query part of the template
when the request has no query parameter) and the fragment part of the template. -/
theorem parseRequestURL_behind (c : cliCore) (r : request) (b t : url.URL)
    (hB : url.Parse c.hostUrl = .ok b) (habs : url.URL.IsAbs b = true)
    (hprint : url.URL.String b = c.hostUrl) (hf : '#' ∉ c.hostUrl)
    (hend : c.hostUrl.getLast? ≠ some '/' ∨ b.Host ≠ [])
    (hT : url.Parse (withPathParams r).url = .ok t) (hrel : url.URL.IsAbs t = false)
    (hne : url.URL.String t ≠ [])
    (h2 : strings.HasPrefix (url.URL.String t) (go "//") = false) :
    ∃ P Qx, withSlash (url.URL.String t) = P ++ url.queryPart t ++ url.fragmentPart t ∧
      P.head? = some '/' ∧ strings.HasPrefix P (go "//") = false ∧
      Qx.head? ≠ some '/' ∧ (r.queryParam = [] → Qx = url.queryPart t) ∧
      (parseRequestURL c r).2 = none ∧
      (parseRequestURL c r).1.url = c.hostUrl ++ P ++ Qx ++ url.fragmentPart t := by
  have hQ0 : ∀ w : url.URL, addQuery w (buildQuery []) = w := by
    intro w
    rw [addQuery_eq]
    rfl
  by_cases hq : '?' ∈ c.hostUrl
  · have hS : t.Scheme = [] := by
      unfold url.URL.IsAbs at hrel
      simpa using hrel
    obtain ⟨P, hsplit, hP1, hP2, hPv, hPc⟩ := url.withSlash_String _ t hT hS hne h2
    have hQ := url.queryPart_cases _ t hT
    have hF := url.fragmentPart_cases t
    have hX : ∀ x ∈ P ++ url.queryPart t, isCTL x = false ∧ x ≠ '#' := by
      intro x hx
      rcases List.mem_append.mp hx with hx | hx
      · exact ⟨(url.validEncoded_mem P _ hPv x hx).1, (url.validEncoded_mem P _ hPv x hx).2.1⟩
      · rcases hQ with hQ | ⟨rq, hQ, hrq⟩
        · rw [hQ] at hx
          cases hx
        · rw [hQ] at hx
          rcases List.mem_cons.mp hx with hx | hx
          · subst hx
            exact ⟨by decide, by decide⟩
          · exact hrq x hx
    obtain ⟨w, q0, hw, hBs, hwq, hwf⟩ := url.Parse_behind_query c.hostUrl
      (P ++ url.queryPart t) (url.fragmentPart t) b hB habs hprint hq hf hX hF
    have hjoin : c.hostUrl ++ withSlash (url.URL.String t) =
        c.hostUrl ++ (P ++ url.queryPart t) ++ url.fragmentPart t := by
      rw [hsplit]
      simp
    rw [← hjoin] at hw
    obtain ⟨he, hu⟩ := parseRequestURL_relative c r t w hT hS hw
    have hslash : '/' ∈ w.RawQuery := by
      rw [hwq]
      cases P with
      | nil => simp at hP1
      | cons x P2 =>
        have hx : x = '/' := by simpa using hP1
        subst hx
        simp
    have hraw : (addQuery w (buildQuery r.queryParam)).RawQuery =
        w.RawQuery ++ (if buildQuery r.queryParam = [] then []
          else '&' :: url.Values.Encode (buildQuery r.queryParam)) := by
      rw [addQuery_eq]
      dsimp only
      by_cases hQe : buildQuery r.queryParam = []
      · rw [if_pos hQe, if_pos hQe, List.append_nil]
      · rw [if_neg hQe, if_neg hQe, isStringEmpty_slash _ hslash]
        simp [go]
    have hqp : url.queryPart (addQuery w (buildQuery r.queryParam)) =
        '?' :: (addQuery w (buildQuery r.queryParam)).RawQuery := by
      unfold url.queryPart
      rw [if_pos]
      right
      rw [hraw]
      intro hnil
      have := (List.append_eq_nil.mp hnil).1
      rw [this] at hslash
      cases hslash
    refine ⟨P, url.queryPart t ++ (if buildQuery r.queryParam = [] then []
      else '&' :: url.Values.Encode (buildQuery r.queryParam)), hsplit, hP1, hP2, ?_, ?_, he,
      ?_⟩
    · rcases hQ with hQ | ⟨rq, hQ, _⟩
      · rw [hQ, List.nil_append]
        split <;> simp
      · rw [hQ]
        simp
    · intro hq0
      rw [hq0]
      have : buildQuery ([] : url.Values) = [] := rfl
      rw [if_pos this, List.append_nil]
    · rw [hu, hqp, hraw, hwq, hwf]
      conv_rhs => rw [hBs]
      simp
  · obtain ⟨P, w, hsplit, hP1, hP2, _, _, _, hwq, _, he, hu⟩ :=
      parseRequestURL_behind_base c r b t hB habs hprint hq hf hend hT hrel hne h2
    refine ⟨P, url.queryPart (addQuery w (buildQuery r.queryParam)), hsplit, hP1, hP2,
      url.queryPart_head _, ?_, he, hu⟩
    intro hq0
    rw [hq0, hQ0, hwq]

/-- C6, amended: for an absolute base URL `B` without fragment that `url.Parse` prints back
as written and that does not end with `/`, and a template without scheme that parses and
whose printed form is not empty and does not begin with `//`, `parseRequestURL` returns no
error and leaves a URL that is `B`, one `/` and a rest that does not begin with `/`; when
the request has no query parameter, the URL is `B` followed by the printed template, with a
`/` put before it when it has none. -/
theorem C6_relative_url_behind_base (c : cliCore) (r : request) (b t : url.URL)
    (hB : url.Parse c.hostUrl = .ok b) (habs : url.URL.IsAbs b = true)
    (hprint : url.URL.String b = c.hostUrl)
    (hf : '#' ∉ c.hostUrl)
    (hend : c.hostUrl.getLast? ≠ some '/')
    (hT : url.Parse (withPathParams r).url = .ok t) (hrel : url.URL.IsAbs t = false)
    (hne : url.URL.String t ≠ [])
    (h2 : strings.HasPrefix (url.URL.String t) (go "//") = false) :
    (parseRequestURL c r).2 = none ∧
      (∃ w, (parseRequestURL c r).1.url = c.hostUrl ++ '/' :: w ∧ w.head? ≠ some '/') ∧
      (r.queryParam = [] →
        (parseRequestURL c r).1.url = c.hostUrl ++ withSlash (url.URL.String t)) := by
  obtain ⟨P, Qx, hsplit, hP1, hP2, hQx, hQ0, he, hu⟩ :=
    parseRequestURL_behind c r b t hB habs hprint hf (Or.inl hend) hT hrel hne h2
  refine ⟨he, ?_, ?_⟩
  · cases hPw : P with
    | nil => rw [hPw] at hP1; simp at hP1
    | cons x w2 =>
      have hx : x = '/' := by
        rw [hPw] at hP1
        simpa using hP1
      subst hx
      refine ⟨w2 ++ Qx ++ url.fragmentPart t, ?_, ?_⟩
      · rw [hu, hPw]
        simp
      · exact head_parts P _ _ w2 hPw hP2 hQx (url.fragmentPart_head _)
  · intro hq0
    rw [hu, hQ0 hq0, hsplit]
    simp

/-- The amended C6 at the base URL `http://127.0.0.1:8899` and the template `life/client1`,
which gets its leading `/`, and at base URLs with a path, with a digit in the scheme, with
user information, with an IPv6 host and with a query. -/
theorem C6_relative_url_behind_base_witness :
    (parseRequestURL localClient.tocliCore { url := go "life/client1" }).2 = none ∧
    (parseRequestURL localClient.tocliCore { url := go "life/client1" }).1.url =
      go "http://127.0.0.1:8899/life/client1" ∧
    (parseRequestURL (baseClient "http://example.com/api").tocliCore
        { url := go "/life/client1" }).1.url = go "http://example.com/api/life/client1" ∧
    (parseRequestURL (baseClient "h2c://127.0.0.1:8899").tocliCore
        { url := go "life/client1" }).1.url = go "h2c://127.0.0.1:8899/life/client1" ∧
    (parseRequestURL (baseClient "http://user:pw@example.com").tocliCore
        { url := go "/life/client1?a=b#c" }).1.url =
      go "http://user:pw@example.com/life/client1?a=b#c" ∧
    (parseRequestURL (baseClient "http://[::1]:8899").tocliCore
        { url := go "/life/client1" }).1.url = go "http://[::1]:8899/life/client1" ∧
    (parseRequestURL (baseClient "http://127.0.0.1:8899?x=1").tocliCore
        { url := go "life/client1" }).1.url = go "http://127.0.0.1:8899?x=1/life/client1" :=
  have h := C6_relative_url_behind_base localClient.tocliCore { url := go "life/client1" }
    { Scheme := go "http", Host := go "127.0.0.1:8899" } { Path := go "life/client1" }
    rfl rfl (by decide) (by decide) (by decide) rfl rfl (by decide) (by decide)
  have h1 := C6_relative_url_behind_base (baseClient "http://example.com/api").tocliCore
    { url := go "/life/client1" }
    { Scheme := go "http", Host := go "example.com", Path := go "/api" }
    { Path := go "/life/client1" }
    rfl rfl (by decide) (by decide) (by decide) rfl rfl (by decide) (by decide)
  have h2 := C6_relative_url_behind_base (baseClient "h2c://127.0.0.1:8899").tocliCore
    { url := go "life/client1" }
    { Scheme := go "h2c", Host := go "127.0.0.1:8899" } { Path := go "life/client1" }
    rfl rfl (by decide) (by decide) (by decide) rfl rfl (by decide) (by decide)
  have h3 := C6_relative_url_behind_base
    (baseClient "http://user:pw@example.com").tocliCore { url := go "/life/client1?a=b#c" }
    { Scheme := go "http", User := some ⟨go "user", go "pw", true⟩, Host := go "example.com" }
    { Path := go "/life/client1", RawQuery := go "a=b", Fragment := go "c" }
    rfl rfl (by decide) (by decide) (by decide) rfl rfl (by decide) (by decide)
  have h4 := C6_relative_url_behind_base (baseClient "http://[::1]:8899").tocliCore
    { url := go "/life/client1" }
    { Scheme := go "http", Host := go "[::1]:8899" } { Path := go "/life/client1" }
    rfl rfl (by decide) (by decide) (by decide) rfl rfl (by decide) (by decide)
  have h5 := C6_relative_url_behind_base (baseClient "http://127.0.0.1:8899?x=1").tocliCore
    { url := go "life/client1" }
    { Scheme := go "http", Host := go "127.0.0.1:8899", RawQuery := go "x=1" }
    { Path := go "life/client1" }
    rfl rfl (by decide) (by decide) (by decide) rfl rfl (by decide) (by decide)
  ⟨h.1, (h.2.2 rfl).trans (by decide), (h1.2.2 rfl).trans (by decide),
    (h2.2.2 rfl).trans (by decide), (h3.2.2 rfl).trans (by decide),
    (h4.2.2 rfl).trans (by decide), (h5.2.2 rfl).trans (by decide)⟩

namespace strings

/-- A text that begins with the byte `c` and occurs behind a text without `c` occurs in
what follows that text. -/
theorem occurs_after (c : Char) (k A Z : Str) (hA : c ∉ A) (h : occurs (c :: k) (A ++ Z)) :
    occurs (c :: k) Z := by
  obtain ⟨pre, suf, h⟩ := h
  rw [List.append_assoc] at h
  rcases List.append_eq_append_iff.mp h with ⟨a, h1, h2⟩ | ⟨a, h1, h2⟩
  · exact ⟨a, suf, by rw [h2, List.append_assoc]⟩
  · cases a with
    | nil =>
      rw [List.nil_append] at h2
      exact ⟨[], suf, by rw [← h2]; rfl⟩
    | cons x a =>
      exfalso
      apply hA
      simp only [List.cons_append, List.cons.injEq] at h2
      rw [h1, h2.1]
      simp

end strings

namespace url

theorem set_values {K : Type} [DecidableEq K] (m : List (K × List Str)) (k : K)
    (v : List Str) (hm : ∀ e ∈ m, e.2 ≠ []) (hv : v ≠ []) :
    ∀ e ∈ gomap.set m k v, e.2 ≠ [] := by
  intro e he
  unfold gomap.set at he
  split at he
  · rw [List.mem_map] at he
    obtain ⟨a, ha, hae⟩ := he
    split at hae
    · rw [← hae]
      exact hv
    · rw [← hae]
      exact hm a ha
  · rcases List.mem_append.mp he with he | he
    · exact hm e he
    · simp only [List.mem_singleton] at he
      rw [he]
      exact hv

theorem addLoop_values (k : Str) : ∀ (vs : List Str) (q0 : Values),
    (∀ e ∈ q0, e.2 ≠ []) → ∀ e ∈ vs.foldl (fun q iv => Values.Add q k iv) q0, e.2 ≠ [] := by
  intro vs
  induction vs with
  | nil => intro q0 h; exact h
  | cons v vs ih =>
    intro q0 h
    rw [List.foldl_cons]
    apply ih
    unfold Values.Add
    exact set_values q0 k _ h (by simp)

theorem buildLoop_values : ∀ (qp query : Values), (∀ e ∈ query, e.2 ≠ []) →
    ∀ e ∈ qp.foldl
      (fun query e => e.2.foldl (fun q iv => Values.Add q e.1 iv) (Values.Del query e.1))
      query, e.2 ≠ [] := by
  intro qp
  induction qp with
  | nil => intro query h; exact h
  | cons a qp ih =>
    intro query h
    rw [List.foldl_cons]
    apply ih
    apply addLoop_values
    intro e he
    unfold Values.Del gomap.del at he
    exact h e (List.mem_filter.mp he).1

/-- A non-empty `url.Values` in which every key has a value is encoded to a non-empty
text. -/
theorem Encode_ne_nil (Q : Values) (hQ : Q ≠ []) (hv : ∀ e ∈ Q, e.2 ≠ []) :
    Values.Encode Q ≠ [] := by
  unfold Values.Encode
  have hperm := List.perm_insertionSort (fun a b => strings.le a b = true) (gomap.keys Q)
  cases hks : List.insertionSort (fun a b => strings.le a b = true) (gomap.keys Q) with
  | nil =>
    rw [hks] at hperm
    have hk := hperm.symm.eq_nil
    cases Q with
    | nil => exact absurd rfl hQ
    | cons e Q => simp [gomap.keys] at hk
  | cons k ks =>
    have hk : k ∈ gomap.keys Q := by
      apply hperm.mem_iff.mp
      rw [hks]
      exact List.mem_cons_self _ _
    obtain ⟨vs, hvs⟩ := Option.isSome_iff_exists.mp ((gomap.get_isSome_iff Q k).mpr hk)
    have hne := hv _ (get_some_mem Q k vs hvs)
    cases vs with
    | nil => exact absurd rfl hne
    | cons v vs =>
      have hfm : List.flatMap (k :: ks) (encodeKey Q) =
          (QueryEscape k ++ '=' :: QueryEscape v) ::
            (vs.map (fun iv => QueryEscape k ++ '=' :: QueryEscape iv) ++
              List.flatMap ks (encodeKey Q)) := by
        rw [List.flatMap_cons]
        unfold encodeKey
        rw [hvs]
        rfl
      rw [hfm]
      generalize vs.map (fun iv => QueryEscape k ++ '=' :: QueryEscape iv) ++
        List.flatMap ks (encodeKey Q) = rest
      cases rest with
      | nil => simp [List.intercalate]
      | cons y rest =>
        rw [intercalate_cons_cons]
        simp

end url

theorem buildQuery_Encode (qp : url.Values) :
    buildQuery qp = [] ∨ url.Values.Encode (buildQuery qp) ≠ [] := by
  by_cases h : buildQuery qp = []
  · exact Or.inl h
  · right
    apply url.Encode_ne_nil _ h
    unfold buildQuery
    exact url.buildLoop_values qp [] (fun e he => by cases he)

/-- A placeholder without `?` and `&` that the printed URL does not hold is not brought in
by a request query that is empty or encoded to a non-empty text. -/
theorem addQuery_no_placeholder (w : url.URL) (Q : url.Values) (k : Str)
    (hk : '?' ∉ k ∧ '&' ∉ k)
    (hQ : Q = [] ∨ url.Values.Encode Q ≠ [])
    (h : ¬ strings.occurs (':' :: k) (url.URL.String w)) :
    ¬ strings.occurs (':' :: k) (url.URL.String (addQuery w Q)) := by
  have hq : '?' ∉ ':' :: k := by
    simp only [List.mem_cons, not_or]
    exact ⟨by decide, hk.1⟩
  have ha : '&' ∉ ':' :: k := by
    simp only [List.mem_cons, not_or]
    exact ⟨by decide, hk.2⟩
  have hbody : ¬ strings.occurs (':' :: k) (url.URL.stringBody w) := by
    intro ho
    apply h
    rw [url.String_parts, List.append_assoc]
    exact strings.occurs_left _ _ _ ho
  have hnil : ¬ strings.occurs (':' :: k) [] := by
    rintro ⟨pre, suf, ho⟩
    have := congrArg List.length ho
    simp only [List.length_append, List.length_cons, List.length_nil] at this
    omega
  have hraw : ¬ strings.occurs (':' :: k) w.RawQuery := by
    intro ho
    apply h
    have hne : w.RawQuery ≠ [] := by
      intro hx
      rw [hx] at ho
      exact hnil ho
    rw [url.String_parts]
    unfold url.queryPart
    rw [if_pos (Or.inr hne)]
    have := strings.occurs_append _ _ (url.URL.stringBody w ++ ['?']) (url.fragmentPart w) ho
    simpa using this
  have hfrag : ¬ strings.occurs (':' :: k) (url.fragmentPart w) := by
    intro ho
    apply h
    rw [url.String_parts]
    exact strings.occurs_right _ _ _ ho
  have henc : ∀ Z, strings.occurs (':' :: k) (url.Values.Encode Q ++ Z) →
      strings.occurs (':' :: k) Z :=
    fun Z => strings.occurs_after ':' k _ Z (url.Encode_no_colon Q)
  by_cases hQe : Q = []
  · have : addQuery w Q = w := by
      rw [addQuery_eq, if_pos hQe]
    rw [this]
    exact h
  · have hE : url.Values.Encode Q ≠ [] := by
      rcases hQ with hQ | hQ
      · exact absurd hQ hQe
      · exact hQ
    intro ho
    rw [String_addQuery] at ho
    have hrw : (addQuery w Q).RawQuery =
        if isStringEmpty w.RawQuery = true then url.Values.Encode Q
        else w.RawQuery ++ '&' :: url.Values.Encode Q := by
      rw [addQuery_eq]
      dsimp only
      rw [if_neg hQe]
      split
      · rfl
      · simp [go]
    have hne : (addQuery w Q).RawQuery ≠ [] := by
      rw [hrw]
      split
      · exact hE
      · simp
    unfold url.queryPart at ho
    rw [if_pos (Or.inr hne), hrw] at ho
    simp only [List.append_assoc, List.cons_append] at ho
    rcases strings.occurs_split '?' _ hq _ _ ho with ho | ho
    · exact hbody ho
    · split at ho
      · exact hfrag (henc _ ho)
      · rw [List.append_assoc, List.cons_append] at ho
        rcases strings.occurs_split '&' _ ha _ _ ho with ho | ho
        · exact hraw ho
        · exact hfrag (henc _ ho)


/-- C4, amended: let `S` be the template with every placeholder `:k` of a key of the map
replaced, at its position, by the path-escaped value of `k`.  When no key holds `:`, `/`,
`?` or `&`, no value holds `:`, no key is a prefix of another key, every `:` of the
template is followed by a text that every key fits, `S` is a URL that `url.Parse` prints
back as written, and, for an `S` without scheme, the base URL holds no `:k` and the base
URL followed by `S` (with a `/` put before `S` when it is not empty and has none) is again
a URL that `url.Parse` prints back as written: then `parseRequestURL` returns no error; the
URL it leaves is that URL (`S` itself when it has a scheme), printed with the request query
added, which is the text `behindBase` itself when the request has no query parameter; the
URL left holds no `:k` for any key `k`; and for every placeholder `:k` of the template, `S`
is the substituted text before it, the path-escaped value of `k`, and the substituted text
behind it. -/
theorem C4_path_substitution (c : cliCore) (r : request) (t w : url.URL)
    (hk : ∀ e ∈ r.pathParams, ∀ x ∈ [':', '/', '?', '&'], x ∉ e.1)
    (hv : ∀ e ∈ r.pathParams, ':' ∉ e.2)
    (hpf : r.pathParams.Pairwise (fun a b => ¬ a.1 <+: b.1 ∧ ¬ b.1 <+: a.1))
    (hfit : colonsFit r.pathParams r.url = true)
    (hT : url.Parse (expandPlaceholders r.pathParams r.url) = .ok t)
    (hprint : url.URL.String t = expandPlaceholders r.pathParams r.url)
    (hrel : url.URL.IsAbs t = false →
      (∀ e ∈ r.pathParams, strings.Contains c.hostUrl (':' :: e.1) = false) ∧
      url.Parse (c.hostUrl ++ withSlash (expandPlaceholders r.pathParams r.url)) = .ok w ∧
      url.URL.String w = c.hostUrl ++ withSlash (expandPlaceholders r.pathParams r.url)) :
    (parseRequestURL c r).2 = none ∧
    (parseRequestURL c r).1.url =
      url.URL.String
        (addQuery (if url.URL.IsAbs t = true then t else w) (buildQuery r.queryParam)) ∧
    (r.queryParam = [] →
      (parseRequestURL c r).1.url =
        behindBase c.hostUrl t (expandPlaceholders r.pathParams r.url)) ∧
    (∀ e ∈ r.pathParams,
      strings.Contains (parseRequestURL c r).1.url (':' :: e.1) = false) ∧
    (∀ e ∈ r.pathParams, ∀ pre suf, r.url = pre ++ ':' :: e.1 ++ suf →
      expandPlaceholders r.pathParams r.url =
        expandPlaceholders r.pathParams pre ++ url.PathEscape e.2 ++
          expandPlaceholders r.pathParams suf) := by
  have hk1 : ∀ e ∈ r.pathParams, ':' ∉ e.1 := fun e he => hk e he ':' (by simp)
  have hmain := substPathParams_eq_expand r.pathParams r.url hk1 hv hfit
  have hurl : (withPathParams r).url = expandPlaceholders r.pathParams r.url := by
    rw [withPathParams_url, hmain]
    rfl
  have hT1 : url.Parse (withPathParams r).url = .ok t := by rw [hurl]; exact hT
  have hnoS : ∀ e ∈ r.pathParams,
      ¬ strings.occurs (':' :: e.1) (expandPlaceholders r.pathParams r.url) := by
    rintro e he ⟨pre, suf, h⟩
    exact expand_no_placeholder r.pathParams hk1 hv _ r.url (Nat.le_refl _) hfit e he pre suf h
  have hQ0 : ∀ v : url.URL, addQuery v (buildQuery []) = v := by
    intro v
    rw [addQuery_eq]
    rfl
  have key : url.URL.String (if url.URL.IsAbs t = true then t else w) =
        behindBase c.hostUrl t (expandPlaceholders r.pathParams r.url) ∧
      (parseRequestURL c r).2 = none ∧
      (parseRequestURL c r).1.url =
        url.URL.String
          (addQuery (if url.URL.IsAbs t = true then t else w) (buildQuery r.queryParam)) ∧
      ∀ e ∈ r.pathParams, ¬ strings.occurs (':' :: e.1)
        (url.URL.String (if url.URL.IsAbs t = true then t else w)) := by
    cases habs : url.URL.IsAbs t with
    | true =>
      rw [if_pos rfl]
      have hJ : behindBase c.hostUrl t (expandPlaceholders r.pathParams r.url) =
          expandPlaceholders r.pathParams r.url := by
        unfold behindBase
        rw [if_pos habs]
      obtain ⟨he, hu⟩ := parseRequestURL_absolute c r t hT1 habs
      refine ⟨by rw [hJ]; exact hprint, he, hu, ?_⟩
      intro e he2
      rw [hprint]
      exact hnoS e he2
    | false =>
      rw [if_neg (by decide)]
      obtain ⟨hbk, hw, hws⟩ := hrel habs
      have hJ : behindBase c.hostUrl t (expandPlaceholders r.pathParams r.url) =
          c.hostUrl ++ withSlash (expandPlaceholders r.pathParams r.url) := by
        unfold behindBase
        rw [if_neg (by rw [habs]; decide)]
      have hS : t.Scheme = [] := by
        unfold url.URL.IsAbs at habs
        simpa using habs
      obtain ⟨he, hu⟩ := parseRequestURL_relative c r t w hT1 hS (by rw [hprint]; exact hw)
      refine ⟨by rw [hJ]; exact hws, he, ?_, ?_⟩
      · rw [hu, String_addQuery]
      · intro e he2 ho
        rw [hws] at ho
        have hsl : '/' ∉ ':' :: e.1 := by
          simp only [List.mem_cons, not_or]
          exact ⟨by decide, hk e he2 '/' (by simp)⟩
        rcases occurs_behind _ _ _ hsl ho with ho | ho
        · have := (strings.Contains_iff_occurs c.hostUrl (':' :: e.1)).mpr ho
          rw [hbk e he2] at this
          cases this
        · exact hnoS e he2 ho
  obtain ⟨hws, he, hu, hno⟩ := key
  refine ⟨he, hu, ?_, ?_, ?_⟩
  · intro hq
    rw [hu, hq, hQ0, hws]
  · intro e he2
    cases hc : strings.Contains (parseRequestURL c r).1.url (':' :: e.1) with
    | false => rfl
    | true =>
      exfalso
      have ho := (strings.Contains_iff_occurs _ _).mp hc
      rw [hu] at ho
      exact addQuery_no_placeholder _ _ e.1
        ⟨hk e he2 '?' (by simp), hk e he2 '&' (by simp)⟩ (buildQuery_Encode _)
        (hno e he2) ho
  · intro e he pre suf hT2
    unfold expandPlaceholders
    rw [hT2]
    have hsplit := expand_split r.pathParams hk1 (e.1 ++ suf) _ pre (Nat.le_refl _)
    simp only [List.append_assoc, List.cons_append] at hsplit ⊢
    rw [hsplit]
    congr 1
    have hmatch : (fun (x : Str × Str) => x.1.isPrefixOf (e.1 ++ suf)) e = true :=
      List.isPrefixOf_iff_prefix.mpr (List.prefix_append _ _)
    cases hf : List.find? (fun x => x.1.isPrefixOf (e.1 ++ suf)) r.pathParams with
    | none =>
      rw [List.find?_eq_none] at hf
      exact absurd hmatch (hf e he)
    | some e1 =>
      have he1 : e1 ∈ r.pathParams := List.mem_of_find?_eq_some hf
      have hp1 : e1.1 <+: e.1 ++ suf := by
        have := List.find?_some hf
        exact List.isPrefixOf_iff_prefix.mp this
      have hee : e1 = e := by
        by_contra hne
        have hsym : Symmetric (fun (a b : Str × Str) => ¬ a.1 <+: b.1 ∧ ¬ b.1 <+: a.1) :=
          fun a b h => ⟨h.2, h.1⟩
        have := hpf.forall hsym he1 he hne
        rcases List.prefix_or_prefix_of_prefix hp1 (List.prefix_append e.1 suf) with h | h
        · exact this.1 h
        · exact this.2 h
      subst hee
      rw [expandGo_colon_some _ _ e1 hf]
      simp

/-- The amended C4 at the base URL `http://127.0.0.1:8899` and the template
`/users/:id/books/:bid` with `id = a/b` and `bid = 42`, without and with a query
parameter, and at a template with a scheme. -/
theorem C4_path_substitution_witness :
    (parseRequestURL localClient.tocliCore
        { url := go "/users/:id/books/:bid",
          pathParams := [(go "id", go "a/b"), (go "bid", go "42")] }).2 = none ∧
    (parseRequestURL localClient.tocliCore
        { url := go "/users/:id/books/:bid",
          pathParams := [(go "id", go "a/b"), (go "bid", go "42")] }).1.url =
      go "http://127.0.0.1:8899/users/a%2Fb/books/42" ∧
    (parseRequestURL localClient.tocliCore
        { url := go "/users/:id/books/:bid",
          pathParams := [(go "id", go "a/b"), (go "bid", go "42")],
          queryParam := [(go "q", [go "1"])] }).1.url =
      go "http://127.0.0.1:8899/users/a%2Fb/books/42?q=1" ∧
    strings.Contains (parseRequestURL localClient.tocliCore
        { url := go "/users/:id/books/:bid",
          pathParams := [(go "id", go "a/b"), (go "bid", go "42")],
          queryParam := [(go "q", [go "1"])] }).1.url (go ":bid") = false ∧
    (parseRequestURL localClient.tocliCore
        { url := go "https://example.com/users/:id",
          pathParams := [(go "id", go "a/b")] }).1.url =
      go "https://example.com/users/a%2Fb" ∧
    expandPlaceholders [(go "id", go "a/b"), (go "bid", go "42")] (go "/users/:id/books/:bid") =
      expandPlaceholders [(go "id", go "a/b"), (go "bid", go "42")] (go "/users/") ++
        url.PathEscape (go "a/b") ++
        expandPlaceholders [(go "id", go "a/b"), (go "bid", go "42")] (go "/books/:bid") :=
  have h := C4_path_substitution localClient.tocliCore
    { url := go "/users/:id/books/:bid", pathParams := [(go "id", go "a/b"), (go "bid", go "42")] }
    { Path := go "/users/a/b/books/42", RawPath := go "/users/a%2Fb/books/42" }
    { Scheme := go "http", Host := go "127.0.0.1:8899", Path := go "/users/a/b/books/42",
      RawPath := go "/users/a%2Fb/books/42" }
    (by decide) (by decide) (by decide) (by decide) rfl (by decide)
    (fun _ => ⟨by decide, rfl, by decide⟩)
  have hq := C4_path_substitution localClient.tocliCore
    { url := go "/users/:id/books/:bid", pathParams := [(go "id", go "a/b"), (go "bid", go "42")],
      queryParam := [(go "q", [go "1"])] }
    { Path := go "/users/a/b/books/42", RawPath := go "/users/a%2Fb/books/42" }
    { Scheme := go "http", Host := go "127.0.0.1:8899", Path := go "/users/a/b/books/42",
      RawPath := go "/users/a%2Fb/books/42" }
    (by decide) (by decide) (by decide) (by decide) rfl (by decide)
    (fun _ => ⟨by decide, rfl, by decide⟩)
  have ha := C4_path_substitution localClient.tocliCore
    { url := go "https://example.com/users/:id", pathParams := [(go "id", go "a/b")] }
    { Scheme := go "https", Host := go "example.com", Path := go "/users/a/b",
      RawPath := go "/users/a%2Fb" }
    {}
    (by decide) (by decide) (by decide) (by decide) rfl (by decide)
    (fun h => absurd h (by decide))
  ⟨h.1, (h.2.2.1 rfl).trans (by decide), hq.2.1.trans (by decide),
    hq.2.2.2.1 (go "bid", go "42") (by decide), (ha.2.2.1 rfl).trans (by decide),
    h.2.2.2.2 (go "id", go "a/b") (by decide) _ _ rfl⟩

/-- C4 fails when a value holds a `:` (the template `/:id` with `id = x:id` resolves to
`/x:id`, which holds `:id`), when a key is a prefix of another key (the template `/:idx`
with `id = 1` visited before `idx = 2` resolves to `/1x`, not to `/2`), when a `:` of the
template is followed by the beginning of a key (the template `/:a:ab` with `ab = b`
resolves to `/:ab`), when a key holds `:` (the template `/:a:b` with `b = w` visited before
`a:b = v` resolves to `/:aw`, without `v`), when the substituted template, alone or behind
the base URL, is not printed back as written (the template `/a b/:id` with `id = a/b`
resolves to `/a%20b/a/b`, and so does the template `/:id` behind a base URL with the path
`/a b`: the URL does not hold `a%2Fb`), when the base URL holds `:k` (the key `88` behind
`http://127.0.0.1:8899`), and when a key holds `/`, `?` or `&` and so reaches over the end
of the base URL or into the request query. -/
theorem C4_placeholder_counterexample :
    ((parseRequestURL plainClient.tocliCore
        { url := go "/:id", pathParams := [(go "id", go "x:id")] }).2 = none ∧
      (parseRequestURL plainClient.tocliCore
        { url := go "/:id", pathParams := [(go "id", go "x:id")] }).1.url = go "/x:id" ∧
      strings.Contains (parseRequestURL plainClient.tocliCore
        { url := go "/:id", pathParams := [(go "id", go "x:id")] }).1.url (go ":id") = true) ∧
    ((parseRequestURL plainClient.tocliCore
        { url := go "/:idx", pathParams := [(go "id", go "1"), (go "idx", go "2")] }).1.url =
      go "/1x") ∧
    ((parseRequestURL plainClient.tocliCore
        { url := go "/:a:ab", pathParams := [(go "ab", go "b")] }).1.url = go "/:ab" ∧
      strings.Contains (parseRequestURL plainClient.tocliCore
        { url := go "/:a:ab", pathParams := [(go "ab", go "b")] }).1.url (go ":ab") = true) ∧
    ((parseRequestURL plainClient.tocliCore
        { url := go "/:a:b", pathParams := [(go "b", go "w"), (go "a:b", go "v")] }).1.url =
        go "/:aw" ∧
      strings.Contains (go "/:a:b") (go ":a:b") = true ∧
      strings.Contains (parseRequestURL plainClient.tocliCore
        { url := go "/:a:b", pathParams := [(go "b", go "w"), (go "a:b", go "v")] }).1.url
        (url.PathEscape (go "v")) = false) ∧
    ((parseRequestURL plainClient.tocliCore
        { url := go "/a b/:id", pathParams := [(go "id", go "a/b")] }).1.url =
        go "/a%20b/a/b" ∧
      url.PathEscape (go "a/b") = go "a%2Fb" ∧
      strings.Contains (parseRequestURL plainClient.tocliCore
        { url := go "/a b/:id", pathParams := [(go "id", go "a/b")] }).1.url
        (url.PathEscape (go "a/b")) = false) ∧
    ((parseRequestURL (baseClient "http://127.0.0.1:8899/a b").tocliCore
        { url := go "/:id", pathParams := [(go "id", go "a/b")] }).1.url =
        go "http://127.0.0.1:8899/a%20b/a/b" ∧
      strings.Contains (parseRequestURL (baseClient "http://127.0.0.1:8899/a b").tocliCore
        { url := go "/:id", pathParams := [(go "id", go "a/b")] }).1.url
        (url.PathEscape (go "a/b")) = false) ∧
    ((parseRequestURL localClient.tocliCore
        { url := go "/x/:88", pathParams := [(go "88", go "v")] }).1.url =
        go "http://127.0.0.1:8899/x/v" ∧
      strings.Contains (parseRequestURL localClient.tocliCore
        { url := go "/x/:88", pathParams := [(go "88", go "v")] }).1.url (go ":88") = true) ∧
    ((parseRequestURL localClient.tocliCore
        { url := go "/x", pathParams := [(go "8899/x", go "v")] }).1.url =
        go "http://127.0.0.1:8899/x" ∧
      strings.Contains (parseRequestURL localClient.tocliCore
        { url := go "/x", pathParams := [(go "8899/x", go "v")] }).1.url (go ":8899/x") = true) ∧
    ((parseRequestURL plainClient.tocliCore
        { url := go "/a:x", pathParams := [(go "x?q=1", go "v")],
          queryParam := [(go "q", [go "1"])] }).1.url = go "/a:x?q=1" ∧
      strings.Contains (parseRequestURL plainClient.tocliCore
        { url := go "/a:x", pathParams := [(go "x?q=1", go "v")],
          queryParam := [(go "q", [go "1"])] }).1.url (go ":x?q=1") = true) ∧
    ((parseRequestURL plainClient.tocliCore
        { url := go "/p?t=a:b", pathParams := [(go "b&q=1", go "v")],
          queryParam := [(go "q", [go "1"])] }).1.url = go "/p?t=a:b&q=1" ∧
      strings.Contains (parseRequestURL plainClient.tocliCore
        { url := go "/p?t=a:b", pathParams := [(go "b&q=1", go "v")],
          queryParam := [(go "q", [go "1"])] }).1.url (go ":b&q=1") = true) := by
  decide

end hertz
